import Mathlib

/-!
# Key-value store with three backends: hash table, red-black tree, B+ tree

Shallow embedding of `src/main/common/person.h`, `src/main/common/async_pool.h`,
`src/main/hashtable/hash_table.cc`, `src/main/rb-tree/self_balancing_binary_search_tree.cc`
and `src/main/bp-tree/b_plus_tree.cc`.

Conventions of the embedding.

* Keys (`std::string`, compared with `<`, `>` and `==`) are an arbitrary linearly ordered
  type `K`; every definition only uses the order.  Record fields are `String`s.
* A public operation returns `Option`: `none` stands for a run of the C++ code that does not
  return normally (an exception of `vector::at`, a division by zero, a null or
  out-of-range access, a loop that never ends).
* The time-to-live bookkeeping (`delay_deletions_` / `deletion_queue_` and the `AsyncPool`)
  is a layer of its own (`Store` and the namespaces `Timed`, further down): the operations
  of the first part are the data part of the public methods, and an expiry is one more call
  of `Delete`.  Where a method reads `Ttl(key)` only to pass it on (`Rename`), the value
  read is a parameter of the data part.
* Pointers into a tree are positions: the subtree at the node together with the chain of its
  ancestors (`parent` links) up to the root.  `node == root_` is "the chain is empty".
-/

set_option linter.unusedSectionVars false

namespace s21

/-! ## `person.h` -/

/-- The record `struct Person`: five string fields. -/
structure Person where
  last_name : String
  first_name : String
  birthday : String
  city : String
  coins : String
deriving DecidableEq, Repr

namespace Person

/-- The value-initialised record `V{}`: every field is the empty string. -/
def empty : Person := ⟨"", "", "", "", ""⟩

/-- The member `operator==`: field by field, equal or the right-hand field is "-". -/
def eq (self other : Person) : Bool :=
  (self.city == other.city || other.city == "-") &&
  (self.last_name == other.last_name || other.last_name == "-") &&
  (self.first_name == other.first_name || other.first_name == "-") &&
  (self.birthday == other.birthday || other.birthday == "-") &&
  (self.coins == other.coins || other.coins == "-")

/-- The member `operator=` (copy assignment): a field of `other` that is "-" leaves the
field of `self` as it is. The result is the new content of `self`. -/
def assign (self other : Person) : Person where
  city := if other.city == "-" then self.city else other.city
  last_name := if other.last_name == "-" then self.last_name else other.last_name
  first_name := if other.first_name == "-" then self.first_name else other.first_name
  birthday := if other.birthday == "-" then self.birthday else other.birthday
  coins := if other.coins == "-" then self.coins else other.coins

/-- The library `std::swap(a, b)` at type `Person`: `Person tmp(a); a = b; b = tmp;` with the
copy constructor (field-wise copy) and the user-written `operator=` above (the class declares
no move operations, so the copy assignment is the one selected). Returns the new `(a, b)`. -/
def swap (a b : Person) : Person × Person :=
  let tmp := a
  let a1 := a.assign b
  let b1 := b.assign tmp
  (a1, b1)

end Person

/-! ## `hash_table.cc` -/

namespace HashTable

/-- The bucket entry `HashTable::Node`. -/
structure Node (K : Type) where
  key : K
  value : Person
  lifetime : Int
deriving Repr

/-- The members `capacity_` and `data_` of `HashTable`. -/
structure Table (K : Type) where
  capacity : Nat
  data : List (List (Node K))
deriving Repr

section
variable {K : Type} [LinearOrder K]

/-- The constructor `HashTable(capacity)`: `capacity` empty buckets. -/
def init (capacity : Nat) : Table K := ⟨capacity, List.replicate capacity []⟩

/-- `CalcIndex`: `CalcHashCode(key) % capacity_`. `CalcHashCode` is computed in floating
point in the source; it is the parameter `hash`. The remainder by zero does not return. -/
def CalcIndex (hash : K → Nat) (t : Table K) (key : K) : Option Nat :=
  if t.capacity = 0 then none else some (hash key % t.capacity)

/-- The expression `data_.at(CalcIndex(key))`. -/
def bucket (hash : K → Nat) (t : Table K) (key : K) : Option (List (Node K)) :=
  (CalcIndex hash t key).bind fun i => t.data[i]?

/-- `HashTable::Exists`. -/
def Exists (hash : K → Nat) (t : Table K) (key : K) : Option Bool :=
  (bucket hash t key).map fun b => b.any fun node => node.key == key

/-- `HashTable::Get`. -/
def Get (hash : K → Nat) (t : Table K) (key : K) : Option Person :=
  (bucket hash t key).map fun b =>
    match b.find? fun node => node.key == key with
    | some node => node.value
    | none => Person.empty

/-- `HashTable::Set` (data part): refuse a present key, otherwise `push_back` on the bucket. -/
def Set (hash : K → Nat) (t : Table K) (key : K) (value : Person) (lifetime : Int) :
    Option (Bool × Table K) :=
  (Exists hash t key).bind fun e =>
    if e then some (false, t)
    else (CalcIndex hash t key).bind fun i =>
      (t.data[i]?).map fun b =>
        (true, { t with data := t.data.set i (b ++ [⟨key, value, lifetime⟩]) })

/-- `HashTable::Delete` (data part): at the first entry of the bucket with the key,
`list::remove` erases every entry of the bucket that compares equal (same key). -/
def Delete (hash : K → Nat) (t : Table K) (key : K) : Option (Bool × Table K) :=
  (CalcIndex hash t key).bind fun index =>
    (t.data[index]?).map fun b =>
      if b.any fun node => node.key == key then
        (true, { t with data := t.data.set index (b.filter fun node => !(node.key == key)) })
      else (false, t)

/-- The loop of `HashTable::Update` on one bucket: the first entry with the key is assigned. -/
def updateBucket (key : K) (value : Person) : List (Node K) → List (Node K)
  | [] => []
  | node :: rest =>
    if node.key == key then { node with value := node.value.assign value } :: rest
    else node :: updateBucket key value rest

/-- `HashTable::Update`. -/
def Update (hash : K → Nat) (t : Table K) (key : K) (value : Person) :
    Option (Bool × Table K) :=
  (CalcIndex hash t key).bind fun index =>
    (t.data[index]?).map fun b =>
      if b.any fun node => node.key == key then
        (true, { t with data := t.data.set index (updateBucket key value b) })
      else (false, t)

/-- `HashTable::Keys`. -/
def Keys (t : Table K) : List K := t.data.flatten.map fun node => node.key

/-- `HashTable::ShowAll`. -/
def ShowAll (t : Table K) : List Person := t.data.flatten.map fun node => node.value

/-- `HashTable::Find`. -/
def Find (t : Table K) (value : Person) : List K :=
  (t.data.flatten.filter fun node => node.value.eq value).map fun node => node.key

/-- `HashTable::Rename` (data part). `ttl` is the value `Ttl(node.key)` handed to `Set`. -/
def Rename (hash : K → Nat) (t : Table K) (kFrom kTo : K) (ttl : Int) :
    Option (Bool × Table K) :=
  (Exists hash t kTo).bind fun eTo =>
    (if eTo then (Exists hash t kFrom).map fun eFrom => eFrom && kFrom == kTo
      else some false).bind fun same =>
    if same then some (true, t)
    else (Exists hash t kTo).bind fun eTo2 =>
      if eTo2 then some (false, t)
      else (bucket hash t kFrom).bind fun b =>
        match b.find? fun node => node.key == kFrom with
        | some node =>
          (Set hash t kTo node.value ttl).bind fun r => Delete hash r.2 kFrom
        | none => some (false, t)

end

end HashTable

/-! ## `self_balancing_binary_search_tree.cc` -/

namespace RBTree

/-- The colour `enum class NodeColor`. -/
inductive NodeColor where
  | kRed
  | kBlack
deriving DecidableEq, Repr

/-- What a `NodePtr` owns: `nil` is `nullptr`, `node` is a `Node` with its colour, its `left`
subtree, its `key` and `value`, and its `right` subtree. -/
inductive Tree (K : Type) where
  | nil : Tree K
  | node (color : NodeColor) (left : Tree K) (key : K) (value : Person) (right : Tree K) : Tree K
deriving Repr

/-- One `parent` link: the ancestor's own fields, on which side the child hangs, and the
ancestor's other child. -/
structure Frame (K : Type) where
  isLeft : Bool
  color : NodeColor
  key : K
  value : Person
  other : Tree K
deriving Repr

/-- The chain of `parent` links of a node, nearest ancestor first. -/
abbrev Path (K : Type) := List (Frame K)

section
variable {K : Type} [LinearOrder K]

/-- The ancestor of a frame with `t` as the child on the chain. -/
def Frame.fill (f : Frame K) (t : Tree K) : Tree K :=
  if f.isLeft then .node f.color t f.key f.value f.other
  else .node f.color f.other f.key f.value t

/-- The whole tree (what `root_` owns) seen from a position. -/
def zip (t : Tree K) : Path K → Tree K
  | [] => t
  | f :: p => zip (f.fill t) p

/-- Number of nodes. -/
def Tree.size : Tree K → Nat
  | .nil => 0
  | .node _ l _ _ r => l.size + 1 + r.size

/-- The test `p && p->IsRed()`. -/
def isRed : Tree K → Bool
  | .node .kRed _ _ _ _ => true
  | _ => false

/-- `Node::AreChildrenBlack` of a node with children `l` and `r`. -/
def AreChildrenBlack (l r : Tree K) : Bool := !isRed l && !isRed r

/-- `Recolor`: the new colour of a node of colour `c`; `isRoot` is `node == root_`. -/
def Recolor (c : NodeColor) (isRoot : Bool) : NodeColor :=
  if c = .kRed || isRoot then .kBlack else .kRed

/-- `Recolor(p)` for a pointer `p` that is not the root; a null `p` is dereferenced. -/
def recolorNode : Tree K → Option (Tree K)
  | .nil => none
  | .node c l k v r => some (.node (Recolor c false) l k v r)

/-- Step from a node to its `left` (`toLeft = true`) or `right` child. -/
def child (toLeft : Bool) : Tree K → Path K → Option (Tree K × Path K)
  | .nil, _ => none
  | .node c l k v r, p =>
    if toLeft then some (l, ⟨true, c, k, v, r⟩ :: p) else some (r, ⟨false, c, k, v, l⟩ :: p)

/-- `GetNode(node, key)`, started with the chain `p` of `node`. -/
def GetNode (key : K) : Tree K → Path K → Option (Tree K × Path K)
  | .nil, _ => none
  | .node c l k v r, p =>
    if key < k then GetNode key l (⟨true, c, k, v, r⟩ :: p)
    else if key > k then GetNode key r (⟨false, c, k, v, l⟩ :: p)
    else some (.node c l k v r, p)

/-- `Rotation(node, right)`: `node` goes above its parent `tmp`. With `right`, `tmp->left`
becomes `node->right` and `node->right` becomes `tmp`; otherwise mirrored. The result is the
position of `node`. When `node` hangs on the other side of `tmp` than the rotation assumes the
two nodes end up pointing at each other, which is no tree: `none`. -/
def Rotation : Tree K → Path K → Bool → Option (Tree K × Path K)
  | .node c l k v r, f :: p, right =>
    if right then
      if f.isLeft then some (.node c l k v (.node f.color r f.key f.value f.other), p)
      else none
    else
      if f.isLeft then none
      else some (.node c (.node f.color f.other f.key f.value l) k v r, p)
  | _, _, _ => none

/-- The tail of the first two branches of `CheckRotation`, after the two rotations put `node`
at position `(t, p)`: `Recolor(node)`, then `Recolor` of its right (`onRight`) or left child. -/
def recolorPair (onRight : Bool) : Tree K → Path K → Option (Tree K)
  | .nil, _ => none
  | .node c l k v r, p =>
    let c1 := Recolor c p.isEmpty
    if onRight then (recolorNode r).map fun r1 => zip (.node c1 l k v r1) p
    else (recolorNode l).map fun l1 => zip (.node c1 l1 k v r) p

/-- `CheckRotation(node)`; returns the tree. -/
def CheckRotation (t : Tree K) : Path K → Option (Tree K)
  | f :: g :: rest =>
    if !f.isLeft && g.isLeft then
      (Rotation t (f :: g :: rest) false).bind fun n1 =>
        (Rotation n1.1 n1.2 true).bind fun n2 => recolorPair true n2.1 n2.2
    else if f.isLeft && !g.isLeft then
      (Rotation t (f :: g :: rest) true).bind fun n1 =>
        (Rotation n1.1 n1.2 false).bind fun n2 => recolorPair false n2.1 n2.2
    else if !f.isLeft && !g.isLeft then
      (Rotation (f.fill t) (g :: rest) false).bind fun n1 => recolorPair false n1.1 n1.2
    else if f.isLeft && g.isLeft then
      (Rotation (f.fill t) (g :: rest) true).bind fun n1 => recolorPair true n1.1 n1.2
    else some (zip t (f :: g :: rest))
  | p => some (zip t p)

/-- `InsertionCheck(node)`; returns the tree. -/
def InsertionCheck : Tree K → Path K → Option (Tree K)
  | t, [] => some t
  | t, [f] => if f.color = .kRed then CheckRotation t [f] else some (zip t [f])
  | t, f :: g :: rest =>
    if f.color = .kRed then
      match g.other with
      | .node .kRed ul uk uv ur =>
        let parent : Frame K := { f with color := Recolor f.color false }
        let uncle : Tree K := .node (Recolor .kRed false) ul uk uv ur
        match rest with
        | [] => some (zip t [parent, { g with other := uncle }])
        | h :: rest1 =>
          InsertionCheck
            (Frame.fill { g with other := uncle, color := Recolor g.color false } (parent.fill t))
            (h :: rest1)
      | _ => CheckRotation t (f :: g :: rest)
    else some (zip t (f :: g :: rest))

/-- `Insert(node, key, value)`, started with the chain `p` of `node`. -/
def Insert (key : K) (value : Person) : Tree K → Path K → Option (Bool × Tree K)
  | .nil, _ => none
  | .node c l k v r, p =>
    if key < k then
      match l with
      | .nil =>
        (InsertionCheck (.node .kRed .nil key value .nil) (⟨true, c, k, v, r⟩ :: p)).map
          fun root => (true, root)
      | .node lc ll lk lv lr => Insert key value (.node lc ll lk lv lr) (⟨true, c, k, v, r⟩ :: p)
    else if key > k then
      match r with
      | .nil =>
        (InsertionCheck (.node .kRed .nil key value .nil) (⟨false, c, k, v, l⟩ :: p)).map
          fun root => (true, root)
      | .node rc rl rk rv rr => Insert key value (.node rc rl rk rv rr) (⟨false, c, k, v, l⟩ :: p)
    else some (false, zip (.node c l k v r) p)

/-- `Set` (data part). The argument is `root_`. -/
def Set (root : Tree K) (key : K) (value : Person) : Option (Bool × Tree K) :=
  match root with
  | .nil => some (true, .node .kBlack .nil key value .nil)
  | .node c l k v r => Insert key value (.node c l k v r) []

/-- `Get`. -/
def Get (root : Tree K) (key : K) : Person :=
  match GetNode key root [] with
  | some (.node _ _ _ v _, _) => v
  | _ => Person.empty

/-- `Exists`. -/
def Exists (root : Tree K) (key : K) : Bool := (GetNode key root []).isSome

/-- `Update`. -/
def Update (root : Tree K) (key : K) (value : Person) : Bool × Tree K :=
  match GetNode key root [] with
  | some (.node c l k v r, p) => (true, zip (.node c l k (v.assign value) r) p)
  | _ => (false, root)

/-- `DeletionCheck(node)` for the node at position `(t, path)`; the subtree at `node` is not
touched, the result is the new chain of `node`. The first argument bounds the number of
nested calls. -/
def DeletionCheck : Nat → Tree K → Path K → Option (Path K)
  | 0, _, _ => none
  | _ + 1, .nil, path => some path
  | _ + 1, .node _ _ _ _ _, [] => some []
  | fuel + 1, .node c l k v r, f :: rest =>
    if c = .kRed then some (f :: rest)
    else
      match f.other with
      | .nil => some (f :: rest)
      | .node sc sl sk sv sr =>
        if sc ≠ .kRed then
          if AreChildrenBlack sl sr then
            let f1 : Frame K := { f with other := .node (Recolor sc false) sl sk sv sr }
            if f.color = .kRed then some ({ f1 with color := .kBlack } :: rest)
            else
              (DeletionCheck fuel (f1.fill (.node c l k v r)) rest).map fun rest1 => f1 :: rest1
          else
            let far := if f.isLeft then sr else sl
            let near := if f.isLeft then sl else sr
            if isRed far then
              (recolorNode far).bind fun far1 =>
                let sibling : Tree K :=
                  if f.isLeft then .node f.color sl sk sv far1 else .node f.color far1 sk sv sr
                (Rotation sibling (⟨!f.isLeft, sc, f.key, f.value, .node c l k v r⟩ :: rest)
                    (!f.isLeft)).bind fun top =>
                  (child f.isLeft top.1 top.2).bind fun par =>
                    (child f.isLeft par.1 par.2).map fun nd => nd.2
            else
              match near with
              | .nil => none
              | .node nc nl nk nv nr =>
                (Rotation (.node sc nl nk nv nr)
                    (⟨f.isLeft, nc, sk, sv, far⟩ ::
                      ⟨!f.isLeft, f.color, f.key, f.value, .node c l k v r⟩ :: rest)
                    f.isLeft).bind fun top =>
                  DeletionCheck fuel (.node c l k v r)
                    (⟨f.isLeft, f.color, f.key, f.value, top.1⟩ :: rest)
        else
          (Rotation (.node f.color sl sk sv sr)
              (⟨!f.isLeft, sc, f.key, f.value, .node c l k v r⟩ :: rest) (!f.isLeft)).bind
            fun top =>
              (child f.isLeft top.1 top.2).bind fun par =>
                (child f.isLeft par.1 par.2).bind fun nd =>
                  DeletionCheck fuel (.node c l k v r) nd.2

/-- The loop `while (tmp->left) tmp = tmp->left` from a non-null `tmp`. -/
def leftmost : Tree K → Path K → Tree K × Path K
  | .node c (.node lc ll lk lv lr) k v r, p =>
    leftmost (.node lc ll lk lv lr) (⟨true, c, k, v, r⟩ :: p)
  | t, p => (t, p)

/-- `DeleteNode(node)` for the node at position `(t, path)`; returns the tree. The first
argument bounds the number of nested calls. `Node::Swap` exchanges the keys and applies
`std::swap` to the values. -/
def DeleteNode : Nat → Tree K → Path K → Option (Tree K)
  | 0, _, _ => none
  | _ + 1, .nil, path => some (zip .nil path)
  | fuel + 1, .node c l k v r, path =>
    match l, r with
    | .node lc ll lk lv lr, .node rc rl rk rv rr =>
      match (leftmost (.node rc rl rk rv rr) []).1 with
      | .nil => none
      | .node _ _ tk tv _ =>
        let sv := Person.swap v tv
        match leftmost (.node rc rl rk rv rr)
            (⟨false, c, tk, sv.1, .node lc ll lk lv lr⟩ :: path) with
        | (.node tc tl _ _ tr, tpath) => DeleteNode fuel (.node tc tl k sv.2 tr) tpath
        | (.nil, _) => none
    | .nil, .node rc rl rk rv rr =>
      let sv := Person.swap v rv
      DeleteNode fuel (.node rc rl k sv.2 rr) (⟨false, c, rk, sv.1, .nil⟩ :: path)
    | .node lc ll lk lv lr, .nil =>
      let sv := Person.swap v lv
      DeleteNode fuel (.node lc ll k sv.2 lr) (⟨true, c, lk, sv.1, .nil⟩ :: path)
    | .nil, .nil =>
      (DeletionCheck (2 * path.length + 3) (.node c .nil k v .nil) path).map fun path1 =>
        zip .nil path1

/-- `Delete` (data part). -/
def Delete (root : Tree K) (key : K) : Option (Bool × Tree K) :=
  match GetNode key root [] with
  | none => some (false, root)
  | some (node, path) => (DeleteNode (node.size) node path).map fun root1 => (true, root1)

/-- `Rename` (data part). -/
def Rename (root : Tree K) (kFrom kTo : K) : Option (Bool × Tree K) :=
  match GetNode kFrom root [] with
  | some (.node _ _ _ value _, _) =>
    if kFrom = kTo then some (true, root)
    else
      (Set root kTo value).bind fun r =>
        if r.1 then (Delete r.2 kFrom).map fun d => (true, d.2) else some (false, r.2)
  | _ => some (false, root)

/-- The lambda `min_node`: `while (node && node->left) node = node->left`. -/
def min_node : Tree K → Path K → Option (Tree K × Path K)
  | .nil, _ => none
  | .node c .nil k v r, p => some (.node c .nil k v r, p)
  | .node c (.node lc ll lk lv lr) k v r, p =>
    min_node (.node lc ll lk lv lr) (⟨true, c, k, v, r⟩ :: p)

/-- The loop `while (node->IsRightChild()) node = node->GetParent();` followed by
`node = node->GetParent()`. -/
def climb : Tree K → Path K → Option (Tree K × Path K)
  | _, [] => none
  | t, f :: rest => if f.isLeft then some (f.fill t, rest) else climb (f.fill t) rest

/-- `NextNode(node)`; `none` is `nullptr`. -/
def NextNode (root : Tree K) : Option (Tree K × Path K) → Option (Tree K × Path K)
  | none => min_node root []
  | some (.nil, _) => none
  | some (.node c l k v .nil, p) =>
    match p with
    | [] => none
    | f :: rest =>
      if f.isLeft then some (f.fill (.node c l k v .nil), rest)
      else climb (.node c l k v .nil) (f :: rest)
  | some (.node c l k v (.node rc rl rk rv rr), p) =>
    min_node (.node rc rl rk rv rr) (⟨false, c, k, v, l⟩ :: p)

/-- The loop `for (node = NextNode(); node; node = NextNode(node))` shared by `Keys`, `Find`,
`ShowAll` and `Export`: the keys and values of the nodes visited, in order. The first
argument bounds the number of iterations. -/
def traverse (root : Tree K) : Nat → Option (Tree K × Path K) → Option (List (K × Person))
  | _, none => some []
  | 0, some _ => none
  | _ + 1, some (.nil, _) => none
  | fuel + 1, some (.node c l k v r, p) =>
    (traverse root fuel (NextNode root (some (.node c l k v r, p)))).map fun rest =>
      (k, v) :: rest

/-- The nodes visited by the traversal loop from `NextNode()`. -/
def entries (root : Tree K) : Option (List (K × Person)) :=
  traverse root root.size (NextNode root none)

/-- `Keys`. -/
def Keys (root : Tree K) : Option (List K) := (entries root).map fun es => es.map Prod.fst

/-- `ShowAll`. -/
def ShowAll (root : Tree K) : Option (List Person) :=
  (entries root).map fun es => es.map Prod.snd

/-- `Find`. -/
def Find (root : Tree K) (value : Person) : Option (List K) :=
  (entries root).map fun es => (es.filter fun e => e.2.eq value).map Prod.fst

end

end RBTree

/-! ## `b_plus_tree.cc` -/

namespace BPlusTree

/-- The member `bucket_size_`. -/
def bucket_size : Nat := 10

/-- What a `NodePtr` owns. A `Leaf` has an identity `id` (the address the `next` links and
`list_` refer to), its `keys`, its `data` and its `next` link (`none` is `nullptr`); an
`Internal` has its `keys` and its `children`. -/
inductive Node (K : Type) where
  | Leaf (id : Nat) (keys : List K) (data : List Person) (next : Option Nat) : Node K
  | Internal (keys : List K) (children : List (Node K)) : Node K
deriving Repr

/-- One `parent` link: the keys of the `Internal` ancestor and its children before and after
the child on the chain. -/
structure Frame (K : Type) where
  keys : List K
  before : List (Node K)
  after : List (Node K)
deriving Repr

/-- The chain of `parent` links of a node, nearest ancestor first. -/
abbrev Path (K : Type) := List (Frame K)

/-- The members `root_` and `list_` (the identity of the head leaf), and the next unused leaf
identity. -/
structure Tree (K : Type) where
  root : Node K
  list_ : Nat
  fresh : Nat
deriving Repr

section
variable {α : Type}

/-- `vec.emplace(vec.begin() + n, a)` for `n` within the vector. -/
def insertAt (n : Nat) (a : α) (l : List α) : List α := l.take n ++ a :: l.drop n

/-- `vec.emplace(vec.begin() + n, a)`; a position past the end is undefined. -/
def insertAt? (n : Nat) (a : α) (l : List α) : Option (List α) :=
  if n ≤ l.length then some (insertAt n a l) else none

/-- `vec.erase(vec.begin() + n)`; a position at or past the end is undefined. -/
def eraseAt? (n : Nat) (l : List α) : Option (List α) :=
  if n < l.length then some (l.eraseIdx n) else none

/-- `vec.at(n) = a`; throws past the end. -/
def setAt? (n : Nat) (a : α) (l : List α) : Option (List α) :=
  if n < l.length then some (l.set n a) else none

end

section
variable {K : Type} [LinearOrder K]

/-- The freshly constructed tree: one empty leaf, which is `list_` and `root_`. -/
def init : Tree K := ⟨.Leaf 0 [] [] none, 0, 1⟩

/-- The ancestor of a frame with `n` as the child on the chain. -/
def Frame.fill (f : Frame K) (n : Node K) : Node K := .Internal f.keys (f.before ++ n :: f.after)

/-- The whole tree (what `root_` owns) seen from a position. -/
def zip (n : Node K) : Path K → Node K
  | [] => n
  | f :: p => zip (f.fill n) p

/-- The member `keys`. -/
def Node.keys : Node K → List K
  | .Leaf _ ks _ _ => ks
  | .Internal ks _ => ks

/-- `Node::Size`. -/
def Node.Size (n : Node K) : Nat := n.keys.length

/-- `IsLeaf`. -/
def Node.IsLeaf : Node K → Bool
  | .Leaf _ _ _ _ => true
  | .Internal _ _ => false

mutual
/-- `GetLeaf(node, key)`, started with the chain `p` of `node`. -/
def GetLeaf (key : K) : Node K → Path K → Option (Node K × Path K)
  | .Leaf id ks ds nx, p => some (.Leaf id ks ds nx, p)
  | .Internal ks cs, p => GetLeafIn key ks ks cs [] p
/-- The loop of `GetLeaf` over the keys `ks` and children `cs` still ahead; `done` are the
children already passed. An `Internal` whose children are not one more than its keys is read
out of range. -/
def GetLeafIn (key : K) (all : List K) :
    List K → List (Node K) → List (Node K) → Path K → Option (Node K × Path K)
  | k :: ks, c :: cs, done, p =>
    if key < k then GetLeaf key c (⟨all, done, cs⟩ :: p)
    else GetLeafIn key all ks cs (done ++ [c]) p
  | [], [c], done, p => GetLeaf key c (⟨all, done, []⟩ :: p)
  | _, _, _, _ => none
end

/-- `Leaf::GetValue(key)` on the vectors of a leaf: `data.at(distance)`. -/
def Leaf.GetValue (key : K) (keys : List K) (data : List Person) : Option Person :=
  data[keys.indexOf key]?

/-- `Leaf::Insert(key, value)` on the vectors of a leaf; returns the result and the vectors. -/
def Leaf.Insert (key : K) (value : Person) (keys : List K) (data : List Person) :
    Option (Bool × List K × List Person) :=
  if key ∈ keys then some (false, keys, data)
  else
    let distance := keys.findIdx fun i => key < i
    (insertAt? distance value data).map fun data1 => (true, insertAt distance key keys, data1)

/-- `Leaf::Delete(key)` on the vectors of a leaf. -/
def Leaf.Delete (key : K) (keys : List K) (data : List Person) :
    Option (List K × List Person) :=
  let distance := keys.indexOf key
  (eraseAt? distance keys).bind fun keys1 =>
    (eraseAt? distance data).map fun data1 => (keys1, data1)

/-- `Leaf::Split()` of the leaf `id`; `new` is the identity of the leaf it allocates. Returns
the leaf as it is left and the new leaf. -/
def Leaf.Split (new id : Nat) (keys : List K) (data : List Person) (next : Option Nat) :
    Option (Node K × Node K) :=
  let mid := keys.length / 2
  if mid ≤ data.length then
    some (.Leaf id (keys.take mid) (data.take mid) (some new),
          .Leaf new (keys.drop mid) (data.drop mid) next)
  else none

/-- `Internal::Insert(key, node, after_key)` on the vectors of an internal node. -/
def Internal.Insert (key : K) (node : Node K) (after_key : Bool) (keys : List K)
    (children : List (Node K)) : Option (List K × List (Node K)) :=
  let distance := keys.findIdx fun i => key < i
  (insertAt? (distance + if after_key then 1 else 0) node children).map fun children1 =>
    (insertAt distance key keys, children1)

/-- `Internal::Delete(key, after_key)` on the vectors of an internal node. -/
def Internal.Delete (key : K) (after_key : Bool) (keys : List K) (children : List (Node K)) :
    Option (List K × List (Node K)) :=
  let distance := keys.indexOf key
  (eraseAt? (distance + if after_key then 1 else 0) children).bind fun children1 =>
    (eraseAt? distance keys).map fun keys1 => (keys1, children1)

/-- `ShiftLevel(left, right, key)` where `path` is the chain of `left`; returns the tree.
The `else` branch holds `Internal::Insert`, `Internal::Split` and the removal of the middle
key from the new node. -/
def ShiftLevel : Path K → Node K → Node K → K → Option (Node K)
  | [], left, right, key => some (.Internal [key] [left, right])
  | f :: rest, left, right, key =>
    (Internal.Insert key right true f.keys (f.before ++ left :: f.after)).bind fun internal =>
      if internal.1.length ≤ bucket_size then some (zip (.Internal internal.1 internal.2) rest)
      else
        let mid := internal.1.length / 2
        if mid + 1 ≤ internal.2.length then
          match internal.1.drop mid with
          | [] => none
          | middle_key :: new_keys =>
            ShiftLevel rest (.Internal (internal.1.take mid) (internal.2.take (mid + 1)))
              (.Internal new_keys (internal.2.drop (mid + 1))) middle_key
        else none

/-- `node->Share(from, left)` seen from the parent, whose vectors are `pkeys` and `children`:
`self` and `from` are the places of the two nodes among the children, `fromIsLeft` is
`from == left`. Returns the parent's vectors. Both nodes are cast to the type of `self`. -/
def Share (pkeys : List K) (children : List (Node K)) (self from_ : Nat) (fromIsLeft : Bool) :
    Option (List K × List (Node K)) :=
  if self = from_ then none
  else
    let distance := if fromIsLeft then from_ else self
    match children[self]?, children[from_]? with
    | some (.Leaf sid sk sd sn), some (.Leaf fid fk fd fn) =>
      (if fromIsLeft then fk.getLast? else fk.head?).bind fun key =>
        (Leaf.GetValue key fk fd).bind fun value =>
          (Leaf.Insert key value sk sd).bind fun s1 =>
            (Leaf.Delete key fk fd).bind fun f1 =>
              (if fromIsLeft then s1.2.1 else f1.1).head?.bind fun front =>
                (setAt? distance front pkeys).map fun pkeys1 =>
                  (pkeys1, (children.set self (.Leaf sid s1.2.1 s1.2.2 sn)).set from_
                    (.Leaf fid f1.1 f1.2 fn))
    | some (.Internal sk sc), some (.Internal fk fc) =>
      (if fromIsLeft then fk.getLast? else fk.head?).bind fun key =>
        (if fromIsLeft then fc.getLast? else fc.head?).bind fun child =>
          (pkeys[distance]?).bind fun sep =>
            (Internal.Insert sep child (!fromIsLeft) sk sc).bind fun s1 =>
              (Internal.Delete key fromIsLeft fk fc).map fun f1 =>
                (pkeys.set distance key,
                  (children.set self (.Internal s1.1 s1.2)).set from_ (.Internal f1.1 f1.2))
    | _, _ => none

/-- `left->Merge(right)` seen from the parent, whose vectors are `pkeys` and `children`:
`left` and `right` are the places of the two nodes among the children. Returns the parent's
vectors. -/
def Merge (pkeys : List K) (children : List (Node K)) (left right : Nat) :
    Option (List K × List (Node K)) :=
  if left = right then none
  else if right = 0 then none
  else
    match children[left]?, children[right]? with
    | some (.Leaf lid lk ld _), some (.Leaf _ rk rd rn) =>
      (eraseAt? (right - 1) pkeys).bind fun pkeys1 =>
        (eraseAt? right (children.set left (.Leaf lid (lk ++ rk) (ld ++ rd) rn))).map
          fun children1 => (pkeys1, children1)
    | some (.Internal lk lc), some (.Internal rk rc) =>
      (pkeys[right - 1]?).bind fun sep =>
        Internal.Delete sep true pkeys (children.set left (.Internal (lk ++ sep :: rk) (lc ++ rc)))
    | _, _ => none

/-- `GetSiblings(node)` for a node with first key `front` under a parent with vectors `pkeys`
and `children`: the places of `left` and `right` among the children (`none` is `nullptr`).
The outer `none` is a throwing `children.at`. -/
def GetSiblings (front : K) (pkeys : List K) (children : List (Node K)) :
    Option (Option Nat × Option Nat) :=
  let itr := pkeys.findIdx fun i => front < i
  (if itr ≠ 0 then (children[itr - 1]?).map fun _ => some (itr - 1) else some none).bind
    fun left =>
      (if itr ≠ pkeys.length then (children[itr + 1]?).map fun _ => some (itr + 1)
        else some none).map fun right => (left, right)

/-- The test `sibling && sibling->Size() > (bucket_size_ + 1) / 2` for the child at a place. -/
def canShare (children : List (Node K)) : Option Nat → Bool
  | none => false
  | some i =>
    match children[i]? with
    | some n => decide (n.Size > (bucket_size + 1) / 2)
    | none => false

/-- `UpdateTree(node)` for the node at position `(node, path)`; returns the tree. -/
def UpdateTree : Node K → Path K → Option (Node K)
  | .Internal [] cs, [] => cs.head?
  | node, [] => some node
  | node, f :: rest =>
    if node.Size ≥ (bucket_size + if node.IsLeaf then 0 else 1) / 2 then
      some (zip node (f :: rest))
    else
      let children := f.before ++ node :: f.after
      let self := f.before.length
      node.keys.head?.bind fun front =>
        (GetSiblings front f.keys children).bind fun sib =>
          if canShare children sib.1 then
            (sib.1.bind fun left => Share f.keys children self left true).map fun parent =>
              zip (.Internal parent.1 parent.2) rest
          else if canShare children sib.2 then
            (sib.2.bind fun right => Share f.keys children self right false).map fun parent =>
              zip (.Internal parent.1 parent.2) rest
          else
            match sib.1, sib.2 with
            | some left, _ =>
              (Merge f.keys children left self).bind fun parent =>
                UpdateTree (.Internal parent.1 parent.2) rest
            | none, some right =>
              (Merge f.keys children self right).bind fun parent =>
                UpdateTree (.Internal parent.1 parent.2) rest
            | none, none => some (zip node (f :: rest))

/-- `Set` (data part). -/
def Set (t : Tree K) (key : K) (value : Person) : Option (Bool × Tree K) :=
  match GetLeaf key t.root [] with
  | some (.Leaf id keys data next, path) =>
    (Leaf.Insert key value keys data).bind fun ins =>
      if ins.1 then
        if ins.2.1.length > bucket_size then
          (Leaf.Split t.fresh id ins.2.1 ins.2.2 next).bind fun halves =>
            halves.2.keys.head?.bind fun front =>
              (ShiftLevel path halves.1 halves.2 front).map fun root =>
                (true, { t with root := root, fresh := t.fresh + 1 })
        else some (true, { t with root := zip (.Leaf id ins.2.1 ins.2.2 next) path })
      else some (false, t)
  | _ => none

/-- `Get`. -/
def Get (t : Tree K) (key : K) : Option Person :=
  match GetLeaf key t.root [] with
  | some (.Leaf _ keys data _, _) =>
    if key ∈ keys then Leaf.GetValue key keys data else some Person.empty
  | _ => none

/-- `Exists`. -/
def Exists (t : Tree K) (key : K) : Option Bool :=
  match GetLeaf key t.root [] with
  | some (.Leaf _ keys _ _, _) => some (decide (key ∈ keys))
  | _ => none

/-- `Delete` (data part). -/
def Delete (t : Tree K) (key : K) : Option (Bool × Tree K) :=
  match GetLeaf key t.root [] with
  | some (.Leaf id keys data next, path) =>
    if key ∈ keys then
      (Leaf.Delete key keys data).bind fun del =>
        (UpdateTree (.Leaf id del.1 del.2 next) path).map fun root =>
          (true, { t with root := root })
    else some (false, t)
  | _ => none

/-- `Update`. -/
def Update (t : Tree K) (key : K) (value : Person) : Option (Bool × Tree K) :=
  match GetLeaf key t.root [] with
  | some (.Leaf id keys data next, path) =>
    if key ∈ keys then
      (Leaf.GetValue key keys data).map fun old =>
        let leaf : Node K := .Leaf id keys (data.set (keys.indexOf key) (old.assign value)) next
        (true, { t with root := zip leaf path })
    else some (false, t)
  | _ => none

/-- `Rename` (data part). -/
def Rename (t : Tree K) (kFrom kTo : K) : Option (Bool × Tree K) :=
  match GetLeaf kFrom t.root [] with
  | some (.Leaf _ keys data _, _) =>
    if kFrom ∈ keys then
      if kFrom = kTo then some (true, t)
      else
        (Leaf.GetValue kFrom keys data).bind fun value =>
          (Set t kTo value).bind fun r =>
            if r.1 then (Delete r.2 kFrom).map fun d => (true, d.2) else some (false, r.2)
    else some (false, t)
  | _ => none

mutual
/-- The leaf with identity `id` below a node: its keys, data and `next`. -/
def findLeaf (id : Nat) : Node K → Option (List K × List Person × Option Nat)
  | .Leaf i ks ds nx => if i = id then some (ks, ds, nx) else none
  | .Internal _ cs => findLeafIn id cs
/-- The leaf with identity `id` below a list of nodes. -/
def findLeafIn (id : Nat) : List (Node K) → Option (List K × List Person × Option Nat)
  | [] => none
  | c :: cs =>
    match findLeaf id c with
    | some r => some r
    | none => findLeafIn id cs
end

mutual
/-- Number of leaves below a node. -/
def countLeaves : Node K → Nat
  | .Leaf _ _ _ _ => 1
  | .Internal _ cs => countLeavesIn cs
/-- Number of leaves below a list of nodes. -/
def countLeavesIn : List (Node K) → Nat
  | [] => 0
  | c :: cs => countLeaves c + countLeavesIn cs
end

/-- The loop `for (auto leaf = list_; leaf; leaf = leaf->next)` shared by `Keys`, `Find`,
`ShowAll` and `Export`: the key and data vectors of the leaves visited. The first argument
bounds the number of iterations. -/
def walk (root : Node K) : Nat → Option Nat → Option (List (List K × List Person))
  | _, none => some []
  | 0, some _ => none
  | fuel + 1, some id =>
    (findLeaf id root).bind fun leaf =>
      (walk root fuel leaf.2.2).map fun rest => (leaf.1, leaf.2.1) :: rest

/-- The leaves visited from `list_`. -/
def chain (t : Tree K) : Option (List (List K × List Person)) :=
  walk t.root (countLeaves t.root) (some t.list_)

/-- `Keys`. -/
def Keys (t : Tree K) : Option (List K) :=
  (chain t).map fun ls => (ls.map fun leaf => leaf.1).flatten

/-- `ShowAll`. -/
def ShowAll (t : Tree K) : Option (List Person) :=
  (chain t).map fun ls => (ls.map fun leaf => leaf.2).flatten

/-- The `copy_if` of `Find` on one leaf: the keys `i` with `leaf->GetValue(i) == value`. -/
def Leaf.Find (value : Person) (keys : List K) (data : List Person) : List K → Option (List K)
  | [] => some []
  | i :: rest =>
    (Leaf.GetValue i keys data).bind fun v =>
      (Leaf.Find value keys data rest).map fun r => if v.eq value then i :: r else r

/-- The loop of `Find` over the leaves visited. -/
def findChain (value : Person) : List (List K × List Person) → Option (List K)
  | [] => some []
  | leaf :: rest =>
    (Leaf.Find value leaf.1 leaf.2 leaf.1).bind fun r =>
      (findChain value rest).map fun rs => r ++ rs

/-- `Find`. -/
def Find (t : Tree K) (value : Person) : Option (List K) :=
  (chain t).bind fun ls => findChain value ls

end

end BPlusTree

end s21

namespace s21

/-- The wildcard match of the specification, field by field: the pattern field is "-" or the
record field equals it. -/
def Person.Matches (r p : Person) : Prop :=
  (p.last_name = "-" ∨ r.last_name = p.last_name) ∧
  (p.first_name = "-" ∨ r.first_name = p.first_name) ∧
  (p.birthday = "-" ∨ r.birthday = p.birthday) ∧
  (p.city = "-" ∨ r.city = p.city) ∧
  (p.coins = "-" ∨ r.coins = p.coins)

instance (r p : Person) : Decidable (Person.Matches r p) := by
  unfold Person.Matches; infer_instance

/-- The merge of the specification, field by field: the field of `p` unless it is "-". -/
def Person.Merged (old p new : Person) : Prop :=
  new.last_name = (if p.last_name = "-" then old.last_name else p.last_name) ∧
  new.first_name = (if p.first_name = "-" then old.first_name else p.first_name) ∧
  new.birthday = (if p.birthday = "-" then old.birthday else p.birthday) ∧
  new.city = (if p.city = "-" then old.city else p.city) ∧
  new.coins = (if p.coins = "-" then old.coins else p.coins)

namespace HashTable

section
variable {K : Type} [LinearOrder K]

/-- The tables reachable from a freshly constructed table of capacity at least one by the
public mutating operations. -/
inductive Reachable (hash : K → Nat) : Table K → Prop
  | init (capacity : Nat) (h : 0 < capacity) : Reachable hash (init capacity)
  | set {t t1 : Table K} {key : K} {value : Person} {lifetime : Int} {b : Bool} :
      Reachable hash t → Set hash t key value lifetime = some (b, t1) → Reachable hash t1
  | update {t t1 : Table K} {key : K} {value : Person} {b : Bool} :
      Reachable hash t → Update hash t key value = some (b, t1) → Reachable hash t1
  | delete {t t1 : Table K} {key : K} {b : Bool} :
      Reachable hash t → Delete hash t key = some (b, t1) → Reachable hash t1
  | rename {t t1 : Table K} {kFrom kTo : K} {ttl : Int} {b : Bool} :
      Reachable hash t → Rename hash t kFrom kTo ttl = some (b, t1) → Reachable hash t1

/-- Every bucket holds only keys that hash to it, each at most once. -/
def Inv (hash : K → Nat) (t : Table K) : Prop :=
  0 < t.capacity ∧ t.data.length = t.capacity ∧
  ∀ (i : Nat) (b : List (Node K)), t.data[i]? = some b →
    (∀ n ∈ b, hash n.key % t.capacity = i) ∧ (b.map fun n => n.key).Nodup

end

end HashTable

end s21

namespace s21

/-! ## Association lists: the abstract content of a store -/

section
variable {K : Type} [LinearOrder K]

/-- The value bound to a key in a list of entries: the first entry with that key. -/
def lookup (key : K) (es : List (K × Person)) : Option Person :=
  (es.find? fun e => e.1 == key).map Prod.snd

/-- Insertion of an entry into a list of entries ordered by key: before the first entry with
a greater key. -/
def ins (key : K) (value : Person) : List (K × Person) → List (K × Person)
  | [] => [(key, value)]
  | e :: es => if key < e.1 then (key, value) :: e :: es else e :: ins key value es

/-- The keys of a list of entries are strictly ascending. -/
def Ascending (es : List (K × Person)) : Prop := (es.map Prod.fst).Pairwise (· < ·)

end

namespace RBTree

section
variable {K : Type} [LinearOrder K]

/-- The entries of a tree in symmetric order (left subtree, node, right subtree). -/
def toList : Tree K → List (K × Person)
  | .nil => []
  | .node _ l k v r => toList l ++ (k, v) :: toList r

/-- The entries of the whole tree that come before the subtree at a position. -/
def pathLeft : Path K → List (K × Person)
  | [] => []
  | f :: p => if f.isLeft then pathLeft p else pathLeft p ++ toList f.other ++ [(f.key, f.value)]

/-- The entries of the whole tree that come after the subtree at a position. -/
def pathRight : Path K → List (K × Person)
  | [] => []
  | f :: p => if f.isLeft then (f.key, f.value) :: toList f.other ++ pathRight p else pathRight p

/-- Black height along the left spine. -/
def bh : Tree K → Nat
  | .nil => 0
  | .node c l _ _ _ => bh l + if c = .kBlack then 1 else 0

/-- The red-black shape: equal black heights on both sides of every node, and no red node
with a red child. -/
def Bal : Tree K → Prop
  | .nil => True
  | .node c l _ _ r =>
    Bal l ∧ Bal r ∧ bh l = bh r ∧ (c = .kRed → isRed l = false ∧ isRed r = false)

/-- The red-black shape of everything around a position: a subtree of black height `n`,
with a red root only if `red`, fits at the position and gives a tree with a black root. -/
def PathBal : Path K → Bool → Nat → Prop
  | [], red, _ => red = false
  | f :: p, red, n =>
    Bal f.other ∧ bh f.other = n ∧ (f.color = .kRed → red = false ∧ isRed f.other = false) ∧
      PathBal p (decide (f.color = .kRed)) (n + if f.color = .kBlack then 1 else 0)

/-- A node with its children named by the side of a position below its parent: `near` is the
child on the side given by `isLeft`, `far` is the other one. -/
def sideNode (isLeft : Bool) (c : NodeColor) (near : Tree K) (k : K) (v : Person)
    (far : Tree K) : Tree K :=
  if isLeft then .node c near k v far else .node c far k v near

/-- The invariant of the stored tree: red-black shape, black root, ascending keys. -/
def Inv (t : Tree K) : Prop := Bal t ∧ isRed t = false ∧ Ascending (toList t)

/-- The trees reachable from the empty tree by the public mutating operations. -/
inductive Reachable : Tree K → Prop
  | empty : Reachable .nil
  | set {t t1 : Tree K} {key : K} {value : Person} {b : Bool} :
      Reachable t → Set t key value = some (b, t1) → Reachable t1
  | update {t t1 : Tree K} {key : K} {value : Person} {b : Bool} :
      Reachable t → Update t key value = (b, t1) → Reachable t1
  | delete {t t1 : Tree K} {key : K} {b : Bool} :
      Reachable t → Delete t key = some (b, t1) → Reachable t1
  | rename {t t1 : Tree K} {kFrom kTo : K} {b : Bool} :
      Reachable t → Rename t kFrom kTo = some (b, t1) → Reachable t1

end

end RBTree

end s21

namespace s21

namespace BPlusTree

/-- The content of a leaf: its identity, keys, data and `next` link. -/
structure LeafRec (K : Type) where
  id : Nat
  keys : List K
  data : List Person
  next : Option Nat

section
variable {K : Type} [LinearOrder K]

mutual
/-- The leaves below a node, from left to right. -/
def leaves : Node K → List (LeafRec K)
  | .Leaf id ks ds nx => [⟨id, ks, ds, nx⟩]
  | .Internal _ cs => leavesIn cs
/-- The leaves below a list of nodes, from left to right. -/
def leavesIn : List (Node K) → List (LeafRec K)
  | [] => []
  | c :: cs => leaves c ++ leavesIn cs
end

/-- The entries of a leaf: its keys paired with its data. -/
def LeafRec.entries (l : LeafRec K) : List (K × Person) := l.keys.zip l.data

/-- The entries of a list of leaves. -/
def entriesOf (ls : List (LeafRec K)) : List (K × Person) :=
  (ls.map LeafRec.entries).flatten

/-- The entries below a node, from left to right. -/
def toList (n : Node K) : List (K × Person) := entriesOf (leaves n)

/-- The leaves of the whole tree before the subtree at a position. -/
def pathLeft : Path K → List (LeafRec K)
  | [] => []
  | f :: p => pathLeft p ++ leavesIn f.before

/-- The leaves of the whole tree after the subtree at a position. -/
def pathRight : Path K → List (LeafRec K)
  | [] => []
  | f :: p => leavesIn f.after ++ pathRight p

/-- A key is at or above an optional lower bound. -/
def geLo : Option K → K → Prop
  | none, _ => True
  | some a, k => a ≤ k

/-- A key is below an optional upper bound. -/
def ltHi : Option K → K → Prop
  | none, _ => True
  | some b, k => k < b

/-- An optional lower bound is below an optional upper bound. -/
def ltOpt : Option K → Option K → Prop
  | some a, some b => a < b
  | _, _ => True

/-- The last key of a list, or a default bound. -/
def lastOr (lo : Option K) (ks : List K) : Option K :=
  match ks.getLast? with
  | some k => some k
  | none => lo

/-- The first key of a list, or a default bound. -/
def headOr (hi : Option K) (ks : List K) : Option K :=
  match ks.head? with
  | some k => some k
  | none => hi

/-- The number of keys of a node other than the root is between 5 and `bucket_size`. -/
def sizeOk (n : Node K) : Prop := 5 ≤ n.Size ∧ n.Size ≤ bucket_size

/-- The number of keys of the root: at most `bucket_size`, and at least one for an
`Internal` root. -/
def rootSizeOk (n : Node K) : Prop := n.Size ≤ bucket_size ∧ (n.IsLeaf = false → 1 ≤ n.Size)

mutual
/-- The B+ tree shape of a subtree of height `h` whose keys lie in `[lo, hi)`: leaves have
ascending keys within the bounds and as many data as keys; the children of an `Internal` are
one more than its keys, have height `h - 1`, the right size, and lie between consecutive
keys. The size of the node itself is not constrained here. -/
def Wf (lo hi : Option K) : Nat → Node K → Prop
  | 0, .Leaf _ ks ds _ =>
    ltOpt lo hi ∧ ds.length = ks.length ∧ ks.Pairwise (· < ·) ∧ ∀ k ∈ ks, geLo lo k ∧ ltHi hi k
  | h + 1, .Internal ks cs => ltOpt lo hi ∧ WfIn lo hi h ks cs
  | _, _ => False
/-- The shape of the children `cs` of an `Internal` with keys `ks`. -/
def WfIn (lo hi : Option K) (h : Nat) : List K → List (Node K) → Prop
  | [], [c] => Wf lo hi h c ∧ sizeOk c
  | k :: ks, c :: cs => Wf lo (some k) h c ∧ sizeOk c ∧ WfIn (some k) hi h ks cs
  | _, _ => False
end

/-- The shape of the children before a position: each child lies below the key after it. -/
def Pre (h : Nat) : Option K → List K → List (Node K) → Prop
  | _, [], [] => True
  | lo, k :: ks, c :: cs => Wf lo (some k) h c ∧ sizeOk c ∧ Pre h (some k) ks cs
  | _, _, _ => False

/-- The shape of the children after a position: each child lies above the key before it. -/
def Post (hi : Option K) (h : Nat) : List K → List (Node K) → Prop
  | [], [] => True
  | k :: ks, c :: cs => Wf (some k) (headOr hi ks) h c ∧ sizeOk c ∧ Post hi h ks cs
  | _, _ => False

/-- The bounds of the keys that fit at a position. -/
def pathBounds : Path K → Option K × Option K
  | [] => (none, none)
  | f :: p =>
    (lastOr (pathBounds p).1 (f.keys.take f.before.length),
     headOr (pathBounds p).2 (f.keys.drop f.before.length))

/-- The least number of keys of the node whose chain of ancestors is `p`: one for the root,
five otherwise. -/
def minKeys : Path K → Nat
  | [] => 1
  | _ :: _ => 5

/-- The size condition of the node at a position: that of the root when the chain of
ancestors is empty, that of the other nodes otherwise. -/
def fits : Path K → Node K → Prop
  | [], n => rootSizeOk n
  | _ :: _, n => sizeOk n

/-- The shape of everything around a position at height `h`. -/
def PathWf : Path K → Nat → Prop
  | [], _ => True
  | f :: p, h =>
    f.before.length ≤ f.keys.length ∧
    Pre h (pathBounds p).1 (f.keys.take f.before.length) f.before ∧
    Post (pathBounds p).2 h (f.keys.drop f.before.length) f.after ∧
    f.keys.length ≤ bucket_size ∧ minKeys p ≤ f.keys.length ∧
    PathWf p (h + 1)

/-- Each leaf links to the next one of the list, the last one to `e`. -/
def LinkedTo (e : Option Nat) : List (LeafRec K) → Prop
  | [] => True
  | l :: rest =>
    l.next = (match rest.head? with
      | some l1 => some l1.id
      | none => e) ∧ LinkedTo e rest

/-- The leaf chain: `list_` is the first leaf, every leaf links to the next one, identities
are distinct and below the next unused one. -/
def ChainOk (t : Tree K) : Prop :=
  (leaves t.root).head?.map (fun l => l.id) = some t.list_ ∧
  LinkedTo none (leaves t.root) ∧
  ((leaves t.root).map fun l => l.id).Nodup ∧
  ∀ l ∈ leaves t.root, l.id < t.fresh

/-- The invariant of the stored tree. -/
def Inv (t : Tree K) : Prop :=
  (∃ h, Wf none none h t.root) ∧ rootSizeOk t.root ∧ ChainOk t

/-- The trees reachable from the freshly constructed tree by the public mutating
operations. -/
inductive Reachable : Tree K → Prop
  | init : Reachable init
  | set {t t1 : Tree K} {key : K} {value : Person} {b : Bool} :
      Reachable t → Set t key value = some (b, t1) → Reachable t1
  | update {t t1 : Tree K} {key : K} {value : Person} {b : Bool} :
      Reachable t → Update t key value = some (b, t1) → Reachable t1
  | delete {t t1 : Tree K} {key : K} {b : Bool} :
      Reachable t → Delete t key = some (b, t1) → Reachable t1
  | rename {t t1 : Tree K} {kFrom kTo : K} {b : Bool} :
      Reachable t → Rename t kFrom kTo = some (b, t1) → Reachable t1

end

end BPlusTree

end s21

namespace s21

namespace BPlusTree

section
variable {K : Type} [LinearOrder K]

/-- The leaf chain on a list of leaves: `head` is the first leaf, every leaf links to the
next one, identities are distinct and below `fresh`. -/
def ChainOn (head fresh : Nat) (ls : List (LeafRec K)) : Prop :=
  ls.head?.map (fun l => l.id) = some head ∧
  LinkedTo none ls ∧
  (ls.map fun l => l.id).Nodup ∧
  ∀ l ∈ ls, l.id < fresh

/-- The changes `UpdateTree` makes to the list of leaves: two neighbours share their entries
anew, or two neighbours become one leaf with the identity of the left one and the `next` of
the right one. -/
inductive Reshape : List (LeafRec K) → List (LeafRec K) → Prop
  | refl (ls : List (LeafRec K)) : Reshape ls ls
  | share (A B : List (LeafRec K)) (l1 l2 m1 m2 : LeafRec K) :
      m1.id = l1.id → m1.next = l1.next → m2.id = l2.id → m2.next = l2.next →
      m1.entries ++ m2.entries = l1.entries ++ l2.entries →
      Reshape (A ++ l1 :: l2 :: B) (A ++ m1 :: m2 :: B)
  | merge (A B : List (LeafRec K)) (l1 l2 m : LeafRec K) :
      m.id = l1.id → m.next = l2.next → m.entries = l1.entries ++ l2.entries →
      Reshape (A ++ l1 :: l2 :: B) (A ++ m :: B)
  | trans {a b c : List (LeafRec K)} : Reshape a b → Reshape b c → Reshape a c

end

end BPlusTree

end s21

namespace s21

/-! ## Small concrete stores, used to instantiate the theorems -/

/-- A record without "-" fields. -/
def samplePerson : Person := ⟨"Ivanov", "Ivan", "2000", "Moscow", "55"⟩

/-- A record with "-" fields, as `Update` and `Find` take them. -/
def samplePatch : Person := ⟨"-", "Petr", "-", "-", "77"⟩

/-- A hash code for keys that are numbers. -/
def HashTable.sampleHash (n : Nat) : Nat := n

/-- The hash table of capacity 4 after `Set(1, samplePerson)`. -/
def HashTable.sample : HashTable.Table Nat := ⟨4, [[], [⟨1, samplePerson, 0⟩], [], []]⟩

/-- The red-black tree after `Set(1, samplePerson)`. -/
def RBTree.sample : RBTree.Tree Nat := .node .kBlack .nil 1 samplePerson .nil

/-- The B+ tree after `Set(1, samplePerson)`. -/
def BPlusTree.sample : BPlusTree.Tree Nat := ⟨.Leaf 0 [1] [samplePerson] none, 0, 1⟩

end s21

namespace s21

/-! ## The shape of the trees, as the structural properties name it -/

namespace RBTree

section
variable {K : Type} [LinearOrder K]

/-- A tree and every tree below it: one entry for every node and one for every null child. -/
def subtrees : Tree K → List (Tree K)
  | .nil => [.nil]
  | .node c l k v r => .node c l k v r :: (subtrees l ++ subtrees r)

/-- No red node has a red child. -/
def NoRedRed : Tree K → Prop
  | .nil => True
  | .node c l _ _ r => (c = .kRed → isRed l = false ∧ isRed r = false) ∧ NoRedRed l ∧ NoRedRed r

/-- The number of black nodes on each path from the root of a tree down to a null child, one
entry per path, from left to right. -/
def blackCounts : Tree K → List Nat
  | .nil => [0]
  | .node c l _ _ r =>
    (blackCounts l ++ blackCounts r).map fun n => n + if c = .kBlack then 1 else 0

end

/-- A sample tree with red nodes: what `Set` of the keys 2, 1 and 3 leaves. -/
def sampleThree : Tree Nat :=
  .node .kBlack (.node .kRed .nil 1 samplePerson .nil) 2 samplePerson
    (.node .kRed .nil 3 samplePerson .nil)

end RBTree

namespace BPlusTree

section
variable {K : Type} [LinearOrder K]

mutual
/-- The depth of each leaf below a node that lies at depth `d`, from left to right. -/
def leafDepths (d : Nat) : Node K → List Nat
  | .Leaf _ _ _ _ => [d]
  | .Internal _ cs => leafDepthsIn (d + 1) cs
/-- The depth of each leaf below a list of nodes that lie at depth `d`. -/
def leafDepthsIn (d : Nat) : List (Node K) → List Nat
  | [] => []
  | c :: cs => leafDepths d c ++ leafDepthsIn d cs
end

mutual
/-- The nodes below a node: its children, their children, and so on. -/
def below : Node K → List (Node K)
  | .Leaf _ _ _ _ => []
  | .Internal _ cs => belowIn cs
/-- The nodes of a list and the nodes below them. -/
def belowIn : List (Node K) → List (Node K)
  | [] => []
  | c :: cs => c :: (below c ++ belowIn cs)
end

mutual
/-- Every key stored in a node or below it (separators and leaf keys). -/
def allKeys : Node K → List K
  | .Leaf _ ks _ _ => ks
  | .Internal ks cs => ks ++ allKeysIn cs
/-- Every key stored in the nodes of a list or below them. -/
def allKeysIn : List (Node K) → List K
  | [] => []
  | c :: cs => allKeys c ++ allKeysIn cs
end

/-- An `Internal` with `n` keys has `n + 1` children, its keys are strictly ascending, and
for each key `k` at place `i` every key stored in child `i` is below `k` and every key stored
in child `i + 1` is at least `k`. Nothing is asked of a `Leaf`. -/
def SeparatorsOk : Node K → Prop
  | .Leaf _ _ _ _ => True
  | .Internal ks cs =>
    cs.length = ks.length + 1 ∧ ks.Pairwise (· < ·) ∧
      ∀ (i : Nat) (k : K), ks[i]? = some k →
        (∀ c, cs[i]? = some c → ∀ key ∈ allKeys c, key < k) ∧
        (∀ c, cs[i + 1]? = some c → ∀ key ∈ allKeys c, k ≤ key)

/-- The number of children of an `Internal`; `none` for a `Leaf`. -/
def childCount : Node K → Option Nat
  | .Leaf _ _ _ _ => none
  | .Internal _ cs => some cs.length

/-- The calls `Set(k, v)` for the keys `k` of a list, in order, each on the tree the call
before it left. -/
def setAll (v : Person) : List K → Tree K → Option (Tree K)
  | [], t => some t
  | k :: ks, t => (Set t k v).bind fun r => setAll v ks r.2

end

/-- A sample tree of three levels: what `Set` of the keys `0, …, 85` in ascending order
leaves of the empty tree. -/
def sampleRun : Tree Nat := (setAll samplePerson (List.range 86) init).getD init

end BPlusTree

end s21

namespace s21

/-! ## `async_pool.h` and the time-to-live bookkeeping of the three stores

The scheduler is explicit state. The clock is a parameter of every operation that reads it:
an instant is a whole number of ticks of `Clock`. The thread of a task and the collector of
`Manager` run as steps of their own (`due`, `finish`, `collect`); a step is taken as a
whole, the way a call that holds the mutex of the store is. -/

/-- One more than the largest `size_t`: the counter `last_id_` wraps at this value. -/
def sizeMod : Nat := 2 ^ 64

/-- The ticks of `Clock` in one second: `high_resolution_clock` counts nanoseconds. -/
def ticksPerSecond : Int := 1000000000

/-- The entry `struct Info` of a task. The member `future` is the bound `task` (for the
stores: the key `k` of the lambda that calls `Delete(k)`) together with `ready`, which says
that the thread of the task has ended. -/
structure Info (A : Type) where
  task : A
  ready : Bool
  delete_time : Int
  remove : Bool
deriving Repr

/-- The members `tasks_`, `last_id_` and `stop_` of `AsyncPool`. -/
structure AsyncPool (A : Type) where
  tasks : List (Nat × Info A)
  last_id : Nat
  stop : Bool
deriving Repr

namespace AsyncPool

section
variable {A : Type}

/-- The state after the constructor: no task, `last_id_ = 0`, `stop_ = false`. -/
def init : AsyncPool A := ⟨[], 0, false⟩

/-- The lookup `tasks_.find(id)`; `none` is `tasks_.end()`. -/
def find (p : AsyncPool A) (id : Nat) : Option (Info A) := p.tasks.lookup id

/-- The loop `while (tasks_.find(last_id_) != tasks_.end()) ++last_id_;` from the value `id`
of `last_id_`. The first argument bounds the number of iterations. -/
def skipUsed (p : AsyncPool A) : Nat → Nat → Option Nat
  | 0, _ => none
  | fuel + 1, id =>
    match p.find id with
    | some _ => skipUsed p fuel ((id + 1) % sizeMod)
    | none => some id

/-- `DelayTask(sec, task)` when `Clock::now()` is `now`: the id returned and the new state.
The entry `tasks_[last_id_]` gets the deadline `now + sec`, and `last_id_++` is returned. -/
def DelayTask (p : AsyncPool A) (now sec : Int) (task : A) : Option (Nat × AsyncPool A) :=
  (skipUsed p (p.tasks.length + 1) p.last_id).map fun id =>
    (id, { p with
      tasks := (id, ⟨task, false, now + sec * ticksPerSecond, false⟩) :: p.tasks
      last_id := (id + 1) % sizeMod })

/-- `GetRemainTime(id)` when `Clock::now()` is `now`, in seconds: `duration_cast<seconds>`
rounds toward zero. -/
def GetRemainTime (p : AsyncPool A) (id : Nat) (now : Int) : Int :=
  match p.find id with
  | some info =>
    let sec := (info.delete_time - now).tdiv ticksPerSecond
    if sec > 0 then sec else 0
  | none => 0

/-- `StopTask(id)`. -/
def StopTask (p : AsyncPool A) (id : Nat) : AsyncPool A :=
  { p with tasks := p.tasks.map fun e =>
      if e.1 = id then (e.1, { e.2 with remove := true }) else e }

/-- What the thread of task `id` does when it wakes up at `now`: `none` when there is no
such thread any more or when it goes back to sleep, `some none` when it ends without
running the task (`remove` or `stop_`), `some (some task)` when it runs the task and ends. -/
def due (p : AsyncPool A) (id : Nat) (now : Int) : Option (Option A) :=
  match p.find id with
  | some info =>
    if info.ready then none
    else if info.remove || p.stop then some none
    else if info.delete_time ≤ now then some (some info.task)
    else none
  | none => none

/-- The thread of task `id` has ended: its future is ready. -/
def finish (p : AsyncPool A) (id : Nat) : AsyncPool A :=
  { p with tasks := p.tasks.map fun e =>
      if e.1 = id then (e.1, { e.2 with ready := true }) else e }

/-- One pass of the collector of `Manager`: of the entries it visits (`ids`) those whose
future is ready are erased. -/
def collect (p : AsyncPool A) (ids : List Nat) : AsyncPool A :=
  { p with tasks := p.tasks.filter fun e => !(e.2.ready && ids.contains e.1) }

end

end AsyncPool

/-- A store with its bookkeeping: the data (`data_`, or `root_` and what hangs below it),
the map `delay_deletions_` (`deletion_queue_` in the hash table) from keys to task ids, and
the scheduler `pool_`. -/
structure Store (S K : Type) where
  data : S
  queue : List (K × Nat)
  pool : AsyncPool K
deriving Repr

namespace Store

section
variable {S K : Type} [LinearOrder K]

/-- `Ttl(key)` when `Clock::now()` is `now`; the three stores have the same body. The
count of seconds is at most the `int` lifetime the task was scheduled with, so the
conversion to the `int` that is returned keeps its value. -/
def Ttl (s : Store S K) (key : K) (now : Int) : Int :=
  match s.queue.lookup key with
  | some id => s.pool.GetRemainTime id now
  | none => -1

/-- The call `emplace(key, id)` of `std::map`: nothing happens when the key is there. -/
def emplace (key : K) (id : Nat) (q : List (K × Nat)) : List (K × Nat) :=
  match q.lookup key with
  | some _ => q
  | none => (key, id) :: q

/-- The block `if (lifetime > -1) { id = pool_.DelayTask(seconds(lifetime), [&, key] {
Delete(key); }); delay_deletions_.emplace(key, id); }` of the three `Set`. -/
def schedule (s : Store S K) (key : K) (lifetime now : Int) : Option (Store S K) :=
  if lifetime > -1 then
    (s.pool.DelayTask now lifetime key).map fun r =>
      { s with queue := emplace key r.1 s.queue, pool := r.2 }
  else some s

/-- The block `itr = delay_deletions_.find(key); if (itr != end()) {
pool_.StopTask(itr->second); delay_deletions_.erase(itr); }` of the three `Delete`. -/
def cancel (s : Store S K) (key : K) : Store S K :=
  match s.queue.lookup key with
  | some id =>
    { s with queue := s.queue.filter fun e => !(e.1 == key), pool := s.pool.StopTask id }
  | none => s

end

end Store

namespace HashTable

namespace Timed

section
variable {K : Type} [LinearOrder K]

/-- The constructor `HashTable(capacity)`. -/
def init (capacity : Nat) : Store (Table K) K := ⟨HashTable.init capacity, [], AsyncPool.init⟩

/-- `HashTable::Set` with the bookkeeping: the data part refuses a present key; otherwise
the task is scheduled when `lifetime > -1`, and the entry is pushed. -/
def Set (hash : K → Nat) (s : Store (Table K) K) (key : K) (value : Person)
    (lifetime now : Int) : Option (Bool × Store (Table K) K) :=
  (HashTable.Set hash s.data key value lifetime).bind fun r =>
    if r.1 then (s.schedule key lifetime now).map fun s1 => (true, { s1 with data := r.2 })
    else some (false, s)

/-- `HashTable::Delete` with the bookkeeping: when the key is found its task is stopped and
its binding erased, then the entry is removed. -/
def Delete (hash : K → Nat) (s : Store (Table K) K) (key : K) :
    Option (Bool × Store (Table K) K) :=
  (HashTable.Delete hash s.data key).map fun r =>
    if r.1 then (true, { s.cancel key with data := r.2 }) else (false, s)

/-- `HashTable::Update`: the bookkeeping is not touched. -/
def Update (hash : K → Nat) (s : Store (Table K) K) (key : K) (value : Person) :
    Option (Bool × Store (Table K) K) :=
  (HashTable.Update hash s.data key value).map fun r => (r.1, { s with data := r.2 })

/-- `HashTable::Rename` with the bookkeeping. `tTtl` is the instant at which `Ttl(node.key)`
reads the clock, `tSet` the instant at which `Set` does. -/
def Rename (hash : K → Nat) (s : Store (Table K) K) (kFrom kTo : K) (tTtl tSet : Int) :
    Option (Bool × Store (Table K) K) :=
  (Exists hash s.data kTo).bind fun eTo =>
    (if eTo then (Exists hash s.data kFrom).map fun eFrom => eFrom && kFrom == kTo
      else some false).bind fun same =>
    if same then some (true, s)
    else (Exists hash s.data kTo).bind fun eTo2 =>
      if eTo2 then some (false, s)
      else (bucket hash s.data kFrom).bind fun b =>
        match b.find? fun node => node.key == kFrom with
        | some node =>
          (Set hash s kTo node.value (s.Ttl node.key tTtl) tSet).bind fun r =>
            Delete hash r.2 kFrom
        | none => some (false, s)

/-- The thread of task `id` wakes up at `now` and ends: when the task is due and neither
removed nor stopped, the lambda runs `Delete(key)` first. `none`: no such step. -/
def Fire (hash : K → Nat) (s : Store (Table K) K) (id : Nat) (now : Int) :
    Option (Store (Table K) K) :=
  match s.pool.due id now with
  | some (some key) =>
    (Delete hash s key).map fun r => { r.2 with pool := r.2.pool.finish id }
  | some none => some { s with pool := s.pool.finish id }
  | none => none

/-- The stores reachable from a freshly constructed one of capacity at least one by the
public mutating operations, the tasks that fire and the passes of the collector. -/
inductive Reachable (hash : K → Nat) : Store (Table K) K → Prop
  | init (capacity : Nat) (h : 0 < capacity) : Reachable hash (init capacity)
  | set {s s1 : Store (Table K) K} {key : K} {value : Person} {lifetime now : Int} {b : Bool} :
      Reachable hash s → Set hash s key value lifetime now = some (b, s1) → Reachable hash s1
  | update {s s1 : Store (Table K) K} {key : K} {value : Person} {b : Bool} :
      Reachable hash s → Update hash s key value = some (b, s1) → Reachable hash s1
  | delete {s s1 : Store (Table K) K} {key : K} {b : Bool} :
      Reachable hash s → Delete hash s key = some (b, s1) → Reachable hash s1
  | rename {s s1 : Store (Table K) K} {kFrom kTo : K} {tTtl tSet : Int} {b : Bool} :
      Reachable hash s → Rename hash s kFrom kTo tTtl tSet = some (b, s1) → Reachable hash s1
  | fire {s s1 : Store (Table K) K} {id : Nat} {now : Int} :
      Reachable hash s → Fire hash s id now = some s1 → Reachable hash s1
  | collect {s : Store (Table K) K} (ids : List Nat) :
      Reachable hash s → Reachable hash { s with pool := s.pool.collect ids }

end

end Timed

end HashTable

namespace RBTree

namespace Timed

section
variable {K : Type} [LinearOrder K]

/-- The freshly constructed tree. -/
def init : Store (Tree K) K := ⟨.nil, [], AsyncPool.init⟩

/-- `Set` with the bookkeeping: `if (res && lifetime > -1)` the task is scheduled. -/
def Set (s : Store (Tree K) K) (key : K) (value : Person) (lifetime now : Int) :
    Option (Bool × Store (Tree K) K) :=
  (RBTree.Set s.data key value).bind fun r =>
    if r.1 then
      ({ s with data := r.2 }.schedule key lifetime now).map fun s1 => (true, s1)
    else some (false, { s with data := r.2 })

/-- `Delete` with the bookkeeping: the task of the key is stopped and its binding erased
first, whether or not the key is in the tree. -/
def Delete (s : Store (Tree K) K) (key : K) : Option (Bool × Store (Tree K) K) :=
  (RBTree.Delete (s.cancel key).data key).map fun r => (r.1, { s.cancel key with data := r.2 })

/-- `Update`: the bookkeeping is not touched. -/
def Update (s : Store (Tree K) K) (key : K) (value : Person) : Bool × Store (Tree K) K :=
  ((RBTree.Update s.data key value).1, { s with data := (RBTree.Update s.data key value).2 })

/-- `Rename` with the bookkeeping. `tTtl` is the instant at which `Ttl(from)` reads the
clock, `tSet` the instant at which `Set` does. -/
def Rename (s : Store (Tree K) K) (kFrom kTo : K) (tTtl tSet : Int) :
    Option (Bool × Store (Tree K) K) :=
  match GetNode kFrom s.data [] with
  | some (.node _ _ _ value _, _) =>
    if kFrom = kTo then some (true, s)
    else
      (Set s kTo value (s.Ttl kFrom tTtl) tSet).bind fun r =>
        if r.1 then (Delete r.2 kFrom).map fun d => (true, d.2) else some (false, r.2)
  | _ => some (false, s)

/-- The thread of task `id` wakes up at `now` and ends: when the task is due and neither
removed nor stopped, the lambda runs `Delete(key)` first. `none`: no such step. -/
def Fire (s : Store (Tree K) K) (id : Nat) (now : Int) : Option (Store (Tree K) K) :=
  match s.pool.due id now with
  | some (some key) => (Delete s key).map fun r => { r.2 with pool := r.2.pool.finish id }
  | some none => some { s with pool := s.pool.finish id }
  | none => none

/-- The stores reachable from the freshly constructed one by the public mutating
operations, the tasks that fire and the passes of the collector. -/
inductive Reachable : Store (Tree K) K → Prop
  | init : Reachable init
  | set {s s1 : Store (Tree K) K} {key : K} {value : Person} {lifetime now : Int} {b : Bool} :
      Reachable s → Set s key value lifetime now = some (b, s1) → Reachable s1
  | update {s s1 : Store (Tree K) K} {key : K} {value : Person} {b : Bool} :
      Reachable s → Update s key value = (b, s1) → Reachable s1
  | delete {s s1 : Store (Tree K) K} {key : K} {b : Bool} :
      Reachable s → Delete s key = some (b, s1) → Reachable s1
  | rename {s s1 : Store (Tree K) K} {kFrom kTo : K} {tTtl tSet : Int} {b : Bool} :
      Reachable s → Rename s kFrom kTo tTtl tSet = some (b, s1) → Reachable s1
  | fire {s s1 : Store (Tree K) K} {id : Nat} {now : Int} :
      Reachable s → Fire s id now = some s1 → Reachable s1
  | collect {s : Store (Tree K) K} (ids : List Nat) :
      Reachable s → Reachable { s with pool := s.pool.collect ids }

end

end Timed

end RBTree

namespace BPlusTree

namespace Timed

section
variable {K : Type} [LinearOrder K]

/-- The freshly constructed tree. -/
def init : Store (Tree K) K := ⟨BPlusTree.init, [], AsyncPool.init⟩

/-- `Set` with the bookkeeping: after a successful insertion the task is scheduled when
`lifetime > -1`. -/
def Set (s : Store (Tree K) K) (key : K) (value : Person) (lifetime now : Int) :
    Option (Bool × Store (Tree K) K) :=
  (BPlusTree.Set s.data key value).bind fun r =>
    if r.1 then
      ({ s with data := r.2 }.schedule key lifetime now).map fun s1 => (true, s1)
    else some (false, s)

/-- `Delete` with the bookkeeping: the task of the key is stopped and its binding erased
first, whether or not the key is in the tree. -/
def Delete (s : Store (Tree K) K) (key : K) : Option (Bool × Store (Tree K) K) :=
  (BPlusTree.Delete (s.cancel key).data key).map fun r =>
    (r.1, { s.cancel key with data := r.2 })

/-- `Update`: the bookkeeping is not touched. -/
def Update (s : Store (Tree K) K) (key : K) (value : Person) :
    Option (Bool × Store (Tree K) K) :=
  (BPlusTree.Update s.data key value).map fun r => (r.1, { s with data := r.2 })

/-- `Rename` with the bookkeeping. `tTtl` is the instant at which `Ttl(from)` reads the
clock, `tSet` the instant at which `Set` does. -/
def Rename (s : Store (Tree K) K) (kFrom kTo : K) (tTtl tSet : Int) :
    Option (Bool × Store (Tree K) K) :=
  match GetLeaf kFrom s.data.root [] with
  | some (.Leaf _ keys data _, _) =>
    if kFrom ∈ keys then
      if kFrom = kTo then some (true, s)
      else
        (Leaf.GetValue kFrom keys data).bind fun value =>
          (Set s kTo value (s.Ttl kFrom tTtl) tSet).bind fun r =>
            if r.1 then (Delete r.2 kFrom).map fun d => (true, d.2) else some (false, r.2)
    else some (false, s)
  | _ => none

/-- The thread of task `id` wakes up at `now` and ends: when the task is due and neither
removed nor stopped, the lambda runs `Delete(key)` first. `none`: no such step. -/
def Fire (s : Store (Tree K) K) (id : Nat) (now : Int) : Option (Store (Tree K) K) :=
  match s.pool.due id now with
  | some (some key) => (Delete s key).map fun r => { r.2 with pool := r.2.pool.finish id }
  | some none => some { s with pool := s.pool.finish id }
  | none => none

/-- The stores reachable from the freshly constructed one by the public mutating
operations, the tasks that fire and the passes of the collector. -/
inductive Reachable : Store (Tree K) K → Prop
  | init : Reachable init
  | set {s s1 : Store (Tree K) K} {key : K} {value : Person} {lifetime now : Int} {b : Bool} :
      Reachable s → Set s key value lifetime now = some (b, s1) → Reachable s1
  | update {s s1 : Store (Tree K) K} {key : K} {value : Person} {b : Bool} :
      Reachable s → Update s key value = some (b, s1) → Reachable s1
  | delete {s s1 : Store (Tree K) K} {key : K} {b : Bool} :
      Reachable s → Delete s key = some (b, s1) → Reachable s1
  | rename {s s1 : Store (Tree K) K} {kFrom kTo : K} {tTtl tSet : Int} {b : Bool} :
      Reachable s → Rename s kFrom kTo tTtl tSet = some (b, s1) → Reachable s1
  | fire {s s1 : Store (Tree K) K} {id : Nat} {now : Int} :
      Reachable s → Fire s id now = some s1 → Reachable s1
  | collect {s : Store (Tree K) K} (ids : List Nat) :
      Reachable s → Reachable { s with pool := s.pool.collect ids }

end

end Timed

end BPlusTree

end s21

namespace s21

namespace Store

section
variable {S K : Type} [LinearOrder K]

/-- The invariant of the bookkeeping, for a store whose keys are told by `present`: the
scheduler is not stopped, and every key bound in the map is present in the store and bound
to a task of the scheduler that holds this key, is not removed and has not ended. -/
def Ok (present : S → K → Prop) (s : Store S K) : Prop :=
  s.pool.stop = false ∧
  ∀ k id, s.queue.lookup k = some id →
    present s.data k ∧
    ∃ info, s.pool.find id = some info ∧ info.task = k ∧ info.remove = false ∧
      info.ready = false

/-- The bookkeeping of `s1` is that of `s` after the block of `Set` for `key`: when
`lifetime > -1` the key is bound to an id that no task of `s` had, whose new task holds the
key, has the deadline `now + lifetime` and is neither removed nor ended, and nothing else
changed; otherwise the map and the scheduler are the same. -/
def Scheduled (s s1 : Store S K) (key : K) (lifetime now : Int) : Prop :=
  (lifetime > -1 → ∃ id, s.pool.find id = none ∧
    (∀ k, s1.queue.lookup k = if k = key then some id else s.queue.lookup k) ∧
    ∀ id1, s1.pool.find id1 =
      if id1 = id then some ⟨key, false, now + lifetime * ticksPerSecond, false⟩
      else s.pool.find id1) ∧
  (¬ lifetime > -1 → s1.queue = s.queue ∧ s1.pool = s.pool)

/-- The bookkeeping of `s1` is that of `s` after the block of `Delete` for `key`: the key
is not bound, the task it was bound to is marked removed, and nothing else changed. -/
def Cancelled (s s1 : Store S K) (key : K) : Prop :=
  (∀ k, s1.queue.lookup k = if k = key then none else s.queue.lookup k) ∧
  ∀ id1, s1.pool.find id1 =
    (s.pool.find id1).map fun info =>
      if s.queue.lookup key = some id1 then { info with remove := true } else info

/-- What a call of `Set(k, v, lifetime)` at `now` that returned `b` did to the bookkeeping:
when it returned true with `lifetime ≥ 0`, the key had no binding and is now bound to an id
that no task had, whose new task holds the key, has the deadline `now + lifetime` and is
neither removed nor ended; otherwise the map and the scheduler are what they were. -/
def SetBinds (s s1 : Store S K) (k : K) (b : Bool) (lifetime now : Int) : Prop :=
  (b = true ∧ 0 ≤ lifetime → s.queue.lookup k = none ∧
    ∃ id, s.pool.find id = none ∧ s1.queue.lookup k = some id ∧
      s1.pool.find id = some ⟨k, false, now + lifetime * ticksPerSecond, false⟩) ∧
  (¬ (b = true ∧ 0 ≤ lifetime) → s1.queue = s.queue ∧ s1.pool = s.pool)

/-- What a call of `Delete(k)` did to the bookkeeping: the key has no binding, and the task
it was bound to is marked removed. -/
def Unbinds (s s1 : Store S K) (k : K) : Prop :=
  s1.queue.lookup k = none ∧
  ∀ id, s.queue.lookup k = some id →
    ∃ info, s1.pool.find id = some info ∧ info.remove = true

/-- What a call of `Rename(kFrom, kTo)` at `now` did to the time to live: `Ttl(kFrom)` is
now -1, `Ttl(kTo)` is what `Ttl(kFrom)` was, and the task `kFrom` was bound to is marked
removed. The value: when `kFrom` had no binding, `Ttl(kTo)` is -1 and `kTo` has no binding;
when `kFrom` was bound to a task with the deadline `d`, `Ttl(kTo)` is the number `r` of whole
seconds from `now` to `d` (`r` seconds are not more than what remains and `r + 1` seconds
are more; 0 when `d` has passed), and `kTo` is bound to a new task that holds `kTo`, has the
deadline `now + r` seconds and is neither removed nor ended. -/
def TtlMoved (s s1 : Store S K) (kFrom kTo : K) (now : Int) : Prop :=
  s1.Ttl kFrom now = -1 ∧ s1.Ttl kTo now = s.Ttl kFrom now ∧
  (∀ id, s.queue.lookup kFrom = some id →
    ∃ info, s1.pool.find id = some info ∧ info.remove = true) ∧
  (s.queue.lookup kFrom = none → s1.Ttl kTo now = -1 ∧ s1.queue.lookup kTo = none) ∧
  ∀ id, s.queue.lookup kFrom = some id →
    ∃ (info : Info K) (r : Int), s.pool.find id = some info ∧ s1.Ttl kTo now = r ∧ 0 ≤ r ∧
      (now < info.delete_time → r * ticksPerSecond ≤ info.delete_time - now ∧
        info.delete_time - now < (r + 1) * ticksPerSecond) ∧
      (info.delete_time ≤ now → r = 0) ∧
      ∃ id1, s.pool.find id1 = none ∧ s1.queue.lookup kTo = some id1 ∧
        s1.pool.find id1 = some ⟨kTo, false, now + r * ticksPerSecond, false⟩

/-- `Ttl(k)` read less than one second after the instant `t0` is `lifetime - 1` or
`lifetime`, and not negative. -/
def TtlFresh (s1 : Store S K) (k : K) (lifetime t0 : Int) : Prop :=
  ∀ t, t0 ≤ t → t < t0 + ticksPerSecond →
    lifetime - 1 ≤ s1.Ttl k t ∧ s1.Ttl k t ≤ lifetime ∧ 0 ≤ s1.Ttl k t

end

end Store

namespace AsyncPool

/-- The states of a scheduler after `n` calls of `DelayTask`, with calls of `StopTask`,
threads that end and passes of the collector in between. -/
inductive Reachable {A : Type} : Nat → AsyncPool A → Prop
  | init : Reachable 0 init
  | delay {n : Nat} {p p1 : AsyncPool A} {now sec : Int} {task : A} {id : Nat} :
      Reachable n p → p.DelayTask now sec task = some (id, p1) → Reachable (n + 1) p1
  | stop {n : Nat} {p : AsyncPool A} (id : Nat) : Reachable n p → Reachable n (p.StopTask id)
  | finish {n : Nat} {p : AsyncPool A} (id : Nat) : Reachable n p → Reachable n (p.finish id)
  | collect {n : Nat} {p : AsyncPool A} (ids : List Nat) :
      Reachable n p → Reachable n (p.collect ids)

end AsyncPool

/-- The bookkeeping of the sample stores: key 1 is bound to task 0, which is due five
seconds after the instant 0. -/
def sampleQueue : List (Nat × Nat) := [(1, 0)]

/-- The scheduler of the sample stores. -/
def samplePool : AsyncPool Nat := ⟨[(0, ⟨1, false, 5000000000, false⟩)], 1, false⟩

namespace HashTable

/-- A sample hash table with its bookkeeping: what `Set(1, samplePerson, 5)` at the instant
0 leaves of the fresh table of capacity 4. -/
def Timed.sample : Store (Table Nat) Nat :=
  ⟨⟨4, [[], [⟨1, samplePerson, 5⟩], [], []]⟩, sampleQueue, samplePool⟩

/-- The invariant of a hash table with its bookkeeping. -/
def Timed.Inv {K : Type} [LinearOrder K] (hash : K → Nat) (s : Store (Table K) K) : Prop :=
  HashTable.Inv hash s.data ∧ Store.Ok (fun t k => Exists hash t k = some true) s

end HashTable

namespace RBTree

/-- A sample red-black tree with its bookkeeping: what `Set(1, samplePerson, 5)` at the
instant 0 leaves of the fresh tree. -/
def Timed.sample : Store (Tree Nat) Nat := ⟨RBTree.sample, sampleQueue, samplePool⟩

/-- The invariant of a red-black tree with its bookkeeping. -/
def Timed.Inv {K : Type} [LinearOrder K] (s : Store (Tree K) K) : Prop :=
  RBTree.Inv s.data ∧ Store.Ok (fun t k => Exists t k = true) s

end RBTree

namespace BPlusTree

/-- A sample B+ tree with its bookkeeping: what `Set(1, samplePerson, 5)` at the instant 0
leaves of the fresh tree. -/
def Timed.sample : Store (Tree Nat) Nat := ⟨BPlusTree.sample, sampleQueue, samplePool⟩

/-- The invariant of a B+ tree with its bookkeeping. -/
def Timed.Inv {K : Type} [LinearOrder K] (s : Store (Tree K) K) : Prop :=
  BPlusTree.Inv s.data ∧ Store.Ok (fun t k => Exists t k = some true) s

end BPlusTree

end s21

namespace s21

/-! ## Calls in lockstep on two backends -/

/-- A call of the interface `KeyValueStorage` that reads or writes records: `Set` without
lifetime, `Get`, `Exists`, `Delete`, `Update`, `Rename`, `Keys`, `Find` and `ShowAll`. -/
inductive Call (K : Type) where
  | Set (key : K) (value : Person)
  | Get (key : K)
  | Exists (key : K)
  | Delete (key : K)
  | Update (key : K) (value : Person)
  | Rename (kFrom kTo : K)
  | Keys
  | Find (value : Person)
  | ShowAll

/-- What a call returns. -/
inductive Reply (K : Type) where
  | bool (b : Bool)
  | record (value : Person)
  | keys (ks : List K)
  | records (vs : List Person)
deriving DecidableEq

namespace RBTree

section
variable {K : Type} [LinearOrder K]

/-- One call on the red-black tree: what it returns and the tree it leaves. -/
def call (t : Tree K) : Call K → Option (Reply K × Tree K)
  | .Set key value => (Set t key value).map fun r => (.bool r.1, r.2)
  | .Get key => some (.record (Get t key), t)
  | .Exists key => some (.bool (Exists t key), t)
  | .Delete key => (Delete t key).map fun r => (.bool r.1, r.2)
  | .Update key value => some (.bool (Update t key value).1, (Update t key value).2)
  | .Rename kFrom kTo => (Rename t kFrom kTo).map fun r => (.bool r.1, r.2)
  | .Keys => (Keys t).map fun ks => (.keys ks, t)
  | .Find value => (Find t value).map fun ks => (.keys ks, t)
  | .ShowAll => (ShowAll t).map fun vs => (.records vs, t)

/-- A sequence of calls from the tree `t`: what the calls return, in order. -/
def run : Tree K → List (Call K) → Option (List (Reply K))
  | _, [] => some []
  | t, c :: cs => (call t c).bind fun r => (run r.2 cs).map fun rs => r.1 :: rs

end

end RBTree

namespace BPlusTree

section
variable {K : Type} [LinearOrder K]

/-- One call on the B+ tree: what it returns and the tree it leaves. -/
def call (t : Tree K) : Call K → Option (Reply K × Tree K)
  | .Set key value => (Set t key value).map fun r => (.bool r.1, r.2)
  | .Get key => (Get t key).map fun v => (.record v, t)
  | .Exists key => (Exists t key).map fun b => (.bool b, t)
  | .Delete key => (Delete t key).map fun r => (.bool r.1, r.2)
  | .Update key value => (Update t key value).map fun r => (.bool r.1, r.2)
  | .Rename kFrom kTo => (Rename t kFrom kTo).map fun r => (.bool r.1, r.2)
  | .Keys => (Keys t).map fun ks => (.keys ks, t)
  | .Find value => (Find t value).map fun ks => (.keys ks, t)
  | .ShowAll => (ShowAll t).map fun vs => (.records vs, t)

/-- A sequence of calls from the tree `t`: what the calls return, in order. -/
def run : Tree K → List (Call K) → Option (List (Reply K))
  | _, [] => some []
  | t, c :: cs => (call t c).bind fun r => (run r.2 cs).map fun rs => r.1 :: rs

end

end BPlusTree

/-- The calls `Set("b", _)`, `Set("a", _)`, `Set("c", v)` with `v.last_name = "-"`,
`Delete("b")` and `Get("c")`. -/
def sampleCalls : List (Call String) :=
  [.Set "b" ⟨"B", "b", "2", "y", "2"⟩, .Set "a" ⟨"A", "a", "1", "x", "1"⟩,
    .Set "c" ⟨"-", "c", "3", "z", "3"⟩, .Delete "b", .Get "c"]

end s21

namespace s21

/-! ## Text streams, the reader and writer of `Person`, `Export` and `Upload`

A text is a list of characters. An input stream is the text not yet extracted together
with `eofbit` and `failbit`; the formatted extractions follow the C++ standard library
(`skipws` is set, the width is 0, the locale is "C"). In `Export` and `Upload` the file is
taken to open; the keys are `std::string`s, here `String`s. The `int` counters are natural
numbers. -/

/-- `std::isspace` in the "C" locale. -/
def isspace (c : Char) : Bool :=
  c = ' ' || c = '\t' || c = '\n' || c = '\x0b' || c = '\x0c' || c = '\x0d'

/-- `std::isdigit`. -/
def isdigit (c : Char) : Bool := '0' ≤ c && c ≤ '9'

/-- An input stream: the characters not yet extracted, `eofbit` and `failbit`. -/
structure IStream where
  buf : List Char
  eof : Bool
  fail : Bool
deriving Repr, DecidableEq

namespace IStream

/-- A stream on a text that was just opened. -/
def ofText (text : List Char) : IStream := ⟨text, false, false⟩

/-- `good()`. -/
def good (s : IStream) : Bool := !s.eof && !s.fail

/-- The `sentry` of a formatted extraction with `skipws` set: a stream that is not good
fails; otherwise white space is skipped, and reaching the end sets `eofbit` and
`failbit`. -/
def sentry (s : IStream) : Bool × IStream :=
  if s.good then
    match s.buf.dropWhile isspace with
    | [] => (false, ⟨[], true, true⟩)
    | c :: rest => (true, { s with buf := c :: rest })
  else (false, { s with fail := true })

/-- `stream >> str` for a `std::string`: after the sentry the characters up to the next
white space or the end are extracted; reaching the end sets `eofbit`, extracting nothing
sets `failbit`. When the sentry fails the string keeps its value `old`. -/
def getString (old : List Char) (s : IStream) : List Char × IStream :=
  match sentry s with
  | (false, s1) => (old, s1)
  | (true, s1) =>
    let word := s1.buf.takeWhile fun c => !isspace c
    let rest := s1.buf.dropWhile fun c => !isspace c
    (word, ⟨rest, rest.isEmpty, word.isEmpty⟩)

/-- `stream >> c` for a `char`, with `skipws` set. -/
def getChar (s : IStream) : Option Char × IStream :=
  match sentry s with
  | (false, s1) => (none, s1)
  | (true, s1) =>
    match s1.buf with
    | [] => (none, { s1 with eof := true, fail := true })
    | c :: rest => (some c, { s1 with buf := rest })

/-- The loop of `stream >> std::quoted(str)` after the opening quote, with `skipws` off:
the characters up to the closing quote are appended to `acc`, a backslash is dropped and
the character after it is appended whatever it is (`esc` tells that the character before
was such a backslash); the end of the text sets `eofbit` and `failbit`. -/
def quotedLoop : Bool → List Char → List Char → List Char × IStream
  | _, acc, [] => (acc, ⟨[], true, true⟩)
  | true, acc, c :: rest => quotedLoop false (acc ++ [c]) rest
  | false, acc, c :: rest =>
    if c = '\\' then quotedLoop true acc rest
    else if c = '"' then (acc, ⟨rest, false, false⟩)
    else quotedLoop false (acc ++ [c]) rest

/-- `stream >> std::quoted(str)`: the first character after white space is extracted; when
it is a double quote the quoted text is read, otherwise it is put back and `stream >> str`
reads a word. -/
def getQuoted (old : List Char) (s : IStream) : List Char × IStream :=
  match getChar s with
  | (none, s1) => (old, s1)
  | (some c, s1) =>
    if c = '"' then quotedLoop false [] s1.buf
    else getString old { s1 with buf := c :: s1.buf }

end IStream

/-- `stream << std::quoted(str)`: a double quote, the characters of `str` with a backslash
before each double quote and each backslash, and a double quote. -/
def quoted (str : List Char) : List Char :=
  '"' :: (str.flatMap fun c => if c = '"' ∨ c = '\\' then ['\\', c] else [c]) ++ ['"']

namespace Person

/-- The writer `operator<<`: the text written for a record. -/
def write (data : Person) : List Char :=
  quoted data.last_name.data ++ ' ' :: quoted data.first_name.data ++ ' ' ::
    data.birthday.data ++ ' ' :: quoted data.city.data ++ ' ' :: data.coins.data

/-- The reader `operator>>`: the five extractions in a row, each on the stream the one
before left. `old` is the record read into. -/
def read (old : Person) (s : IStream) : Person × IStream :=
  let r1 := IStream.getQuoted old.last_name.data s
  let r2 := IStream.getQuoted old.first_name.data r1.2
  let r3 := IStream.getString old.birthday.data r2.2
  let r4 := IStream.getQuoted old.city.data r3.2
  let r5 := IStream.getString old.coins.data r4.2
  (⟨⟨r1.1⟩, ⟨r2.1⟩, ⟨r3.1⟩, ⟨r4.1⟩, ⟨r5.1⟩⟩, r5.2)

/-- The text of the form `"<last_name>" "<first_name>" <birthday> "<city>" <coins>`, with
single spaces. -/
def plainForm (data : Person) : List Char :=
  '"' :: data.last_name.data ++ '"' :: ' ' :: '"' :: data.first_name.data ++ '"' :: ' ' ::
    data.birthday.data ++ ' ' :: '"' :: data.city.data ++ '"' :: ' ' :: data.coins.data

/-- The format of the records of the codec: `last_name`, `first_name` and `city` hold no
double quote and no white space, `birthday` and `coins` are non-empty runs of digits. -/
def Formatted (data : Person) : Prop :=
  (∀ c ∈ data.last_name.data, c ≠ '"' ∧ isspace c = false) ∧
  (∀ c ∈ data.first_name.data, c ≠ '"' ∧ isspace c = false) ∧
  (∀ c ∈ data.city.data, c ≠ '"' ∧ isspace c = false) ∧
  data.birthday.data ≠ [] ∧ (∀ c ∈ data.birthday.data, isdigit c = true) ∧
  data.coins.data ≠ [] ∧ (∀ c ∈ data.coins.data, isdigit c = true)

instance (data : Person) : Decidable data.Formatted := by
  unfold Formatted; infer_instance

end Person

/-- The line `<key> <record>` that `Export` writes for an entry. -/
def exportLine (key : String) (value : Person) : List Char :=
  key.data ++ ' ' :: value.write ++ ['\n']

/-- The lines that `Export` writes for a list of entries. -/
def exportLines (es : List (String × Person)) : List Char :=
  es.flatMap fun e => exportLine e.1 e.2

/-- The loop `while (stream >> key >> value) { Set(key, value); ++res; }` of the three
`Upload`; `set` is the call `Set(key, value)` of the store. `key` and `value` are the
variables read into, `n` is the counter. The first argument bounds the number of
iterations. -/
def uploadLoop {S : Type} (set : S → String → Person → Option S) :
    Nat → List Char → Person → IStream → S → Nat → Option (Nat × S)
  | 0, _, _, _, _, _ => none
  | fuel + 1, key, value, s, t, n =>
    let rk := IStream.getString key s
    let rv := Person.read value rk.2
    if rv.2.fail then some (n, t)
    else (set t ⟨rk.1⟩ rv.1).bind fun t1 => uploadLoop set fuel rk.1 rv.1 rv.2 t1 (n + 1)

/-- The calls `Set(key, value)` for the entries of a list, in order, each on the store the
call before it left. -/
def uploadAll {S : Type} (set : S → String → Person → Option S) :
    List (String × Person) → S → Option S
  | [], t => some t
  | e :: es, t => (set t e.1 e.2).bind fun t1 => uploadAll set es t1

/-- A key of the text format: not empty and without white space. -/
def KeyOk (key : String) : Prop := key.data ≠ [] ∧ ∀ c ∈ key.data, isspace c = false

instance (key : String) : Decidable (KeyOk key) := by
  unfold KeyOk; infer_instance

/-- A record of the format of the codec with a backslash in `last_name`. -/
def sampleBackslash : Person := ⟨"a\\b", "c", "1", "d", "2"⟩

/-- A hash function for the sample table with text keys: the length of the key. -/
def HashTable.sampleTextHash (key : String) : Nat := key.length

/-- A sample hash table with a text key. -/
def HashTable.sampleText : HashTable.Table String :=
  ⟨4, [[], [], [⟨"k1", samplePerson, -1⟩], []]⟩

/-- A sample red-black tree with a text key. -/
def RBTree.sampleText : RBTree.Tree String := .node .kBlack .nil "k1" samplePerson .nil

/-- A sample B+ tree with a text key. -/
def BPlusTree.sampleText : BPlusTree.Tree String := ⟨.Leaf 0 ["k1"] [samplePerson] none, 0, 1⟩

namespace HashTable

/-- `HashTable::Export`: the text written and the number returned. -/
def Export (t : Table String) : List Char × Nat :=
  (t.data.flatten.flatMap fun node => exportLine node.key node.value, t.data.flatten.length)

/-- `HashTable::Upload` on a file with the content `text`: the number returned and the new
table. -/
def Upload (hash : String → Nat) (t : Table String) (text : List Char) :
    Option (Nat × Table String) :=
  uploadLoop (fun t key value => (Set hash t key value (-1)).map Prod.snd)
    (text.length + 1) [] Person.empty (IStream.ofText text) t 0

end HashTable

namespace RBTree

/-- `Export`: the text written and the number returned. -/
def Export (root : Tree String) : Option (List Char × Nat) :=
  (entries root).map fun es => (exportLines es, es.length)

/-- `Upload` on a file with the content `text`: the number returned and the new tree. -/
def Upload (root : Tree String) (text : List Char) : Option (Nat × Tree String) :=
  uploadLoop (fun t key value => (Set t key value).map Prod.snd)
    (text.length + 1) [] Person.empty (IStream.ofText text) root 0

end RBTree

namespace BPlusTree

/-- The inner loop of `Export` on one leaf: a line for each key `key` of the leaf with
`leaf->GetValue(key)`. -/
def Leaf.Export (keys : List String) (data : List Person) :
    List String → Option (List Char × Nat)
  | [] => some ([], 0)
  | key :: rest =>
    (Leaf.GetValue key keys data).bind fun v =>
      (Leaf.Export keys data rest).map fun r => (exportLine key v ++ r.1, r.2 + 1)

/-- The loop of `Export` over the leaves visited. -/
def exportChain : List (List String × List Person) → Option (List Char × Nat)
  | [] => some ([], 0)
  | leaf :: rest =>
    (Leaf.Export leaf.1 leaf.2 leaf.1).bind fun r =>
      (exportChain rest).map fun rs => (r.1 ++ rs.1, r.2 + rs.2)

/-- `Export`: the text written and the number returned. -/
def Export (t : Tree String) : Option (List Char × Nat) :=
  (chain t).bind exportChain

/-- `Upload` on a file with the content `text`: the number returned and the new tree. -/
def Upload (t : Tree String) (text : List Char) : Option (Nat × Tree String) :=
  uploadLoop (fun t key value => (Set t key value).map Prod.snd)
    (text.length + 1) [] Person.empty (IStream.ofText text) t 0

end BPlusTree

end s21
namespace s21

namespace Program

/-- The argument that `Program::Exec` passes to the constructor of `HashTable` for the
number `capacity` read from the console: `capacity < 1 ? 1 : capacity`, converted to
`size_t`. -/
def capacity (n : Int) : Nat := (if n < 1 then 1 else n).toNat

end Program

namespace AsyncPool

/-- The states of a scheduler together with the ids that its calls of `DelayTask` have
returned so far, the latest first; calls of `StopTask`, threads that end and passes of the
collector come in between. -/
inductive Issued {A : Type} : List Nat → AsyncPool A → Prop
  | init : Issued [] init
  | delay {ids : List Nat} {p p1 : AsyncPool A} {now sec : Int} {task : A} {id : Nat} :
      Issued ids p → p.DelayTask now sec task = some (id, p1) → Issued (id :: ids) p1
  | stop {ids : List Nat} {p : AsyncPool A} (id : Nat) :
      Issued ids p → Issued ids (p.StopTask id)
  | finish {ids : List Nat} {p : AsyncPool A} (id : Nat) :
      Issued ids p → Issued ids (p.finish id)
  | collect {ids : List Nat} {p : AsyncPool A} (ids1 : List Nat) :
      Issued ids p → Issued ids (p.collect ids1)

end AsyncPool

/-! ## The thread of a task, statement by statement

`DelayTask` starts a thread that runs

    while (true) {
      sleep_for(0.1s);
      scoped_lock lock(mtx_);
      if (info.remove || stop_ || info.delete_time <= Clock::now()) break;
    }
    if (!info.remove && !stop_) task_func();

The loop body holds the mutex of the scheduler; the test after the loop and the call of
`task_func` do not. Each of the three is a step of its own, and the calls of the other
thread come in between. -/

/-- Where the thread of a task stands: in the loop, after the loop and before the test
`if (!info.remove && !stop_)`, after that test held and before the call `task_func()`, or
at its end. -/
inductive Pc where
  | loop
  | test
  | call
  | done
deriving DecidableEq, Repr

namespace AsyncPool

section
variable {A : Type}

/-- One iteration of the loop of the thread of task `id`, at the instant `now`:
`if (info.remove || stop_ || info.delete_time <= Clock::now()) break;`. -/
def poll (p : AsyncPool A) (id : Nat) (now : Int) : Pc → Pc
  | .loop =>
    match p.find id with
    | some info =>
      if info.remove || p.stop || decide (info.delete_time ≤ now) then .test else .loop
    | none => .loop
  | pc => pc

/-- The test `if (!info.remove && !stop_)` of the thread of task `id` after its loop: when
it holds the thread goes on to the call of `task_func`, otherwise to its end. -/
def test (p : AsyncPool A) (id : Nat) : Pc → Pc
  | .test =>
    match p.find id with
    | some info => if !info.remove && !p.stop then .call else .done
    | none => .test
  | pc => pc

/-- The call `task_func()` of the thread of task `id`: the task that is run, when the
thread stands before the call. -/
def call (p : AsyncPool A) (id : Nat) : Pc → Option A
  | .call => (p.find id).map fun info => info.task
  | _ => none

end

end AsyncPool

namespace BPlusTree

namespace Timed

/-- The call `task_func()` of the thread of task `id` of a B+ tree: the lambda
`[&, key] { Delete(key); }` runs, and the thread ends. `none`: the thread does not stand
before the call. -/
def call {K : Type} [LinearOrder K] (s : Store (Tree K) K) (id : Nat) (pc : Pc) :
    Option (Bool × Store (Tree K) K) :=
  (s.pool.call id pc).bind fun key =>
    (Delete s key).map fun r => (r.1, { r.2 with pool := r.2.pool.finish id })

end Timed

end BPlusTree

/-! ## Runs of the scheduler with the thread of one task

The calls of the caller (`DelayTask`, `StopTask`, the destructor), the other threads that
end, the passes of the collector and the three statements of the thread of task `id` are
steps; a run is a sequence of steps in any order. -/

namespace AsyncPool

/-- One step of the scheduler together with the thread of task `id`. A state is the
scheduler, the place where the thread stands, and whether the thread has called
`task_func`. -/
inductive Step {A : Type} (id : Nat) : AsyncPool A × Pc × Bool → AsyncPool A × Pc × Bool → Prop
  | delay (p p1 : AsyncPool A) (pc : Pc) (ran : Bool) (now sec : Int) (task : A) (id1 : Nat) :
      p.DelayTask now sec task = some (id1, p1) → Step id (p, pc, ran) (p1, pc, ran)
  | stop (p : AsyncPool A) (pc : Pc) (ran : Bool) (j : Nat) :
      Step id (p, pc, ran) (p.StopTask j, pc, ran)
  | finish (p : AsyncPool A) (pc : Pc) (ran : Bool) (j : Nat) :
      j ≠ id → Step id (p, pc, ran) (p.finish j, pc, ran)
  | collect (p : AsyncPool A) (pc : Pc) (ran : Bool) (ids : List Nat) :
      Step id (p, pc, ran) (p.collect ids, pc, ran)
  | halt (p : AsyncPool A) (pc : Pc) (ran : Bool) :
      Step id (p, pc, ran) ({ p with stop := true }, pc, ran)
  | poll (p : AsyncPool A) (pc : Pc) (ran : Bool) (now : Int) :
      Step id (p, pc, ran) (p, p.poll id now pc, ran)
  | test (p : AsyncPool A) (ran : Bool) :
      p.test id .test = .call → Step id (p, .test, ran) (p, .call, ran)
  | skip (p : AsyncPool A) (ran : Bool) :
      p.test id .test = .done → Step id (p, .test, ran) (p.finish id, .done, ran)
  | call (p : AsyncPool A) (ran : Bool) (task : A) :
      p.call id .call = some task → Step id (p, .call, ran) (p.finish id, .done, true)

/-- The thread of task `id` cannot come to call `task_func` any more: it has not called it,
and it has ended, or it stands in its loop or before its test and the task is marked
removed. -/
def Stopped {A : Type} (id : Nat) (x : AsyncPool A × Pc × Bool) : Prop :=
  x.2.2 = false ∧
  (x.2.1 = .done ∨
    ((x.2.1 = .loop ∨ x.2.1 = .test) ∧
      ∃ info, x.1.find id = some info ∧ info.remove = true ∧ info.ready = false))

end AsyncPool

/-! ## The entries that `Upload` reads, and `Upload` of a file that may not open -/

/-- The extraction `stream >> key >> value` of the loop of `Upload`: the new values of
`key` and `value` and the stream it leaves. -/
def readEntry (key : List Char) (value : Person) (s : IStream) :
    List Char × Person × IStream :=
  let rk := IStream.getString key s
  let rv := Person.read value rk.2
  (rk.1, rv.1, rv.2)

/-- The entries `<key> <record>` that parse one after the other from a stream, up to and
not including the first extraction that fails. `key` and `value` are the variables read
into. The first argument bounds the number of entries. -/
def parseEntries : Nat → List Char → Person → IStream → List (String × Person)
  | 0, _, _, _ => []
  | fuel + 1, key, value, s =>
    let r := readEntry key value s
    if r.2.2.fail then [] else (⟨r.1⟩, r.2.1) :: parseEntries fuel r.1 r.2.1 r.2.2

/-- The entries that parse from the start of a text. -/
def entriesOfText (text : List Char) : List (String × Person) :=
  parseEntries (text.length + 1) [] Person.empty (IStream.ofText text)

/-- `HashTable::Upload(filename)`; `file` is the content of the file named, `none` when it
cannot be opened. -/
def HashTable.UploadFile (hash : String → Nat) (t : HashTable.Table String) :
    Option (List Char) → Option (Nat × HashTable.Table String)
  | none => some (0, t)
  | some text => HashTable.Upload hash t text

/-- `SelfBalancingBinarySearchTree::Upload(filename)`; `file` is the content of the file
named, `none` when it cannot be opened. -/
def RBTree.UploadFile (root : RBTree.Tree String) :
    Option (List Char) → Option (Nat × RBTree.Tree String)
  | none => some (0, root)
  | some text => RBTree.Upload root text

/-- `BPlusTree::Upload(filename)`; `file` is the content of the file named, `none` when it
cannot be opened. -/
def BPlusTree.UploadFile (t : BPlusTree.Tree String) :
    Option (List Char) → Option (Nat × BPlusTree.Tree String)
  | none => some (0, t)
  | some text => BPlusTree.Upload t text

/-- A text with three entries, the second of which has the key of the first, and the start
of a fourth entry. -/
def sampleUpload : List Char :=
  "k1 \"A\" \"a\" 1 \"x\" 1\nk1 \"B\" \"b\" 2 \"y\" 2\nk2 \"C\" \"c\" 3 \"z\" 3\nk3 \"D\"".data


namespace RBTree

/-- The height of a tree: the number of nodes on a longest way down from the root. -/
def Tree.height {K : Type} : Tree K → Nat
  | .nil => 0
  | .node _ l _ _ r => max l.height r.height + 1

/-- A sample tree of three black nodes: what `Set` of the keys 2, 1, 3 and 4 followed by
`Delete(4)` leaves. -/
def sampleBlack : Tree Nat :=
  .node .kBlack (.node .kBlack .nil 1 samplePerson .nil) 2 samplePerson
    (.node .kBlack .nil 3 samplePerson .nil)

end RBTree

namespace BPlusTree

section
variable {K : Type} [LinearOrder K]

/-! ## The calls of `UpdateTree`

`UpdateTree(node)` calls itself on the parent after a `Merge`. The nodes of these calls are
listed with their chains of ancestors, so that what a call does can be stated for each of
them. -/

/-- The calls of `UpdateTree` that the call `UpdateTree(node)` leads to, the call itself
first: each with its node and the chain of ancestors of the node. -/
def UpdateTree.calls : Node K → Path K → List (Node K × Path K)
  | node, [] => [(node, [])]
  | node, f :: rest =>
    (node, f :: rest) ::
      if node.Size ≥ (bucket_size + if node.IsLeaf then 0 else 1) / 2 then []
      else
        let children := f.before ++ node :: f.after
        let self := f.before.length
        match node.keys.head?.bind fun front => GetSiblings front f.keys children with
        | none => []
        | some sib =>
          if canShare children sib.1 then []
          else if canShare children sib.2 then []
          else
            match sib.1, sib.2 with
            | some left, _ =>
              match Merge f.keys children left self with
              | some parent => UpdateTree.calls (.Internal parent.1 parent.2) rest
              | none => []
            | none, some right =>
              match Merge f.keys children self right with
              | some parent => UpdateTree.calls (.Internal parent.1 parent.2) rest
              | none => []
            | none, none => []

/-- The calls of `UpdateTree` in `Delete(key)`. -/
def Delete.calls (t : Tree K) (key : K) : List (Node K × Path K) :=
  match GetLeaf key t.root [] with
  | some (.Leaf id keys data next, path) =>
    if key ∈ keys then
      match Leaf.Delete key keys data with
      | some del => UpdateTree.calls (.Leaf id del.1 del.2 next) path
      | none => []
    else []
  | _ => []

/-- The shape of a node with its chain of ancestors on which `UpdateTree` runs: the node
and what is around it have the shape of a B+ tree, and the node has at most `bucket_size`
keys and, when it is not the root, at least four. -/
def Visited (node : Node K) (p : Path K) : Prop :=
  ∃ h, Wf (pathBounds p).1 (pathBounds p).2 h node ∧ PathWf p h ∧
    node.Size ≤ bucket_size ∧ (p ≠ [] → 4 ≤ node.Size)

/-- `GetSiblings(node)` returns the neighbours of `node` among the children of its parent:
`node` has a first key, it is the child at the place `j = f.before.length`, and the call
returns the place `j - 1` as `left` (`nullptr` when `j = 0`) and the place `j + 1` as `right`
(`nullptr` when `node` is the last child), both of which are children. -/
def NeighboursFound (node : Node K) (f : Frame K) : Prop :=
  ∃ front, node.keys.head? = some front ∧
    (f.before ++ node :: f.after).length = f.keys.length + 1 ∧
    (f.before ++ node :: f.after)[f.before.length]? = some node ∧
    GetSiblings front f.keys (f.before ++ node :: f.after) =
      some (if f.before.length = 0 then none else some (f.before.length - 1),
        if f.before.length + 1 = (f.before ++ node :: f.after).length then none
        else some (f.before.length + 1)) ∧
    (f.before.length ≠ 0 → (f.before ++ node :: f.after)[f.before.length - 1]? =
      f.before.getLast?) ∧
    (f.before ++ node :: f.after)[f.before.length + 1]? = f.after.head?

/-- `UpdateTree(node)` returns without a `Share` and without a `Merge`: no further call
follows, and the tree is what it was, or `node` is a root without keys and its only child
is the new root. -/
def LeftAlone (node : Node K) (p : Path K) : Prop :=
  UpdateTree.calls node p = [(node, p)] ∧
  (UpdateTree node p = some (zip node p) ∨
    p = [] ∧ ∃ c, node = .Internal [] [c] ∧ UpdateTree node p = some c)

/-- `UpdateTree(node)` takes an entry from the left sibling `L` of `node`: `Share` returns,
the two nodes are replaced by `L1` and `node1` and the key between them by `k1`, no other
child of the parent changes, `UpdateTree` returns the tree with this parent and no further
call follows. `L1` has one key less than `L`, `node1` one more than `node`, and the entries
below the two nodes are in order what they were: the last of `L` is the first of `node1`. -/
def SharesLeft (node : Node K) (f : Frame K) (rest : Path K) (X : List (Node K))
    (L : Node K) : Prop :=
  ∃ (kx ky : List K) (k k1 : K) (L1 node1 : Node K),
    f.keys = kx ++ k :: ky ∧ kx.length = X.length ∧
    Share f.keys (f.before ++ node :: f.after) f.before.length (f.before.length - 1) true =
      some (kx ++ k1 :: ky, X ++ L1 :: node1 :: f.after) ∧
    UpdateTree node (f :: rest) =
      some (zip (.Internal (kx ++ k1 :: ky) (X ++ L1 :: node1 :: f.after)) rest) ∧
    UpdateTree.calls node (f :: rest) = [(node, f :: rest)] ∧
    L1.Size + 1 = L.Size ∧ node1.Size = node.Size + 1 ∧
    toList L1 ++ toList node1 = toList L ++ toList node ∧
    (L.IsLeaf = true → (toList L1).length + 1 = (toList L).length)

/-- `UpdateTree(node)` takes an entry from the right sibling `R` of `node`; as `SharesLeft`,
with the first entry of `R` as the last of `node1`. -/
def SharesRight (node : Node K) (f : Frame K) (rest : Path K) (R : Node K)
    (Y : List (Node K)) : Prop :=
  ∃ (kx ky : List K) (k k1 : K) (node1 R1 : Node K),
    f.keys = kx ++ k :: ky ∧ kx.length = f.before.length ∧
    Share f.keys (f.before ++ node :: f.after) f.before.length (f.before.length + 1) false =
      some (kx ++ k1 :: ky, f.before ++ node1 :: R1 :: Y) ∧
    UpdateTree node (f :: rest) =
      some (zip (.Internal (kx ++ k1 :: ky) (f.before ++ node1 :: R1 :: Y)) rest) ∧
    UpdateTree.calls node (f :: rest) = [(node, f :: rest)] ∧
    R1.Size + 1 = R.Size ∧ node1.Size = node.Size + 1 ∧
    toList node1 ++ toList R1 = toList node ++ toList R ∧
    (R.IsLeaf = true → (toList R1).length + 1 = (toList R).length)

/-- `UpdateTree` merges the neighbours `A` and `B` (one of them is the node of the call)
into `M`, which takes the place of both, `k` being the key between them: `Merge` returns,
the key `k` is gone from the parent, and `UpdateTree(parent)` is the next call. -/
def MergesInto (node : Node K) (f : Frame K) (rest : Path K) (left right : Nat)
    (X : List (Node K)) (A B : Node K) (Y : List (Node K)) (kx ky : List K) (k : K)
    (M : Node K) : Prop :=
  f.keys = kx ++ k :: ky ∧ kx.length = X.length ∧
  f.before ++ node :: f.after = X ++ A :: B :: Y ∧
  Merge f.keys (f.before ++ node :: f.after) left right = some (kx ++ ky, X ++ M :: Y) ∧
  UpdateTree node (f :: rest) = UpdateTree (.Internal (kx ++ ky) (X ++ M :: Y)) rest ∧
  UpdateTree.calls node (f :: rest) =
    (node, f :: rest) :: UpdateTree.calls (.Internal (kx ++ ky) (X ++ M :: Y)) rest ∧
  toList M = toList A ++ toList B

/-- `UpdateTree` merges the neighbours `A` and `B` and goes on with the parent. -/
def Merges (node : Node K) (f : Frame K) (rest : Path K) (left right : Nat)
    (X : List (Node K)) (A B : Node K) (Y : List (Node K)) : Prop :=
  ∃ (kx ky : List K) (k : K) (M : Node K),
    MergesInto node f rest left right X A B Y kx ky k M

/-- The shape of a call of `UpdateTree`: whether the node is a leaf, the number of its keys,
and the numbers of keys of the siblings before it and after it under its parent (none for
the root). -/
def callShape (c : Node K × Path K) : Bool × Nat × List Nat × List Nat :=
  match c.2 with
  | [] => (c.1.IsLeaf, c.1.Size, [], [])
  | f :: _ => (c.1.IsLeaf, c.1.Size, f.before.map Node.Size, f.after.map Node.Size)

end

/-- A sample tree of three levels in which the second child of the root has six keys: what
`Set` of the keys `0, …, 65` in ascending order leaves of the empty tree. -/
def sampleSix : Tree Nat := (setAll samplePerson (List.range 66) init).getD init

end BPlusTree

/-! ## Texts of the format of `Export`, with an entry cut short at the end -/

/-- The text of an entry cut short after `n` of its six words: nothing, the key, the key and
`last_name`, and so on up to the key and the four fields before `coins`. -/
def cutEntry (key : String) (value : Person) : Nat → List Char
  | 0 => []
  | 1 => key.data
  | 2 => key.data ++ ' ' :: quoted value.last_name.data
  | 3 => key.data ++ ' ' :: quoted value.last_name.data ++ ' ' ::
      quoted value.first_name.data
  | 4 => key.data ++ ' ' :: quoted value.last_name.data ++ ' ' ::
      quoted value.first_name.data ++ ' ' :: value.birthday.data
  | _ => key.data ++ ' ' :: quoted value.last_name.data ++ ' ' ::
      quoted value.first_name.data ++ ' ' :: value.birthday.data ++ ' ' ::
      quoted value.city.data

/-- A text that holds no whole entry: white space, an entry of the format cut short before
its last word, and white space. -/
def Incomplete (tail : List Char) : Prop :=
  ∃ (ws : List Char) (key : String) (value : Person) (n : Nat) (ws2 : List Char),
    tail = ws ++ (cutEntry key value n ++ ws2) ∧ (∀ c ∈ ws, isspace c = true) ∧
    (∀ c ∈ ws2, isspace c = true) ∧ KeyOk key ∧ value.Formatted

/-- The three whole entries of `sampleUpload`. -/
def sampleEntries : List (String × Person) :=
  [("k1", ⟨"A", "a", "1", "x", "1"⟩), ("k1", ⟨"B", "b", "2", "y", "2"⟩),
    ("k2", ⟨"C", "c", "3", "z", "3"⟩)]

/-- A stream from which no extraction succeeds: it has failed, or only white space is
left. -/
def IStream.Dead (s : IStream) : Prop := s.fail = true ∨ ∀ c ∈ s.buf, isspace c = true

/-! ## Sample stores without a scheduled deletion -/

/-- A sample hash table with its bookkeeping: what `Set(1, samplePerson)` without a
lifetime leaves of the fresh table of capacity 4. -/
def HashTable.Timed.samplePlain : Store (HashTable.Table Nat) Nat :=
  ⟨⟨4, [[], [⟨1, samplePerson, -1⟩], [], []]⟩, [], AsyncPool.init⟩

/-- A sample red-black tree with its bookkeeping: what `Set(1, samplePerson)` without a
lifetime leaves of the fresh tree. -/
def RBTree.Timed.samplePlain : Store (RBTree.Tree Nat) Nat :=
  ⟨RBTree.sample, [], AsyncPool.init⟩

/-- A sample B+ tree with its bookkeeping: what `Set(1, samplePerson)` without a lifetime
leaves of the fresh tree. -/
def BPlusTree.Timed.samplePlain : Store (BPlusTree.Tree Nat) Nat :=
  ⟨BPlusTree.sample, [], AsyncPool.init⟩

/-! ## Sample stores with several keys and different records -/

/-- A second sample record. -/
def sampleOther : Person := ⟨"Petrov", "Petr", "1990", "Kazan", "77"⟩

/-- A third sample record, which has the first name and the coins of `samplePerson`. -/
def sampleThird : Person := ⟨"Sidorov", "Ivan", "1985", "Omsk", "55"⟩

/-- A pattern that `samplePerson` and `sampleThird` match and `sampleOther` does not. -/
def samplePattern : Person := ⟨"-", "Ivan", "-", "-", "55"⟩

/-- A sample hash table of capacity 4 with four keys, three of them in one bucket: what
`Set(6, sampleThird)`, `Set(5, samplePerson)`, `Set(1, sampleOther)` and
`Set(9, sampleThird)` leave of the fresh table. -/
def HashTable.sampleMixed : HashTable.Table Nat :=
  ⟨4, [[], [⟨5, samplePerson, -1⟩, ⟨1, sampleOther, -1⟩, ⟨9, sampleThird, -1⟩],
    [⟨6, sampleThird, -1⟩], []]⟩

/-- A sample red-black tree with three keys: what `Set(2, sampleOther)`,
`Set(1, samplePerson)` and `Set(3, sampleThird)` leave of the empty tree. -/
def RBTree.sampleMixed : RBTree.Tree Nat :=
  .node .kBlack (.node .kRed .nil 1 samplePerson .nil) 2 sampleOther
    (.node .kRed .nil 3 sampleThird .nil)

/-- A sample B+ tree of three levels with two records that differ from the others: what
`Update(7, samplePatch)` and `Update(40, samplePatch)` leave of the sample tree of 86
keys. -/
def BPlusTree.sampleMixed : BPlusTree.Tree Nat :=
  match BPlusTree.Update BPlusTree.sampleRun 7 samplePatch with
  | some r =>
    match BPlusTree.Update r.2 40 samplePatch with
    | some r2 => r2.2
    | none => BPlusTree.init
  | none => BPlusTree.init

/-- A sample B+ tree of two leaves with five keys each below the root: what `Set` of the
keys `0, …, 10` in ascending order and `Delete(10)` leave of the empty tree. -/
def BPlusTree.sampleTen : BPlusTree.Tree Nat :=
  match BPlusTree.setAll samplePerson (List.range 11) BPlusTree.init with
  | some t =>
    match BPlusTree.Delete t 10 with
    | some r => r.2
    | none => BPlusTree.init
  | none => BPlusTree.init

end s21

namespace s21

namespace HashTable

section
variable {K : Type} [LinearOrder K]

theorem inv_bucket {hash : K → Nat} {t : Table K} (h : Inv hash t) (key : K) :
    ∃ b, t.data[hash key % t.capacity]? = some b ∧
      CalcIndex hash t key = some (hash key % t.capacity) ∧ bucket hash t key = some b := by
  obtain ⟨hc, hl, _⟩ := h
  have hlt : hash key % t.capacity < t.data.length := by rw [hl]; exact Nat.mod_lt _ hc
  refine ⟨t.data[hash key % t.capacity], List.getElem?_eq_getElem hlt, ?_, ?_⟩
  · simp [CalcIndex, Nat.pos_iff_ne_zero.mp hc]
  · simp [bucket, CalcIndex, Nat.pos_iff_ne_zero.mp hc, List.getElem?_eq_getElem hlt]

theorem ht_inv_init (hash : K → Nat) (capacity : Nat) (h : 0 < capacity) :
    Inv hash (init capacity : Table K) := by
  refine ⟨h, by simp [init], ?_⟩
  intro i b hb
  simp only [init] at hb
  rw [List.getElem?_replicate] at hb
  split at hb
  · cases hb; simp
  · cases hb

/-- Replacing one bucket keeps the invariant when the new bucket is fine. -/
theorem inv_set_bucket {hash : K → Nat} {t : Table K} (h : Inv hash t) (i : Nat)
    (b1 : List (Node K))
    (h1 : ∀ n ∈ b1, hash n.key % t.capacity = i) (h2 : (b1.map fun n => n.key).Nodup) :
    Inv hash { t with data := t.data.set i b1 } := by
  obtain ⟨hc, hl, hb⟩ := h
  refine ⟨hc, by simpa using hl, ?_⟩
  intro j b hj
  simp only [List.getElem?_set] at hj
  split at hj
  · split at hj
    · cases hj; subst_vars; exact ⟨h1, h2⟩
    · cases hj
  · exact hb j b hj

theorem any_key_iff (b : List (Node K)) (key : K) :
    (b.any fun node => node.key == key) = true ↔ key ∈ b.map fun n => n.key := by
  simp only [List.any_eq_true, beq_iff_eq, List.mem_map]

theorem updateBucket_keys (key : K) (value : Person) (b : List (Node K)) :
    (updateBucket key value b).map (fun n => n.key) = b.map fun n => n.key := by
  induction b with
  | nil => rfl
  | cons n rest ih =>
    simp only [updateBucket]
    split <;> simp [ih]

theorem inv_set {hash : K → Nat} {t t1 : Table K} {key : K} {value : Person} {lifetime : Int}
    {r : Bool} (h : Inv hash t) (hs : Set hash t key value lifetime = some (r, t1)) :
    Inv hash t1 := by
  obtain ⟨b, hb, hi, hbk⟩ := inv_bucket h key
  simp only [Set, Exists, hbk, hi, hb, Option.map_some', Option.some_bind] at hs
  split at hs
  · cases hs; exact h
  · rename_i hne
    cases hs
    apply inv_set_bucket h
    · intro n hn
      rcases List.mem_append.mp hn with hn | hn
      · exact (h.2.2 _ _ hb).1 n hn
      · simp at hn; subst hn; rfl
    · have hnot : key ∉ b.map fun n => n.key := by
        rw [← any_key_iff]; simpa using hne
      simp only [List.map_append, List.map_cons, List.map_nil]
      rw [List.nodup_append]
      refine ⟨(h.2.2 _ _ hb).2, by simp, ?_⟩
      intro a ha hb'
      simp at hb'
      subst hb'
      exact hnot ha

theorem inv_delete {hash : K → Nat} {t t1 : Table K} {key : K} {r : Bool}
    (h : Inv hash t) (hs : Delete hash t key = some (r, t1)) : Inv hash t1 := by
  obtain ⟨b, hb, hi, -⟩ := inv_bucket h key
  simp only [Delete, hi, hb, Option.map_some', Option.some_bind] at hs
  split at hs
  · cases hs
    apply inv_set_bucket h
    · intro n hn
      exact (h.2.2 _ _ hb).1 n (List.mem_filter.mp hn).1
    · exact ((h.2.2 _ _ hb).2.sublist ((List.filter_sublist b).map _))
  · cases hs; exact h

theorem inv_update {hash : K → Nat} {t t1 : Table K} {key : K} {value : Person} {r : Bool}
    (h : Inv hash t) (hs : Update hash t key value = some (r, t1)) : Inv hash t1 := by
  obtain ⟨b, hb, hi, -⟩ := inv_bucket h key
  simp only [Update, hi, hb, Option.map_some', Option.some_bind] at hs
  split at hs
  · cases hs
    apply inv_set_bucket h
    · intro n hn
      have hk : n.key ∈ (updateBucket key value b).map fun n => n.key :=
        List.mem_map.mpr ⟨n, hn, rfl⟩
      rw [updateBucket_keys] at hk
      obtain ⟨m, hm, hmk⟩ := List.mem_map.mp hk
      rw [← hmk]
      exact (h.2.2 _ _ hb).1 m hm
    · rw [updateBucket_keys]; exact (h.2.2 _ _ hb).2
  · cases hs; exact h

theorem inv_rename {hash : K → Nat} {t t1 : Table K} {kFrom kTo : K} {ttl : Int} {r : Bool}
    (h : Inv hash t) (hs : Rename hash t kFrom kTo ttl = some (r, t1)) : Inv hash t1 := by
  obtain ⟨bt, hbt, hit, hbkt⟩ := inv_bucket h kTo
  obtain ⟨bf, hbf, hif, hbkf⟩ := inv_bucket h kFrom
  simp only [Rename, Exists, hbkt, hbkf, Option.map_some', Option.some_bind] at hs
  cases hT : (bt.any fun node => node.key == kTo) with
  | true =>
    simp only [hT, if_true, Option.some_bind] at hs
    split at hs <;> · cases hs; exact h
  | false =>
    simp only [hT, Bool.false_eq_true, if_false, Option.some_bind] at hs
    cases hfind : bf.find? fun node => node.key == kFrom with
    | none => simp only [hfind] at hs; cases hs; exact h
    | some node =>
      simp only [hfind] at hs
      cases hset : Set hash t kTo node.value ttl with
      | none => simp [hset] at hs
      | some p =>
        simp only [hset, Option.some_bind] at hs
        exact inv_delete (inv_set h (hset : _ = some (p.1, p.2))) hs

theorem ht_reachable_inv {hash : K → Nat} {t : Table K} (h : Reachable hash t) : Inv hash t := by
  induction h with
  | init capacity hc => exact ht_inv_init hash capacity hc
  | set _ hs ih => exact inv_set ih hs
  | update _ hs ih => exact inv_update ih hs
  | delete _ hs ih => exact inv_delete ih hs
  | rename _ hs ih => exact inv_rename ih hs

/-- The bucket of a key after one bucket of the table was replaced. -/
theorem bucket_set {hash : K → Nat} {t : Table K} (h : Inv hash t) (i : Nat)
    (hi : i < t.capacity) (b1 : List (Node K)) (key : K) :
    bucket hash { t with data := t.data.set i b1 } key =
      if hash key % t.capacity = i then some b1 else bucket hash t key := by
  obtain ⟨hc, hl, _⟩ := h
  simp only [bucket, CalcIndex, Nat.pos_iff_ne_zero.mp hc, if_false, Option.some_bind,
    List.getElem?_set]
  by_cases hk : hash key % t.capacity = i
  · simp [hk, hl, hi]
  · simp [hk, Ne.symm hk]

theorem find_key_mem (b : List (Node K)) (key : K) (n : Node K)
    (hn : n ∈ b) (hk : n.key = key) (hnd : (b.map fun n => n.key).Nodup) :
    b.find? (fun node => node.key == key) = some n := by
  induction b with
  | nil => cases hn
  | cons m rest ih =>
    simp only [List.map_cons, List.nodup_cons] at hnd
    rcases List.mem_cons.mp hn with rfl | hn
    · simp [List.find?, hk]
    · have hne : m.key ≠ key := by
        intro hm
        apply hnd.1
        rw [hm, ← hk]
        exact List.mem_map.mpr ⟨n, hn, rfl⟩
      have hm1 : (m.key == key) = false := by simpa using hne
      simp [List.find?, hm1, ih hn hnd.2]

theorem find_key_none (b : List (Node K)) (key : K)
    (h : (b.any fun node => node.key == key) = false) :
    b.find? (fun node => node.key == key) = none := by
  rw [List.find?_eq_none]
  intro n hn
  have := List.any_eq_false.mp h n hn
  simpa using this

/-- `Get` of a key stored in the table is the value of its entry. -/
theorem ht_get_of_mem {hash : K → Nat} {t : Table K} (h : Inv hash t) (i : Nat)
    (b : List (Node K)) (hb : t.data[i]? = some b) (n : Node K) (hn : n ∈ b) :
    Get hash t n.key = some n.value := by
  obtain ⟨b1, hb1, -, hbk⟩ := inv_bucket h n.key
  have hi := (h.2.2 i b hb).1 n hn
  rw [hi, hb] at hb1
  cases hb1
  simp [Get, hbk, find_key_mem b n.key n hn rfl (h.2.2 i b hb).2]

theorem ht_set_absent {hash : K → Nat} {t : Table K} (h : Inv hash t) (k : K) (v : Person)
    (lifetime : Int) (habs : Exists hash t k = some false) :
    ∃ t1, Set hash t k v lifetime = some (true, t1) ∧ Exists hash t1 k = some true ∧
      Get hash t1 k = some v := by
  obtain ⟨b, hb, hi, hbk⟩ := inv_bucket h k
  have hc := h.1
  have hany : (b.any fun node => node.key == k) = false := by
    simpa [Exists, hbk] using habs
  refine ⟨{ t with data := t.data.set (hash k % t.capacity) (b ++ [⟨k, v, lifetime⟩]) },
    ?_, ?_, ?_⟩
  · simp [Set, Exists, hbk, hi, hb, hany]
  · simp [Exists, bucket_set h _ (Nat.mod_lt _ hc)]
  · simp [Get, bucket_set h _ (Nat.mod_lt _ hc), List.find?_append, find_key_none b k hany]

theorem ht_set_present {hash : K → Nat} {t : Table K} (k : K) (v : Person)
    (lifetime : Int) (hpres : Exists hash t k = some true) :
    Set hash t k v lifetime = some (false, t) := by
  simp [Set, hpres]

theorem ht_delete_spec {hash : K → Nat} {t : Table K} (h : Inv hash t) (k : K) :
    ∃ b t1, Delete hash t k = some (b, t1) ∧ Exists hash t k = some b ∧
      Exists hash t1 k = some false ∧ (b = false → t1 = t) := by
  obtain ⟨bk, hb, hi, hbk⟩ := inv_bucket h k
  have hc := h.1
  cases hany : (bk.any fun node => node.key == k) with
  | true =>
    let b1 := bk.filter fun node => !(node.key == k)
    refine ⟨true, { t with data := t.data.set (hash k % t.capacity) b1 }, ?_, ?_, ?_, by simp⟩
    · simp only [Delete, hi, hb, Option.some_bind, Option.map_some', hany, if_true, b1]
    · simp [Exists, hbk, hany]
    · simp [Exists, bucket_set h _ (Nat.mod_lt _ hc), b1]
  | false =>
    refine ⟨false, t, ?_, ?_, ?_, by simp⟩
    · simp only [Delete, hi, hb, Option.some_bind, Option.map_some', hany]; simp
    · simp [Exists, hbk, hany]
    · simp [Exists, hbk, hany]

theorem find_updateBucket (key : K) (value : Person) (b : List (Node K)) (n : Node K)
    (h : b.find? (fun node => node.key == key) = some n) :
    (updateBucket key value b).find? (fun node => node.key == key) =
      some { n with value := n.value.assign value } := by
  induction b with
  | nil => simp at h
  | cons m rest ih =>
    simp only [updateBucket]
    by_cases hm : m.key = key
    · simp only [List.find?, hm, beq_self_eq_true] at h
      cases h
      simp [hm, List.find?]
    · have hm1 : (m.key == key) = false := by simpa using hm
      simp only [List.find?, hm1] at h
      simp [hm1, List.find?, ih h]

theorem assign_merged (old p : Person) : Person.Merged old p (old.assign p) := by
  simp [Person.Merged, Person.assign]

theorem ht_update_spec {hash : K → Nat} {t : Table K} (h : Inv hash t) (k : K) (p : Person) :
    ∃ b t1, Update hash t k p = some (b, t1) ∧ Exists hash t k = some b ∧
      (b = true → ∃ old new, Get hash t k = some old ∧ Get hash t1 k = some new ∧
        Person.Merged old p new) ∧
      (b = false → t1 = t) := by
  obtain ⟨bk, hb, hi, hbk⟩ := inv_bucket h k
  have hc := h.1
  cases hany : (bk.any fun node => node.key == k) with
  | true =>
    obtain ⟨n, hn, hnk⟩ := List.any_eq_true.mp hany
    have hnk : n.key = k := by simpa using hnk
    have hfind := find_key_mem bk k n hn hnk (h.2.2 _ _ hb).2
    refine ⟨true, { t with data := t.data.set (hash k % t.capacity) (updateBucket k p bk) },
      ?_, ?_, ?_, by simp⟩
    · simp only [Update, hi, hb, Option.some_bind, Option.map_some', hany, if_true]
    · simp [Exists, hbk, hany]
    · intro _
      refine ⟨n.value, n.value.assign p, ?_, ?_, assign_merged _ _⟩
      · simp [Get, hbk, hfind]
      · simp [Get, bucket_set h _ (Nat.mod_lt _ hc), find_updateBucket k p bk n hfind]
  | false =>
    refine ⟨false, t, ?_, ?_, by simp, by simp⟩
    · simp only [Update, hi, hb, Option.some_bind, Option.map_some', hany]; simp
    · simp [Exists, hbk, hany]

theorem exists_eq {hash : K → Nat} {t : Table K} {key : K} {b : List (Node K)}
    (hbk : bucket hash t key = some b) :
    Exists hash t key = some (b.any fun node => node.key == key) := by
  simp [Exists, hbk]

theorem rename_absent {hash : K → Nat} {t : Table K} (h : Inv hash t) (kFrom kTo : K)
    (ttl : Int) (habs : Exists hash t kFrom = some false) :
    Rename hash t kFrom kTo ttl = some (false, t) := by
  obtain ⟨bt, hbt, hit, hbkt⟩ := inv_bucket h kTo
  obtain ⟨bf, hbf, hif, hbkf⟩ := inv_bucket h kFrom
  have hF : (bf.any fun node => node.key == kFrom) = false := by
    simpa [exists_eq hbkf] using habs
  simp only [Rename, habs, exists_eq hbkt, Option.some_bind, Option.map_some', hbkf,
    find_key_none bf kFrom hF, Bool.false_and]
  cases hT : (bt.any fun node => node.key == kTo) <;> simp

theorem rename_occupied {hash : K → Nat} {t : Table K} (h : Inv hash t) (kFrom kTo : K)
    (ttl : Int) (hne : kFrom ≠ kTo) (hpres : Exists hash t kTo = some true) :
    Rename hash t kFrom kTo ttl = some (false, t) := by
  obtain ⟨bf, hbf, hif, hbkf⟩ := inv_bucket h kFrom
  have hne1 : (kFrom == kTo) = false := by simpa using hne
  simp [Rename, hpres, exists_eq hbkf, hne1]

theorem rename_same {hash : K → Nat} {t : Table K} (k : K)
    (ttl : Int) (hpres : Exists hash t k = some true) :
    Rename hash t k k ttl = some (true, t) := by
  simp [Rename, hpres]

theorem find_spec {hash : K → Nat} {t : Table K} (h : Inv hash t) (p : Person) :
    Find t p = (Keys t).filter fun k =>
      match Get hash t k with
      | some r => decide (Person.Matches r p)
      | none => false := by
  have heq : ∀ r : Person, r.eq p = decide (Person.Matches r p) := by
    intro r
    simp only [Person.eq, Person.Matches, Bool.decide_and, Bool.decide_or, beq_iff_eq,
      Bool.and_assoc]
    rw [Bool.eq_iff_iff]
    simp only [Bool.and_eq_true, Bool.or_eq_true, beq_iff_eq, decide_eq_true_eq]
    tauto
  simp only [Find, Keys, List.filter_map]
  congr 1
  apply List.filter_congr
  intro n hn
  obtain ⟨b, hb, hnb⟩ := List.mem_flatten.mp hn
  obtain ⟨i, hi, hib⟩ := List.getElem_of_mem hb
  have hb' : t.data[i]? = some b := by rw [List.getElem?_eq_getElem hi, hib]
  simp [ht_get_of_mem h i b hb' n hnb, heq]

end

end HashTable

end s21

namespace s21

/-! ## Association lists -/

section
variable {K : Type} [LinearOrder K]

theorem lookup_nil (key : K) : lookup key [] = none := rfl

theorem lookup_cons (key : K) (e : K × Person) (es : List (K × Person)) :
    lookup key (e :: es) = if e.1 = key then some e.2 else lookup key es := by
  unfold lookup
  by_cases h : e.1 = key
  · simp [List.find?, h]
  · have h1 : (e.1 == key) = false := by simpa using h
    simp [List.find?, h, h1]

theorem lookup_append (key : K) (es fs : List (K × Person)) :
    lookup key (es ++ fs) = (lookup key es).orElse fun _ => lookup key fs := by
  induction es with
  | nil => simp [lookup_nil]
  | cons e es ih =>
    simp only [List.cons_append, lookup_cons]
    split <;> simp [ih]

theorem lookup_eq_none {key : K} {es : List (K × Person)} :
    lookup key es = none ↔ key ∉ es.map Prod.fst := by
  induction es with
  | nil => simp [lookup_nil]
  | cons e es ih =>
    simp only [lookup_cons, List.map_cons, List.mem_cons, not_or]
    split
    · rename_i h; simp [h]
    · rename_i h
      rw [ih]
      constructor
      · intro h1; exact ⟨fun h2 => h h2.symm, h1⟩
      · intro h1; exact h1.2

theorem lookup_isSome {key : K} {es : List (K × Person)} :
    (lookup key es).isSome = true ↔ key ∈ es.map Prod.fst := by
  rw [← not_iff_not, ← lookup_eq_none]
  cases lookup key es <;> simp

theorem lookup_none_of_lt {key : K} {es : List (K × Person)}
    (h : ∀ e ∈ es, key < e.1) : lookup key es = none := by
  rw [lookup_eq_none]
  intro hk
  obtain ⟨e, he, hek⟩ := List.mem_map.mp hk
  exact absurd (h e he) (by rw [hek]; exact lt_irrefl _)

theorem lookup_none_of_gt {key : K} {es : List (K × Person)}
    (h : ∀ e ∈ es, e.1 < key) : lookup key es = none := by
  rw [lookup_eq_none]
  intro hk
  obtain ⟨e, he, hek⟩ := List.mem_map.mp hk
  exact absurd (h e he) (by rw [hek]; exact lt_irrefl _)

theorem ascending_append {es fs : List (K × Person)} :
    Ascending (es ++ fs) ↔
      Ascending es ∧ Ascending fs ∧ ∀ a ∈ es, ∀ b ∈ fs, a.1 < b.1 := by
  simp only [Ascending, List.map_append, List.pairwise_append, List.mem_map]
  constructor
  · rintro ⟨h1, h2, h3⟩
    exact ⟨h1, h2, fun a ha b hb => h3 _ ⟨a, ha, rfl⟩ _ ⟨b, hb, rfl⟩⟩
  · rintro ⟨h1, h2, h3⟩
    refine ⟨h1, h2, ?_⟩
    rintro _ ⟨a, ha, rfl⟩ _ ⟨b, hb, rfl⟩
    exact h3 a ha b hb

theorem ascending_cons {e : K × Person} {es : List (K × Person)} :
    Ascending (e :: es) ↔ (∀ b ∈ es, e.1 < b.1) ∧ Ascending es := by
  simp only [Ascending, List.map_cons, List.pairwise_cons, List.mem_map]
  constructor
  · rintro ⟨h1, h2⟩
    exact ⟨fun b hb => h1 _ ⟨b, hb, rfl⟩, h2⟩
  · rintro ⟨h1, h2⟩
    refine ⟨?_, h2⟩
    rintro _ ⟨b, hb, rfl⟩
    exact h1 b hb

theorem ascending_nil : Ascending ([] : List (K × Person)) := by simp [Ascending]

theorem ins_append_left (key : K) (value : Person) (es fs : List (K × Person))
    (h : ∀ e ∈ es, e.1 < key) : ins key value (es ++ fs) = es ++ ins key value fs := by
  induction es with
  | nil => rfl
  | cons e es ih =>
    have h1 : ¬ key < e.1 := not_lt_of_lt (h e (List.mem_cons_self _ _))
    have ih1 := ih fun a ha => h a (List.mem_cons_of_mem _ ha)
    simp only [List.cons_append, ins, h1, if_false]
    exact congrArg (e :: ·) ih1

theorem ins_append_right (key : K) (value : Person) (es fs : List (K × Person))
    (h : ∀ e ∈ fs, key < e.1) : ins key value (es ++ fs) = ins key value es ++ fs := by
  induction es with
  | nil =>
    cases fs with
    | nil => rfl
    | cons f fs => simp [ins, h f (List.mem_cons_self _ _)]
  | cons e es ih =>
    simp only [List.cons_append, ins]
    split
    · rfl
    · exact congrArg (e :: ·) ih

theorem mem_ins {key : K} {value : Person} {es : List (K × Person)} {e : K × Person} :
    e ∈ ins key value es ↔ e = (key, value) ∨ e ∈ es := by
  induction es with
  | nil => simp [ins]
  | cons a es ih =>
    simp only [ins]
    split
    · simp
    · simp only [List.mem_cons, ih]; tauto

theorem ascending_ins {key : K} {value : Person} {es : List (K × Person)}
    (h : Ascending es) (hk : key ∉ es.map Prod.fst) : Ascending (ins key value es) := by
  induction es with
  | nil => simp [ins, Ascending]
  | cons a es ih =>
    simp only [List.map_cons, List.mem_cons, not_or] at hk
    rw [ascending_cons] at h
    simp only [ins]
    split
    · rename_i hlt
      rw [ascending_cons]
      refine ⟨?_, ascending_cons.mpr h⟩
      intro b hb
      rcases List.mem_cons.mp hb with rfl | hb
      · exact hlt
      · exact lt_trans hlt (h.1 b hb)
    · rename_i hlt
      rw [ascending_cons]
      refine ⟨?_, ih h.2 hk.2⟩
      intro b hb
      rcases mem_ins.mp hb with rfl | hb
      · exact lt_of_le_of_ne (not_lt.mp hlt) (fun h1 => hk.1 h1.symm)
      · exact h.1 b hb

theorem lookup_ins {key : K} {value : Person} {es : List (K × Person)} (k : K)
    (hk : key ∉ es.map Prod.fst) :
    lookup k (ins key value es) = if k = key then some value else lookup k es := by
  induction es with
  | nil =>
    simp only [ins, lookup_cons, lookup_nil]
    by_cases h : k = key
    · simp [h]
    · simp [h, Ne.symm h]
  | cons a es ih =>
    simp only [List.map_cons, List.mem_cons, not_or] at hk
    simp only [ins]
    split
    · simp only [lookup_cons]
      by_cases h : k = key
      · simp [h]
      · simp [h, Ne.symm h]
    · simp only [lookup_cons, ih hk.2]
      by_cases h : k = key
      · subst h
        simp [Ne.symm hk.1]
      · simp [h]

theorem keys_ins (key : K) (value : Person) (es : List (K × Person)) :
    ∀ k, k ∈ (ins key value es).map Prod.fst ↔ k = key ∨ k ∈ es.map Prod.fst := by
  intro k
  simp only [List.mem_map, mem_ins]
  constructor
  · rintro ⟨e, he | he, rfl⟩
    · left; rw [he]
    · right; exact ⟨e, he, rfl⟩
  · rintro (rfl | ⟨e, he, rfl⟩)
    · exact ⟨(k, value), Or.inl rfl, rfl⟩
    · exact ⟨e, Or.inr he, rfl⟩

end

namespace RBTree

section
variable {K : Type} [LinearOrder K]

/-! ### Entries of a position -/

theorem toList_fill (f : Frame K) (t : Tree K) :
    toList (f.fill t) =
      if f.isLeft then toList t ++ (f.key, f.value) :: toList f.other
      else toList f.other ++ (f.key, f.value) :: toList t := by
  unfold Frame.fill
  split <;> simp [toList]

theorem rb_toList_zip (t : Tree K) (p : Path K) :
    toList (zip t p) = pathLeft p ++ toList t ++ pathRight p := by
  induction p generalizing t with
  | nil => simp [zip, pathLeft, pathRight]
  | cons f p ih =>
    simp only [zip, ih, toList_fill, pathLeft, pathRight]
    split <;> simp [List.append_assoc]

theorem bh_fill (f : Frame K) (t : Tree K) (h : bh f.other = bh t) :
    bh (f.fill t) = bh t + if f.color = .kBlack then 1 else 0 := by
  unfold Frame.fill
  split <;> simp [bh, h]

theorem pathBal_weaken {p : Path K} {n : Nat} (h : PathBal p true n) : PathBal p false n := by
  cases p with
  | nil => simp [PathBal] at h
  | cons f p =>
    simp only [PathBal] at h ⊢
    refine ⟨h.1, h.2.1, ?_, h.2.2.2⟩
    intro hc
    have := (h.2.2.1 hc).1
    simp at this

theorem pathBal_of {p : Path K} {n : Nat} {b : Bool} (h : PathBal p b n) : PathBal p false n := by
  cases b
  · exact h
  · exact pathBal_weaken h

/-- A balanced subtree that fits at a position gives a balanced tree with a black root. -/
theorem bal_zip {t : Tree K} {p : Path K} (ht : Bal t) (hp : PathBal p (isRed t) (bh t)) :
    Bal (zip t p) ∧ isRed (zip t p) = false := by
  induction p generalizing t with
  | nil => simp only [PathBal] at hp; exact ⟨ht, hp⟩
  | cons f p ih =>
    simp only [zip]
    obtain ⟨h1, h2, h3, h4⟩ := hp
    apply ih
    · unfold Frame.fill
      split
      · refine ⟨ht, h1, h2.symm, ?_⟩
        intro hc; obtain ⟨h5, h6⟩ := h3 hc; exact ⟨h5, h6⟩
      · refine ⟨h1, ht, h2, ?_⟩
        intro hc; obtain ⟨h5, h6⟩ := h3 hc; exact ⟨h6, h5⟩
    · rw [bh_fill f t h2]
      have hr : isRed (f.fill t) = decide (f.color = .kRed) := by
        unfold Frame.fill
        cases hcol : f.color <;> split <;> simp [isRed, hcol]
      rw [hr]
      exact h4

/-! ### Lookup -/

theorem getNode_lookup (key : K) (t : Tree K) (p : Path K) (h : Ascending (toList t)) :
    (match GetNode key t p with
      | some (.node _ _ _ v _, _) => some v
      | _ => none) = lookup key (toList t) := by
  induction t generalizing p with
  | nil => simp [GetNode, toList, lookup_nil]
  | node c l k v r ihl ihr =>
    simp only [toList] at h
    rw [ascending_append, ascending_cons] at h
    obtain ⟨hl, ⟨hkr, hr⟩, hlk⟩ := h
    have hlk' : ∀ a ∈ toList l, a.1 < k := fun a ha => hlk a ha (k, v) (List.mem_cons_self _ _)
    simp only [GetNode, toList, lookup_append, lookup_cons]
    by_cases h1 : key < k
    · simp only [h1, if_true]
      rw [ihl _ hl]
      have h2 : k ≠ key := ne_of_gt h1
      rw [if_neg h2, lookup_none_of_lt fun e he => lt_trans h1 (hkr e he)]
      cases lookup key (toList l) <;> rfl
    · simp only [h1, if_false]
      by_cases h2 : key > k
      · simp only [h2, if_true]
        rw [ihr _ hr, lookup_none_of_gt fun e he => lt_trans (hlk' e he) h2]
        simp [ne_of_lt h2]
      · simp only [h2, if_false]
        have h3 : k = key := le_antisymm (not_lt.mp h1) (not_lt.mp h2)
        rw [lookup_none_of_gt fun e he => h3 ▸ hlk' e he]
        simp [h3]

theorem rb_get_eq_lookup (t : Tree K) (key : K) (h : Ascending (toList t)) :
    Get t key = (lookup key (toList t)).getD Person.empty := by
  rw [← getNode_lookup key t [] h, Get]
  split <;> simp_all

theorem rb_exists_eq_lookup (t : Tree K) (key : K) (h : Ascending (toList t)) :
    Exists t key = (lookup key (toList t)).isSome := by
  rw [← getNode_lookup key t [] h, Exists]
  have hn : ∀ (t : Tree K) (p q : Path K), GetNode key t p = some (.nil, q) → False := by
    intro t
    induction t with
    | nil => intro p q h; simp [GetNode] at h
    | node c l k v r ihl ihr =>
      intro p q h
      simp only [GetNode] at h
      split at h
      · exact ihl _ _ h
      · split at h
        · exact ihr _ _ h
        · cases h
  cases hg : GetNode key t [] with
  | none => rfl
  | some x =>
    obtain ⟨n, q⟩ := x
    cases n with
    | nil => exact (hn _ _ _ hg).elim
    | node c l k v r => rfl

theorem getNode_zip (key : K) :
    ∀ (t : Tree K) (p : Path K) (n : Tree K) (q : Path K), GetNode key t p = some (n, q) →
      zip n q = zip t p ∧ ∃ c l v r, n = .node c l key v r := by
  intro t
  induction t with
  | nil => intro p n q h; simp [GetNode] at h
  | node c l k v r ihl ihr =>
    intro p n q h
    simp only [GetNode] at h
    split at h
    · obtain ⟨h1, h2⟩ := ihl _ _ _ h
      exact ⟨by simpa [zip, Frame.fill] using h1, h2⟩
    · split at h
      · obtain ⟨h1, h2⟩ := ihr _ _ _ h
        exact ⟨by simpa [zip, Frame.fill] using h1, h2⟩
      · rename_i h1 h2
        have h3 : k = key := le_antisymm (not_lt.mp h1) (not_lt.mp h2)
        simp only [Option.some.injEq, Prod.mk.injEq] at h
        obtain ⟨rfl, rfl⟩ := h
        exact ⟨rfl, c, l, v, r, by rw [h3]⟩

/-! ### Traversal -/

theorem size_eq_length (t : Tree K) : t.size = (toList t).length := by
  induction t with
  | nil => rfl
  | node c l k v r ihl ihr => simp [Tree.size, toList, ihl, ihr]; omega

theorem min_node_spec (t : Tree K) (p : Path K) (ht : t ≠ .nil) :
    ∃ c k v r q, min_node t p = some (.node c .nil k v r, q) ∧
      (k, v) :: toList r ++ pathRight q = toList t ++ pathRight p := by
  induction t generalizing p with
  | nil => exact absurd rfl ht
  | node c l k v r ihl _ =>
    cases l with
    | nil => exact ⟨c, k, v, r, p, by simp [min_node], by simp [toList]⟩
    | node lc ll lk lv lr =>
      obtain ⟨c1, k1, v1, r1, q1, h1, h2⟩ := ihl (⟨true, c, k, v, r⟩ :: p) (by simp)
      refine ⟨c1, k1, v1, r1, q1, by simpa [min_node] using h1, ?_⟩
      rw [h2]
      simp [toList, pathRight]

theorem climb_spec (t : Tree K) (p : Path K) :
    match climb t p with
    | none => pathRight p = []
    | some (n, q) => ∃ c l k v r, n = .node c l k v r ∧
        pathRight p = (k, v) :: toList r ++ pathRight q := by
  induction p generalizing t with
  | nil => simp [climb, pathRight]
  | cons f rest ih =>
    simp only [climb]
    by_cases hf : f.isLeft = true
    · simp only [hf, if_true, pathRight, Frame.fill]
      exact ⟨_, _, _, _, _, rfl, rfl⟩
    · simp only [hf, if_false, pathRight, Bool.false_eq_true]
      exact ih _

theorem nextNode_spec (root : Tree K) (c : NodeColor) (l : Tree K) (k : K) (v : Person)
    (r : Tree K) (p : Path K) :
    match NextNode root (some (.node c l k v r, p)) with
    | none => toList r ++ pathRight p = []
    | some (n, q) => ∃ c1 l1 k1 v1 r1, n = .node c1 l1 k1 v1 r1 ∧
        toList r ++ pathRight p = (k1, v1) :: toList r1 ++ pathRight q := by
  cases r with
  | nil =>
    cases p with
    | nil => simp [NextNode, toList, pathRight]
    | cons f rest =>
      simp only [NextNode, toList, List.nil_append]
      by_cases hf : f.isLeft = true
      · simp only [hf, if_true, pathRight, Frame.fill]
        exact ⟨_, _, _, _, _, rfl, rfl⟩
      · simp only [hf, if_false, Bool.false_eq_true]
        exact climb_spec _ _
  | node rc rl rk rv rr =>
    obtain ⟨c1, k1, v1, r1, q1, h1, h2⟩ :=
      min_node_spec (.node rc rl rk rv rr) (⟨false, c, k, v, l⟩ :: p) (by simp)
    simp only [NextNode, h1]
    exact ⟨_, _, _, _, _, rfl, by rw [h2]; simp [pathRight]⟩

theorem traverse_spec (root : Tree K) (fuel : Nat) (c : NodeColor) (l : Tree K) (k : K)
    (v : Person) (r : Tree K) (p : Path K)
    (hf : (toList r ++ pathRight p).length < fuel) :
    traverse root fuel (some (.node c l k v r, p)) =
      some ((k, v) :: toList r ++ pathRight p) := by
  induction fuel generalizing c l k v r p with
  | zero => omega
  | succ fuel ih =>
    simp only [traverse]
    have hs := nextNode_spec root c l k v r p
    cases hn : NextNode root (some (.node c l k v r, p)) with
    | none =>
      rw [hn] at hs
      simp only at hs
      rw [List.cons_append, hs]
      cases fuel <;> simp [traverse]
    | some x =>
      obtain ⟨n, q⟩ := x
      rw [hn] at hs
      obtain ⟨c1, l1, k1, v1, r1, rfl, h2⟩ := hs
      rw [ih c1 l1 k1 v1 r1 q (by rw [h2] at hf; simp at hf ⊢; omega)]
      simp [h2]

theorem entries_eq (root : Tree K) : entries root = some (toList root) := by
  unfold entries
  cases root with
  | nil => simp [NextNode, min_node, toList, traverse]
  | node c l k v r =>
    obtain ⟨c1, k1, v1, r1, q1, h1, h2⟩ := min_node_spec (.node c l k v r) [] (by simp)
    simp only [NextNode, h1]
    rw [traverse_spec]
    · rw [h2]; simp [pathRight]
    · rw [size_eq_length]
      have := congrArg List.length h2
      simp [pathRight] at this ⊢
      omega

end

end RBTree

end s21

namespace s21

namespace RBTree

section
variable {K : Type} [LinearOrder K]

/-! ### Insertion: the entries -/

theorem rotation_toList {t : Tree K} {p : Path K} {right : Bool} {n : Tree K} {q : Path K}
    (h : Rotation t p right = some (n, q)) : toList (zip n q) = toList (zip t p) := by
  cases t with
  | nil => simp [Rotation] at h
  | node c l k v r =>
    cases p with
    | nil => simp [Rotation] at h
    | cons f rest =>
      simp only [Rotation] at h
      cases right <;> cases hf : f.isLeft <;> simp [hf] at h
      all_goals
        obtain ⟨rfl, rfl⟩ := h
        simp [rb_toList_zip, toList, pathLeft, pathRight, hf]

theorem recolorPair_toList {b : Bool} {t : Tree K} {p : Path K} {root : Tree K}
    (h : recolorPair b t p = some root) : toList root = toList (zip t p) := by
  cases t with
  | nil => simp [recolorPair] at h
  | node c l k v r =>
    cases b
    · cases l with
      | nil => simp [recolorPair, recolorNode] at h
      | node lc ll lk lv lr =>
        simp [recolorPair, recolorNode] at h
        subst h
        simp [rb_toList_zip, toList]
    · cases r with
      | nil => simp [recolorPair, recolorNode] at h
      | node rc rl rk rv rr =>
        simp [recolorPair, recolorNode] at h
        subst h
        simp [rb_toList_zip, toList]

theorem checkRotation_toList {t : Tree K} {p : Path K} {root : Tree K}
    (h : CheckRotation t p = some root) : toList root = toList (zip t p) := by
  match p, h with
  | [], h => simp [CheckRotation] at h; rw [← h]
  | [f], h => simp [CheckRotation] at h; rw [← h]
  | f :: g :: rest, h =>
    simp only [CheckRotation] at h
    split at h
    · obtain ⟨n1, h1, h⟩ := Option.bind_eq_some.mp h
      obtain ⟨n2, h2, h⟩ := Option.bind_eq_some.mp h
      rw [recolorPair_toList h, rotation_toList h2, rotation_toList h1]
    · split at h
      · obtain ⟨n1, h1, h⟩ := Option.bind_eq_some.mp h
        obtain ⟨n2, h2, h⟩ := Option.bind_eq_some.mp h
        rw [recolorPair_toList h, rotation_toList h2, rotation_toList h1]
      · split at h
        · obtain ⟨n1, h1, h⟩ := Option.bind_eq_some.mp h
          rw [recolorPair_toList h, rotation_toList h1]; rfl
        · split at h
          · obtain ⟨n1, h1, h⟩ := Option.bind_eq_some.mp h
            rw [recolorPair_toList h, rotation_toList h1]; rfl
          · simp at h; rw [← h]

theorem insertionCheck_toList : ∀ (p : Path K) (t root : Tree K),
    InsertionCheck t p = some root → toList root = toList (zip t p)
  | [], t, root, h => by simp [InsertionCheck] at h; rw [← h]; rfl
  | [f], t, root, h => by
    simp only [InsertionCheck] at h
    split at h
    · exact checkRotation_toList h
    · simp at h; rw [← h]
  | f :: g :: rest, t, root, h => by
    simp only [InsertionCheck] at h
    split at h
    · split at h
      · split at h
        · simp at h; rw [← h]
          simp [rb_toList_zip, toList, pathLeft, pathRight, *]
        · rename_i hd tl
          rw [insertionCheck_toList _ _ _ h]
          simp [rb_toList_zip, toList, pathLeft, pathRight, *, toList_fill]
          cases f.isLeft <;> cases g.isLeft <;> simp [toList, *]
      · exact checkRotation_toList h
    · simp at h; rw [← h]

end

end RBTree

end s21

namespace s21

namespace RBTree

section
variable {K : Type} [LinearOrder K]

/-! ### Insertion: the red-black shape -/

theorem isRed_eq_true {t : Tree K} (h : isRed t = true) :
    ∃ l k v r, t = .node .kRed l k v r := by
  cases t with
  | nil => simp [isRed] at h
  | node c l k v r =>
    cases c
    · exact ⟨l, k, v, r, rfl⟩
    · simp [isRed] at h

theorem checkRotation_bal (t : Tree K) (f g : Frame K) (rest : Path K)
    (ht : Bal t) (htr : isRed t = true) (hf : f.color = .kRed) (hu : isRed g.other = false)
    (hp : PathBal (f :: g :: rest) false (bh t)) :
    ∃ root, CheckRotation t (f :: g :: rest) = some root ∧ Bal root ∧ isRed root = false := by
  obtain ⟨l, k, v, r, rfl⟩ := isRed_eq_true htr
  obtain ⟨fl, fc, fk, fv, fo⟩ := f
  obtain ⟨gl, gc, gk, gv, go⟩ := g
  simp only at hf hu
  subst hf
  simp only [PathBal, Bal, bh] at hp ht
  obtain ⟨hp1, hp2, hp3, hp4, hp5, hp6, hp7⟩ := hp
  have hgc : gc = .kBlack := by
    cases gc
    · simp at hp6
    · rfl
  subst hgc
  cases fl <;> cases gl <;>
    simp [CheckRotation, Rotation, recolorPair, recolorNode, Recolor, Frame.fill]
  all_goals
    apply bal_zip
    · simp_all [Bal, bh, isRed]
    · simp_all [Bal, bh, isRed]

theorem pathBal_black_frame {f : Frame K} {p : Path K} {n : Nat} {b : Bool}
    (hc : f.color ≠ .kRed) (h : PathBal (f :: p) false n) : PathBal (f :: p) b n := by
  simp only [PathBal] at h ⊢
  exact ⟨h.1, h.2.1, fun h1 => absurd h1 hc, h.2.2.2⟩

theorem insertionCheck_black (t : Tree K) (f : Frame K) (p : Path K) (hc : f.color ≠ .kRed) :
    InsertionCheck t (f :: p) = some (zip t (f :: p)) := by
  cases p <;> simp [InsertionCheck, hc]

theorem insertionCheck_rot (t : Tree K) (f g : Frame K) (rest : Path K)
    (hc : f.color = .kRed) (hu : isRed g.other = false) :
    InsertionCheck t (f :: g :: rest) = CheckRotation t (f :: g :: rest) := by
  simp only [InsertionCheck, hc, if_true]
  split
  · rename_i h; simp [h, isRed] at hu
  · rfl

theorem insertionCheck_uncle_root (t : Tree K) (f g : Frame K) (ul ur : Tree K) (uk : K)
    (uv : Person) (hc : f.color = .kRed) (hu : g.other = .node .kRed ul uk uv ur) :
    InsertionCheck t [f, g] =
      some (zip t [⟨f.isLeft, .kBlack, f.key, f.value, f.other⟩,
        ⟨g.isLeft, g.color, g.key, g.value, .node .kBlack ul uk uv ur⟩]) := by
  simp [InsertionCheck, hc, hu, Recolor]

theorem insertionCheck_uncle (t : Tree K) (f g h : Frame K) (rest : Path K) (ul ur : Tree K)
    (uk : K) (uv : Person) (hc : f.color = .kRed) (hu : g.other = .node .kRed ul uk uv ur) :
    InsertionCheck t (f :: g :: h :: rest) =
      InsertionCheck
        (Frame.fill ⟨g.isLeft, Recolor g.color false, g.key, g.value, .node .kBlack ul uk uv ur⟩
          (Frame.fill ⟨f.isLeft, .kBlack, f.key, f.value, f.other⟩ t))
        (h :: rest) := by
  simp [InsertionCheck, hc, hu, Recolor]

theorem insertionCheck_bal : ∀ (p : Path K) (t : Tree K), p ≠ [] → Bal t → isRed t = true →
    PathBal p false (bh t) →
    ∃ root, InsertionCheck t p = some root ∧ Bal root ∧ isRed root = false
  | [], _, hne, _, _, _ => absurd rfl hne
  | [f], t, _, ht, htr, hp => by
    have hc : f.color ≠ .kRed := by
      intro hc
      simp [PathBal, hc] at hp
    refine ⟨zip t [f], insertionCheck_black t f [] hc, ?_⟩
    apply bal_zip ht
    rw [htr]
    exact pathBal_black_frame hc hp
  | f :: g :: rest, t, _, ht, htr, hp => by
    by_cases hc : f.color = .kRed
    · have hp' := hp
      simp only [PathBal, hc, decide_True, true_implies] at hp'
      obtain ⟨hp1, hp2, hp3, hp4, hp5, hp6, hp7⟩ := hp'
      have hg : g.color = .kBlack := by
        cases hgc : g.color
        · simp [hgc] at hp6
        · rfl
      cases hu : isRed g.other with
      | false =>
        rw [insertionCheck_rot t f g rest hc hu]
        exact checkRotation_bal t f g rest ht htr hc hu hp
      | true =>
        obtain ⟨ul, uk, uv, ur, hgo⟩ := isRed_eq_true hu
        have hbu : Bal g.other := hp4
        rw [hgo] at hbu hp5
        simp only [Bal, bh] at hbu hp5
        obtain ⟨l, k, v, r, rfl⟩ := isRed_eq_true htr
        simp only [Bal, bh] at ht hp2 hp5
        cases rest with
        | nil =>
          rw [insertionCheck_uncle_root _ f g ul ur uk uv hc hgo]
          refine ⟨_, rfl, ?_⟩
          cases hfl : f.isLeft <;> cases hgl : g.isLeft <;>
            simp_all [zip, Frame.fill, Bal, bh, isRed, Recolor]
        | cons h rest1 =>
          rw [insertionCheck_uncle _ f g h rest1 ul ur uk uv hc hgo]
          apply insertionCheck_bal (h :: rest1) _ (by simp)
          · cases hfl : f.isLeft <;> cases hgl : g.isLeft <;>
              simp_all [zip, Frame.fill, Bal, bh, isRed, Recolor]
          · cases hfl : f.isLeft <;> cases hgl : g.isLeft <;>
              simp_all [Frame.fill, isRed, Recolor]
          · have hb : bh (Frame.fill
                ⟨g.isLeft, Recolor g.color false, g.key, g.value, .node .kBlack ul uk uv ur⟩
                (Frame.fill ⟨f.isLeft, .kBlack, f.key, f.value, f.other⟩
                  (.node .kRed l k v r))) = bh l + 1 := by
              cases hfl : f.isLeft <;> cases hgl : g.isLeft <;>
                simp_all [Frame.fill, bh, Recolor]
            rw [hb]
            simpa [hg] using hp7
    · refine ⟨zip t (f :: g :: rest), insertionCheck_black t f _ hc, ?_⟩
      apply bal_zip ht
      rw [htr]
      exact pathBal_black_frame hc hp

end

end RBTree

end s21

namespace s21

namespace RBTree

section
variable {K : Type} [LinearOrder K]

/-! ### `Insert` and `Set` -/

theorem pathBal_child_left' {c : NodeColor} {l r : Tree K} {k : K} {v : Person} {p : Path K}
    (k1 : K) (v1 : Person) (hb : Bal (.node c l k v r))
    (hp : PathBal p (isRed (.node c l k v r)) (bh (.node c l k v r))) :
    PathBal (⟨true, c, k1, v1, r⟩ :: p) (isRed l) (bh l) := by
  cases c <;> simp_all [PathBal, Bal, bh, isRed]

theorem pathBal_child_left {c : NodeColor} {l r : Tree K} {k : K} {v : Person} {p : Path K}
    (hb : Bal (.node c l k v r))
    (hp : PathBal p (isRed (.node c l k v r)) (bh (.node c l k v r))) :
    PathBal (⟨true, c, k, v, r⟩ :: p) (isRed l) (bh l) := pathBal_child_left' k v hb hp

theorem pathBal_child_right' {c : NodeColor} {l r : Tree K} {k : K} {v : Person}
    {p : Path K} (k1 : K) (v1 : Person) (hb : Bal (.node c l k v r))
    (hp : PathBal p (isRed (.node c l k v r)) (bh (.node c l k v r))) :
    PathBal (⟨false, c, k1, v1, l⟩ :: p) (isRed r) (bh r) := by
  cases c <;> simp_all [PathBal, Bal, bh, isRed]

theorem pathBal_child_right {c : NodeColor} {l r : Tree K} {k : K} {v : Person} {p : Path K}
    (hb : Bal (.node c l k v r))
    (hp : PathBal p (isRed (.node c l k v r)) (bh (.node c l k v r))) :
    PathBal (⟨false, c, k, v, l⟩ :: p) (isRed r) (bh r) := pathBal_child_right' k v hb hp

theorem insert_spec (key : K) (value : Person) :
    ∀ (t : Tree K) (p : Path K), t ≠ .nil →
      Ascending (pathLeft p ++ toList t ++ pathRight p) →
      (∀ e ∈ pathLeft p, e.1 < key) → (∀ e ∈ pathRight p, key < e.1) →
      Bal t → PathBal p (isRed t) (bh t) →
      ∃ b root, Insert key value t p = some (b, root) ∧ Bal root ∧ isRed root = false ∧
        (b = false → root = zip t p ∧ key ∈ (toList t).map Prod.fst) ∧
        (b = true → key ∉ (toList t).map Prod.fst ∧
          toList root = pathLeft p ++ ins key value (toList t) ++ pathRight p) := by
  intro t
  induction t with
  | nil => intro p h; exact absurd rfl h
  | node c l k v r ihl ihr =>
    intro p _ hasc hleft hright hbal hpath
    have hasc' := hasc
    simp only [toList] at hasc'
    rw [ascending_append, ascending_append, ascending_append, ascending_cons] at hasc'
    obtain ⟨⟨_, ⟨_, ⟨hkr, _⟩, hlk⟩, _⟩, _, _⟩ := hasc'
    have hlk' : ∀ a ∈ toList l, a.1 < k := fun a ha => hlk a ha (k, v) (List.mem_cons_self _ _)
    have hbl : Bal l := hbal.1
    have hbr : Bal r := hbal.2.1
    by_cases h1 : key < k
    · have hnotin : key ∉ (toList ((.node c l k v r : Tree K))).map Prod.fst →
          key ∉ (toList l).map Prod.fst := by
        intro h hm
        apply h
        simp only [toList, List.map_append, List.mem_append]
        exact Or.inl hm
      have hright' : ∀ e ∈ pathRight (⟨true, c, k, v, r⟩ :: p), key < e.1 := by
        intro e he
        simp only [pathRight, if_true, List.cons_append, List.mem_cons, List.mem_append] at he
        rcases he with rfl | he | he
        · exact h1
        · exact lt_trans h1 (hkr e he)
        · exact hright e he
      have hkeyr : key ∉ ((k, v) :: toList r).map Prod.fst := by
        intro hm
        obtain ⟨e, he, hek⟩ := List.mem_map.mp hm
        rcases List.mem_cons.mp he with rfl | he
        · have hk' : k = key := hek
          rw [hk'] at h1
          exact lt_irrefl _ h1
        · exact absurd (lt_trans h1 (hkr e he)) (by rw [hek]; exact lt_irrefl _)
      have hins : ins key value (toList (.node c l k v r)) =
          ins key value (toList l) ++ (k, v) :: toList r := by
        simp only [toList]
        apply ins_append_right
        intro e he
        rcases List.mem_cons.mp he with rfl | he
        · exact h1
        · exact lt_trans h1 (hkr e he)
      cases l with
      | nil =>
        obtain ⟨root, hroot, hb1, hb2⟩ := insertionCheck_bal (⟨true, c, k, v, r⟩ :: p)
          (.node .kRed .nil key value .nil) (by simp) (by simp [Bal, bh, isRed]) rfl
          (by simpa [bh] using pathBal_of (pathBal_child_left hbal hpath))
        refine ⟨true, root, by rw [Insert.eq_def]; simp [h1, hroot], hb1, hb2, by simp, ?_⟩
        intro _
        refine ⟨by simp only [toList, List.nil_append]; exact hkeyr, ?_⟩
        rw [insertionCheck_toList _ _ _ hroot, rb_toList_zip, hins]
        simp [toList, pathLeft, pathRight, ins]
      | node lc ll lk lv lr =>
        obtain ⟨b, root, hins1, hb1, hb2, hf, ht⟩ := ihl (⟨true, c, k, v, r⟩ :: p) (by simp)
          (by simpa [pathLeft, pathRight, toList, List.append_assoc] using hasc)
          (by simpa [pathLeft] using hleft) hright' hbl (pathBal_child_left hbal hpath)
        refine ⟨b, root, by rw [Insert.eq_def]; simp only [h1, if_true]; exact hins1, hb1, hb2, ?_, ?_⟩
        · intro hb
          obtain ⟨h2, h3⟩ := hf hb
          refine ⟨by rw [h2]; simp [zip, Frame.fill], ?_⟩
          simp only [toList, List.map_append, List.mem_append] at h3 ⊢
          exact Or.inl h3
        · intro hb
          obtain ⟨h2, h3⟩ := ht hb
          refine ⟨?_, ?_⟩
          · intro hm
            simp only [toList, List.map_append, List.mem_append] at hm h2
            rcases hm with hm | hm
            · exact h2 hm
            · exact hkeyr hm
          · rw [h3, hins]
            simp [pathLeft, pathRight, List.append_assoc]
    · by_cases h2 : key > k
      · have hleft' : ∀ e ∈ pathLeft (⟨false, c, k, v, l⟩ :: p), e.1 < key := by
          intro e he
          simp only [pathLeft, Bool.false_eq_true, if_false, List.mem_append, List.mem_singleton]
            at he
          rcases he with (he | he) | rfl
          · exact hleft e he
          · exact lt_trans (hlk' e he) h2
          · exact h2
        have hkeyl : key ∉ (toList l ++ [(k, v)]).map Prod.fst := by
          intro hm
          obtain ⟨e, he, hek⟩ := List.mem_map.mp hm
          rcases List.mem_append.mp he with he | he
          · exact absurd (lt_trans (hlk' e he) h2) (by rw [hek]; exact lt_irrefl _)
          · simp at he; subst he
            have hk' : k = key := hek
            rw [hk'] at h2
            exact lt_irrefl _ h2
        have hins : ins key value (toList (.node c l k v r)) =
            toList l ++ (k, v) :: ins key value (toList r) := by
          simp only [toList]
          have := ins_append_left key value (toList l ++ [(k, v)]) (toList r) (by
            intro e he
            rcases List.mem_append.mp he with he | he
            · exact lt_trans (hlk' e he) h2
            · simp at he; subst he; exact h2)
          simpa [List.append_assoc] using this
        cases r with
        | nil =>
          obtain ⟨root, hroot, hb1, hb2⟩ := insertionCheck_bal (⟨false, c, k, v, l⟩ :: p)
            (.node .kRed .nil key value .nil) (by simp) (by simp [Bal, bh, isRed]) rfl
            (by simpa [bh] using pathBal_of (pathBal_child_right hbal hpath))
          refine ⟨true, root, by rw [Insert.eq_def]; simp [h1, h2, hroot], hb1, hb2, by simp, ?_⟩
          intro _
          refine ⟨by simp only [toList]; exact hkeyl, ?_⟩
          rw [insertionCheck_toList _ _ _ hroot, rb_toList_zip, hins]
          simp [toList, pathLeft, pathRight, ins]
        | node rc rl rk rv rr =>
          obtain ⟨b, root, hins1, hb1, hb2, hf, ht⟩ := ihr (⟨false, c, k, v, l⟩ :: p) (by simp)
            (by simpa [pathLeft, pathRight, toList, List.append_assoc] using hasc)
            hleft' (by simpa [pathRight] using hright) hbr (pathBal_child_right hbal hpath)
          refine ⟨b, root, by rw [Insert.eq_def]; simp only [h1, h2, if_true, if_false]; exact hins1,
            hb1, hb2, ?_, ?_⟩
          · intro hb
            obtain ⟨h3, h4⟩ := hf hb
            refine ⟨by rw [h3]; simp [zip, Frame.fill], ?_⟩
            simp only [toList, List.map_append, List.mem_append, List.map_cons,
              List.mem_cons] at h4 ⊢
            exact Or.inr (Or.inr h4)
          · intro hb
            obtain ⟨h3, h4⟩ := ht hb
            refine ⟨?_, ?_⟩
            · intro hm
              simp only [toList, List.map_append, List.mem_append, List.map_cons,
                List.mem_cons, List.map_nil, List.not_mem_nil, or_false] at hm h3 hkeyl
              rcases hm with hm | hm | hm
              · exact hkeyl (Or.inl hm)
              · exact hkeyl (Or.inr hm)
              · exact h3 hm
            · rw [h4, hins]
              simp [pathLeft, pathRight, List.append_assoc]
      · have h3 : k = key := le_antisymm (not_lt.mp h1) (not_lt.mp h2)
        refine ⟨false, zip (.node c l k v r) p, by rw [Insert.eq_def]; simp [h1, h2], ?_, ?_, ?_, by simp⟩
        · exact (bal_zip hbal hpath).1
        · exact (bal_zip hbal hpath).2
        · intro _
          exact ⟨rfl, by simp [toList, h3]⟩

theorem inv_nil : Inv (.nil : Tree K) := by simp [Inv, Bal, isRed, toList, Ascending]

theorem rb_set_spec (t : Tree K) (h : Inv t) (key : K) (value : Person) :
    ∃ b root, Set t key value = some (b, root) ∧ Inv root ∧
      (b = false → root = t ∧ key ∈ (toList t).map Prod.fst) ∧
      (b = true → key ∉ (toList t).map Prod.fst ∧ toList root = ins key value (toList t)) := by
  obtain ⟨hb, hr, ha⟩ := h
  cases t with
  | nil =>
    refine ⟨true, .node .kBlack .nil key value .nil, rfl, ?_, by simp, ?_⟩
    · simp [Inv, Bal, bh, isRed, toList, Ascending]
    · intro _; simp [toList, ins]
  | node c l k v r =>
    obtain ⟨b, root, h1, h2, h3, h4, h5⟩ := insert_spec key value (.node c l k v r) [] (by simp)
      (by simpa [pathLeft, pathRight] using ha) (by simp [pathLeft]) (by simp [pathRight]) hb
      (by rw [hr]; simp [PathBal])
    refine ⟨b, root, by simpa [Set] using h1, ?_, ?_, ?_⟩
    · refine ⟨h2, h3, ?_⟩
      cases b
      · rw [(h4 rfl).1]; exact ha
      · obtain ⟨h6, h7⟩ := h5 rfl
        rw [h7]
        simpa [pathLeft, pathRight] using ascending_ins ha h6
    · intro hb'
      exact ⟨by simpa [zip] using (h4 hb').1, (h4 hb').2⟩
    · intro hb'
      exact ⟨(h5 hb').1, by simpa [pathLeft, pathRight] using (h5 hb').2⟩

end

end RBTree

end s21

namespace s21

namespace RBTree

section
variable {K : Type} [LinearOrder K]

/-! ### `Update` -/

theorem zip_shape (p : Path K) (t t1 : Tree K) (h1 : Bal t ↔ Bal t1) (h2 : bh t = bh t1)
    (h3 : isRed t = isRed t1) :
    (Bal (zip t p) ↔ Bal (zip t1 p)) ∧ bh (zip t p) = bh (zip t1 p) ∧
      isRed (zip t p) = isRed (zip t1 p) := by
  induction p generalizing t t1 with
  | nil => exact ⟨h1, h2, h3⟩
  | cons f p ih =>
    simp only [zip]
    apply ih
    · unfold Frame.fill
      split <;> simp [Bal, h1, h2, h3]
    · unfold Frame.fill
      split <;> simp [bh, h2]
    · unfold Frame.fill
      split <;> cases f.color <;> simp [isRed]

theorem lookup_mid (key : K) (v : Person) (as bs : List (K × Person))
    (h : Ascending (as ++ (key, v) :: bs)) : lookup key (as ++ (key, v) :: bs) = some v := by
  rw [ascending_append] at h
  rw [lookup_append, lookup_none_of_gt fun e he => h.2.2 e he (key, v) (List.mem_cons_self _ _)]
  simp [lookup_cons]

theorem lookup_mid_ne (key k : K) (v v1 : Person) (as bs : List (K × Person)) (h : k ≠ key) :
    lookup k (as ++ (key, v1) :: bs) = lookup k (as ++ (key, v) :: bs) := by
  simp [lookup_append, lookup_cons, Ne.symm h]

theorem rb_update_spec (t : Tree K) (h : Inv t) (key : K) (value : Person) :
    ∃ b root, Update t key value = (b, root) ∧ Inv root ∧ b = Exists t key ∧
      (b = false → root = t) ∧
      (b = true → ∃ old, lookup key (toList t) = some old ∧
        lookup key (toList root) = some (old.assign value) ∧
        (∀ k, k ≠ key → lookup k (toList root) = lookup k (toList t)) ∧
        (toList root).map Prod.fst = (toList t).map Prod.fst) := by
  obtain ⟨hb, hr, ha⟩ := h
  unfold Update Exists
  cases hg : GetNode key t [] with
  | none => exact ⟨false, t, rfl, ⟨hb, hr, ha⟩, rfl, fun _ => rfl, by simp⟩
  | some x =>
    obtain ⟨n, p⟩ := x
    obtain ⟨hz, c, l, v, r, rfl⟩ := getNode_zip key t [] n p hg
    simp only [zip] at hz
    have hl : toList t = pathLeft p ++ toList l ++ (key, v) :: (toList r ++ pathRight p) := by
      rw [← hz, rb_toList_zip]; simp [toList, List.append_assoc]
    have hl1 : toList (zip (.node c l key (v.assign value) r) p) =
        pathLeft p ++ toList l ++ (key, v.assign value) :: (toList r ++ pathRight p) := by
      rw [rb_toList_zip]; simp [toList, List.append_assoc]
    have hkeys : (toList (zip (.node c l key (v.assign value) r) p)).map Prod.fst =
        (toList t).map Prod.fst := by
      rw [hl, hl1]; simp
    have hsh := zip_shape p (.node c l key (v.assign value) r) (.node c l key v r)
      (by simp [Bal]) (by simp [bh]) (by cases c <;> simp [isRed])
    rw [hz] at hsh
    refine ⟨true, _, rfl, ⟨hsh.1.mpr hb, by rw [hsh.2.2]; exact hr, ?_⟩, rfl, by simp, ?_⟩
    · unfold Ascending; rw [hkeys]; exact ha
    · intro _
      refine ⟨v, ?_, ?_, ?_, hkeys⟩
      · rw [hl]; exact lookup_mid key v _ _ (hl ▸ ha)
      · rw [hl1]
        apply lookup_mid
        unfold Ascending
        rw [← hl1, hkeys]
        exact ha
      · intro k hk
        rw [hl, hl1]
        exact lookup_mid_ne key k v (v.assign value) _ _ hk

/-! ### `DeletionCheck`: the cases -/

theorem exists_sideNode (b : Bool) (c : NodeColor) (l : Tree K) (k : K) (v : Person)
    (r : Tree K) : ∃ near far, Tree.node c l k v r = sideNode b c near k v far := by
  cases b
  · exact ⟨r, l, rfl⟩
  · exact ⟨l, r, rfl⟩

theorem isRed_red (l r : Tree K) (k : K) (v : Person) : isRed (.node .kRed l k v r) = true :=
  rfl

theorem isRed_black (l r : Tree K) (k : K) (v : Person) :
    isRed (.node .kBlack l k v r) = false := rfl

theorem isRed_nil : isRed (.nil : Tree K) = false := rfl

theorem dc_red (fuel : Nat) (l r : Tree K) (k : K) (v : Person) (p : Path K) :
    DeletionCheck (fuel + 1) (.node .kRed l k v r) p = some p := by
  cases p <;> simp [DeletionCheck]

theorem dc_root (fuel : Nat) (t : Tree K) : DeletionCheck (fuel + 1) t [] = some [] := by
  cases t <;> simp [DeletionCheck]

theorem dc_a_red (fuel : Nat) (l r : Tree K) (k : K) (v : Person) (f : Frame K)
    (rest : Path K) (near far : Tree K) (sk : K) (sv : Person)
    (hfo : f.other = sideNode f.isLeft .kBlack near sk sv far)
    (hn : isRed near = false) (hfa : isRed far = false) (hc : f.color = .kRed) :
    DeletionCheck (fuel + 1) (.node .kBlack l k v r) (f :: rest) =
      some (⟨f.isLeft, .kBlack, f.key, f.value, sideNode f.isLeft .kRed near sk sv far⟩ ::
        rest) := by
  obtain ⟨fl, fc, fk, fv, fo⟩ := f
  simp only at hfo hc
  subst hfo hc
  cases fl <;> simp [DeletionCheck, sideNode, AreChildrenBlack, hn, hfa, Recolor]

theorem dc_a_black (fuel : Nat) (l r : Tree K) (k : K) (v : Person) (f : Frame K)
    (rest : Path K) (near far : Tree K) (sk : K) (sv : Person)
    (hfo : f.other = sideNode f.isLeft .kBlack near sk sv far)
    (hn : isRed near = false) (hfa : isRed far = false) (hc : f.color = .kBlack) :
    DeletionCheck (fuel + 1) (.node .kBlack l k v r) (f :: rest) =
      (DeletionCheck fuel
        (Frame.fill ⟨f.isLeft, .kBlack, f.key, f.value, sideNode f.isLeft .kRed near sk sv far⟩
          (.node .kBlack l k v r)) rest).map fun rest1 =>
        ⟨f.isLeft, .kBlack, f.key, f.value, sideNode f.isLeft .kRed near sk sv far⟩ ::
          rest1 := by
  obtain ⟨fl, fc, fk, fv, fo⟩ := f
  simp only at hfo hc
  subst hfo hc
  cases fl <;> simp [DeletionCheck, sideNode, AreChildrenBlack, hn, hfa, Recolor]

theorem dc_b (fuel : Nat) (l r : Tree K) (k : K) (v : Person) (f : Frame K)
    (rest : Path K) (near fl fr : Tree K) (sk fk : K) (sv fv : Person)
    (hfo : f.other = sideNode f.isLeft .kBlack near sk sv (.node .kRed fl fk fv fr)) :
    DeletionCheck (fuel + 1) (.node .kBlack l k v r) (f :: rest) =
      some (⟨f.isLeft, .kBlack, f.key, f.value, near⟩ ::
        ⟨f.isLeft, f.color, sk, sv, .node .kBlack fl fk fv fr⟩ :: rest) := by
  obtain ⟨isl, fc, pk, pv, fo⟩ := f
  simp only at hfo
  subst hfo
  cases isl <;>
    simp [DeletionCheck, sideNode, AreChildrenBlack, Recolor, isRed, recolorNode, Rotation,
      child]

theorem dc_c (fuel : Nat) (l r : Tree K) (k : K) (v : Person) (f : Frame K)
    (rest : Path K) (a b far : Tree K) (sk nk : K) (sv nv : Person)
    (hfo : f.other = sideNode f.isLeft .kBlack (sideNode f.isLeft .kRed a nk nv b) sk sv far)
    (hfa : isRed far = false) :
    DeletionCheck (fuel + 1) (.node .kBlack l k v r) (f :: rest) =
      DeletionCheck fuel (.node .kBlack l k v r)
        (⟨f.isLeft, f.color, f.key, f.value,
          sideNode f.isLeft .kBlack a nk nv (sideNode f.isLeft .kRed b sk sv far)⟩ :: rest) := by
  obtain ⟨isl, fc, pk, pv, fo⟩ := f
  simp only at hfo
  subst hfo
  cases isl <;>
    simp [DeletionCheck, sideNode, AreChildrenBlack, Recolor, isRed_red, recolorNode, Rotation,
      child, hfa]

theorem dc_red_sib (fuel : Nat) (l r : Tree K) (k : K) (v : Person) (f : Frame K)
    (rest : Path K) (near far : Tree K) (sk : K) (sv : Person)
    (hfo : f.other = sideNode f.isLeft .kRed near sk sv far) :
    DeletionCheck (fuel + 1) (.node .kBlack l k v r) (f :: rest) =
      DeletionCheck fuel (.node .kBlack l k v r)
        (⟨f.isLeft, .kRed, f.key, f.value, near⟩ :: ⟨f.isLeft, f.color, sk, sv, far⟩ ::
          rest) := by
  obtain ⟨isl, fc, pk, pv, fo⟩ := f
  simp only at hfo
  subst hfo
  cases isl <;>
    simp [DeletionCheck, sideNode, AreChildrenBlack, Recolor, isRed, recolorNode, Rotation,
      child]

end

end RBTree

end s21

namespace s21

namespace RBTree

section
variable {K : Type} [LinearOrder K]

/-! ### `DeletionCheck`: entries and shape -/

theorem dc_nil (fuel : Nat) (p : Path K) : DeletionCheck (fuel + 1) .nil p = some p := by
  simp [DeletionCheck]

theorem dc_nil_sib (fuel : Nat) (c : NodeColor) (l r : Tree K) (k : K) (v : Person)
    (f : Frame K) (rest : Path K) (hfo : f.other = .nil) :
    DeletionCheck (fuel + 1) (.node c l k v r) (f :: rest) = some (f :: rest) := by
  cases c <;> simp [DeletionCheck, hfo]

theorem toList_sideNode (b : Bool) (c : NodeColor) (near far : Tree K) (k : K) (v : Person) :
    toList (sideNode b c near k v far) =
      if b then toList near ++ (k, v) :: toList far else toList far ++ (k, v) :: toList near := by
  cases b <;> simp [sideNode, toList]

theorem isRed_cases (t : Tree K) :
    (isRed t = false) ∨ ∃ l k v r, t = .node .kRed l k v r := by
  cases h : isRed t
  · exact Or.inl rfl
  · exact Or.inr (isRed_eq_true h)

/-- The position of a node after `DeletionCheck` has the same entries before and after it. -/
theorem deletionCheck_path : ∀ (fuel : Nat) (t : Tree K) (p p1 : Path K),
    DeletionCheck fuel t p = some p1 →
      pathLeft p1 = pathLeft p ∧ pathRight p1 = pathRight p := by
  intro fuel
  induction fuel with
  | zero => intro t p p1 h; simp [DeletionCheck] at h
  | succ fuel ih =>
    intro t p p1 h
    cases t with
    | nil => rw [dc_nil] at h; cases h; exact ⟨rfl, rfl⟩
    | node c l k v r =>
      cases p with
      | nil => rw [dc_root] at h; cases h; exact ⟨rfl, rfl⟩
      | cons f rest =>
        cases c with
        | kRed => rw [dc_red] at h; cases h; exact ⟨rfl, rfl⟩
        | kBlack =>
          cases hfo : f.other with
          | nil => rw [dc_nil_sib _ _ _ _ _ _ _ _ hfo] at h; cases h; exact ⟨rfl, rfl⟩
          | node sc sl sk sv sr =>
            obtain ⟨near, far, hs⟩ := exists_sideNode f.isLeft sc sl sk sv sr
            rw [hs] at hfo
            cases sc with
            | kRed =>
              rw [dc_red_sib _ _ _ _ _ _ _ _ _ _ _ hfo] at h
              obtain ⟨h1, h2⟩ := ih _ _ _ h
              rw [h1, h2]
              cases hfl : f.isLeft <;>
                simp [pathLeft, pathRight, hfl, hfo, toList_sideNode, List.append_assoc]
            | kBlack =>
              rcases isRed_cases far with hfar | ⟨fl, fk, fv, fr, rfl⟩
              · rcases isRed_cases near with hnear | ⟨nl, nk, nv, nr, rfl⟩
                · cases hc : f.color with
                  | kRed =>
                    rw [dc_a_red _ _ _ _ _ _ _ _ _ _ _ hfo hnear hfar hc] at h
                    cases h
                    cases hfl : f.isLeft <;>
                      simp [pathLeft, pathRight, hfl, hfo, toList_sideNode]
                  | kBlack =>
                    rw [dc_a_black _ _ _ _ _ _ _ _ _ _ _ hfo hnear hfar hc] at h
                    obtain ⟨rest1, h1, h2⟩ := Option.map_eq_some'.mp h
                    obtain ⟨h3, h4⟩ := ih _ _ _ h1
                    rw [← h2]
                    cases hfl : f.isLeft <;>
                      simp [pathLeft, pathRight, hfl, hfo, toList_sideNode, h3, h4]
                · obtain ⟨a, b, hab⟩ := exists_sideNode f.isLeft .kRed nl nk nv nr
                  rw [hab] at hfo
                  rw [dc_c _ _ _ _ _ _ _ _ _ _ _ _ _ _ hfo hfar] at h
                  obtain ⟨h1, h2⟩ := ih _ _ _ h
                  rw [h1, h2]
                  cases hfl : f.isLeft <;>
                    simp [pathLeft, pathRight, hfl, hfo, toList_sideNode, List.append_assoc]
              · rw [dc_b _ _ _ _ _ _ _ _ _ _ _ _ _ _ hfo] at h
                cases h
                cases hfl : f.isLeft <;>
                  simp [pathLeft, pathRight, hfl, hfo, toList_sideNode, toList,
                    List.append_assoc]

/-- One round of `DeletionCheck` below a black sibling, when it does not move on to the
parent. -/
theorem dc_bal_step (n fuel : Nat) (l r : Tree K) (k : K) (v : Person) (f : Frame K)
    (rest : Path K) (near far : Tree K) (sk : K) (sv : Person)
    (hfo : f.other = sideNode f.isLeft .kBlack near sk sv far)
    (hstop : ¬ (isRed near = false ∧ isRed far = false ∧ f.color = .kBlack))
    (hp : PathBal (f :: rest) false (n + 1)) :
    ∃ p1, DeletionCheck (fuel + 2) (.node .kBlack l k v r) (f :: rest) = some p1 ∧
      PathBal p1 false n := by
  obtain ⟨isl, fc, pk, pv, fo⟩ := f
  simp only at hfo hstop
  subst hfo
  rcases isRed_cases far with hfar | ⟨fl, fk, fv, fr, rfl⟩
  · rcases isRed_cases near with hnear | ⟨nl, nk, nv, nr, rfl⟩
    · have hc : fc = .kRed := by
        cases fc
        · rfl
        · exact absurd ⟨hnear, hfar, rfl⟩ hstop
      subst hc
      rw [dc_a_red _ _ _ _ _ _ _ near far sk sv rfl hnear hfar rfl]
      refine ⟨_, rfl, ?_⟩
      cases isl <;> simp_all [PathBal, Bal, bh, sideNode, isRed_red, isRed_black]
      · exact ⟨by omega, pathBal_weaken hp.2.2⟩
      · exact ⟨by omega, pathBal_weaken hp.2.2⟩
    · obtain ⟨a, b, hab⟩ := exists_sideNode isl .kRed nl nk nv nr
      rw [hab] at hp ⊢
      rw [dc_c _ _ _ _ _ _ _ a b far sk nk sv nv rfl hfar]
      cases isl
      · rw [dc_b fuel l r k v _ rest a far b nk sk nv sv (by simp [sideNode])]
        refine ⟨_, rfl, ?_⟩
        simp_all [PathBal, Bal, bh, sideNode, isRed_red, isRed_black]
        omega
      · rw [dc_b fuel l r k v _ rest a b far nk sk nv sv (by simp [sideNode])]
        refine ⟨_, rfl, ?_⟩
        simp_all [PathBal, Bal, bh, sideNode, isRed_red, isRed_black]
        omega
  · rw [dc_b _ _ _ _ _ _ _ near fl fr sk fk sv fv rfl]
    refine ⟨_, rfl, ?_⟩
    cases isl <;> simp_all [PathBal, Bal, bh, sideNode, isRed_red, isRed_black] <;> omega

theorem bh_pos_ne_nil {t : Tree K} {n : Nat} (h : bh t = n + 1) :
    ∃ c l k v r, t = .node c l k v r := by
  cases t with
  | nil => simp [bh] at h
  | node c l k v r => exact ⟨c, l, k, v, r, rfl⟩

/-- `DeletionCheck` on a black node whose subtree is one short in black height repairs the
shape around it. -/
theorem dc_bal : ∀ (p : Path K) (n fuel : Nat) (l r : Tree K) (k : K) (v : Person),
    p.length + 3 ≤ fuel → PathBal p false (n + 1) →
    ∃ p1, DeletionCheck fuel (.node .kBlack l k v r) p = some p1 ∧ PathBal p1 false n
  | [], n, fuel, l, r, k, v, hfuel, _ => by
    obtain ⟨m, rfl⟩ : ∃ m, fuel = m + 1 := ⟨fuel - 1, by omega⟩
    exact ⟨[], dc_root _ _, by simp [PathBal]⟩
  | f :: rest, n, fuel, l, r, k, v, hfuel, hp => by
    obtain ⟨m, rfl⟩ : ∃ m, fuel = m + 3 := ⟨fuel - 3, by simp at hfuel; omega⟩
    have hp' := hp
    simp only [PathBal] at hp'
    obtain ⟨hb, hh, hc, hr⟩ := hp'
    obtain ⟨sc, sl, sk, sv, sr, hfo⟩ := bh_pos_ne_nil hh
    obtain ⟨near, far, hs⟩ := exists_sideNode f.isLeft sc sl sk sv sr
    rw [hs] at hfo
    cases sc with
    | kRed =>
      have hfc : f.color = .kBlack := by
        cases hfc : f.color
        · have := (hc hfc).2
          rw [hfo] at this
          cases hfl : f.isLeft <;> simp [sideNode, hfl, isRed] at this
        · rfl
      rw [dc_red_sib _ _ _ _ _ _ _ _ _ _ _ hfo]
      rw [hfo] at hb hh
      have hn : bh near = n + 1 ∧ bh far = n + 1 ∧ Bal near ∧ Bal far ∧
          isRed near = false ∧ isRed far = false := by
        cases hfl : f.isLeft <;> simp_all [Bal, bh, sideNode]
      obtain ⟨nc, nl, nk, nv, nr, hnear⟩ := bh_pos_ne_nil hn.1
      have hnc : nc = .kBlack := by
        cases nc
        · have := hn.2.2.2.2.1; rw [hnear] at this; simp [isRed] at this
        · rfl
      subst hnc
      obtain ⟨a, b, hab⟩ := exists_sideNode f.isLeft .kBlack nl nk nv nr
      apply dc_bal_step n m l r k v ⟨f.isLeft, .kRed, f.key, f.value, near⟩ _ a b nk nv
        (by rw [hnear, hab])
      · simp
      · simp only [PathBal, hfc] at hr ⊢
        refine ⟨hn.2.2.1, hn.1, by simp [hn.2.2.2.2.1], hn.2.2.2.1, by simp [hn.2.1], ?_, ?_⟩
        · simp
        · simpa using hr
    | kBlack =>
      by_cases hstop : isRed near = false ∧ isRed far = false ∧ f.color = .kBlack
      · obtain ⟨hnear, hfar, hfc⟩ := hstop
        rw [dc_a_black _ _ _ _ _ _ _ _ _ _ _ hfo hnear hfar hfc]
        rw [hfo] at hb hh
        obtain ⟨rest1, h1, h2⟩ := dc_bal rest (n + 1) (m + 2)
          (if f.isLeft then .node .kBlack l k v r else sideNode f.isLeft .kRed near sk sv far)
          (if f.isLeft then sideNode f.isLeft .kRed near sk sv far else .node .kBlack l k v r)
          f.key f.value (by simp at hfuel; omega) (by simpa [hfc] using hr)
        have hfill : Frame.fill
            ⟨f.isLeft, .kBlack, f.key, f.value, sideNode f.isLeft .kRed near sk sv far⟩
            (.node .kBlack l k v r) =
            .node .kBlack
              (if f.isLeft then .node .kBlack l k v r
                else sideNode f.isLeft .kRed near sk sv far) f.key f.value
              (if f.isLeft then sideNode f.isLeft .kRed near sk sv far
                else .node .kBlack l k v r) := by
          cases hfl : f.isLeft <;> simp [Frame.fill]
        rw [hfill, h1]
        refine ⟨_, rfl, ?_⟩
        simp only [PathBal]
        refine ⟨?_, ?_, by simp, by simpa using h2⟩
        · cases hfl : f.isLeft <;> simp_all [Bal, bh, sideNode]
        · cases hfl : f.isLeft <;> simp_all [Bal, bh, sideNode]
      · exact dc_bal_step n (m + 1) l r k v f rest near far sk sv hfo hstop hp

end

end RBTree

end s21

namespace s21

namespace RBTree

section
variable {K : Type} [LinearOrder K]

/-! ### `DeleteNode` and `Delete` -/

theorem bal_unzip : ∀ (p : Path K) (t : Tree K), Bal (zip t p) → isRed (zip t p) = false →
    Bal t ∧ PathBal p (isRed t) (bh t)
  | [], t, hb, hr => ⟨hb, by simpa [PathBal] using hr⟩
  | f :: p, t, hb, hr => by
    obtain ⟨h1, h2⟩ := bal_unzip p (f.fill t) hb hr
    obtain ⟨isl, fc, fk, fv, fo⟩ := f
    cases isl <;> cases fc <;> simp_all [Frame.fill, Bal, PathBal, bh, isRed_red, isRed_black]

theorem leftmost_fst (t : Tree K) : ∀ (q : Path K), (leftmost t q).1 = (leftmost t []).1 := by
  induction t with
  | nil => intro q; simp [leftmost]
  | node c l k v r ihl _ =>
    intro q
    cases l with
    | nil => simp [leftmost]
    | node lc ll lk lv lr =>
      simp only [leftmost]
      rw [ihl, ihl [_]]

theorem leftmost_spec (t : Tree K) : ∀ (q : Path K), t ≠ .nil →
    ∃ tc tk tv tr tq, leftmost t q = (.node tc .nil tk tv tr, tq) ∧
      pathLeft tq = pathLeft q ∧
      (tk, tv) :: toList tr ++ pathRight tq = toList t ++ pathRight q ∧
      (Tree.node tc .nil tk tv tr).size ≤ t.size ∧
      (Bal t → PathBal q (isRed t) (bh t) →
        Bal (.node tc .nil tk tv tr) ∧
          PathBal tq (isRed (.node tc .nil tk tv tr)) (bh (.node tc .nil tk tv tr))) := by
  induction t with
  | nil => intro q h; exact absurd rfl h
  | node c l k v r ihl _ =>
    intro q _
    cases l with
    | nil =>
      exact ⟨c, k, v, r, q, by simp [leftmost], rfl, by simp [toList], le_refl _,
        fun h1 h2 => ⟨h1, h2⟩⟩
    | node lc ll lk lv lr =>
      obtain ⟨tc, tk, tv, tr, tq, h1, h2, h3, h4, h5⟩ := ihl (⟨true, c, k, v, r⟩ :: q) (by simp)
      refine ⟨tc, tk, tv, tr, tq, by simpa [leftmost] using h1, by simpa [pathLeft] using h2,
        ?_, ?_, ?_⟩
      · rw [h3]; simp [toList, pathRight]
      · simp only [Tree.size] at h4 ⊢; omega
      · intro hb hp
        exact h5 hb.1 (pathBal_child_left hb hp)

theorem eq_nil_of_bh (t : Tree K) (h1 : bh t = 0) (h2 : isRed t = false) : t = .nil := by
  cases t with
  | nil => rfl
  | node c l k v r => cases c <;> simp_all [bh, isRed]

theorem red_leaf_of_bal (c : NodeColor) (l r : Tree K) (k : K) (v : Person)
    (hb : Bal (.node c l k v r)) (h0 : bh (.node c l k v r) = 0) :
    c = .kRed ∧ l = .nil ∧ r = .nil := by
  cases c
  · simp only [Bal, bh] at hb h0
    have h1 := hb.2.2.2
    simp only [true_implies] at h1
    exact ⟨rfl, eq_nil_of_bh l (by simpa using h0) h1.1,
      eq_nil_of_bh r (by rw [← hb.2.2.1]; simpa using h0) h1.2⟩
  · simp [bh] at h0

theorem pathBal_only_right (c : NodeColor) (k k1 k2 rk : K) (v v1 v2 rv : Person) (p : Path K)
    (hb : Bal (.node c .nil k v (.node .kRed .nil rk rv .nil)))
    (hp : PathBal p (isRed (.node c .nil k v (.node .kRed .nil rk rv .nil)))
      (bh (.node c .nil k v (.node .kRed .nil rk rv .nil)))) :
    PathBal (⟨false, c, k1, v1, .nil⟩ :: p) (isRed (.node .kRed .nil k2 v2 .nil))
      (bh (.node .kRed .nil k2 v2 .nil)) := by
  cases c <;> simp_all [PathBal, Bal, bh, isRed]

theorem pathBal_only_left (c : NodeColor) (k k1 k2 lk : K) (v v1 v2 lv : Person) (p : Path K)
    (hb : Bal (.node c (.node .kRed .nil lk lv .nil) k v .nil))
    (hp : PathBal p (isRed (.node c (.node .kRed .nil lk lv .nil) k v .nil))
      (bh (.node c (.node .kRed .nil lk lv .nil) k v .nil))) :
    PathBal (⟨true, c, k1, v1, .nil⟩ :: p) (isRed (.node .kRed .nil k2 v2 .nil))
      (bh (.node .kRed .nil k2 v2 .nil)) := by
  cases c <;> simp_all [PathBal, Bal, bh, isRed]

theorem deleteNode_spec : ∀ (fuel : Nat) (c : NodeColor) (l : Tree K) (k : K) (v : Person)
    (r : Tree K) (p : Path K), (Tree.node c l k v r).size ≤ fuel → Bal (.node c l k v r) →
    PathBal p (isRed (.node c l k v r)) (bh (.node c l k v r)) →
    ∃ root, DeleteNode fuel (.node c l k v r) p = some root ∧ Bal root ∧ isRed root = false ∧
      (toList root).map Prod.fst =
        (pathLeft p ++ toList l ++ toList r ++ pathRight p).map Prod.fst := by
  intro fuel
  induction fuel with
  | zero => intro c l k v r p h; simp [Tree.size] at h
  | succ fuel ih =>
    intro c l k v r p hsize hbal hpath
    cases l with
    | nil =>
      cases r with
      | nil =>
        -- a leaf
        simp only [DeleteNode]
        cases c with
        | kRed =>
          rw [dc_red]
          refine ⟨_, rfl, ?_⟩
          have hb := bal_zip (t := (.nil : Tree K)) (p := p) (by simp [Bal])
            (by simpa [isRed, bh] using pathBal_of hpath)
          exact ⟨hb.1, hb.2, by simp [rb_toList_zip, toList]⟩
        | kBlack =>
          obtain ⟨p1, h1, h2⟩ := dc_bal p 0 (2 * p.length + 3) .nil .nil k v (by omega)
            (by simpa [isRed, bh] using hpath)
          rw [h1]
          refine ⟨_, rfl, ?_⟩
          have hb := bal_zip (t := (.nil : Tree K)) (p := p1) (by simp [Bal])
            (by simpa [isRed, bh] using h2)
          obtain ⟨h3, h4⟩ := deletionCheck_path _ _ _ _ h1
          exact ⟨hb.1, hb.2, by simp [rb_toList_zip, toList, h3, h4]⟩
      | node rc rl rk rv rr =>
        -- only a right child: a red leaf
        have hrc := red_leaf_of_bal rc rl rr rk rv hbal.2.1 (by rw [← hbal.2.2.1]; rfl)
        obtain ⟨rfl, rfl, rfl⟩ := hrc
        simp only [DeleteNode]
        obtain ⟨root, h1, h2, h3, h4⟩ := ih .kRed .nil k (Person.swap v rv).2 .nil
          (⟨false, c, rk, (Person.swap v rv).1, .nil⟩ :: p)
          (by simp [Tree.size] at hsize ⊢; omega) (by simp [Bal, isRed_nil])
          (pathBal_only_right c k _ _ rk v _ _ rv p hbal hpath)
        exact ⟨root, h1, h2, h3, by rw [h4]; simp [toList, pathLeft, pathRight]⟩
    | node lc ll lk lv lr =>
      cases r with
      | nil =>
        have hlc := red_leaf_of_bal lc ll lr lk lv hbal.1 (by rw [hbal.2.2.1]; rfl)
        obtain ⟨rfl, rfl, rfl⟩ := hlc
        simp only [DeleteNode]
        obtain ⟨root, h1, h2, h3, h4⟩ := ih .kRed .nil k (Person.swap v lv).2 .nil
          (⟨true, c, lk, (Person.swap v lv).1, .nil⟩ :: p)
          (by simp [Tree.size] at hsize ⊢; omega) (by simp [Bal, isRed_nil])
          (pathBal_only_left c k _ _ lk v _ _ lv p hbal hpath)
        exact ⟨root, h1, h2, h3, by rw [h4]; simp [toList, pathLeft, pathRight]⟩
      | node rc rl rk rv rr =>
        -- two children: the leftmost node of the right subtree
        obtain ⟨tc, tk, tv, tr, tq0, h01, -, -, -, -⟩ :=
          leftmost_spec (.node rc rl rk rv rr) [] (by simp)
        obtain ⟨tc1, tk1, tv1, tr1, tq, h11, h12, h13, h14, h15⟩ :=
          leftmost_spec (.node rc rl rk rv rr)
            (⟨false, c, tk, (Person.swap v tv).1, .node lc ll lk lv lr⟩ :: p) (by simp)
        have hsame := leftmost_fst (.node rc rl rk rv rr)
          (⟨false, c, tk, (Person.swap v tv).1, .node lc ll lk lv lr⟩ :: p)
        rw [h11, h01] at hsame
        simp only [Tree.node.injEq] at hsame
        obtain ⟨rfl, -, rfl, rfl, rfl⟩ := hsame
        simp only [DeleteNode, h01, h11]
        obtain ⟨hb1, hb2⟩ := h15 hbal.2.1
          (pathBal_child_right' tk1 (Person.swap v tv1).1 hbal hpath)
        obtain ⟨root, h1, h2, h3, h4⟩ := ih tc1 .nil k (Person.swap v tv1).2 tr1 tq
          (by simp only [Tree.size] at hsize h14 ⊢; omega) (by simpa [Bal] using hb1)
          (by cases tc1 <;> simpa [isRed, bh] using hb2)
        refine ⟨root, h1, h2, h3, ?_⟩
        rw [h4, h12]
        have h5 := congrArg (List.map Prod.fst) h13
        simp only [List.map_append, List.map_cons, pathRight, pathLeft, Bool.false_eq_true,
          if_false, toList, List.nil_append, List.append_assoc, List.map_nil] at h5 ⊢
        rw [← h5]
        simp

end

end RBTree

end s21

namespace s21

namespace RBTree

section
variable {K : Type} [LinearOrder K]

theorem rb_delete_spec (t : Tree K) (h : Inv t) (key : K) :
    ∃ b root, Delete t key = some (b, root) ∧ Inv root ∧ b = Exists t key ∧
      (b = false → root = t) ∧
      (b = true → ∃ as bs : List K, (toList t).map Prod.fst = as ++ key :: bs ∧
        (toList root).map Prod.fst = as ++ bs) := by
  obtain ⟨hb, hr, ha⟩ := h
  unfold Delete Exists
  cases hg : GetNode key t [] with
  | none => exact ⟨false, t, rfl, ⟨hb, hr, ha⟩, rfl, fun _ => rfl, by simp⟩
  | some x =>
    obtain ⟨n, p⟩ := x
    obtain ⟨hz, c, l, v, r, rfl⟩ := getNode_zip key t [] n p hg
    simp only [zip] at hz
    rw [← hz] at hb hr
    obtain ⟨hb1, hp1⟩ := bal_unzip p _ hb hr
    obtain ⟨root, h1, h2, h3, h4⟩ := deleteNode_spec _ c l key v r p (le_refl _) hb1 hp1
    have hl : (toList t).map Prod.fst =
        (pathLeft p ++ toList l).map Prod.fst ++ key :: (toList r ++ pathRight p).map Prod.fst := by
      rw [← hz, rb_toList_zip]; simp [toList, List.append_assoc]
    have hl1 : (toList root).map Prod.fst =
        (pathLeft p ++ toList l).map Prod.fst ++ (toList r ++ pathRight p).map Prod.fst := by
      rw [h4]; simp [List.append_assoc]
    refine ⟨true, root, by simp [h1], ⟨h2, h3, ?_⟩, rfl, by simp, fun _ => ⟨_, _, hl, hl1⟩⟩
    unfold Ascending at ha ⊢
    rw [hl1]
    rw [hl] at ha
    exact ha.sublist (List.Sublist.append_left (List.sublist_cons_self _ _) _)

theorem mem_keys_iff_exists (t : Tree K) (h : Inv t) (key : K) :
    Exists t key = true ↔ key ∈ (toList t).map Prod.fst := by
  rw [rb_exists_eq_lookup t key h.2.2, lookup_isSome]

theorem rb_rename_spec (t : Tree K) (h : Inv t) (kFrom kTo : K) :
    ∃ b root, Rename t kFrom kTo = some (b, root) ∧ Inv root ∧
      (Exists t kFrom = false → b = false ∧ root = t) ∧
      (kFrom ≠ kTo → Exists t kTo = true → b = false ∧ root = t) ∧
      (kFrom = kTo → Exists t kFrom = true → b = true ∧ root = t) ∧
      (kFrom ≠ kTo → Exists t kFrom = true → Exists t kTo = false → b = true) := by
  unfold Rename
  cases hg : GetNode kFrom t [] with
  | none =>
    refine ⟨false, t, rfl, h, by simp, ?_, ?_, ?_⟩ <;> simp [Exists, hg]
  | some x =>
    obtain ⟨n, p⟩ := x
    obtain ⟨hz, c, l, v, r, rfl⟩ := getNode_zip kFrom t [] n p hg
    have hex : Exists t kFrom = true := by simp [Exists, hg]
    simp only
    by_cases hk : kFrom = kTo
    · simp only [hk, if_true]
      exact ⟨true, t, rfl, h, by simp [← hk, hex], by simp, by simp, by simp⟩
    · simp only [hk, if_false]
      obtain ⟨b, root, h1, h2, h3, h4⟩ := rb_set_spec t h kTo v
      rw [h1]
      cases b with
      | false =>
        obtain ⟨h5, h6⟩ := h3 rfl
        subst h5
        refine ⟨false, root, rfl, h, by simp, by simp, by simp [hk], ?_⟩
        intro _ _ h7
        rw [← Bool.not_eq_true, mem_keys_iff_exists _ h] at h7
        exact absurd h6 h7
      | true =>
        obtain ⟨b1, root1, h5, h6, h7, h8⟩ := rb_delete_spec root h2 kFrom
        simp only [Option.some_bind, if_true, h5, Option.map_some']
        refine ⟨true, root1, rfl, h6, by simp [hex], ?_, by simp [hk], by simp⟩
        intro _ h9
        rw [mem_keys_iff_exists _ h] at h9
        exact absurd h9 (h4 rfl).1

theorem rb_reachable_inv {t : Tree K} (h : Reachable t) : Inv t := by
  induction h with
  | empty => exact inv_nil
  | @set t t1 key value b _ hs ih =>
    obtain ⟨b1, root, h1, h2, -⟩ := rb_set_spec t ih key value
    rw [h1] at hs; cases hs; exact h2
  | @update t t1 key value b _ hs ih =>
    obtain ⟨b1, root, h1, h2, -⟩ := rb_update_spec t ih key value
    rw [h1] at hs; cases hs; exact h2
  | @delete t t1 key b _ hs ih =>
    obtain ⟨b1, root, h1, h2, -⟩ := rb_delete_spec t ih key
    rw [h1] at hs; cases hs; exact h2
  | @rename t t1 kFrom kTo b _ hs ih =>
    obtain ⟨b1, root, h1, h2, -⟩ := rb_rename_spec t ih kFrom kTo
    rw [h1] at hs; cases hs; exact h2

/-! ### The operations seen through the entries -/

theorem rb_keys_eq (t : Tree K) : Keys t = some ((toList t).map Prod.fst) := by
  simp [Keys, entries_eq]

theorem rb_showAll_eq (t : Tree K) : ShowAll t = some ((toList t).map Prod.snd) := by
  simp [ShowAll, entries_eq]

theorem rb_get_of_mem (t : Tree K) (h : Inv t) (e : K × Person) (he : e ∈ toList t) :
    Get t e.1 = e.2 := by
  rw [rb_get_eq_lookup t _ h.2.2]
  obtain ⟨as, bs, hl⟩ := List.append_of_mem he
  have ha := h.2.2
  rw [hl] at ha ⊢
  rw [lookup_mid e.1 e.2 as bs ha]
  rfl

theorem rb_find_eq (t : Tree K) (h : Inv t) (p : Person) :
    Find t p = some (((toList t).map Prod.fst).filter fun k =>
      decide (Person.Matches (Get t k) p)) := by
  have heq : ∀ r : Person, r.eq p = decide (Person.Matches r p) := by
    intro r
    simp only [Person.eq, Person.Matches, Bool.decide_and, Bool.decide_or, beq_iff_eq,
      Bool.and_assoc]
    rw [Bool.eq_iff_iff]
    simp only [Bool.and_eq_true, Bool.or_eq_true, beq_iff_eq, decide_eq_true_eq]
    tauto
  simp only [Find, entries_eq, Option.map_some', List.filter_map, Option.some.injEq]
  congr 1
  apply List.filter_congr
  intro e he
  simp [rb_get_of_mem t h e he, heq]

theorem rb_set_absent (t : Tree K) (h : Inv t) (k : K) (v : Person) (habs : Exists t k = false) :
    ∃ t1, Set t k v = some (true, t1) ∧ Exists t1 k = true ∧ Get t1 k = v := by
  obtain ⟨b, root, h1, h2, h3, h4⟩ := rb_set_spec t h k v
  cases b with
  | false =>
    have := (mem_keys_iff_exists t h k).mpr (h3 rfl).2
    rw [habs] at this; cases this
  | true =>
    obtain ⟨h5, h6⟩ := h4 rfl
    refine ⟨root, h1, ?_, ?_⟩
    · rw [rb_exists_eq_lookup _ _ h2.2.2, h6, lookup_ins k h5]; simp
    · rw [rb_get_eq_lookup _ _ h2.2.2, h6, lookup_ins k h5]; simp

theorem rb_set_present (t : Tree K) (h : Inv t) (k : K) (v : Person) (hpres : Exists t k = true) :
    Set t k v = some (false, t) := by
  obtain ⟨b, root, h1, h2, h3, h4⟩ := rb_set_spec t h k v
  cases b with
  | false => rw [h1, (h3 rfl).1]
  | true => exact absurd ((mem_keys_iff_exists t h k).mp hpres) (h4 rfl).1

theorem rb_set_frame (t : Tree K) (h : Inv t) (k : K) (v : Person) :
    ∃ b t1, Set t k v = some (b, t1) ∧
      ∀ k1, k1 ≠ k → Exists t1 k1 = Exists t k1 ∧ Get t1 k1 = Get t k1 := by
  obtain ⟨b, root, h1, h2, h3, h4⟩ := rb_set_spec t h k v
  refine ⟨b, root, h1, ?_⟩
  intro k1 hk1
  cases b with
  | false => rw [(h3 rfl).1]; exact ⟨rfl, rfl⟩
  | true =>
    obtain ⟨h5, h6⟩ := h4 rfl
    rw [rb_exists_eq_lookup _ _ h2.2.2, rb_get_eq_lookup _ _ h2.2.2, rb_exists_eq_lookup _ _ h.2.2,
      rb_get_eq_lookup _ _ h.2.2, h6, lookup_ins k1 h5]
    simp [hk1]

theorem rb_delete_api (t : Tree K) (h : Inv t) (k : K) :
    ∃ b t1, Delete t k = some (b, t1) ∧ b = Exists t k ∧ Exists t1 k = false ∧
      (b = false → t1 = t) := by
  obtain ⟨b, root, h1, h2, h3, h4, h5⟩ := rb_delete_spec t h k
  refine ⟨b, root, h1, h3, ?_, h4⟩
  cases b with
  | false => rw [h4 rfl]; exact h3.symm
  | true =>
    obtain ⟨as, bs, h6, h7⟩ := h5 rfl
    rw [← Bool.not_eq_true, mem_keys_iff_exists _ h2, h7]
    have ha := h.2.2
    unfold Ascending at ha
    rw [h6, List.pairwise_append] at ha
    intro hm
    rcases List.mem_append.mp hm with hm | hm
    · exact lt_irrefl _ (ha.2.2 k hm k (List.mem_cons_self _ _))
    · exact lt_irrefl _ ((List.pairwise_cons.mp ha.2.1).1 k hm)

theorem rb_update_api (t : Tree K) (h : Inv t) (k : K) (p : Person) :
    ∃ b t1, Update t k p = (b, t1) ∧ b = Exists t k ∧
      (b = true → Person.Merged (Get t k) p (Get t1 k)) ∧ (b = false → t1 = t) := by
  obtain ⟨b, root, h1, h2, h3, h4, h5⟩ := rb_update_spec t h k p
  refine ⟨b, root, h1, h3, ?_, h4⟩
  intro hb
  obtain ⟨old, h6, h7, -⟩ := h5 hb
  rw [rb_get_eq_lookup _ _ h.2.2, rb_get_eq_lookup _ _ h2.2.2, h6, h7]
  simp [Person.Merged, Person.assign]

end

end RBTree

end s21

namespace s21

namespace BPlusTree

section
variable {K : Type} [LinearOrder K]

/-! ### Leaves of a position -/

theorem leavesIn_append (as bs : List (Node K)) :
    leavesIn (as ++ bs) = leavesIn as ++ leavesIn bs := by
  induction as with
  | nil => simp [leavesIn]
  | cons a as ih => simp [leavesIn, ih]

theorem leavesIn_cons (a : Node K) (as : List (Node K)) :
    leavesIn (a :: as) = leaves a ++ leavesIn as := by
  simp [leavesIn]

theorem leaves_internal (ks : List K) (cs : List (Node K)) :
    leaves (.Internal ks cs) = leavesIn cs := by
  simp [leaves]

theorem leaves_zip (n : Node K) (p : Path K) :
    leaves (zip n p) = pathLeft p ++ leaves n ++ pathRight p := by
  induction p generalizing n with
  | nil => simp [zip, pathLeft, pathRight]
  | cons f p ih =>
    simp [zip, ih, Frame.fill, leaves_internal, leavesIn_append, leavesIn_cons, pathLeft,
      pathRight, List.append_assoc]

theorem entriesOf_append (as bs : List (LeafRec K)) :
    entriesOf (as ++ bs) = entriesOf as ++ entriesOf bs := by
  simp [entriesOf]

theorem entriesOf_cons (a : LeafRec K) (as : List (LeafRec K)) :
    entriesOf (a :: as) = a.entries ++ entriesOf as := by
  simp [entriesOf]

theorem entriesOf_nil : entriesOf ([] : List (LeafRec K)) = [] := rfl

theorem bp_toList_zip (n : Node K) (p : Path K) :
    toList (zip n p) = entriesOf (pathLeft p) ++ toList n ++ entriesOf (pathRight p) := by
  simp [toList, leaves_zip, entriesOf_append]

/-! ### Bounds -/

theorem ltOpt_trans_key {lo hi : Option K} {k : K} (h1 : ltOpt lo (some k))
    (h2 : ltOpt (some k) hi) : ltOpt lo hi := by
  cases lo <;> cases hi <;> simp_all [ltOpt]
  exact lt_trans h1 h2

theorem ltHi_of_lt {hi : Option K} {k k1 : K} (h1 : k < k1) (h2 : ltOpt (some k1) hi) :
    ltHi hi k := by
  cases hi <;> simp_all [ltOpt, ltHi]
  exact lt_trans h1 h2

theorem geLo_of_le {lo : Option K} {k k1 : K} (h1 : k1 ≤ k) (h2 : ltOpt lo (some k1)) :
    geLo lo k := by
  cases lo <;> simp_all [ltOpt, geLo]
  exact le_trans (le_of_lt h2) h1

mutual
theorem wf_ltOpt : ∀ (n : Node K) (lo hi : Option K) (h : Nat), Wf lo hi h n → ltOpt lo hi
  | .Leaf _ _ _ _, _, _, 0, hw => by simp only [Wf] at hw; exact hw.1
  | .Leaf _ _ _ _, _, _, _ + 1, hw => by simp [Wf] at hw
  | .Internal _ _, _, _, 0, hw => by simp [Wf] at hw
  | .Internal _ _, _, _, _ + 1, hw => by simp only [Wf] at hw; exact hw.1
end

theorem wfIn_ltOpt : ∀ (ks : List K) (cs : List (Node K)) (lo hi : Option K) (h : Nat),
    WfIn lo hi h ks cs → ltOpt lo hi
  | [], [], _, _, _, hw => by simp [WfIn] at hw
  | [], [c], _, _, _, hw => by simp only [WfIn] at hw; exact wf_ltOpt _ _ _ _ hw.1
  | [], _ :: _ :: _, _, _, _, hw => by simp [WfIn] at hw
  | _ :: _, [], _, _, _, hw => by simp [WfIn] at hw
  | k :: ks, c :: cs, lo, hi, h, hw => by
    simp only [WfIn] at hw
    exact ltOpt_trans_key (wf_ltOpt _ _ _ _ hw.1) (wfIn_ltOpt ks cs _ _ _ hw.2.2)

theorem wfIn_length : ∀ (ks : List K) (cs : List (Node K)) (lo hi : Option K) (h : Nat),
    WfIn lo hi h ks cs → cs.length = ks.length + 1
  | [], [], _, _, _, hw => by simp [WfIn] at hw
  | [], [c], _, _, _, _ => rfl
  | [], _ :: _ :: _, _, _, _, hw => by simp [WfIn] at hw
  | _ :: _, [], _, _, _, hw => by simp [WfIn] at hw
  | k :: ks, c :: cs, lo, hi, h, hw => by
    simp only [WfIn] at hw
    simp [wfIn_length ks cs _ _ _ hw.2.2]

mutual
/-- Every key stored below a node lies within the bounds of the node. -/
theorem wf_bounds : ∀ (n : Node K) (lo hi : Option K) (h : Nat), Wf lo hi h n →
    ∀ l ∈ leaves n, ∀ k ∈ l.keys, geLo lo k ∧ ltHi hi k
  | .Leaf _ ks _ _, _, _, 0, hw => by
    simp only [Wf] at hw
    intro l hl k hk
    simp only [leaves, List.mem_singleton] at hl
    subst hl
    exact hw.2.2.2 k hk
  | .Leaf _ _ _ _, _, _, _ + 1, hw => by simp [Wf] at hw
  | .Internal _ _, _, _, 0, hw => by simp [Wf] at hw
  | .Internal ks cs, lo, hi, h + 1, hw => by
    simp only [Wf] at hw
    rw [leaves_internal]
    exact wfIn_bounds cs ks lo hi h hw.2
theorem wfIn_bounds : ∀ (cs : List (Node K)) (ks : List K) (lo hi : Option K) (h : Nat),
    WfIn lo hi h ks cs → ∀ l ∈ leavesIn cs, ∀ k ∈ l.keys, geLo lo k ∧ ltHi hi k
  | [], [], _, _, _, hw => by simp [WfIn] at hw
  | [], _ :: _, _, _, _, hw => by simp [WfIn] at hw
  | [c], [], lo, hi, h, hw => by
    simp only [WfIn] at hw
    simpa [leavesIn] using wf_bounds c lo hi h hw.1
  | _ :: _ :: _, [], _, _, _, hw => by simp [WfIn] at hw
  | c :: cs, k0 :: ks, lo, hi, h, hw => by
    simp only [WfIn] at hw
    intro l hl k hk
    rw [leavesIn_cons, List.mem_append] at hl
    rcases hl with hl | hl
    · obtain ⟨h1, h2⟩ := wf_bounds c lo (some k0) h hw.1 l hl k hk
      exact ⟨h1, ltHi_of_lt h2 (wfIn_ltOpt _ _ _ _ _ hw.2.2)⟩
    · obtain ⟨h1, h2⟩ := wfIn_bounds cs ks (some k0) hi h hw.2.2 l hl k hk
      exact ⟨geLo_of_le h1 (wf_ltOpt _ _ _ _ hw.1), h2⟩
end

end

end BPlusTree

end s21

namespace s21

section
variable {K : Type} [LinearOrder K]

/-- Removal of a key from a list of entries. -/
theorem lookup_filter_ne (key k : K) (es : List (K × Person)) :
    lookup k (es.filter fun e => decide (e.1 ≠ key)) =
      if k = key then none else lookup k es := by
  induction es with
  | nil => simp [lookup_nil]
  | cons e es ih =>
    by_cases h : e.1 = key
    · simp only [List.filter, h, ne_eq, not_true_eq_false, decide_False, ih, lookup_cons]
      by_cases h1 : k = key
      · simp [h1]
      · simp [h1, Ne.symm h1]
    · simp only [List.filter, h, ne_eq, not_false_eq_true, decide_True, lookup_cons, ih]
      by_cases h1 : k = key
      · subst h1; simp [h]
      · simp [h1]

end

namespace BPlusTree

section
variable {K : Type} [LinearOrder K]

/-! ### Vectors of a leaf -/

theorem map_fst_zip_eq (ks : List K) (ds : List Person) (h : ds.length = ks.length) :
    (ks.zip ds).map Prod.fst = ks :=
  List.map_fst_zip ks ds (le_of_eq h.symm)

theorem mem_insertAt {α : Type} (i : Nat) (a x : α) (l : List α) :
    x ∈ insertAt i a l ↔ x = a ∨ x ∈ l := by
  unfold insertAt
  constructor
  · intro h
    rcases List.mem_append.mp h with h | h
    · exact Or.inr (List.mem_of_mem_take h)
    · rcases List.mem_cons.mp h with h | h
      · exact Or.inl h
      · exact Or.inr (List.mem_of_mem_drop h)
  · rintro (h | h)
    · subst h; simp
    · rw [← List.take_append_drop i l] at h
      rcases List.mem_append.mp h with h | h
      · exact List.mem_append_left _ h
      · exact List.mem_append_right _ (List.mem_cons_of_mem _ h)

theorem length_insertAt {α : Type} (i : Nat) (a : α) (l : List α) :
    (insertAt i a l).length = l.length + 1 := by
  unfold insertAt
  simp only [List.length_append, List.length_take, List.length_cons, List.length_drop]
  omega

theorem ins_eq_insertAt (key : K) (value : Person) (es : List (K × Person)) :
    ins key value es = insertAt (es.findIdx fun e => decide (key < e.1)) (key, value) es := by
  induction es with
  | nil => simp [ins, insertAt]
  | cons e es ih =>
    simp only [ins, List.findIdx_cons]
    by_cases h : key < e.1
    · simp [h, insertAt]
    · simp [h, insertAt, ih]

theorem findIdx_zip (p : K → Bool) (ks : List K) (ds : List Person)
    (h : ds.length = ks.length) :
    (ks.zip ds).findIdx (fun e => p e.1) = ks.findIdx p := by
  induction ks generalizing ds with
  | nil => simp
  | cons k ks ih =>
    cases ds with
    | nil => simp at h
    | cons d ds =>
      simp only [List.zip_cons_cons, List.findIdx_cons]
      rw [ih ds (by simpa using h)]

theorem zip_insertAt (i : Nat) (k : K) (v : Person) (ks : List K) (ds : List Person)
    (h : ds.length = ks.length) :
    (insertAt i k ks).zip (insertAt i v ds) = insertAt i (k, v) (ks.zip ds) := by
  unfold insertAt
  rw [List.zip_append (by simp [h]), List.zip_cons_cons]
  simp only [List.zip_eq_zipWith, List.take_zipWith, List.drop_zipWith]

/-- `Leaf::Insert` of an absent key: the entries of the leaf get the new entry in order. -/
theorem leaf_insert_spec (key : K) (value : Person) (ks : List K) (ds : List Person)
    (hl : ds.length = ks.length) (hk : key ∉ ks) :
    ∃ ks1 ds1, Leaf.Insert key value ks ds = some (true, ks1, ds1) ∧
      ds1.length = ks1.length ∧ ks1.length = ks.length + 1 ∧
      ks1.zip ds1 = ins key value (ks.zip ds) ∧ (∀ x, x ∈ ks1 ↔ x = key ∨ x ∈ ks) := by
  have hd : ks.findIdx (fun i => decide (key < i)) ≤ ds.length := by
    rw [hl]; exact List.findIdx_le_length _
  refine ⟨insertAt (ks.findIdx fun i => decide (key < i)) key ks,
    insertAt (ks.findIdx fun i => decide (key < i)) value ds,
    by simp [Leaf.Insert, hk, insertAt?, hd], ?_, ?_, ?_, ?_⟩
  · simp [length_insertAt, hl]
  · simp [length_insertAt]
  · rw [zip_insertAt _ _ _ _ _ hl, ins_eq_insertAt,
      findIdx_zip (fun x => decide (key < x)) ks ds hl]
  · intro x; exact mem_insertAt _ _ _ _

theorem leaf_insert_present (key : K) (value : Person) (ks : List K) (ds : List Person)
    (hk : key ∈ ks) : Leaf.Insert key value ks ds = some (false, ks, ds) := by
  simp [Leaf.Insert, hk]

theorem eraseIdx_indexOf_eq_filter (key : K) (ks : List K) (ds : List Person)
    (hl : ds.length = ks.length) (hnd : ks.Nodup) (hk : key ∈ ks) :
    (ks.eraseIdx (ks.indexOf key)).zip (ds.eraseIdx (ks.indexOf key)) =
      (ks.zip ds).filter fun e => decide (e.1 ≠ key) := by
  induction ks generalizing ds with
  | nil => simp at hk
  | cons k ks ih =>
    cases ds with
    | nil => simp at hl
    | cons d ds =>
      simp only [List.nodup_cons] at hnd
      by_cases h : k = key
      · subst h
        rw [List.indexOf_cons_self, List.eraseIdx_cons_zero, List.eraseIdx_cons_zero,
          List.zip_cons_cons, List.filter_cons_of_neg (by simp)]
        symm
        rw [List.filter_eq_self]
        intro e he
        have := (List.of_mem_zip he).1
        simp only [ne_eq, decide_eq_true_eq]
        intro h1
        exact hnd.1 (h1 ▸ this)
      · have hk' : key ∈ ks := by
          rcases List.mem_cons.mp hk with h1 | h1
          · exact absurd h1.symm h
          · exact h1
        rw [List.indexOf_cons_ne _ h, List.eraseIdx_cons_succ, List.eraseIdx_cons_succ,
          List.zip_cons_cons, List.zip_cons_cons, List.filter_cons_of_pos (by simpa using h),
          ih ds (by simpa using hl) hnd.2 hk']

theorem indexOf_lt {key : K} {ks : List K} (hk : key ∈ ks) : ks.indexOf key < ks.length :=
  List.indexOf_lt_length.mpr hk

/-- `Leaf::Delete` of a present key: the entry of the key leaves the entries of the leaf. -/
theorem leaf_delete_spec (key : K) (ks : List K) (ds : List Person)
    (hl : ds.length = ks.length) (hnd : ks.Nodup) (hk : key ∈ ks) :
    ∃ ks1 ds1, Leaf.Delete key ks ds = some (ks1, ds1) ∧
      ds1.length = ks1.length ∧ ks1.length + 1 = ks.length ∧
      ks1.zip ds1 = (ks.zip ds).filter (fun e => decide (e.1 ≠ key)) ∧
      ks1.Sublist ks ∧ key ∉ ks1 := by
  have hi := indexOf_lt hk
  refine ⟨ks.eraseIdx (ks.indexOf key), ds.eraseIdx (ks.indexOf key), ?_, ?_, ?_, ?_, ?_, ?_⟩
  · simp [Leaf.Delete, eraseAt?, hi, hl]
  · rw [List.length_eraseIdx_of_lt hi, List.length_eraseIdx_of_lt (hl ▸ hi), hl]
  · rw [List.length_eraseIdx_of_lt hi]; omega
  · exact eraseIdx_indexOf_eq_filter key ks ds hl hnd hk
  · exact List.eraseIdx_sublist _ _
  · intro hm
    have h1 : key ∈ ((ks.eraseIdx (ks.indexOf key)).zip (ds.eraseIdx (ks.indexOf key))).map
        Prod.fst := by
      rw [map_fst_zip_eq _ _ (by
        rw [List.length_eraseIdx_of_lt hi, List.length_eraseIdx_of_lt (hl ▸ hi), hl])]
      exact hm
    rw [eraseIdx_indexOf_eq_filter key ks ds hl hnd hk] at h1
    obtain ⟨e, he, hek⟩ := List.mem_map.mp h1
    have := (List.mem_filter.mp he).2
    simp [hek] at this

theorem leaf_getValue (key : K) (ks : List K) (ds : List Person)
    (hl : ds.length = ks.length) (hk : key ∈ ks) :
    ∃ v, Leaf.GetValue key ks ds = some v ∧ lookup key (ks.zip ds) = some v := by
  induction ks generalizing ds with
  | nil => simp at hk
  | cons k ks ih =>
    cases ds with
    | nil => simp at hl
    | cons d ds =>
      by_cases h : k = key
      · subst h
        exact ⟨d, by simp [Leaf.GetValue], by simp [lookup_cons]⟩
      · have hk' : key ∈ ks := by
          rcases List.mem_cons.mp hk with h1 | h1
          · exact absurd h1.symm h
          · exact h1
        obtain ⟨v, h1, h2⟩ := ih ds (by simpa using hl) hk'
        refine ⟨v, ?_, ?_⟩
        · simp only [Leaf.GetValue] at h1 ⊢
          rw [List.indexOf_cons_ne _ h]
          simpa using h1
        · simp [lookup_cons, h, h2]

theorem lookup_zip_none (key : K) (ks : List K) (ds : List Person) (hk : key ∉ ks) :
    lookup key (ks.zip ds) = none := by
  rw [lookup_eq_none]
  intro hm
  obtain ⟨e, he, hek⟩ := List.mem_map.mp hm
  exact hk (hek ▸ (List.of_mem_zip he).1)

theorem lookup_zip_set (key k : K) (v : Person) (ks : List K) (ds : List Person)
    (hl : ds.length = ks.length) (hk : key ∈ ks) :
    lookup k (ks.zip (ds.set (ks.indexOf key) v)) =
      if k = key then some v else lookup k (ks.zip ds) := by
  induction ks generalizing ds with
  | nil => simp at hk
  | cons k0 ks ih =>
    cases ds with
    | nil => simp at hl
    | cons d ds =>
      by_cases h : k0 = key
      · subst h
        simp only [List.indexOf_cons_self, List.set_cons_zero, List.zip_cons_cons, lookup_cons]
        by_cases h1 : k = k0
        · simp [h1]
        · simp [h1, Ne.symm h1]
      · have hk' : key ∈ ks := by
          rcases List.mem_cons.mp hk with h1 | h1
          · exact absurd h1.symm h
          · exact h1
        rw [List.indexOf_cons_ne _ h]
        simp only [List.set_cons_succ, List.zip_cons_cons, lookup_cons,
          ih ds (by simpa using hl) hk']
        by_cases h1 : k = key
        · subst h1; simp [h]
        · simp [h1]

end

end BPlusTree

end s21

namespace s21

namespace BPlusTree

section
variable {K : Type} [LinearOrder K]

/-! ### Children before and after a position -/

theorem lastOr_nil (lo : Option K) : lastOr lo [] = lo := rfl

theorem lastOr_cons (lo : Option K) (k : K) (ks : List K) :
    lastOr lo (k :: ks) = lastOr (some k) ks := by
  cases ks with
  | nil => rfl
  | cons k1 ks =>
    simp only [lastOr, List.getLast?_cons_cons]
    cases h : (k1 :: ks).getLast? with
    | none => simp at h
    | some x => rfl

theorem lastOr_snoc (lo : Option K) (k : K) (ks : List K) :
    lastOr lo (ks ++ [k]) = some k := by
  simp [lastOr]

theorem headOr_nil (hi : Option K) : headOr hi [] = hi := rfl

theorem headOr_cons (hi : Option K) (k : K) (ks : List K) : headOr hi (k :: ks) = some k := rfl

theorem wfIn_iff_post (hi : Option K) (h : Nat) :
    ∀ (ks : List K) (k : K) (cs : List (Node K)),
      WfIn (some k) hi h ks cs ↔ Post hi h (k :: ks) cs
  | [], k, [] => by simp [WfIn, Post]
  | [], k, [c] => by simp [WfIn, Post, headOr]
  | [], k, _ :: _ :: _ => by simp [WfIn, Post]
  | k1 :: ks, k, [] => by simp [WfIn, Post]
  | k1 :: ks, k, c :: cs => by
    simp only [WfIn, Post, headOr_cons]
    rw [wfIn_iff_post hi h ks k1 cs]

theorem wfIn_split (hi : Option K) (h : Nat) (c : Node K) (ka : List K)
    (after : List (Node K)) :
    ∀ (before : List (Node K)) (kb : List K) (lo : Option K), kb.length = before.length →
      (WfIn lo hi h (kb ++ ka) (before ++ c :: after) ↔
        Pre h lo kb before ∧ Wf (lastOr lo kb) (headOr hi ka) h c ∧ sizeOk c ∧
          Post hi h ka after)
  | [], [], lo, _ => by
    cases ka with
    | nil =>
      cases after with
      | nil => simp [WfIn, Pre, Post, lastOr, headOr]
      | cons a as => simp [WfIn, Pre, Post]
    | cons k ks =>
      simp only [List.nil_append, WfIn, Pre, lastOr_nil, headOr_cons, true_and]
      rw [wfIn_iff_post]
  | [], _ :: _, _, hl => by simp at hl
  | _ :: _, [], _, hl => by simp at hl
  | b :: bs, k :: kb, lo, hl => by
    have ih := wfIn_split hi h c ka after bs kb (some k) (by simpa using hl)
    simp only [List.cons_append, WfIn, Pre, lastOr_cons]
    constructor
    · rintro ⟨h1, h2, h3⟩
      obtain ⟨h4, h5⟩ := ih.mp h3
      exact ⟨⟨h1, h2, h4⟩, h5⟩
    · rintro ⟨⟨h1, h2, h4⟩, h5⟩
      exact ⟨h1, h2, ih.mpr ⟨h4, h5⟩⟩

theorem pre_snoc (h : Nat) (k : K) (c : Node K) :
    ∀ (before : List (Node K)) (kb : List K) (lo : Option K), Pre h lo kb before →
      Wf (lastOr lo kb) (some k) h c → sizeOk c → Pre h lo (kb ++ [k]) (before ++ [c])
  | [], [], lo, _, hw, hs => by simpa [Pre, lastOr] using ⟨hw, hs⟩
  | [], _ :: _, _, hp, _, _ => by simp [Pre] at hp
  | _ :: _, [], _, hp, _, _ => by simp [Pre] at hp
  | b :: bs, k1 :: kb, lo, hp, hw, hs => by
    simp only [Pre, List.cons_append] at hp ⊢
    rw [lastOr_cons] at hw
    exact ⟨hp.1, hp.2.1, pre_snoc h k c bs kb (some k1) hp.2.2 hw hs⟩

theorem pre_length (h : Nat) : ∀ (before : List (Node K)) (kb : List K) (lo : Option K),
    Pre h lo kb before → kb.length = before.length
  | [], [], _, _ => rfl
  | [], _ :: _, _, hp => by simp [Pre] at hp
  | _ :: _, [], _, hp => by simp [Pre] at hp
  | b :: bs, k1 :: kb, lo, hp => by
    simp only [Pre] at hp
    simp [pre_length h bs kb (some k1) hp.2.2]

theorem post_length (hi : Option K) (h : Nat) : ∀ (after : List (Node K)) (ka : List K),
    Post hi h ka after → ka.length = after.length
  | [], [], _ => rfl
  | [], _ :: _, hp => by simp [Post] at hp
  | _ :: _, [], hp => by simp [Post] at hp
  | b :: bs, k1 :: ka, hp => by
    simp only [Post] at hp
    simp [post_length hi h bs ka hp.2.2]

/-- A key admissible after the children before a position is admissible after the lower
bound of the parent. -/
theorem pre_lo_le (h : Nat) : ∀ (before : List (Node K)) (kb : List K) (lo : Option K),
    Pre h lo kb before → ∀ x, geLo (lastOr lo kb) x → geLo lo x
  | [], [], _, _, _, hx => hx
  | [], _ :: _, _, hp, _, _ => by simp [Pre] at hp
  | _ :: _, [], _, hp, _, _ => by simp [Pre] at hp
  | b :: bs, k1 :: kb, lo, hp, x, hx => by
    simp only [Pre] at hp
    rw [lastOr_cons] at hx
    have h1 := pre_lo_le h bs kb (some k1) hp.2.2 x hx
    exact geLo_of_le h1 (wf_ltOpt _ _ _ _ hp.1)

theorem pre_keys_lt (h : Nat) : ∀ (before : List (Node K)) (kb : List K) (lo : Option K),
    Pre h lo kb before → ∀ l ∈ leavesIn before, ∀ k ∈ l.keys,
      ∀ x, geLo (lastOr lo kb) x → k < x
  | [], [], _, _, l, hl, _, _, _, _ => by simp [leavesIn] at hl
  | [], _ :: _, _, hp, _, _, _, _, _, _ => by simp [Pre] at hp
  | _ :: _, [], _, hp, _, _, _, _, _, _ => by simp [Pre] at hp
  | b :: bs, k1 :: kb, lo, hp, l, hl, k, hk, x, hx => by
    simp only [Pre] at hp
    rw [lastOr_cons] at hx
    rw [leavesIn_cons, List.mem_append] at hl
    rcases hl with hl | hl
    · have h1 := (wf_bounds b lo (some k1) h hp.1 l hl k hk).2
      have h2 := pre_lo_le h bs kb (some k1) hp.2.2 x hx
      exact lt_of_lt_of_le h1 h2
    · exact pre_keys_lt h bs kb (some k1) hp.2.2 l hl k hk x hx

theorem post_hi_lt (hi : Option K) (h : Nat) : ∀ (after : List (Node K)) (ka : List K),
    Post hi h ka after → ∀ x, ltHi (headOr hi ka) x → ltHi hi x
  | [], [], _, _, hx => hx
  | [], _ :: _, hp, _, _ => by simp [Post] at hp
  | _ :: _, [], hp, _, _ => by simp [Post] at hp
  | b :: bs, k1 :: ka, hp, x, hx => by
    simp only [Post] at hp
    have h1 : ltHi (headOr hi ka) x := ltHi_of_lt hx (wf_ltOpt _ _ _ _ hp.1)
    exact post_hi_lt hi h bs ka hp.2.2 x h1

theorem post_keys_gt (hi : Option K) (h : Nat) : ∀ (after : List (Node K)) (ka : List K),
    Post hi h ka after → ∀ l ∈ leavesIn after, ∀ k ∈ l.keys,
      ∀ x, ltHi (headOr hi ka) x → x < k
  | [], [], _, l, hl, _, _, _, _ => by simp [leavesIn] at hl
  | [], _ :: _, hp, _, _, _, _, _, _ => by simp [Post] at hp
  | _ :: _, [], hp, _, _, _, _, _, _ => by simp [Post] at hp
  | b :: bs, k1 :: ka, hp, l, hl, k, hk, x, hx => by
    simp only [Post] at hp
    rw [leavesIn_cons, List.mem_append] at hl
    rcases hl with hl | hl
    · have h1 := (wf_bounds b (some k1) _ h hp.1 l hl k hk).1
      exact lt_of_lt_of_le hx h1
    · have h1 : ltHi (headOr hi ka) x := ltHi_of_lt hx (wf_ltOpt _ _ _ _ hp.1)
      exact post_keys_gt hi h bs ka hp.2.2 l hl k hk x h1

/-- Every key stored before a position is below every key admissible at the position. -/
theorem path_keys_lt : ∀ (p : Path K) (h : Nat), PathWf p h →
    ∀ l ∈ pathLeft p, ∀ k ∈ l.keys, ∀ x, geLo (pathBounds p).1 x → k < x
  | [], _, _, l, hl, _, _, _, _ => by simp [pathLeft] at hl
  | f :: p, h, hp, l, hl, k, hk, x, hx => by
    simp only [PathWf] at hp
    simp only [pathBounds] at hx
    simp only [pathLeft, List.mem_append] at hl
    rcases hl with hl | hl
    · exact path_keys_lt p (h + 1) hp.2.2.2.2.2 l hl k hk x (pre_lo_le h _ _ _ hp.2.1 x hx)
    · exact pre_keys_lt h _ _ _ hp.2.1 l hl k hk x hx

/-- Every key stored after a position is above every key admissible at the position. -/
theorem path_keys_gt : ∀ (p : Path K) (h : Nat), PathWf p h →
    ∀ l ∈ pathRight p, ∀ k ∈ l.keys, ∀ x, ltHi (pathBounds p).2 x → x < k
  | [], _, _, l, hl, _, _, _, _ => by simp [pathRight] at hl
  | f :: p, h, hp, l, hl, k, hk, x, hx => by
    simp only [PathWf] at hp
    simp only [pathBounds] at hx
    simp only [pathRight, List.mem_append] at hl
    rcases hl with hl | hl
    · exact post_keys_gt _ h _ _ hp.2.2.1 l hl k hk x hx
    · exact path_keys_gt p (h + 1) hp.2.2.2.2.2 l hl k hk x (post_hi_lt _ h _ _ hp.2.2.1 x hx)

/-- A well-shaped node that fits at a position gives a well-shaped tree. -/
theorem zip_wf : ∀ (p : Path K) (n : Node K) (h : Nat),
    Wf (pathBounds p).1 (pathBounds p).2 h n → PathWf p h → fits p n →
    (∃ H, Wf none none H (zip n p)) ∧ rootSizeOk (zip n p)
  | [], n, h, hw, _, hf => ⟨⟨h, by simpa [pathBounds] using hw⟩, by simpa [fits] using hf⟩
  | f :: p, n, h, hw, hp, hf => by
    simp only [PathWf] at hp
    obtain ⟨h1, h2, h3, h4, h5, h6⟩ := hp
    simp only [pathBounds] at hw
    simp only [zip]
    have hin : WfIn (pathBounds p).1 (pathBounds p).2 h f.keys (f.before ++ n :: f.after) := by
      have := (wfIn_split (pathBounds p).2 h n (f.keys.drop f.before.length) f.after f.before
        (f.keys.take f.before.length) (pathBounds p).1
        (by simp [h1])).mpr ⟨h2, hw, by simpa [fits] using hf, h3⟩
      rwa [List.take_append_drop] at this
    apply zip_wf p (f.fill n) (h + 1)
    · simp only [Frame.fill, Wf]
      exact ⟨wfIn_ltOpt _ _ _ _ _ hin, hin⟩
    · exact h6
    · cases p with
      | nil =>
        simp only [fits, rootSizeOk, Frame.fill, Node.Size, Node.keys, minKeys] at h5 ⊢
        exact ⟨h4, fun _ => h5⟩
      | cons g p => simpa [fits, sizeOk, Frame.fill, Node.Size, Node.keys, minKeys] using ⟨h5, h4⟩

end

end BPlusTree

end s21

namespace s21

namespace BPlusTree

section
variable {K : Type} [LinearOrder K]

/-! ### `GetLeaf` -/

theorem pathBounds_frame (all kdone ks : List K) (done cs : List (Node K)) (p : Path K)
    (hall : all = kdone ++ ks) (hl : kdone.length = done.length) :
    pathBounds (⟨all, done, cs⟩ :: p) =
      (lastOr (pathBounds p).1 kdone, headOr (pathBounds p).2 ks) := by
  subst hall
  simp [pathBounds, ← hl]

theorem pathWf_frame (all kdone ks : List K) (done cs : List (Node K)) (p : Path K) (h : Nat)
    (hall : all = kdone ++ ks) (hl : kdone.length = done.length)
    (hpre : Pre h (pathBounds p).1 kdone done) (hpost : Post (pathBounds p).2 h ks cs)
    (hmax : all.length ≤ bucket_size) (hmin : minKeys p ≤ all.length)
    (hp : PathWf p (h + 1)) : PathWf (⟨all, done, cs⟩ :: p) h := by
  subst hall
  simp only [PathWf]
  refine ⟨by simp [← hl], by simpa [← hl] using hpre, by simpa [← hl] using hpost, hmax, hmin,
    hp⟩

mutual
theorem getLeaf_spec (key : K) : ∀ (n : Node K) (p : Path K) (h : Nat),
    Wf (pathBounds p).1 (pathBounds p).2 h n → PathWf p h → fits p n →
    geLo (pathBounds p).1 key → ltHi (pathBounds p).2 key →
    ∃ id ks ds nx q, GetLeaf key n p = some (.Leaf id ks ds nx, q) ∧
      zip (.Leaf id ks ds nx) q = zip n p ∧ PathWf q 0 ∧
      Wf (pathBounds q).1 (pathBounds q).2 0 (.Leaf id ks ds nx) ∧
      fits q (.Leaf id ks ds nx) ∧ geLo (pathBounds q).1 key ∧ ltHi (pathBounds q).2 key
  | .Leaf id ks ds nx, p, 0, hw, hp, hf, hlo, hhi =>
    ⟨id, ks, ds, nx, p, by simp [GetLeaf], rfl, hp, hw, hf, hlo, hhi⟩
  | .Leaf _ _ _ _, _, _ + 1, hw, _, _, _, _ => by simp [Wf] at hw
  | .Internal _ _, _, 0, hw, _, _, _, _ => by simp [Wf] at hw
  | .Internal ks cs, p, h + 1, hw, hp, hf, hlo, hhi => by
    simp only [Wf] at hw
    have hsz : ks.length ≤ bucket_size ∧ minKeys p ≤ ks.length := by
      cases p with
      | nil =>
        simp only [fits, rootSizeOk, Node.Size, Node.keys, Node.IsLeaf, true_implies] at hf
        exact ⟨hf.1, hf.2⟩
      | cons g p =>
        simp only [fits, sizeOk, Node.Size, Node.keys] at hf
        exact ⟨hf.2, hf.1⟩
    have := getLeafIn_spec key cs ks [] [] p h hp rfl (by simpa using hsz.1)
      (by simpa using hsz.2) (by simp [Pre]) (by simpa [lastOr] using hw.2)
      (by simpa [lastOr] using hlo) hhi
    simpa [GetLeaf] using this
theorem getLeafIn_spec (key : K) : ∀ (cs : List (Node K)) (ks kdone : List K)
    (done : List (Node K)) (p : Path K) (h : Nat),
    PathWf p (h + 1) → kdone.length = done.length → (kdone ++ ks).length ≤ bucket_size →
    minKeys p ≤ (kdone ++ ks).length → Pre h (pathBounds p).1 kdone done →
    WfIn (lastOr (pathBounds p).1 kdone) (pathBounds p).2 h ks cs →
    geLo (lastOr (pathBounds p).1 kdone) key → ltHi (pathBounds p).2 key →
    ∃ id ks1 ds nx q, GetLeafIn key (kdone ++ ks) ks cs done p = some (.Leaf id ks1 ds nx, q) ∧
      zip (.Leaf id ks1 ds nx) q = zip (.Internal (kdone ++ ks) (done ++ cs)) p ∧ PathWf q 0 ∧
      Wf (pathBounds q).1 (pathBounds q).2 0 (.Leaf id ks1 ds nx) ∧
      fits q (.Leaf id ks1 ds nx) ∧ geLo (pathBounds q).1 key ∧ ltHi (pathBounds q).2 key
  | [], [], _, _, _, _, _, _, _, _, _, hw, _, _ => by simp [WfIn] at hw
  | [], _ :: _, _, _, _, _, _, _, _, _, _, hw, _, _ => by simp [WfIn] at hw
  | _ :: _ :: _, [], _, _, _, _, _, _, _, _, _, hw, _, _ => by simp [WfIn] at hw
  | [c], [], kdone, done, p, h, hp, hl, hmax, hmin, hpre, hw, hlo, hhi => by
    simp only [WfIn] at hw
    have hb := pathBounds_frame (kdone ++ []) kdone [] done [] p rfl hl
    have hpw := pathWf_frame (kdone ++ []) kdone [] done [] p h rfl hl hpre (by simp [Post])
      hmax hmin hp
    obtain ⟨id, ks1, ds, nx, q, h1, h2, h3⟩ := getLeaf_spec key c
      (⟨kdone ++ [], done, []⟩ :: p) h (by rw [hb]; simpa [headOr] using hw.1) hpw
      (by simpa [fits] using hw.2) (by rw [hb]; exact hlo) (by rw [hb]; simpa [headOr] using hhi)
    exact ⟨id, ks1, ds, nx, q, by simpa [GetLeafIn] using h1,
      by rw [h2]; simp [zip, Frame.fill], h3⟩
  | c :: cs, k :: ks, kdone, done, p, h, hp, hl, hmax, hmin, hpre, hw, hlo, hhi => by
    simp only [WfIn] at hw
    by_cases hk : key < k
    · have hb := pathBounds_frame (kdone ++ k :: ks) kdone (k :: ks) done cs p rfl hl
      have hpw := pathWf_frame (kdone ++ k :: ks) kdone (k :: ks) done cs p h rfl hl hpre
        ((wfIn_iff_post _ _ _ _ _).mp hw.2.2) hmax hmin hp
      obtain ⟨id, ks1, ds, nx, q, h1, h2, h3⟩ := getLeaf_spec key c
        (⟨kdone ++ k :: ks, done, cs⟩ :: p) h (by rw [hb]; simpa [headOr] using hw.1) hpw
        (by simpa [fits] using hw.2.1) (by rw [hb]; exact hlo)
        (by rw [hb]; simpa [headOr, ltHi] using hk)
      exact ⟨id, ks1, ds, nx, q, by simpa [GetLeafIn, hk] using h1,
        by rw [h2]; simp [zip, Frame.fill], h3⟩
    · have hpre' := pre_snoc h k c done kdone _ hpre hw.1 hw.2.1
      obtain ⟨id, ks1, ds, nx, q, h1, h2, h3⟩ := getLeafIn_spec key cs ks (kdone ++ [k])
        (done ++ [c]) p h hp (by simp [hl]) (by simpa using hmax) (by simpa using hmin) hpre'
        (by rw [lastOr_snoc]; exact hw.2.2)
        (by rw [lastOr_snoc]; simpa [geLo] using not_lt.mp hk) hhi
      refine ⟨id, ks1, ds, nx, q, ?_, ?_, h3⟩
      · simp only [GetLeafIn, hk, if_false]
        simpa using h1
      · rw [h2]; simp
end

end

end BPlusTree

end s21

namespace s21

namespace BPlusTree

section
variable {K : Type} [LinearOrder K]

/-! ### Ascending entries and lookup -/

theorem mem_entriesOf {e : K × Person} {ls : List (LeafRec K)} (h : e ∈ entriesOf ls) :
    ∃ l ∈ ls, e.1 ∈ l.keys := by
  simp only [entriesOf, List.mem_flatten, List.mem_map] at h
  obtain ⟨es, ⟨l, hl, rfl⟩, he⟩ := h
  exact ⟨l, hl, (List.of_mem_zip he).1⟩

theorem toList_leaf (id : Nat) (ks : List K) (ds : List Person) (nx : Option Nat) :
    toList (.Leaf id ks ds nx) = ks.zip ds := by
  simp [toList, leaves, entriesOf, LeafRec.entries]

mutual
theorem wf_asc : ∀ (n : Node K) (lo hi : Option K) (h : Nat), Wf lo hi h n →
    Ascending (toList n)
  | .Leaf id ks ds nx, _, _, 0, hw => by
    simp only [Wf] at hw
    rw [toList_leaf, Ascending, map_fst_zip_eq _ _ hw.2.1]
    exact hw.2.2.1
  | .Leaf _ _ _ _, _, _, _ + 1, hw => by simp [Wf] at hw
  | .Internal _ _, _, _, 0, hw => by simp [Wf] at hw
  | .Internal ks cs, lo, hi, h + 1, hw => by
    simp only [Wf] at hw
    rw [toList, leaves_internal]
    exact wfIn_asc cs ks lo hi h hw.2
theorem wfIn_asc : ∀ (cs : List (Node K)) (ks : List K) (lo hi : Option K) (h : Nat),
    WfIn lo hi h ks cs → Ascending (entriesOf (leavesIn cs))
  | [], [], _, _, _, hw => by simp [WfIn] at hw
  | [], _ :: _, _, _, _, hw => by simp [WfIn] at hw
  | [c], [], lo, hi, h, hw => by
    simp only [WfIn] at hw
    simpa [leavesIn, toList] using wf_asc c lo hi h hw.1
  | _ :: _ :: _, [], _, _, _, hw => by simp [WfIn] at hw
  | c :: cs, k0 :: ks, lo, hi, h, hw => by
    simp only [WfIn] at hw
    rw [leavesIn_cons, entriesOf_append, ascending_append]
    refine ⟨wf_asc c lo (some k0) h hw.1, wfIn_asc cs ks (some k0) hi h hw.2.2, ?_⟩
    intro a ha b hb
    obtain ⟨la, hla, hka⟩ := mem_entriesOf ha
    obtain ⟨lb, hlb, hkb⟩ := mem_entriesOf hb
    have h1 := (wf_bounds c lo (some k0) h hw.1 la hla _ hka).2
    have h2 := (wfIn_bounds cs ks (some k0) hi h hw.2.2 lb hlb _ hkb).1
    exact lt_of_lt_of_le h1 h2
end

mutual
theorem wf_data_length : ∀ (n : Node K) (lo hi : Option K) (h : Nat), Wf lo hi h n →
    ∀ l ∈ leaves n, l.data.length = l.keys.length ∧ l.keys.Nodup
  | .Leaf id ks ds nx, _, _, 0, hw => by
    simp only [Wf] at hw
    intro l hl
    simp only [leaves, List.mem_singleton] at hl
    subst hl
    exact ⟨hw.2.1, hw.2.2.1.imp (fun h => ne_of_lt h)⟩
  | .Leaf _ _ _ _, _, _, _ + 1, hw => by simp [Wf] at hw
  | .Internal _ _, _, _, 0, hw => by simp [Wf] at hw
  | .Internal ks cs, lo, hi, h + 1, hw => by
    simp only [Wf] at hw
    rw [leaves_internal]
    exact wfIn_data_length cs ks lo hi h hw.2
theorem wfIn_data_length : ∀ (cs : List (Node K)) (ks : List K) (lo hi : Option K) (h : Nat),
    WfIn lo hi h ks cs → ∀ l ∈ leavesIn cs, l.data.length = l.keys.length ∧ l.keys.Nodup
  | [], [], _, _, _, hw => by simp [WfIn] at hw
  | [], _ :: _, _, _, _, hw => by simp [WfIn] at hw
  | [c], [], lo, hi, h, hw => by
    simp only [WfIn] at hw
    simpa [leavesIn] using wf_data_length c lo hi h hw.1
  | _ :: _ :: _, [], _, _, _, hw => by simp [WfIn] at hw
  | c :: cs, k0 :: ks, lo, hi, h, hw => by
    simp only [WfIn] at hw
    intro l hl
    rw [leavesIn_cons, List.mem_append] at hl
    rcases hl with hl | hl
    · exact wf_data_length c lo (some k0) h hw.1 l hl
    · exact wfIn_data_length cs ks (some k0) hi h hw.2.2 l hl
end

/-- Looking a key up in the whole tree is looking it up in the leaf `GetLeaf` arrives at. -/
theorem lookup_at_leaf (key : K) (q : Path K) (es : List (K × Person)) (hq : PathWf q 0)
    (hlo : geLo (pathBounds q).1 key) (hhi : ltHi (pathBounds q).2 key) :
    lookup key (entriesOf (pathLeft q) ++ es ++ entriesOf (pathRight q)) = lookup key es := by
  have h1 : lookup key (entriesOf (pathLeft q)) = none := by
    apply lookup_none_of_gt
    intro e he
    obtain ⟨l, hl, hk⟩ := mem_entriesOf he
    exact path_keys_lt q 0 hq l hl _ hk key hlo
  have h2 : lookup key (entriesOf (pathRight q)) = none := by
    apply lookup_none_of_lt
    intro e he
    obtain ⟨l, hl, hk⟩ := mem_entriesOf he
    exact path_keys_gt q 0 hq l hl _ hk key hhi
  rw [lookup_append, lookup_append, h1, h2]
  cases lookup key es <;> rfl

/-- What `GetLeaf` from the root gives for a tree that satisfies the invariant. -/
theorem getLeaf_root (t : Tree K) (h : Inv t) (key : K) :
    ∃ id ks ds nx q, GetLeaf key t.root [] = some (.Leaf id ks ds nx, q) ∧
      zip (.Leaf id ks ds nx) q = t.root ∧ PathWf q 0 ∧
      Wf (pathBounds q).1 (pathBounds q).2 0 (.Leaf id ks ds nx) ∧
      fits q (.Leaf id ks ds nx) ∧ geLo (pathBounds q).1 key ∧ ltHi (pathBounds q).2 key ∧
      lookup key (toList t.root) = lookup key (ks.zip ds) := by
  obtain ⟨⟨H, hw⟩, hs, -⟩ := h
  obtain ⟨id, ks, ds, nx, q, h1, h2, h3, h4, h5, h6, h7⟩ := getLeaf_spec key t.root [] H
    (by simpa [pathBounds] using hw) (by simp [PathWf]) (by simpa [fits] using hs)
    (by simp [pathBounds, geLo]) (by simp [pathBounds, ltHi])
  refine ⟨id, ks, ds, nx, q, h1, by simpa [zip] using h2, h3, h4, h5, h6, h7, ?_⟩
  have : t.root = zip (.Leaf id ks ds nx) q := by simpa [zip] using h2.symm
  rw [this, bp_toList_zip, toList_leaf]
  exact lookup_at_leaf key q _ h3 h6 h7

theorem bp_get_eq_lookup (t : Tree K) (h : Inv t) (key : K) :
    Get t key = some ((lookup key (toList t.root)).getD Person.empty) := by
  obtain ⟨id, ks, ds, nx, q, h1, h2, h3, h4, h5, h6, h7, h8⟩ := getLeaf_root t h key
  simp only [Wf] at h4
  simp only [Get, h1, h8]
  by_cases hk : key ∈ ks
  · obtain ⟨v, hv1, hv2⟩ := leaf_getValue key ks ds h4.2.1 hk
    simp [hk, hv1, hv2]
  · simp [hk, lookup_zip_none key ks ds hk]

theorem bp_exists_eq_lookup (t : Tree K) (h : Inv t) (key : K) :
    Exists t key = some ((lookup key (toList t.root)).isSome) := by
  obtain ⟨id, ks, ds, nx, q, h1, h2, h3, h4, h5, h6, h7, h8⟩ := getLeaf_root t h key
  simp only [Wf] at h4
  simp only [Exists, h1, h8]
  by_cases hk : key ∈ ks
  · obtain ⟨v, hv1, hv2⟩ := leaf_getValue key ks ds h4.2.1 hk
    simp [hk, hv2]
  · simp [hk, lookup_zip_none key ks ds hk]

theorem inv_asc (t : Tree K) (h : Inv t) : Ascending (toList t.root) := by
  obtain ⟨⟨H, hw⟩, -, -⟩ := h
  exact wf_asc _ _ _ _ hw

end

end BPlusTree

end s21

namespace s21

namespace BPlusTree

section
variable {K : Type} [LinearOrder K]

/-! ### The leaf chain -/

theorem chainOk_iff (t : Tree K) : ChainOk t ↔ ChainOn t.list_ t.fresh (leaves t.root) :=
  Iff.rfl

mutual
theorem findLeaf_eq (id : Nat) : ∀ n : Node K, findLeaf id n =
    ((leaves n).find? fun l => decide (l.id = id)).map fun l => (l.keys, l.data, l.next)
  | .Leaf i ks ds nx => by
    by_cases h : i = id <;> simp [findLeaf, leaves, h]
  | .Internal ks cs => by
    rw [findLeaf, leaves_internal]
    exact findLeafIn_eq id cs
theorem findLeafIn_eq (id : Nat) : ∀ cs : List (Node K), findLeafIn id cs =
    ((leavesIn cs).find? fun l => decide (l.id = id)).map fun l => (l.keys, l.data, l.next)
  | [] => by simp [findLeafIn, leavesIn]
  | c :: cs => by
    rw [findLeafIn, leavesIn_cons, List.find?_append, findLeaf_eq id c, findLeafIn_eq id cs]
    cases (leaves c).find? fun l => decide (l.id = id) <;> simp
end

mutual
theorem countLeaves_eq : ∀ n : Node K, countLeaves n = (leaves n).length
  | .Leaf _ _ _ _ => by simp [countLeaves, leaves]
  | .Internal ks cs => by
    rw [countLeaves, leaves_internal]
    exact countLeavesIn_eq cs
theorem countLeavesIn_eq : ∀ cs : List (Node K), countLeavesIn cs = (leavesIn cs).length
  | [] => by simp [countLeavesIn, leavesIn]
  | c :: cs => by
    rw [countLeavesIn, leavesIn_cons, List.length_append, countLeaves_eq c, countLeavesIn_eq cs]
end

theorem linkedTo_append (e : Option Nat) (P S : List (LeafRec K)) (h : LinkedTo e (P ++ S)) :
    LinkedTo e S := by
  induction P with
  | nil => exact h
  | cons p P ih =>
    simp only [List.cons_append, LinkedTo] at h
    exact ih h.2

theorem walk_spec (root : Node K) : ∀ (S P : List (LeafRec K)) (fuel : Nat),
    leaves root = P ++ S → ((P ++ S).map fun l => l.id).Nodup → LinkedTo none (P ++ S) →
    S.length ≤ fuel →
    walk root fuel (S.head?.map fun l => l.id) = some (S.map fun l => (l.keys, l.data))
  | [], _, fuel, _, _, _, _ => by cases fuel <;> simp [walk]
  | l :: S, P, 0, _, _, _, hf => by simp at hf
  | l :: S, P, fuel + 1, hl, hn, hk, hf => by
    have hfind : findLeaf l.id root = some (l.keys, l.data, l.next) := by
      rw [findLeaf_eq, hl, List.find?_append]
      have h1 : (P.find? fun x => decide (x.id = l.id)) = none := by
        rw [List.find?_eq_none]
        intro x hx
        simp only [decide_eq_true_eq]
        intro hxl
        rw [List.map_append, List.nodup_append] at hn
        exact hn.2.2 (List.mem_map.mpr ⟨x, hx, hxl⟩)
          (List.mem_map.mpr ⟨l, List.mem_cons_self _ _, rfl⟩)
      simp [h1]
    have hnext := (linkedTo_append none P (l :: S) hk)
    simp only [LinkedTo] at hnext
    have hnx : l.next = S.head?.map fun x => x.id := by
      rw [hnext.1]; cases S <;> rfl
    have ih := walk_spec root S (P ++ [l]) fuel (by simpa using hl) (by simpa using hn)
      (by simpa using hk) (by simpa using hf)
    simp only [List.head?_cons, Option.map_some', walk, hfind, Option.some_bind, hnx, ih,
      List.map_cons]

theorem chain_eq (t : Tree K) (h : ChainOk t) :
    chain t = some ((leaves t.root).map fun l => (l.keys, l.data)) := by
  obtain ⟨h1, h2, h3, -⟩ := h
  have := walk_spec t.root (leaves t.root) [] (countLeaves t.root) rfl h3 h2
    (by rw [countLeaves_eq])
  rw [h1] at this
  exact this

theorem map_fst_entriesOf (ls : List (LeafRec K))
    (h : ∀ l ∈ ls, l.data.length = l.keys.length) :
    (entriesOf ls).map Prod.fst = (ls.map fun l => l.keys).flatten := by
  induction ls with
  | nil => rfl
  | cons l ls ih =>
    rw [entriesOf_cons, List.map_append, ih fun x hx => h x (List.mem_cons_of_mem _ hx)]
    simp [LeafRec.entries, map_fst_zip_eq _ _ (h l (List.mem_cons_self _ _))]

theorem map_snd_entriesOf (ls : List (LeafRec K))
    (h : ∀ l ∈ ls, l.data.length = l.keys.length) :
    (entriesOf ls).map Prod.snd = (ls.map fun l => l.data).flatten := by
  induction ls with
  | nil => rfl
  | cons l ls ih =>
    rw [entriesOf_cons, List.map_append, ih fun x hx => h x (List.mem_cons_of_mem _ hx)]
    have := h l (List.mem_cons_self _ _)
    simp [LeafRec.entries, List.map_snd_zip, this]

theorem bp_keys_eq (t : Tree K) (h : Inv t) : Keys t = some ((toList t.root).map Prod.fst) := by
  obtain ⟨⟨H, hw⟩, -, hc⟩ := h
  rw [Keys, chain_eq t hc, toList,
    map_fst_entriesOf _ fun l hl => (wf_data_length _ _ _ _ hw l hl).1]
  simp [List.map_map, Function.comp_def]

theorem bp_showAll_eq (t : Tree K) (h : Inv t) :
    ShowAll t = some ((toList t.root).map Prod.snd) := by
  obtain ⟨⟨H, hw⟩, -, hc⟩ := h
  rw [ShowAll, chain_eq t hc, toList,
    map_snd_entriesOf _ fun l hl => (wf_data_length _ _ _ _ hw l hl).1]
  simp [List.map_map, Function.comp_def]

end

end BPlusTree

end s21

namespace s21

section
variable {K : Type} [LinearOrder K]

theorem mem_of_lookup {key : K} {v : Person} {es : List (K × Person)}
    (h : lookup key es = some v) : (key, v) ∈ es := by
  induction es with
  | nil => simp [lookup_nil] at h
  | cons e es ih =>
    rw [lookup_cons] at h
    by_cases he : e.1 = key
    · simp only [he, if_true, Option.some.injEq] at h
      have : e = (key, v) := Prod.ext he h
      rw [this]; exact List.mem_cons_self _ _
    · simp only [he, if_false] at h
      exact List.mem_cons_of_mem _ (ih h)

theorem lookup_of_mem {key : K} {v : Person} {es : List (K × Person)} (ha : Ascending es)
    (h : (key, v) ∈ es) : lookup key es = some v := by
  obtain ⟨as, bs, hl⟩ := List.append_of_mem h
  subst hl
  rw [ascending_append] at ha
  rw [lookup_append, lookup_none_of_gt fun e he => ha.2.2 e he (key, v) (List.mem_cons_self _ _)]
  simp [lookup_cons]

end

namespace BPlusTree

section
variable {K : Type} [LinearOrder K]

/-! ### `Find` -/

theorem leaf_find (value : Person) (ks : List K) (ds : List Person)
    (hl : ds.length = ks.length) : ∀ rest : List K, (∀ i ∈ rest, i ∈ ks) →
    Leaf.Find value ks ds rest =
      some (rest.filter fun i => ((lookup i (ks.zip ds)).getD Person.empty).eq value)
  | [], _ => by simp [Leaf.Find]
  | i :: rest, h => by
    obtain ⟨v, h1, h2⟩ := leaf_getValue i ks ds hl (h i (List.mem_cons_self _ _))
    have ih := leaf_find value ks ds hl rest fun x hx => h x (List.mem_cons_of_mem _ hx)
    simp only [Leaf.Find, h1, Option.some_bind, ih, Option.map_some', List.filter_cons, h2,
      Option.getD_some]

theorem findChain_eq (value : Person) (g : K → Bool) : ∀ ls : List (LeafRec K),
    (∀ l ∈ ls, l.data.length = l.keys.length) →
    (∀ l ∈ ls, ∀ i ∈ l.keys, ((lookup i l.entries).getD Person.empty).eq value = g i) →
    findChain value (ls.map fun l => (l.keys, l.data)) =
      some ((ls.map fun l => l.keys).flatten.filter g)
  | [], _, _ => by simp [findChain]
  | l :: ls, h1, h2 => by
    have ih := findChain_eq value g ls (fun x hx => h1 x (List.mem_cons_of_mem _ hx))
      fun x hx => h2 x (List.mem_cons_of_mem _ hx)
    have hf := leaf_find value l.keys l.data (h1 l (List.mem_cons_self _ _)) l.keys
      fun _ hi => hi
    have hg : (l.keys.filter fun i =>
        ((lookup i (l.keys.zip l.data)).getD Person.empty).eq value) = l.keys.filter g :=
      List.filter_congr fun i hi => h2 l (List.mem_cons_self _ _) i hi
    simp only [List.map_cons, findChain, hf, Option.some_bind, ih, Option.map_some',
      List.flatten_cons, List.filter_append, hg]

theorem mem_entriesOf_of_mem {e : K × Person} {l : LeafRec K} {ls : List (LeafRec K)}
    (hl : l ∈ ls) (he : e ∈ l.entries) : e ∈ entriesOf ls := by
  simp only [entriesOf, List.mem_flatten, List.mem_map]
  exact ⟨l.entries, ⟨l, hl, rfl⟩, he⟩

theorem lookup_leaf (t : Tree K) (h : Inv t) (l : LeafRec K) (hl : l ∈ leaves t.root)
    (i : K) (hi : i ∈ l.keys) : lookup i l.entries = lookup i (toList t.root) := by
  obtain ⟨H, hw⟩ := h.1
  obtain ⟨v, -, hv⟩ := leaf_getValue i l.keys l.data (wf_data_length _ _ _ _ hw l hl).1 hi
  have hm : (i, v) ∈ toList t.root := mem_entriesOf_of_mem hl (mem_of_lookup hv)
  rw [lookup_of_mem (inv_asc t h) hm]
  exact hv

theorem bp_get_of_mem (t : Tree K) (h : Inv t) (e : K × Person) (he : e ∈ toList t.root) :
    Get t e.1 = some e.2 := by
  rw [bp_get_eq_lookup t h, lookup_of_mem (inv_asc t h) he]
  rfl

theorem person_eq_matches (r p : Person) : r.eq p = decide (Person.Matches r p) := by
  simp only [Person.eq, Person.Matches, Bool.decide_and, Bool.decide_or, beq_iff_eq,
    Bool.and_assoc]
  rw [Bool.eq_iff_iff]
  simp only [Bool.and_eq_true, Bool.or_eq_true, beq_iff_eq, decide_eq_true_eq]
  tauto

theorem bp_find_eq (t : Tree K) (h : Inv t) (p : Person) :
    Find t p = some (((toList t.root).map Prod.fst).filter fun k =>
      decide (Person.Matches ((lookup k (toList t.root)).getD Person.empty) p)) := by
  obtain ⟨⟨H, hw⟩, hs, hc⟩ := h
  have hlen := fun l hl => (wf_data_length _ _ _ _ hw l hl).1
  rw [Find, chain_eq t hc, Option.some_bind, toList, map_fst_entriesOf _ hlen]
  apply findChain_eq p _ _ hlen
  intro l hl i hi
  rw [lookup_leaf t ⟨⟨H, hw⟩, hs, hc⟩ l hl i hi, person_eq_matches]
  rfl

end

end BPlusTree

end s21

namespace s21

namespace BPlusTree

section
variable {K : Type} [LinearOrder K]

/-! ### The leaf chain under the changes of the operations -/

theorem linkedTo_cons (e : Option Nat) (l : LeafRec K) (rest : List (LeafRec K)) :
    LinkedTo e (l :: rest) ↔
      l.next = (match rest.head? with
        | some l1 => some l1.id
        | none => e) ∧ LinkedTo e rest := Iff.rfl

theorem linkedTo_append_iff (e : Option Nat) (B : List (LeafRec K)) (A : List (LeafRec K)) :
    LinkedTo e (A ++ B) ↔
      LinkedTo (match B.head? with
        | some l => some l.id
        | none => e) A ∧ LinkedTo e B := by
  induction A with
  | nil => simp [LinkedTo]
  | cons a A ih =>
    rw [List.cons_append, linkedTo_cons, linkedTo_cons, ih]
    cases A with
    | nil => simp [LinkedTo]
    | cons a1 A => simp only [List.cons_append, List.head?_cons, and_assoc]

theorem chainOn_congr (head fresh : Nat) (ls ms : List (LeafRec K))
    (h : ls.map (fun l => (l.id, l.next)) = ms.map fun l => (l.id, l.next))
    (hc : ChainOn head fresh ls) : ChainOn head fresh ms := by
  have hid : ls.map (fun l => l.id) = ms.map fun l => l.id := by
    have := congrArg (List.map Prod.fst) h
    simpa [List.map_map, Function.comp_def] using this
  have hlink : ∀ (e : Option Nat) (ls ms : List (LeafRec K)),
      ls.map (fun l => (l.id, l.next)) = ms.map (fun l => (l.id, l.next)) →
      LinkedTo e ls → LinkedTo e ms := by
    intro e ls
    induction ls with
    | nil =>
      intro ms h _
      cases ms with
      | nil => simp [LinkedTo]
      | cons m ms => simp at h
    | cons l ls ih =>
      intro ms h hl
      cases ms with
      | nil => simp at h
      | cons m ms =>
        simp only [List.map_cons, List.cons.injEq, Prod.mk.injEq] at h
        simp only [LinkedTo] at hl ⊢
        refine ⟨?_, ih ms h.2 hl.2⟩
        rw [← h.1.2, hl.1]
        cases ls with
        | nil =>
          cases ms with
          | nil => rfl
          | cons m1 ms => simp at h
        | cons l1 ls =>
          cases ms with
          | nil => simp at h
          | cons m1 ms =>
            simp only [List.map_cons, List.cons.injEq, Prod.mk.injEq] at h
            simp [h.2.1.1]
  obtain ⟨h1, h2, h3, h4⟩ := hc
  refine ⟨?_, hlink none ls ms h h2, hid ▸ h3, ?_⟩
  · rw [← h1, ← List.head?_map, ← List.head?_map, hid]
  · intro m hm
    have : m.id ∈ ms.map fun l => l.id := List.mem_map.mpr ⟨m, hm, rfl⟩
    rw [← hid] at this
    obtain ⟨l, hl, hlm⟩ := List.mem_map.mp this
    rw [← hlm]; exact h4 l hl

theorem chainOn_replace (head fresh : Nat) (A B : List (LeafRec K)) (l m : LeafRec K)
    (hid : m.id = l.id) (hnx : m.next = l.next) (hc : ChainOn head fresh (A ++ l :: B)) :
    ChainOn head fresh (A ++ m :: B) := by
  apply chainOn_congr head fresh _ _ _ hc
  simp [hid, hnx]

theorem chainOn_split (head fresh : Nat) (A B : List (LeafRec K)) (l m1 m2 : LeafRec K)
    (h1 : m1.id = l.id) (h2 : m1.next = some fresh) (h3 : m2.id = fresh)
    (h4 : m2.next = l.next) (hc : ChainOn head fresh (A ++ l :: B)) :
    ChainOn head (fresh + 1) (A ++ m1 :: m2 :: B) := by
  obtain ⟨c1, c2, c3, c4⟩ := hc
  refine ⟨?_, ?_, ?_, ?_⟩
  · cases A <;> simpa [h1] using c1
  · rw [linkedTo_append_iff] at c2 ⊢
    simp only [List.head?_cons, LinkedTo, h1, h2, h3, h4] at c2 ⊢
    exact ⟨c2.1, trivial, c2.2.1, c2.2.2⟩
  · have hf : ∀ x ∈ A ++ l :: B, x.id ≠ fresh := fun x hx => ne_of_lt (c4 x hx)
    simp only [List.map_append, List.map_cons, h1, h3] at c3 ⊢
    rw [List.nodup_append] at c3 ⊢
    obtain ⟨n1, n2, n3⟩ := c3
    rw [List.nodup_cons] at n2
    refine ⟨n1, ?_, ?_⟩
    · rw [List.nodup_cons, List.nodup_cons]
      refine ⟨?_, ?_, n2.2⟩
      · simp only [List.mem_cons, List.mem_map, not_or, not_exists, not_and]
        refine ⟨hf l (by simp), ?_⟩
        intro x hx hxl
        exact n2.1 (List.mem_map.mpr ⟨x, hx, hxl⟩)
      · simp only [List.mem_map, not_exists, not_and]
        intro x hx
        exact hf x (by simp [hx])
    · intro a ha1 ha2
      simp only [List.mem_cons] at ha2
      rcases ha2 with ha2 | ha2 | ha2
      · exact n3 ha1 (by simp [ha2])
      · obtain ⟨x, hx, hxa⟩ := List.mem_map.mp ha1
        exact hf x (by simp [hx]) (hxa.trans ha2)
      · exact n3 ha1 (by simp [ha2])
  · intro x hx
    simp only [List.mem_append, List.mem_cons] at hx
    rcases hx with hx | hx | hx | hx
    · exact Nat.lt_succ_of_lt (c4 x (by simp [hx]))
    · rw [hx, h1]; exact Nat.lt_succ_of_lt (c4 l (by simp))
    · rw [hx, h3]; exact Nat.lt_succ_self _
    · exact Nat.lt_succ_of_lt (c4 x (by simp [hx]))

theorem chainOn_merge (head fresh : Nat) (A B : List (LeafRec K)) (l1 l2 m : LeafRec K)
    (h1 : m.id = l1.id) (h2 : m.next = l2.next) (hc : ChainOn head fresh (A ++ l1 :: l2 :: B)) :
    ChainOn head fresh (A ++ m :: B) := by
  obtain ⟨c1, c2, c3, c4⟩ := hc
  refine ⟨?_, ?_, ?_, ?_⟩
  · cases A <;> simpa [h1] using c1
  · rw [linkedTo_append_iff] at c2 ⊢
    simp only [List.head?_cons, LinkedTo, h1, h2] at c2 ⊢
    exact ⟨c2.1, c2.2.2.1, c2.2.2.2⟩
  · simp only [List.map_append, List.map_cons, h1] at c3 ⊢
    refine c3.sublist ?_
    exact List.Sublist.append_left
      (List.Sublist.cons₂ _ (List.sublist_cons_self _ _)) _
  · intro x hx
    simp only [List.mem_append, List.mem_cons] at hx
    rcases hx with hx | hx | hx
    · exact c4 x (by simp [hx])
    · rw [hx, h1]; exact c4 l1 (by simp)
    · exact c4 x (by simp [hx])

theorem reshape_chain (head fresh : Nat) {a b : List (LeafRec K)} (h : Reshape a b) :
    ChainOn head fresh a → ChainOn head fresh b := by
  induction h with
  | refl => exact id
  | share A B l1 l2 m1 m2 h1 h2 h3 h4 _ =>
    intro hc
    apply chainOn_congr head fresh _ _ _ hc
    simp [h1, h2, h3, h4]
  | merge A B l1 l2 m h1 h2 _ => exact chainOn_merge head fresh A B l1 l2 m h1 h2
  | trans _ _ ih1 ih2 => exact fun hc => ih2 (ih1 hc)

theorem reshape_entries {a b : List (LeafRec K)} (h : Reshape a b) :
    entriesOf b = entriesOf a := by
  induction h with
  | refl => rfl
  | share A B l1 l2 m1 m2 _ _ _ _ h5 =>
    simp only [entriesOf_append, entriesOf_cons, ← List.append_assoc _ _ (entriesOf B), h5]
  | merge A B l1 l2 m _ _ h3 =>
    simp only [entriesOf_append, entriesOf_cons, h3, List.append_assoc]
  | trans _ _ ih1 ih2 => rw [ih2, ih1]

theorem reshape_context (A B : List (LeafRec K)) {a b : List (LeafRec K)} (h : Reshape a b) :
    Reshape (A ++ a ++ B) (A ++ b ++ B) := by
  induction h with
  | refl => exact Reshape.refl _
  | share A1 B1 l1 l2 m1 m2 h1 h2 h3 h4 h5 =>
    have := Reshape.share (A ++ A1) (B1 ++ B) l1 l2 m1 m2 h1 h2 h3 h4 h5
    simpa [List.append_assoc] using this
  | merge A1 B1 l1 l2 m h1 h2 h3 =>
    have := Reshape.merge (A ++ A1) (B1 ++ B) l1 l2 m h1 h2 h3
    simpa [List.append_assoc] using this
  | trans _ _ ih1 ih2 => exact Reshape.trans ih1 ih2

end

end BPlusTree

end s21

namespace s21

namespace BPlusTree

section
variable {K : Type} [LinearOrder K]

/-! ### `ShiftLevel` -/

theorem insertAt_length {α : Type} (A B : List α) (x : α) :
    insertAt A.length x (A ++ B) = A ++ x :: B := by
  simp [insertAt]

theorem findIdx_split (key : K) (kb ka : List K) (h1 : ∀ k ∈ kb, ¬ key < k)
    (h2 : ∀ k, ka.head? = some k → key < k) :
    (kb ++ ka).findIdx (fun i => decide (key < i)) = kb.length := by
  induction kb with
  | nil =>
    cases ka with
    | nil => rfl
    | cons k ka => simp [List.findIdx_cons, h2 k rfl]
  | cons k kb ih =>
    have hk := h1 k (List.mem_cons_self _ _)
    simp only [List.cons_append, List.findIdx_cons, hk, decide_False, cond_false,
      List.length_cons]
    rw [ih fun x hx => h1 x (List.mem_cons_of_mem _ hx)]

theorem pre_keys_le (h : Nat) : ∀ (before : List (Node K)) (kb : List K) (lo : Option K),
    Pre h lo kb before → ∀ k ∈ kb, ∀ x, geLo (lastOr lo kb) x → k ≤ x
  | [], [], _, _, k, hk, _, _ => by simp at hk
  | [], _ :: _, _, hp, _, _, _, _ => by simp [Pre] at hp
  | _ :: _, [], _, hp, _, _, _, _ => by simp [Pre] at hp
  | b :: bs, k1 :: kb, lo, hp, k, hk, x, hx => by
    simp only [Pre] at hp
    rw [lastOr_cons] at hx
    rcases List.mem_cons.mp hk with rfl | hk
    · exact pre_lo_le h bs kb (some k) hp.2.2 x hx
    · exact pre_keys_le h bs kb (some k1) hp.2.2 k hk x hx

theorem pathWf_cons (f : Frame K) (p : Path K) (h : Nat) (hp : PathWf (f :: p) h) :
    ∃ kb ka, f.keys = kb ++ ka ∧ kb.length = f.before.length ∧
      Pre h (pathBounds p).1 kb f.before ∧ Post (pathBounds p).2 h ka f.after ∧
      (kb ++ ka).length ≤ bucket_size ∧ minKeys p ≤ (kb ++ ka).length ∧ PathWf p (h + 1) ∧
      pathBounds (f :: p) = (lastOr (pathBounds p).1 kb, headOr (pathBounds p).2 ka) := by
  simp only [PathWf] at hp
  obtain ⟨h1, h2, h3, h4, h5, h6⟩ := hp
  refine ⟨f.keys.take f.before.length, f.keys.drop f.before.length,
    (List.take_append_drop _ _).symm, ?_, h2, h3, ?_, ?_, h6, rfl⟩
  · simp [h1]
  · rw [List.take_append_drop]; exact h4
  · rw [List.take_append_drop]; exact h5

theorem wfIn_cut (hi : Option K) (h : Nat) (m : K) (k2s : List K) :
    ∀ (k1s : List K) (cs : List (Node K)) (lo : Option K),
      WfIn lo hi h (k1s ++ m :: k2s) cs →
      WfIn lo (some m) h k1s (cs.take (k1s.length + 1)) ∧
        WfIn (some m) hi h k2s (cs.drop (k1s.length + 1))
  | [], [], _, hw => by simp [WfIn] at hw
  | [], c :: cs, lo, hw => by
    simp only [List.nil_append, WfIn] at hw
    simpa [WfIn, and_assoc] using hw
  | k :: k1s, [], _, hw => by simp [WfIn] at hw
  | k :: k1s, c :: cs, lo, hw => by
    simp only [List.cons_append, WfIn] at hw
    have ih := wfIn_cut hi h m k2s k1s cs (some k) hw.2.2
    simp only [List.length_cons, List.take_succ_cons, List.drop_succ_cons, WfIn]
    exact ⟨⟨hw.1, hw.2.1, ih.1⟩, ih.2⟩

theorem split_at_five {α : Type} (l : List α) (h : l.length = 11) :
    ∃ a m b, l = a ++ m :: b ∧ a.length = 5 ∧ b.length = 5 := by
  match l, h with
  | [x0, x1, x2, x3, x4, x5, x6, x7, x8, x9, x10], _ =>
    exact ⟨[x0, x1, x2, x3, x4], x5, [x6, x7, x8, x9, x10], rfl, rfl, rfl⟩

theorem fits_of_size (p : Path K) (n : Node K) (h1 : n.Size ≤ bucket_size)
    (h2 : minKeys p ≤ n.Size) : fits p n := by
  cases p with
  | nil => exact ⟨h1, fun _ => h2⟩
  | cons f p => exact ⟨h2, h1⟩

theorem shiftLevel_spec : ∀ (p : Path K) (left right : Node K) (key : K) (h : Nat),
    PathWf p h → Wf (pathBounds p).1 (some key) h left →
    Wf (some key) (pathBounds p).2 h right → sizeOk left → sizeOk right →
    ∃ root, ShiftLevel p left right key = some root ∧ (∃ H, Wf none none H root) ∧
      rootSizeOk root ∧
      leaves root = pathLeft p ++ (leaves left ++ leaves right) ++ pathRight p
  | [], left, right, key, h, _, hl, hr, sl, sr => by
    refine ⟨_, rfl, ⟨h + 1, ?_⟩, ?_, ?_⟩
    · simp only [pathBounds] at hl hr
      simp only [Wf, WfIn, ltOpt, true_and]
      exact ⟨hl, sl, hr, sr⟩
    · simp [rootSizeOk, Node.Size, Node.keys, Node.IsLeaf, bucket_size]
    · simp [leaves, leavesIn, pathLeft, pathRight]
  | f :: rest, left, right, key, h, hp, hl, hr, sl, sr => by
    obtain ⟨kb, ka, hk, hlen, hpre, hpost, hmax, hmin, hrest, hb⟩ := pathWf_cons f rest h hp
    obtain ⟨keys, before, after⟩ := f
    simp only at hk hlen hpre hpost
    subst hk
    rw [hb] at hl hr
    simp only at hl hr
    have hlo := wf_ltOpt _ _ _ _ hl
    have hhi := wf_ltOpt _ _ _ _ hr
    have hidx : (kb ++ ka).findIdx (fun i => decide (key < i)) = kb.length := by
      apply findIdx_split
      · intro k hkm
        have hge : geLo (lastOr (pathBounds rest).1 kb) key := by
          cases hlk : lastOr (pathBounds rest).1 kb with
          | none => trivial
          | some a => rw [hlk] at hlo; exact le_of_lt hlo
        exact not_lt.mpr (pre_keys_le h before kb _ hpre k hkm key hge)
      · intro k hkh
        cases ka with
        | nil => simp at hkh
        | cons k1 ka =>
          simp only [List.head?_cons, Option.some.injEq] at hkh
          subst hkh
          exact hhi
    have hwin : WfIn (pathBounds rest).1 (pathBounds rest).2 h (kb ++ key :: ka)
        (before ++ left :: right :: after) := by
      rw [wfIn_split _ _ _ _ _ _ _ _ hlen]
      exact ⟨hpre, hl, sl, hr, sr, hpost⟩
    have hins : Internal.Insert key right true (kb ++ ka) (before ++ left :: after) =
        some (kb ++ key :: ka, before ++ left :: right :: after) := by
      have h1 : insertAt (kb.length + 1) right (before ++ left :: after) =
          before ++ left :: right :: after := by
        have := insertAt_length (before ++ [left]) after right
        simpa [hlen] using this
      have h2 : kb.length + 1 ≤ (before ++ left :: after).length := by
        simp [hlen]
      simp only [Internal.Insert, hidx, if_true, insertAt?, h2, Option.map_some', h1,
        insertAt_length]
    have hleaves : leavesIn (before ++ left :: right :: after) =
        leavesIn before ++ (leaves left ++ leaves right) ++ leavesIn after := by
      simp [leavesIn_append, leavesIn_cons, List.append_assoc]
    simp only [ShiftLevel, hins, Option.some_bind]
    by_cases hsz : (kb ++ key :: ka).length ≤ bucket_size
    · simp only [hsz, if_true]
      have hwf : Wf (pathBounds rest).1 (pathBounds rest).2 (h + 1)
          (.Internal (kb ++ key :: ka) (before ++ left :: right :: after)) := by
        simp only [Wf]
        exact ⟨wfIn_ltOpt _ _ _ _ _ hwin, hwin⟩
      have hfit : fits rest (.Internal (kb ++ key :: ka)
          (before ++ left :: right :: after) : Node K) := by
        apply fits_of_size
        · exact hsz
        · simp only [Node.Size, Node.keys, List.length_append, List.length_cons] at hmin ⊢
          omega
      obtain ⟨hw1, hw2⟩ := zip_wf rest _ (h + 1) hwf hrest hfit
      refine ⟨_, rfl, hw1, hw2, ?_⟩
      rw [leaves_zip, leaves_internal, hleaves]
      simp [pathLeft, pathRight, List.append_assoc]
    · simp only [hsz, if_false]
      have hlen11 : (kb ++ key :: ka).length = 11 := by
        simp only [List.length_append, List.length_cons, bucket_size] at hmax hsz ⊢
        omega
      obtain ⟨k1s, m, k2s, hsplit, h5a, h5b⟩ := split_at_five _ hlen11
      have hclen := wfIn_length _ _ _ _ _ hwin
      rw [hsplit] at hwin
      obtain ⟨hcut1, hcut2⟩ := wfIn_cut _ _ _ _ _ _ _ hwin
      have hmid : (kb ++ key :: ka).length / 2 = 5 := by rw [hlen11]
      have hc12 : 5 + 1 ≤ (before ++ left :: right :: after).length := by
        rw [hclen, hlen11]; omega
      have htake : (kb ++ key :: ka).take 5 = k1s := by
        rw [hsplit]; exact List.take_left' h5a
      have hdrop : (kb ++ key :: ka).drop 5 = m :: k2s := by
        rw [hsplit]; exact List.drop_left' h5a
      simp only [hmid, hc12, if_true, hdrop, htake]
      rw [h5a] at hcut1 hcut2
      obtain ⟨root, hr1, hr2, hr3, hr4⟩ := shiftLevel_spec rest
        (.Internal k1s ((before ++ left :: right :: after).take (5 + 1)))
        (.Internal k2s ((before ++ left :: right :: after).drop (5 + 1))) m (h + 1) hrest
        (by simp only [Wf]; exact ⟨wfIn_ltOpt _ _ _ _ _ hcut1, hcut1⟩)
        (by simp only [Wf]; exact ⟨wfIn_ltOpt _ _ _ _ _ hcut2, hcut2⟩)
        (by simp [sizeOk, Node.Size, Node.keys, h5a, bucket_size])
        (by simp [sizeOk, Node.Size, Node.keys, h5b, bucket_size])
      refine ⟨root, hr1, hr2, hr3, ?_⟩
      rw [hr4, leaves_internal, leaves_internal, ← leavesIn_append, List.take_append_drop,
        hleaves]
      simp [pathLeft, pathRight, List.append_assoc]

end

end BPlusTree

end s21

namespace s21

namespace BPlusTree

section
variable {K : Type} [LinearOrder K]

/-! ### `Set` and `Update` -/

theorem leaves_at (t : Tree K) (id : Nat) (ks : List K) (ds : List Person) (nx : Option Nat)
    (q : Path K) (hz : zip (.Leaf id ks ds nx) q = t.root) :
    leaves t.root = pathLeft q ++ ⟨id, ks, ds, nx⟩ :: pathRight q := by
  rw [← hz, leaves_zip]; simp [leaves]

theorem toList_at (t : Tree K) (id : Nat) (ks : List K) (ds : List Person) (nx : Option Nat)
    (q : Path K) (hz : zip (.Leaf id ks ds nx) q = t.root) :
    toList t.root = entriesOf (pathLeft q) ++ ks.zip ds ++ entriesOf (pathRight q) := by
  rw [← hz, bp_toList_zip, toList_leaf]

theorem chain_replace_leaf (t : Tree K) (hc : ChainOk t) (id : Nat) (ks ks1 : List K)
    (ds ds1 : List Person) (nx : Option Nat) (q : Path K)
    (hz : zip (.Leaf id ks ds nx) q = t.root) :
    ChainOn t.list_ t.fresh (pathLeft q ++ ⟨id, ks1, ds1, nx⟩ :: pathRight q) := by
  rw [chainOk_iff, leaves_at t id ks ds nx q hz] at hc
  exact chainOn_replace _ _ _ _ ⟨id, ks, ds, nx⟩ _ rfl rfl hc

theorem mem_keys_iff (t : Tree K) (h : Inv t) (key : K) :
    Exists t key = some true ↔ key ∈ (toList t.root).map Prod.fst := by
  rw [bp_exists_eq_lookup t h, ← lookup_isSome]
  simp

theorem not_mem_keys_iff (t : Tree K) (h : Inv t) (key : K) :
    Exists t key = some false ↔ key ∉ (toList t.root).map Prod.fst := by
  rw [bp_exists_eq_lookup t h, ← lookup_isSome]
  simp

theorem ins_at (key : K) (value : Person) (q : Path K) (es : List (K × Person))
    (hq : PathWf q 0) (hlo : geLo (pathBounds q).1 key) (hhi : ltHi (pathBounds q).2 key) :
    ins key value (entriesOf (pathLeft q) ++ es ++ entriesOf (pathRight q)) =
      entriesOf (pathLeft q) ++ ins key value es ++ entriesOf (pathRight q) := by
  rw [List.append_assoc, ins_append_left, ins_append_right, List.append_assoc]
  · intro e he
    obtain ⟨l, hl, hk⟩ := mem_entriesOf he
    exact path_keys_gt q 0 hq l hl _ hk key hhi
  · intro e he
    obtain ⟨l, hl, hk⟩ := mem_entriesOf he
    exact path_keys_lt q 0 hq l hl _ hk key hlo

theorem zip_take_drop (ks : List K) (ds : List Person) (n : Nat) :
    (ks.take n).zip (ds.take n) ++ (ks.drop n).zip (ds.drop n) = ks.zip ds := by
  have := List.take_append_drop n (ks.zip ds)
  simpa only [List.zip_eq_zipWith, List.take_zipWith, List.drop_zipWith] using this

theorem fits_size_le (p : Path K) (n : Node K) (h : fits p n) : n.Size ≤ bucket_size := by
  cases p with
  | nil => exact h.1
  | cons f p => exact h.2

theorem fits_leaf_min (p : Path K) (id : Nat) (ks : List K) (ds : List Person)
    (nx : Option Nat) (h : fits p (.Leaf id ks ds nx)) : minKeys p ≤ ks.length + 1 := by
  cases p with
  | nil => simp [minKeys]
  | cons f p =>
    have := h.1
    simp only [Node.Size, Node.keys] at this
    simp only [minKeys]; omega

theorem bp_set_spec (t : Tree K) (h : Inv t) (key : K) (value : Person) :
    ∃ b t1, Set t key value = some (b, t1) ∧ Inv t1 ∧
      (b = false → t1 = t ∧ key ∈ (toList t.root).map Prod.fst) ∧
      (b = true → key ∉ (toList t.root).map Prod.fst ∧
        toList t1.root = ins key value (toList t.root)) := by
  obtain ⟨id, ks, ds, nx, q, h1, h2, h3, h4, h5, h6, h7, h8⟩ := getLeaf_root t h key
  have hmem : key ∈ (toList t.root).map Prod.fst ↔ key ∈ ks := by
    rw [← lookup_isSome, h8, lookup_isSome]
    simp only [Wf] at h4
    rw [map_fst_zip_eq _ _ h4.2.1]
  simp only [Set, h1]
  by_cases hk : key ∈ ks
  · rw [leaf_insert_present key value ks ds hk]
    exact ⟨false, t, rfl, h, fun _ => ⟨rfl, hmem.mpr hk⟩, by simp⟩
  · have h4w := h4
    simp only [Wf] at h4
    obtain ⟨hlt, hlen, hpw, hbd⟩ := h4
    obtain ⟨ks1, ds1, hi1, hi2, hi3, hi4, hi5⟩ := leaf_insert_spec key value ks ds hlen hk
    have hpw1 : ks1.Pairwise (· < ·) := by
      have : Ascending (ks1.zip ds1) := by
        rw [hi4]
        apply ascending_ins
        · unfold Ascending; rw [map_fst_zip_eq _ _ hlen]; exact hpw
        · rw [map_fst_zip_eq _ _ hlen]; exact hk
      unfold Ascending at this
      rwa [map_fst_zip_eq _ _ hi2] at this
    have hbd1 : ∀ k ∈ ks1, geLo (pathBounds q).1 k ∧ ltHi (pathBounds q).2 k := by
      intro k hk1
      rcases (hi5 k).mp hk1 with rfl | hk1
      · exact ⟨h6, h7⟩
      · exact hbd k hk1
    have hlist : entriesOf (pathLeft q) ++ ks1.zip ds1 ++ entriesOf (pathRight q) =
        ins key value (toList t.root) := by
      rw [toList_at t id ks ds nx q h2, ins_at key value q _ h3 h6 h7, hi4]
    have hszle := fits_size_le q _ h5
    simp only [Node.Size, Node.keys] at hszle
    simp only [hi1, Option.some_bind, if_true]
    by_cases hsz : ks1.length > bucket_size
    · simp only [hsz, if_true]
      have hlen11 : ks1.length = 11 := by
        simp only [bucket_size] at hsz hszle; omega
      obtain ⟨a, m, b, hsplit, h5a, h5b⟩ := split_at_five ks1 hlen11
      have hmid : ks1.length / 2 = 5 := by rw [hlen11]
      have htake : ks1.take 5 = a := by rw [hsplit]; exact List.take_left' h5a
      have hdrop : ks1.drop 5 = m :: b := by rw [hsplit]; exact List.drop_left' h5a
      have hd5 : 5 ≤ ds1.length := by rw [hi2, hlen11]; omega
      simp only [Leaf.Split, hmid, hd5, if_true, Option.some_bind, Node.keys, hdrop,
        List.head?_cons]
      rw [hsplit, List.pairwise_append] at hpw1
      obtain ⟨pa, pb, pab⟩ := hpw1
      rw [List.pairwise_cons] at pb
      have ha0 : ∃ a0, a0 ∈ a := by
        cases a with
        | nil => simp at h5a
        | cons a0 a => exact ⟨a0, List.mem_cons_self _ _⟩
      obtain ⟨a0, ha0⟩ := ha0
      have hwl : Wf (pathBounds q).1 (some m) 0
          (.Leaf id (ks1.take 5) (ds1.take 5) (some t.fresh) : Node K) := by
        rw [htake]
        simp only [Wf]
        refine ⟨?_, ?_, pa, ?_⟩
        · have h1 := (hbd1 a0 (by rw [hsplit]; simp [ha0])).1
          have h2 := pab a0 ha0 m (List.mem_cons_self _ _)
          cases hlo : (pathBounds q).1 with
          | none => trivial
          | some l => rw [hlo] at h1; exact lt_of_le_of_lt h1 h2
        · simp [h5a, hd5]
        · intro k hka
          exact ⟨(hbd1 k (by rw [hsplit]; simp [hka])).1, pab k hka m (List.mem_cons_self _ _)⟩
      have hwr : Wf (some m) (pathBounds q).2 0
          (.Leaf t.fresh (m :: b) (ds1.drop 5) nx : Node K) := by
        simp only [Wf]
        refine ⟨?_, ?_, List.pairwise_cons.mpr pb, ?_⟩
        · have h1 := (hbd1 m (by rw [hsplit]; simp)).2
          cases hhi : (pathBounds q).2 with
          | none => trivial
          | some l => rw [hhi] at h1; exact h1
        · simp only [List.length_drop, List.length_cons, h5b, hi2, hlen11]
        · intro k hkb
          refine ⟨?_, (hbd1 k (by rw [hsplit]; simp only [List.mem_append]; exact Or.inr hkb)).2⟩
          rcases List.mem_cons.mp hkb with rfl | hkb
          · exact le_refl _
          · exact le_of_lt (pb.1 k hkb)
      obtain ⟨root, hr1, hr2, hr3, hr4⟩ := shiftLevel_spec q _ _ m 0 h3 hwl hwr
        (by simp [sizeOk, Node.Size, Node.keys, htake, h5a, bucket_size])
        (by simp [sizeOk, Node.Size, Node.keys, h5b, bucket_size])
      simp only [hr1, Option.map_some']
      refine ⟨true, _, rfl, ⟨hr2, hr3, ?_⟩, by simp, fun _ => ⟨fun hm => hk (hmem.mp hm), ?_⟩⟩
      · simp only [chainOk_iff, hr4, leaves, List.singleton_append, List.append_assoc,
          List.cons_append, List.nil_append]
        have hc := h.2.2
        rw [chainOk_iff, leaves_at t id ks ds nx q h2] at hc
        exact chainOn_split _ _ _ _ ⟨id, ks, ds, nx⟩ _ _ rfl rfl rfl rfl hc
      · rw [← hlist, ← zip_take_drop ks1 ds1 5, hdrop]
        simp only [toList, hr4, leaves, entriesOf_append, entriesOf_cons, entriesOf_nil,
          LeafRec.entries, List.append_nil, List.singleton_append, List.append_assoc]
    · simp only [hsz, if_false]
      have hwf : Wf (pathBounds q).1 (pathBounds q).2 0 (.Leaf id ks1 ds1 nx : Node K) := by
        simp only [Wf]
        exact ⟨hlt, hi2, hpw1, hbd1⟩
      have hfit : fits q (.Leaf id ks1 ds1 nx : Node K) := by
        apply fits_of_size
        · simp only [Node.Size, Node.keys]; omega
        · have := fits_leaf_min q id ks ds nx h5
          simp only [Node.Size, Node.keys]; omega
      obtain ⟨hw1, hw2⟩ := zip_wf q _ 0 hwf h3 hfit
      refine ⟨true, _, rfl, ⟨hw1, hw2, ?_⟩, by simp,
        fun _ => ⟨fun hm => hk (hmem.mp hm), ?_⟩⟩
      · rw [chainOk_iff]
        simp only [leaves_zip, leaves, List.singleton_append, List.append_assoc,
          List.cons_append, List.nil_append]
        exact chain_replace_leaf t h.2.2 id ks ks1 ds ds1 nx q h2
      · simp only [bp_toList_zip, toList_leaf]
        exact hlist

end

end BPlusTree

end s21

namespace s21

namespace BPlusTree

section
variable {K : Type} [LinearOrder K]

theorem bp_update_spec (t : Tree K) (h : Inv t) (key : K) (value : Person) :
    ∃ b t1, Update t key value = some (b, t1) ∧ Inv t1 ∧ Exists t key = some b ∧
      (b = false → t1 = t) ∧
      (b = true → ∃ old, lookup key (toList t.root) = some old ∧
        lookup key (toList t1.root) = some (old.assign value) ∧
        (∀ k, k ≠ key → lookup k (toList t1.root) = lookup k (toList t.root)) ∧
        (toList t1.root).map Prod.fst = (toList t.root).map Prod.fst) := by
  obtain ⟨id, ks, ds, nx, q, h1, h2, h3, h4, h5, h6, h7, h8⟩ := getLeaf_root t h key
  simp only [Update, Exists, h1]
  by_cases hk : key ∈ ks
  · simp only [Wf] at h4
    obtain ⟨hlt, hlen, hpw, hbd⟩ := h4
    obtain ⟨old, ho1, ho2⟩ := leaf_getValue key ks ds hlen hk
    simp only [hk, if_true, ho1, Option.map_some', decide_True]
    have hlen1 : (ds.set (ks.indexOf key) (old.assign value)).length = ks.length := by
      rw [List.length_set]; exact hlen
    have hwf : Wf (pathBounds q).1 (pathBounds q).2 0
        (.Leaf id ks (ds.set (ks.indexOf key) (old.assign value)) nx : Node K) := by
      simp only [Wf]
      exact ⟨hlt, hlen1, hpw, hbd⟩
    have hfit : fits q (.Leaf id ks (ds.set (ks.indexOf key) (old.assign value)) nx :
        Node K) := by
      cases q with
      | nil => exact h5
      | cons f q => exact h5
    obtain ⟨hw1, hw2⟩ := zip_wf q _ 0 hwf h3 hfit
    have hnew : ∀ k, lookup k (entriesOf (pathLeft q) ++
        ks.zip (ds.set (ks.indexOf key) (old.assign value)) ++ entriesOf (pathRight q)) =
        if k = key then some (old.assign value) else lookup k (toList t.root) := by
      intro k
      by_cases hkk : k = key
      · subst hkk
        rw [lookup_at_leaf k q _ h3 h6 h7, lookup_zip_set k k _ ks ds hlen hk]
        simp
      · rw [toList_at t id ks ds nx q h2]
        simp only [lookup_append, lookup_zip_set key k _ ks ds hlen hk, hkk, if_false]
    refine ⟨true, _, rfl, ⟨hw1, hw2, ?_⟩, rfl, by simp, fun _ => ⟨old, ?_, ?_, ?_, ?_⟩⟩
    · rw [chainOk_iff]
      simp only [leaves_zip, leaves, List.singleton_append, List.append_assoc,
        List.cons_append, List.nil_append]
      exact chain_replace_leaf t h.2.2 id ks ks ds _ nx q h2
    · rw [h8]; exact ho2
    · simp only [bp_toList_zip, toList_leaf]
      rw [hnew]; simp
    · intro k hkk
      simp only [bp_toList_zip, toList_leaf]
      rw [hnew]; simp [hkk]
    · simp only [bp_toList_zip, toList_leaf]
      rw [toList_at t id ks ds nx q h2]
      simp only [List.map_append, map_fst_zip_eq _ _ hlen, map_fst_zip_eq _ _ hlen1]
  · simp only [hk, if_false, decide_False]
    exact ⟨false, t, rfl, h, rfl, fun _ => rfl, by simp⟩

/-! ### Positions in the vectors of a parent -/

theorem eraseIdx_at {α : Type} (A B : List α) (x : α) :
    (A ++ x :: B).eraseIdx A.length = A ++ B := by
  induction A with
  | nil => rfl
  | cons a A ih => simp [ih]

theorem set_at {α : Type} (A B : List α) (x y : α) :
    (A ++ x :: B).set A.length y = A ++ y :: B := by
  induction A with
  | nil => rfl
  | cons a A ih => simp [ih]

theorem get_at {α : Type} (A B : List α) (x : α) : (A ++ x :: B)[A.length]? = some x := by
  induction A with
  | nil => simp
  | cons a A ih => simpa using ih

theorem indexOf_at (A B : List K) (k : K) (h : k ∉ A) : (A ++ k :: B).indexOf k = A.length := by
  induction A with
  | nil => simp
  | cons a A ih =>
    simp only [List.mem_cons, not_or] at h
    rw [List.cons_append, List.indexOf_cons_ne _ (Ne.symm h.1), ih h.2, List.length_cons]

theorem eraseAt_at {α : Type} (A B : List α) (x : α) (n : Nat) (h : n = A.length) :
    eraseAt? n (A ++ x :: B) = some (A ++ B) := by
  subst h
  simp [eraseAt?, eraseIdx_at]

theorem setAt_at {α : Type} (A B : List α) (x y : α) (n : Nat) (h : n = A.length) :
    setAt? n y (A ++ x :: B) = some (A ++ y :: B) := by
  subst h
  simp [setAt?, set_at]

end

end BPlusTree

end s21

namespace s21

namespace BPlusTree

section
variable {K : Type} [LinearOrder K]

/-! ### `Merge` -/

theorem wfIn_join (hi : Option K) (h : Nat) (m : K) (k2s : List K) (c2s : List (Node K)) :
    ∀ (k1s : List K) (c1s : List (Node K)) (lo : Option K),
      WfIn lo (some m) h k1s c1s → WfIn (some m) hi h k2s c2s →
      WfIn lo hi h (k1s ++ m :: k2s) (c1s ++ c2s)
  | [], [], _, hw, _ => by simp [WfIn] at hw
  | [], [c], lo, hw, hw2 => by
    simp only [WfIn] at hw
    simp only [List.nil_append, List.singleton_append, WfIn]
    exact ⟨hw.1, hw.2, hw2⟩
  | [], _ :: _ :: _, _, hw, _ => by simp [WfIn] at hw
  | k :: k1s, [], _, hw, _ => by simp [WfIn] at hw
  | k :: k1s, c :: c1s, lo, hw, hw2 => by
    simp only [WfIn] at hw
    simp only [List.cons_append, WfIn]
    exact ⟨hw.1, hw.2.1, wfIn_join hi h m k2s c2s k1s c1s (some k) hw.2.2 hw2⟩

theorem wfIn_keys : ∀ (ks : List K) (cs : List (Node K)) (lo hi : Option K) (h : Nat),
    WfIn lo hi h ks cs → ∀ k ∈ ks, ltOpt lo (some k) ∧ ltOpt (some k) hi
  | [], _, _, _, _, _, k, hk => by simp at hk
  | _ :: _, [], _, _, _, hw, _, _ => by simp [WfIn] at hw
  | k0 :: ks, c :: cs, lo, hi, h, hw, k, hk => by
    simp only [WfIn] at hw
    have h1 := wf_ltOpt _ _ _ _ hw.1
    have h2 := wfIn_ltOpt _ _ _ _ _ hw.2.2
    rcases List.mem_cons.mp hk with rfl | hk
    · exact ⟨h1, h2⟩
    · have ih := wfIn_keys ks cs (some k0) hi h hw.2.2 k hk
      exact ⟨ltOpt_trans_key h1 ih.1, ih.2⟩

theorem geLo_of_ltOpt {lo : Option K} {k : K} (h : ltOpt lo (some k)) : geLo lo k := by
  cases lo with
  | none => trivial
  | some a => exact le_of_lt h

theorem ltHi_of_ltOpt {hi : Option K} {k : K} (h : ltOpt (some k) hi) : ltHi hi k := by
  cases hi with
  | none => trivial
  | some a => exact h

theorem ltOpt_of_ltHi {hi : Option K} {k : K} (h : ltHi hi k) : ltOpt (some k) hi := by
  cases hi with
  | none => trivial
  | some a => exact h

theorem ltOpt_of_geLo_lt {lo : Option K} {k k1 : K} (h : geLo lo k) (h1 : k < k1) :
    ltOpt lo (some k1) := by
  cases lo with
  | none => trivial
  | some a => exact lt_of_le_of_lt h h1

theorem wf_keys (n : Node K) (lo hi : Option K) (h : Nat) (hw : Wf lo hi h n) :
    ∀ k ∈ n.keys, geLo lo k ∧ ltHi hi k := by
  match h, n, hw with
  | 0, .Leaf _ ks _ _, hw =>
    simp only [Wf] at hw
    exact hw.2.2.2
  | h + 1, .Internal ks cs, hw =>
    simp only [Wf] at hw
    intro k hk
    have := wfIn_keys ks cs lo hi h hw.2 k hk
    exact ⟨geLo_of_ltOpt this.1, ltHi_of_ltOpt this.2⟩
  | 0, .Internal _ _, hw => simp [Wf] at hw
  | _ + 1, .Leaf _ _ _ _, hw => simp [Wf] at hw

theorem get_at_succ {α : Type} (X Y : List α) (a b : α) :
    (X ++ a :: b :: Y)[X.length + 1]? = some b := by
  have := get_at (X ++ [a]) Y b
  simpa using this

theorem set_at_succ {α : Type} (X Y : List α) (a b c : α) :
    (X ++ a :: b :: Y).set (X.length + 1) c = X ++ a :: c :: Y := by
  simp

theorem eraseAt_at_succ {α : Type} (X Y : List α) (a b : α) :
    eraseAt? (X.length + 1) (X ++ a :: b :: Y) = some (X ++ a :: Y) := by
  have := eraseAt_at (X ++ [a]) Y b (X.length + 1) (by simp)
  simpa using this

theorem merge_spec (h : Nat) (lo hi : Option K) (k : K) (A B : Node K) (X Y : List (Node K))
    (kx ky : List K) (hA : Wf lo (some k) h A) (hB : Wf (some k) hi h B)
    (hlen : kx.length = X.length) (hk : k ∉ kx) :
    ∃ M, Merge (kx ++ k :: ky) (X ++ A :: B :: Y) X.length (X.length + 1) =
        some (kx ++ ky, X ++ M :: Y) ∧
      Wf lo hi h M ∧ M.Size ≤ A.Size + B.Size + 1 ∧ A.Size + B.Size ≤ M.Size ∧
      (M.IsLeaf = false → 1 ≤ M.Size) ∧ Reshape (leaves A ++ leaves B) (leaves M) := by
  have hne : ¬ X.length = X.length + 1 := by omega
  have hne0 : ¬ X.length + 1 = 0 := by omega
  have hsub : X.length + 1 - 1 = X.length := by omega
  have g1 := get_at X (B :: Y) A
  have g2 := get_at_succ X Y A B
  have e2 := eraseAt_at kx ky k X.length hlen.symm
  match h, A, B, hA, hB with
  | 0, .Leaf lid lk ld ln, .Leaf rid rk rd rn, hA, hB =>
    simp only [Wf] at hA hB
    obtain ⟨a1, a2, a3, a4⟩ := hA
    obtain ⟨b1, b2, b3, b4⟩ := hB
    refine ⟨.Leaf lid (lk ++ rk) (ld ++ rd) rn, ?_, ?_, ?_, ?_, ?_, ?_⟩
    · simp only [Merge, hne, hne0, if_false, g1, g2, hsub, e2, Option.some_bind, set_at,
        eraseAt_at_succ, Option.map_some']
    · simp only [Wf]
      refine ⟨ltOpt_trans_key a1 b1, by simp [a2, b2], ?_, ?_⟩
      · rw [List.pairwise_append]
        exact ⟨a3, b3, fun x hx y hy => lt_of_lt_of_le (a4 x hx).2 (b4 y hy).1⟩
      · intro x hx
        rcases List.mem_append.mp hx with hx | hx
        · exact ⟨(a4 x hx).1, ltHi_of_lt (a4 x hx).2 b1⟩
        · exact ⟨geLo_of_le (b4 x hx).1 a1, (b4 x hx).2⟩
    · simp [Node.Size, Node.keys]
    · simp [Node.Size, Node.keys]
    · simp [Node.IsLeaf]
    · have := Reshape.merge ([] : List (LeafRec K)) [] ⟨lid, lk, ld, ln⟩ ⟨rid, rk, rd, rn⟩
        ⟨lid, lk ++ rk, ld ++ rd, rn⟩ rfl rfl
        (by simp only [LeafRec.entries]; exact List.zip_append a2.symm)
      simpa [leaves] using this
  | h + 1, .Internal lk lc, .Internal rk rc, hA, hB =>
    simp only [Wf] at hA hB
    have g3 := get_at kx ky k
    rw [hlen] at g3
    have hidx := indexOf_at kx ky k hk
    rw [hlen] at hidx
    refine ⟨.Internal (lk ++ k :: rk) (lc ++ rc), ?_, ?_, ?_, ?_, ?_, ?_⟩
    · simp only [Merge, hne, hne0, if_false, g1, g2, hsub, g3, Option.some_bind, set_at,
        Internal.Delete, hidx, if_true, eraseAt_at_succ, e2, Option.map_some']
    · simp only [Wf]
      exact ⟨ltOpt_trans_key hA.1 hB.1, wfIn_join _ _ _ _ _ _ _ _ hA.2 hB.2⟩
    · simp only [Node.Size, Node.keys, List.length_append, List.length_cons]; omega
    · simp only [Node.Size, Node.keys, List.length_append, List.length_cons]; omega
    · simp only [Node.Size, Node.keys, List.length_append, List.length_cons]; omega
    · simp only [leaves_internal, leavesIn_append]
      exact Reshape.refl _
  | 0, .Internal _ _, _, hA, _ => simp [Wf] at hA
  | 0, .Leaf _ _ _ _, .Internal _ _, _, hB => simp [Wf] at hB
  | _ + 1, .Leaf _ _ _ _, _, hA, _ => simp [Wf] at hA
  | _ + 1, .Internal _ _, .Leaf _ _ _ _, _, hB => simp [Wf] at hB

end

end BPlusTree

end s21

namespace s21

section
variable {K : Type} [LinearOrder K]

theorem filter_max {key : K} {v : Person} : ∀ {es : List (K × Person)}, Ascending es →
    (key, v) ∈ es → (∀ e ∈ es, e.1 ≤ key) →
    es.filter (fun e => decide (e.1 ≠ key)) ++ [(key, v)] = es
  | [], _, hm, _ => by simp at hm
  | e :: es, ha, hm, hle => by
    rw [ascending_cons] at ha
    by_cases he : e.1 = key
    · have hnil : es = [] := by
        cases es with
        | nil => rfl
        | cons b es =>
          have h1 := ha.1 b (List.mem_cons_self _ _)
          have h2 := hle b (by simp)
          rw [he] at h1
          exact absurd h1 (not_lt.mpr h2)
      subst hnil
      simp only [List.mem_singleton] at hm
      simp [List.filter, he, hm]
    · have hm1 : (key, v) ∈ es := by
        rcases List.mem_cons.mp hm with h1 | h1
        · exact absurd (congrArg Prod.fst h1).symm he
        · exact h1
      have ih := filter_max ha.2 hm1 fun b hb => hle b (List.mem_cons_of_mem _ hb)
      rw [List.filter_cons_of_pos (by simpa using he), List.cons_append, ih]

theorem filter_min {key : K} {v : Person} {es : List (K × Person)} (ha : Ascending es)
    (hm : (key, v) ∈ es) (hle : ∀ e ∈ es, key ≤ e.1) :
    (key, v) :: es.filter (fun e => decide (e.1 ≠ key)) = es := by
  cases es with
  | nil => simp at hm
  | cons e es =>
    rw [ascending_cons] at ha
    have he : e = (key, v) := by
      rcases List.mem_cons.mp hm with h1 | h1
      · exact h1.symm
      · have h2 := ha.1 _ h1
        have h3 := hle e (List.mem_cons_self _ _)
        exact absurd h2 (not_lt.mpr h3)
    subst he
    rw [List.filter_cons_of_neg (by simp)]
    congr 1
    rw [List.filter_eq_self]
    intro b hb
    have := ha.1 b hb
    simpa using (ne_of_lt this).symm

theorem ins_min (key : K) (v : Person) (es : List (K × Person)) (h : ∀ e ∈ es, key < e.1) :
    ins key v es = (key, v) :: es := by
  cases es with
  | nil => rfl
  | cons e es => simp [ins, h e (List.mem_cons_self _ _)]

theorem ins_max (key : K) (v : Person) (es : List (K × Person)) (h : ∀ e ∈ es, e.1 < key) :
    ins key v es = es ++ [(key, v)] := by
  have := ins_append_left key v es [] h
  simpa [ins] using this

theorem getLast_max : ∀ {l : List K} {m : K}, l.Pairwise (· < ·) → l.getLast? = some m →
    ∀ x ∈ l, x ≤ m
  | [], _, _, h, _, _ => by simp at h
  | [a], m, _, h, x, hx => by
    simp only [List.getLast?_singleton, Option.some.injEq] at h
    simp only [List.mem_singleton] at hx
    rw [hx, h]
  | a :: b :: l, m, hp, h, x, hx => by
    rw [List.getLast?_cons_cons] at h
    rw [List.pairwise_cons] at hp
    have ih := getLast_max hp.2 h
    rcases List.mem_cons.mp hx with rfl | hx
    · exact le_trans (le_of_lt (hp.1 b (List.mem_cons_self _ _))) (ih b (List.mem_cons_self _ _))
    · exact ih x hx

theorem getLast_mem : ∀ {l : List K} {m : K}, l.getLast? = some m → m ∈ l
  | [], _, h => by simp at h
  | [a], m, h => by
    simp only [List.getLast?_singleton, Option.some.injEq] at h
    simp [h]
  | a :: b :: l, m, h => by
    rw [List.getLast?_cons_cons] at h
    exact List.mem_cons_of_mem _ (getLast_mem h)

theorem head_min {l : List K} {m : K} (hp : l.Pairwise (· < ·)) (h : l.head? = some m) :
    ∀ x ∈ l, m ≤ x := by
  cases l with
  | nil => simp at h
  | cons a l =>
    simp only [List.head?_cons, Option.some.injEq] at h
    subst h
    rw [List.pairwise_cons] at hp
    intro x hx
    rcases List.mem_cons.mp hx with rfl | hx
    · exact le_refl _
    · exact le_of_lt (hp.1 x hx)

end

namespace BPlusTree

section
variable {K : Type} [LinearOrder K]

/-! ### `Share` with the left sibling -/

theorem wfIn_snoc_inv (lo hi : Option K) (h : Nat) (ks : List K) (m : K) (cs : List (Node K))
    (hw : WfIn lo hi h (ks ++ [m]) cs) :
    ∃ cs1 c, cs = cs1 ++ [c] ∧ WfIn lo (some m) h ks cs1 ∧ Wf (some m) hi h c ∧ sizeOk c := by
  obtain ⟨h1, h2⟩ := wfIn_cut hi h m [] ks cs lo hw
  refine ⟨cs.take (ks.length + 1), ?_⟩
  match hd : cs.drop (ks.length + 1), h2 with
  | [c], h2 =>
    simp only [WfIn] at h2
    refine ⟨c, ?_, h1, h2.1, h2.2⟩
    rw [← hd, List.take_append_drop]
  | [], h2 => simp [WfIn] at h2
  | _ :: _ :: _, h2 => simp [WfIn] at h2

theorem findIdx_zero (k : K) (ks : List K) (h : ∀ x ∈ ks, k < x) :
    ks.findIdx (fun i => decide (k < i)) = 0 := by
  cases ks with
  | nil => rfl
  | cons a ks => simp [List.findIdx_cons, h a (List.mem_cons_self _ _)]

theorem findIdx_length (k : K) (ks : List K) (h : ∀ x ∈ ks, ¬ k < x) :
    ks.findIdx (fun i => decide (k < i)) = ks.length := by
  have := findIdx_split k ks [] h (by simp)
  simpa using this

theorem keys_of_zip (ks ks1 : List K) (ds ds1 : List Person) (h1 : ds.length = ks.length)
    (h2 : ds1.length = ks1.length) (h : ks.zip ds = ks1.zip ds1) : ks = ks1 := by
  rw [← map_fst_zip_eq ks ds h1, h, map_fst_zip_eq ks1 ds1 h2]

end

end BPlusTree

end s21

namespace s21

namespace BPlusTree

section
variable {K : Type} [LinearOrder K]

theorem share_left_leaf (lo hi : Option K) (k : K) (fid sid : Nat) (fk sk : List K)
    (fd sd : List Person) (fn sn : Option Nat) (X Y : List (Node K)) (kx ky : List K)
    (hA : Wf lo (some k) 0 (.Leaf fid fk fd fn)) (hB : Wf (some k) hi 0 (.Leaf sid sk sd sn))
    (hlen : kx.length = X.length) (hsz : 2 ≤ fk.length) :
    ∃ k1 A1 B1, Share (kx ++ k :: ky) (X ++ .Leaf fid fk fd fn :: .Leaf sid sk sd sn :: Y)
        (X.length + 1) X.length true = some (kx ++ k1 :: ky, X ++ A1 :: B1 :: Y) ∧
      Wf lo (some k1) 0 A1 ∧ Wf (some k1) hi 0 B1 ∧ A1.Size + 1 = fk.length ∧
      B1.Size = sk.length + 1 ∧
      Reshape [⟨fid, fk, fd, fn⟩, ⟨sid, sk, sd, sn⟩] (leaves A1 ++ leaves B1) := by
  simp only [Wf] at hA hB
  obtain ⟨a1, a2, a3, a4⟩ := hA
  obtain ⟨b1, b2, b3, b4⟩ := hB
  have hne : ¬ X.length + 1 = X.length := by omega
  have g1 := get_at X (.Leaf sid sk sd sn :: Y) (.Leaf fid fk fd fn)
  have g2 := get_at_succ X Y (.Leaf fid fk fd fn) (.Leaf sid sk sd sn)
  cases hgl : fk.getLast? with
  | none =>
    rw [List.getLast?_eq_none_iff] at hgl
    subst hgl; simp at hsz
  | some key =>
    have hkmem : key ∈ fk := getLast_mem hgl
    have hmax := getLast_max a3 hgl
    have hkk : key < k := (a4 key hkmem).2
    obtain ⟨v, hv1, hv2⟩ := leaf_getValue key fk fd a2 hkmem
    have hknot : key ∉ sk := fun hm => absurd (lt_of_lt_of_le hkk (b4 key hm).1) (lt_irrefl _)
    obtain ⟨ks1, ds1, hi1, hi2, hi3, hi4, hi5⟩ := leaf_insert_spec key v sk sd b2 hknot
    obtain ⟨ks2, ds2, hd1, hd2, hd3, hd4, hd5, hd6⟩ :=
      leaf_delete_spec key fk fd a2 (a3.imp fun h => ne_of_lt h) hkmem
    have hins : ins key v (sk.zip sd) = (key, v) :: sk.zip sd := by
      apply ins_min
      intro e he
      exact lt_of_lt_of_le hkk (b4 e.1 (List.of_mem_zip he).1).1
    have hks1 : ks1 = key :: sk := by
      have := congrArg (List.map Prod.fst) hi4
      rw [hins, map_fst_zip_eq _ _ hi2, List.map_cons, map_fst_zip_eq _ _ b2] at this
      exact this
    have hlt2 : ∀ x ∈ ks2, x < key := by
      intro x hx
      have h1 := hmax x (hd5.subset hx)
      exact lt_of_le_of_ne h1 fun h2 => hd6 (h2 ▸ hx)
    have hsa := setAt_at kx ky k key X.length hlen.symm
    refine ⟨key, .Leaf fid ks2 ds2 fn, .Leaf sid ks1 ds1 sn, ?_, ?_, ?_, ?_, ?_, ?_⟩
    · simp only [Share, hne, if_false, g1, g2, if_true, hgl, Option.some_bind, hv1, hi1, hd1,
        hks1, List.head?_cons, hsa, Option.map_some', set_at_succ, set_at]
    · simp only [Wf]
      refine ⟨?_, hd2, a3.sublist hd5, fun x hx => ⟨(a4 x (hd5.subset hx)).1, hlt2 x hx⟩⟩
      cases ks2 with
      | nil => simp at hd3; omega
      | cons a0 ks2 =>
        have h0 := hlt2 a0 (List.mem_cons_self _ _)
        exact ltOpt_of_geLo_lt (a4 a0 (hd5.subset (List.mem_cons_self _ _))).1 h0
    · simp only [Wf]
      have hkhi : ltOpt (some key) hi := @ltOpt_trans_key K _ (some key) hi k hkk b1
      refine ⟨hkhi, hi2, ?_, ?_⟩
      · rw [hks1, List.pairwise_cons]
        exact ⟨fun x hx => lt_of_lt_of_le hkk (b4 x hx).1, b3⟩
      · intro x hx
        rcases (hi5 x).mp hx with rfl | hx
        · exact ⟨le_refl _, ltHi_of_ltOpt hkhi⟩
        · exact ⟨le_of_lt (lt_of_lt_of_le hkk (b4 x hx).1), (b4 x hx).2⟩
    · simp only [Node.Size, Node.keys]; omega
    · simp only [Node.Size, Node.keys]; omega
    · have hasc : Ascending (fk.zip fd) := by
        unfold Ascending; rw [map_fst_zip_eq _ _ a2]; exact a3
      have hfm := filter_max hasc (mem_of_lookup hv2)
        fun e he => hmax e.1 (List.of_mem_zip he).1
      have := Reshape.share ([] : List (LeafRec K)) [] ⟨fid, fk, fd, fn⟩ ⟨sid, sk, sd, sn⟩
        ⟨fid, ks2, ds2, fn⟩ ⟨sid, ks1, ds1, sn⟩ rfl rfl rfl rfl
        (by
          simp only [LeafRec.entries, hd4, hi4, hins]
          rw [← hfm]
          simp [hfm])
      simpa [leaves] using this

theorem share_left_internal (h : Nat) (lo hi : Option K) (k : K) (fk sk : List K)
    (fc sc : List (Node K)) (X Y : List (Node K)) (kx ky : List K)
    (hA : Wf lo (some k) (h + 1) (.Internal fk fc))
    (hB : Wf (some k) hi (h + 1) (.Internal sk sc))
    (hlen : kx.length = X.length) (hsz : 2 ≤ fk.length) :
    ∃ k1 A1 B1, Share (kx ++ k :: ky) (X ++ .Internal fk fc :: .Internal sk sc :: Y)
        (X.length + 1) X.length true = some (kx ++ k1 :: ky, X ++ A1 :: B1 :: Y) ∧
      Wf lo (some k1) (h + 1) A1 ∧ Wf (some k1) hi (h + 1) B1 ∧ A1.Size + 1 = fk.length ∧
      B1.Size = sk.length + 1 ∧ leaves A1 ++ leaves B1 = leavesIn fc ++ leavesIn sc := by
  simp only [Wf] at hA hB
  have hne : ¬ X.length + 1 = X.length := by omega
  have g1 := get_at X (.Internal sk sc :: Y) (.Internal fk fc)
  have g2 := get_at_succ X Y (.Internal fk fc) (.Internal sk sc)
  rcases List.eq_nil_or_concat fk with hnil | ⟨fk1, key, hfk⟩
  · subst hnil; simp at hsz
  · rw [List.concat_eq_append] at hfk
    subst hfk
    obtain ⟨fc1, c, hfc, hw1, hw2, hw3⟩ := wfIn_snoc_inv lo (some k) h fk1 key fc hA.2
    subst hfc
    have hknot : key ∉ fk1 := by
      intro hm
      exact lt_irrefl _ (wfIn_keys _ _ _ _ _ hw1 key hm).2
    have g3 := get_at kx ky k
    rw [hlen] at g3
    have hidx0 := findIdx_zero k sk fun x hx => (wfIn_keys _ _ _ _ _ hB.2 x hx).1
    have hidx := indexOf_at fk1 [] key hknot
    have hcl := wfIn_length _ _ _ _ _ hw1
    have e1 := eraseAt_at fc1 [] c (fk1.length + 1) hcl.symm
    have e2 := eraseAt_at fk1 [] key fk1.length rfl
    have hs := set_at kx ky k key
    rw [hlen] at hs
    refine ⟨key, .Internal fk1 fc1, .Internal (k :: sk) (c :: sc), ?_, ?_, ?_, ?_, ?_, ?_⟩
    · simp only [Share, hne, if_false, g1, g2, if_true, List.getLast?_append, List.getLast?_singleton,
        Option.some_bind, g3, Internal.Insert, hidx0, Bool.not_true,
        Bool.false_eq_true, insertAt?, insertAt, Nat.zero_le, List.take_zero, List.drop_zero,
        List.nil_append, Option.map_some', Internal.Delete, hidx, e1, e2, hs, set_at_succ,
        set_at, List.append_nil, Nat.add_zero, Option.or_some]
    · simp only [Wf]
      exact ⟨wfIn_ltOpt _ _ _ _ _ hw1, hw1⟩
    · simp only [Wf, WfIn]
      exact ⟨ltOpt_trans_key (wf_ltOpt _ _ _ _ hw2) hB.1, hw2, hw3, hB.2⟩
    · simp [Node.Size, Node.keys]
    · simp [Node.Size, Node.keys]
    · simp [leaves_internal, leavesIn_append, leavesIn_cons, leavesIn]

end

end BPlusTree

end s21

namespace s21

namespace BPlusTree

section
variable {K : Type} [LinearOrder K]

/-! ### `Share` with the right sibling -/

theorem share_right_leaf (lo hi : Option K) (k : K) (fid sid : Nat) (fk sk : List K)
    (fd sd : List Person) (fn sn : Option Nat) (X Y : List (Node K)) (kx ky : List K)
    (hA : Wf lo (some k) 0 (.Leaf sid sk sd sn)) (hB : Wf (some k) hi 0 (.Leaf fid fk fd fn))
    (hlen : kx.length = X.length) (hsz : 2 ≤ fk.length) :
    ∃ k1 A1 B1, Share (kx ++ k :: ky) (X ++ .Leaf sid sk sd sn :: .Leaf fid fk fd fn :: Y)
        X.length (X.length + 1) false = some (kx ++ k1 :: ky, X ++ A1 :: B1 :: Y) ∧
      Wf lo (some k1) 0 A1 ∧ Wf (some k1) hi 0 B1 ∧ A1.Size = sk.length + 1 ∧
      B1.Size + 1 = fk.length ∧
      Reshape [⟨sid, sk, sd, sn⟩, ⟨fid, fk, fd, fn⟩] (leaves A1 ++ leaves B1) := by
  simp only [Wf] at hA hB
  obtain ⟨a1, a2, a3, a4⟩ := hA
  obtain ⟨b1, b2, b3, b4⟩ := hB
  have hne : ¬ X.length = X.length + 1 := by omega
  have g1 := get_at X (.Leaf fid fk fd fn :: Y) (.Leaf sid sk sd sn)
  have g2 := get_at_succ X Y (.Leaf sid sk sd sn) (.Leaf fid fk fd fn)
  cases hgl : fk.head? with
  | none =>
    rw [List.head?_eq_none_iff] at hgl
    subst hgl; simp at hsz
  | some key =>
    have hkmem : key ∈ fk := List.mem_of_mem_head? hgl
    have hmin := head_min b3 hgl
    have hkk : k ≤ key := (b4 key hkmem).1
    obtain ⟨v, hv1, hv2⟩ := leaf_getValue key fk fd b2 hkmem
    have hknot : key ∉ sk := fun hm => absurd (lt_of_lt_of_le (a4 key hm).2 hkk) (lt_irrefl _)
    obtain ⟨ks1, ds1, hi1, hi2, hi3, hi4, hi5⟩ := leaf_insert_spec key v sk sd a2 hknot
    obtain ⟨ks2, ds2, hd1, hd2, hd3, hd4, hd5, hd6⟩ :=
      leaf_delete_spec key fk fd b2 (b3.imp fun h => ne_of_lt h) hkmem
    have hins : ins key v (sk.zip sd) = sk.zip sd ++ [(key, v)] := by
      apply ins_max
      intro e he
      exact lt_of_lt_of_le (a4 e.1 (List.of_mem_zip he).1).2 hkk
    have hgt2 : ∀ x ∈ ks2, key < x := by
      intro x hx
      have h1 := hmin x (hd5.subset hx)
      exact lt_of_le_of_ne h1 fun h2 => hd6 (h2 ▸ hx)
    have hpw1 : ks1.Pairwise (· < ·) := by
      have : Ascending (ks1.zip ds1) := by
        rw [hi4]
        apply ascending_ins
        · unfold Ascending; rw [map_fst_zip_eq _ _ a2]; exact a3
        · rw [map_fst_zip_eq _ _ a2]; exact hknot
      unfold Ascending at this
      rwa [map_fst_zip_eq _ _ hi2] at this
    cases ks2 with
    | nil => simp at hd3; omega
    | cons k1 ks2 =>
      have hk1 := hgt2 k1 (List.mem_cons_self _ _)
      have hkk1 : k < k1 := lt_of_le_of_lt hkk hk1
      have hsa := setAt_at kx ky k k1 X.length hlen.symm
      refine ⟨k1, .Leaf sid ks1 ds1 sn, .Leaf fid (k1 :: ks2) ds2 fn, ?_, ?_, ?_, ?_, ?_, ?_⟩
      · simp only [Share, hne, if_false, g1, g2, Bool.false_eq_true, hgl, Option.some_bind,
          hv1, hi1, hd1, List.head?_cons, hsa, Option.map_some', set_at_succ, set_at]
      · simp only [Wf]
        refine ⟨@ltOpt_trans_key K _ lo (some k1) k a1 hkk1, hi2, hpw1, ?_⟩
        intro x hx
        rcases (hi5 x).mp hx with rfl | hx
        · exact ⟨geLo_of_le hkk a1, hk1⟩
        · exact ⟨(a4 x hx).1, lt_trans (a4 x hx).2 hkk1⟩
      · simp only [Wf]
        have hm1 : k1 ∈ fk := hd5.subset (List.mem_cons_self _ _)
        refine ⟨ltOpt_of_ltHi (b4 k1 hm1).2, hd2, b3.sublist hd5, ?_⟩
        intro x hx
        exact ⟨head_min (b3.sublist hd5) rfl x hx, (b4 x (hd5.subset hx)).2⟩
      · simp only [Node.Size, Node.keys]; omega
      · simp only [Node.Size, Node.keys]; omega
      · have hasc : Ascending (fk.zip fd) := by
          unfold Ascending; rw [map_fst_zip_eq _ _ b2]; exact b3
        have hfm := filter_min hasc (mem_of_lookup hv2)
          fun e he => hmin e.1 (List.of_mem_zip he).1
        have := Reshape.share ([] : List (LeafRec K)) [] ⟨sid, sk, sd, sn⟩ ⟨fid, fk, fd, fn⟩
          ⟨sid, ks1, ds1, sn⟩ ⟨fid, k1 :: ks2, ds2, fn⟩ rfl rfl rfl rfl
          (by
            simp only [LeafRec.entries, hd4, hi4, hins]
            rw [List.append_assoc, List.singleton_append, hfm])
        simpa [leaves] using this

theorem share_right_internal (h : Nat) (lo hi : Option K) (k : K) (fk sk : List K)
    (fc sc : List (Node K)) (X Y : List (Node K)) (kx ky : List K)
    (hA : Wf lo (some k) (h + 1) (.Internal sk sc))
    (hB : Wf (some k) hi (h + 1) (.Internal fk fc))
    (hlen : kx.length = X.length) (hsz : 2 ≤ fk.length) :
    ∃ k1 A1 B1, Share (kx ++ k :: ky) (X ++ .Internal sk sc :: .Internal fk fc :: Y)
        X.length (X.length + 1) false = some (kx ++ k1 :: ky, X ++ A1 :: B1 :: Y) ∧
      Wf lo (some k1) (h + 1) A1 ∧ Wf (some k1) hi (h + 1) B1 ∧ A1.Size = sk.length + 1 ∧
      B1.Size + 1 = fk.length ∧ leaves A1 ++ leaves B1 = leavesIn sc ++ leavesIn fc := by
  simp only [Wf] at hA hB
  have hne : ¬ X.length = X.length + 1 := by omega
  have g1 := get_at X (.Internal fk fc :: Y) (.Internal sk sc)
  have g2 := get_at_succ X Y (.Internal sk sc) (.Internal fk fc)
  match fk, fc, hB, hsz, g1, g2 with
  | [], _, _, hsz, _, _ => simp at hsz
  | _ :: _, [], hB, _, _, _ => simp [WfIn] at hB
  | key :: fk1, c :: fc1, hB, _, g1, g2 =>
    obtain ⟨hB1, hB2⟩ := hB
    simp only [WfIn] at hB2
    have g3 := get_at kx ky k
    rw [hlen] at g3
    have hidx := findIdx_length k sk fun x hx =>
      not_lt_of_lt (wfIn_keys _ _ _ _ _ hA.2 x hx).2
    have hcl := wfIn_length _ _ _ _ _ hA.2
    have hle : sk.length + 1 ≤ sc.length := by omega
    have hia : insertAt (sk.length + 1) c sc = sc ++ [c] := by
      have := insertAt_length sc [] c
      rw [List.append_nil, hcl] at this
      exact this
    have hik : insertAt sk.length k sk = sk ++ [k] := by
      have := insertAt_length sk [] k
      rw [List.append_nil] at this
      exact this
    have hs := set_at kx ky k key
    rw [hlen] at hs
    refine ⟨key, .Internal (sk ++ [k]) (sc ++ [c]), .Internal fk1 fc1, ?_, ?_, ?_, ?_, ?_, ?_⟩
    · simp only [Share, hne, if_false, g1, g2, Bool.false_eq_true, List.head?_cons,
        Option.some_bind, g3, Internal.Insert, hidx, Bool.not_false, if_true, insertAt?, hle,
        hia, hik, Option.map_some', Internal.Delete, List.indexOf_cons_self, Nat.add_zero,
        eraseAt?, List.length_cons, Nat.zero_lt_succ, List.eraseIdx_cons_zero, hs, set_at_succ,
        set_at]
    · simp only [Wf]
      have hw : WfIn lo (some key) h (sk ++ [k]) (sc ++ [c]) :=
        wfIn_join (some key) h k [] [c] sk sc lo hA.2 (by simp only [WfIn]; exact ⟨hB2.1, hB2.2.1⟩)
      exact ⟨wfIn_ltOpt _ _ _ _ _ hw, hw⟩
    · simp only [Wf]
      exact ⟨wfIn_ltOpt _ _ _ _ _ hB2.2.2, hB2.2.2⟩
    · simp [Node.Size, Node.keys]
    · simp [Node.Size, Node.keys]
    · simp [leaves_internal, leavesIn_append, leavesIn_cons, leavesIn]

end

end BPlusTree

end s21

namespace s21

namespace BPlusTree

section
variable {K : Type} [LinearOrder K]

/-! ### The steps of `UpdateTree` -/

theorem getSiblings_eq (front : K) (pk : List K) (cs : List (Node K)) (n : Nat)
    (hidx : pk.findIdx (fun i => decide (front < i)) = n)
    (hlen : cs.length = pk.length + 1) (hn : n ≤ pk.length) :
    GetSiblings front pk cs =
      some (if n = 0 then none else some (n - 1),
        if n = pk.length then none else some (n + 1)) := by
  have h1 : (if n = 0 then some none else (cs[n - 1]?).map fun _ => some (n - 1)) =
      some (if n = 0 then none else some (n - 1)) := by
    split
    · rfl
    · rw [List.getElem?_eq_getElem (by omega)]; rfl
  have h2 : (if n = pk.length then some none else (cs[n + 1]?).map fun _ => some (n + 1)) =
      some (if n = pk.length then none else some (n + 1)) := by
    split
    · rfl
    · rw [List.getElem?_eq_getElem (by omega)]; rfl
  simp only [GetSiblings, hidx, ne_eq, ite_not, h1, h2, Option.some_bind, Option.map_some']

theorem threshold_eq (node : Node K) :
    (bucket_size + if node.IsLeaf = true then 0 else 1) / 2 = 5 := by
  cases node.IsLeaf <;> rfl

theorem canShare_at (X Y : List (Node K)) (n : Node K) :
    canShare (X ++ n :: Y) (some X.length) = decide (n.Size > 5) := by
  simp only [canShare, get_at]
  rfl

theorem canShare_at_succ (X Y : List (Node K)) (a n : Node K) :
    canShare (X ++ a :: n :: Y) (some (X.length + 1)) = decide (n.Size > 5) := by
  simp only [canShare, get_at_succ]
  rfl

theorem canShare_none (cs : List (Node K)) : canShare cs none = false := rfl

/-- The step of `UpdateTree` that takes a key from the left sibling. -/
theorem updateTree_share_left (node L : Node K) (front : K) (pk : List K)
    (X after : List (Node K)) (rest : Path K) (hsz : node.Size < 5)
    (hfront : node.keys.head? = some front)
    (hidx : pk.findIdx (fun i => decide (front < i)) = X.length + 1)
    (hpk : pk.length = X.length + 1 + after.length) (hL : L.Size > 5) :
    UpdateTree node (⟨pk, X ++ [L], after⟩ :: rest) =
      (Share pk (X ++ L :: node :: after) (X.length + 1) X.length true).map fun parent =>
        zip (.Internal parent.1 parent.2) rest := by
  have hs := getSiblings_eq front pk (X ++ L :: node :: after) (X.length + 1) hidx
    (by simp only [List.length_append, List.length_cons]; omega) (by omega)
  have hnz : ¬ X.length + 1 = 0 := by omega
  have hc := canShare_at X (node :: after) L
  simp only [hnz, if_false, Nat.add_sub_cancel] at hs
  rw [UpdateTree]
  simp only [threshold_eq, ge_iff_le, not_le.mpr hsz, if_false, hfront, Option.some_bind,
    List.length_append, List.length_singleton, List.append_assoc, List.singleton_append, hs,
    hc, hL, decide_True, if_true]

/-- The step of `UpdateTree` that takes a key from the right sibling. -/
theorem updateTree_share_right (node R : Node K) (front : K) (pk : List K)
    (before Y : List (Node K)) (rest : Path K) (hsz : node.Size < 5)
    (hfront : node.keys.head? = some front)
    (hidx : pk.findIdx (fun i => decide (front < i)) = before.length)
    (hpk : pk.length = before.length + (Y.length + 1)) (hR : R.Size > 5)
    (hcl : canShare (before ++ node :: R :: Y)
      (if before.length = 0 then none else some (before.length - 1)) = false) :
    UpdateTree node (⟨pk, before, R :: Y⟩ :: rest) =
      (Share pk (before ++ node :: R :: Y) before.length (before.length + 1) false).map
        fun parent => zip (.Internal parent.1 parent.2) rest := by
  have hs := getSiblings_eq front pk (before ++ node :: R :: Y) before.length hidx
    (by simp only [List.length_append, List.length_cons]; omega) (by omega)
  have hne : ¬ before.length = pk.length := by omega
  have hc := canShare_at_succ before Y node R
  simp only [hne, if_false] at hs
  rw [UpdateTree]
  simp only [threshold_eq, ge_iff_le, not_le.mpr hsz, if_false, hfront, Option.some_bind, hs,
    hcl, Bool.false_eq_true, hc, hR, decide_True, if_true]

/-- The step of `UpdateTree` that merges the node into its left sibling. -/
theorem updateTree_merge_left (node L : Node K) (front : K) (pk : List K)
    (X after : List (Node K)) (rest : Path K) (hsz : node.Size < 5)
    (hfront : node.keys.head? = some front)
    (hidx : pk.findIdx (fun i => decide (front < i)) = X.length + 1)
    (hpk : pk.length = X.length + 1 + after.length) (hL : ¬ L.Size > 5)
    (hcr : canShare (X ++ L :: node :: after)
      (if X.length + 1 = pk.length then none else some (X.length + 1 + 1)) = false) :
    UpdateTree node (⟨pk, X ++ [L], after⟩ :: rest) =
      (Merge pk (X ++ L :: node :: after) X.length (X.length + 1)).bind fun parent =>
        UpdateTree (.Internal parent.1 parent.2) rest := by
  have hs := getSiblings_eq front pk (X ++ L :: node :: after) (X.length + 1) hidx
    (by simp only [List.length_append, List.length_cons]; omega) (by omega)
  have hnz : ¬ X.length + 1 = 0 := by omega
  have hc := canShare_at X (node :: after) L
  simp only [hnz, if_false, Nat.add_sub_cancel] at hs
  rw [UpdateTree]
  simp only [threshold_eq, ge_iff_le, not_le.mpr hsz, if_false, hfront, Option.some_bind,
    List.length_append, List.length_singleton, List.append_assoc, List.singleton_append, hs,
    hc, hL, decide_False, Bool.false_eq_true, hcr]

/-- The step of `UpdateTree` that merges the right sibling into a first child. -/
theorem updateTree_merge_right (node R : Node K) (front : K) (pk : List K)
    (Y : List (Node K)) (rest : Path K) (hsz : node.Size < 5)
    (hfront : node.keys.head? = some front)
    (hidx : pk.findIdx (fun i => decide (front < i)) = 0)
    (hpk : pk.length = Y.length + 1) (hR : ¬ R.Size > 5) :
    UpdateTree node (⟨pk, [], R :: Y⟩ :: rest) =
      (Merge pk (node :: R :: Y) 0 1).bind fun parent =>
        UpdateTree (.Internal parent.1 parent.2) rest := by
  have hs := getSiblings_eq front pk (node :: R :: Y) 0 hidx
    (by simp only [List.length_cons]; omega) (by omega)
  have hne : ¬ 0 = pk.length := by omega
  have hc := canShare_at_succ [] Y node R
  simp only [hne, if_false, if_true, Nat.zero_add] at hs
  simp only [List.nil_append, List.length_nil, Nat.zero_add] at hc
  rw [UpdateTree]
  simp only [threshold_eq, ge_iff_le, not_le.mpr hsz, if_false, hfront, Option.some_bind,
    List.nil_append, List.length_nil, hs, canShare_none, Bool.false_eq_true, hc, hR,
    decide_False, Nat.zero_add]

end

end BPlusTree

end s21

namespace s21

namespace BPlusTree

section
variable {K : Type} [LinearOrder K]

/-! ### The steps of `UpdateTree` and the shape of the tree -/

theorem pre_snoc_inv (h : Nat) (k : K) (c : Node K) :
    ∀ (before : List (Node K)) (kb : List K) (lo : Option K),
      Pre h lo (kb ++ [k]) (before ++ [c]) →
      Pre h lo kb before ∧ Wf (lastOr lo kb) (some k) h c ∧ sizeOk c
  | [], [], lo, hp => by
    simp only [List.nil_append, Pre] at hp
    exact ⟨by simp [Pre], by simpa [lastOr] using hp.1, hp.2.1⟩
  | [], _ :: kb, _, hp => by
    cases kb <;> simp [Pre] at hp
  | _ :: bs, [], _, hp => by
    cases bs <;> simp [Pre] at hp
  | b :: bs, k1 :: kb, lo, hp => by
    simp only [List.cons_append, Pre] at hp
    have ih := pre_snoc_inv h k c bs kb (some k1) hp.2.2
    rw [lastOr_cons]
    simp only [Pre]
    exact ⟨⟨hp.1, hp.2.1, ih.1⟩, ih.2⟩

theorem pre_keys_lt_of_ltOpt (h : Nat) (before : List (Node K)) (kb : List K) (lo : Option K)
    (hp : Pre h lo kb before) (x : K) (hx : ltOpt (lastOr lo kb) (some x)) :
    ∀ k ∈ kb, k < x := by
  intro k hk
  cases hl : kb.getLast? with
  | none =>
    rw [List.getLast?_eq_none_iff] at hl
    subst hl; simp at hk
  | some last =>
    have h1 : lastOr lo kb = some last := by simp [lastOr, hl]
    rw [h1] at hx
    have h2 := pre_keys_le h before kb lo hp k hk last (by rw [h1]; exact le_refl _)
    exact lt_of_le_of_lt h2 hx

theorem share_left_spec (h : Nat) (lo hi : Option K) (k : K) (A B : Node K)
    (X Y : List (Node K)) (kx ky : List K) (hA : Wf lo (some k) h A)
    (hB : Wf (some k) hi h B) (hlen : kx.length = X.length) (hsz : 2 ≤ A.Size) :
    ∃ k1 A1 B1, Share (kx ++ k :: ky) (X ++ A :: B :: Y) (X.length + 1) X.length true =
        some (kx ++ k1 :: ky, X ++ A1 :: B1 :: Y) ∧
      Wf lo (some k1) h A1 ∧ Wf (some k1) hi h B1 ∧ A1.Size + 1 = A.Size ∧
      B1.Size = B.Size + 1 ∧ Reshape (leaves A ++ leaves B) (leaves A1 ++ leaves B1) := by
  match h, A, B, hA, hB, hsz with
  | 0, .Leaf fid fk fd fn, .Leaf sid sk sd sn, hA, hB, hsz =>
    obtain ⟨k1, A1, B1, h1, h2, h3, h4, h5, h6⟩ :=
      share_left_leaf lo hi k fid sid fk sk fd sd fn sn X Y kx ky hA hB hlen hsz
    exact ⟨k1, A1, B1, h1, h2, h3, h4, h5, by simpa [leaves] using h6⟩
  | h + 1, .Internal fk fc, .Internal sk sc, hA, hB, hsz =>
    obtain ⟨k1, A1, B1, h1, h2, h3, h4, h5, h6⟩ :=
      share_left_internal h lo hi k fk sk fc sc X Y kx ky hA hB hlen hsz
    refine ⟨k1, A1, B1, h1, h2, h3, h4, h5, ?_⟩
    rw [leaves_internal, leaves_internal, h6]
    exact Reshape.refl _
  | 0, .Internal _ _, _, hA, _, _ => simp [Wf] at hA
  | 0, .Leaf _ _ _ _, .Internal _ _, _, hB, _ => simp [Wf] at hB
  | _ + 1, .Leaf _ _ _ _, _, hA, _, _ => simp [Wf] at hA
  | _ + 1, .Internal _ _, .Leaf _ _ _ _, _, hB, _ => simp [Wf] at hB

theorem share_right_spec (h : Nat) (lo hi : Option K) (k : K) (A B : Node K)
    (X Y : List (Node K)) (kx ky : List K) (hA : Wf lo (some k) h A)
    (hB : Wf (some k) hi h B) (hlen : kx.length = X.length) (hsz : 2 ≤ B.Size) :
    ∃ k1 A1 B1, Share (kx ++ k :: ky) (X ++ A :: B :: Y) X.length (X.length + 1) false =
        some (kx ++ k1 :: ky, X ++ A1 :: B1 :: Y) ∧
      Wf lo (some k1) h A1 ∧ Wf (some k1) hi h B1 ∧ A1.Size = A.Size + 1 ∧
      B1.Size + 1 = B.Size ∧ Reshape (leaves A ++ leaves B) (leaves A1 ++ leaves B1) := by
  match h, A, B, hA, hB, hsz with
  | 0, .Leaf sid sk sd sn, .Leaf fid fk fd fn, hA, hB, hsz =>
    obtain ⟨k1, A1, B1, h1, h2, h3, h4, h5, h6⟩ :=
      share_right_leaf lo hi k fid sid fk sk fd sd fn sn X Y kx ky hA hB hlen hsz
    exact ⟨k1, A1, B1, h1, h2, h3, h4, h5, by simpa [leaves] using h6⟩
  | h + 1, .Internal sk sc, .Internal fk fc, hA, hB, hsz =>
    obtain ⟨k1, A1, B1, h1, h2, h3, h4, h5, h6⟩ :=
      share_right_internal h lo hi k fk sk fc sc X Y kx ky hA hB hlen hsz
    refine ⟨k1, A1, B1, h1, h2, h3, h4, h5, ?_⟩
    rw [leaves_internal, leaves_internal, h6]
    exact Reshape.refl _
  | 0, .Internal _ _, _, hA, _, _ => simp [Wf] at hA
  | 0, .Leaf _ _ _ _, .Internal _ _, _, hB, _ => simp [Wf] at hB
  | _ + 1, .Leaf _ _ _ _, _, hA, _, _ => simp [Wf] at hA
  | _ + 1, .Internal _ _, .Leaf _ _ _ _, _, hB, _ => simp [Wf] at hB

/-- The tree after two neighbouring children of a frame have shared a key. -/
theorem frame_pair (rest : Path K) (h : Nat) (X Y : List (Node K)) (kx ky : List K) (k1 : K)
    (A B A1 B1 : Node K) (hlen : kx.length = X.length)
    (hpre : Pre h (pathBounds rest).1 kx X) (hpost : Post (pathBounds rest).2 h ky Y)
    (hA1 : Wf (lastOr (pathBounds rest).1 kx) (some k1) h A1)
    (hB1 : Wf (some k1) (headOr (pathBounds rest).2 ky) h B1) (sA1 : sizeOk A1)
    (sB1 : sizeOk B1) (hrest : PathWf rest (h + 1))
    (hmax : (kx ++ k1 :: ky).length ≤ bucket_size)
    (hmin : minKeys rest ≤ (kx ++ k1 :: ky).length)
    (hr : Reshape (leaves A ++ leaves B) (leaves A1 ++ leaves B1)) :
    (∃ H, Wf none none H (zip (.Internal (kx ++ k1 :: ky) (X ++ A1 :: B1 :: Y)) rest)) ∧
      rootSizeOk (zip (.Internal (kx ++ k1 :: ky) (X ++ A1 :: B1 :: Y)) rest) ∧
      Reshape (pathLeft rest ++ leavesIn (X ++ A :: B :: Y) ++ pathRight rest)
        (leaves (zip (.Internal (kx ++ k1 :: ky) (X ++ A1 :: B1 :: Y)) rest)) := by
  have hwin : WfIn (pathBounds rest).1 (pathBounds rest).2 h (kx ++ k1 :: ky)
      (X ++ A1 :: B1 :: Y) := by
    rw [wfIn_split _ _ _ _ _ _ _ _ hlen]
    exact ⟨hpre, hA1, sA1, hB1, sB1, hpost⟩
  have hwf : Wf (pathBounds rest).1 (pathBounds rest).2 (h + 1)
      (.Internal (kx ++ k1 :: ky) (X ++ A1 :: B1 :: Y)) := by
    simp only [Wf]
    exact ⟨wfIn_ltOpt _ _ _ _ _ hwin, hwin⟩
  obtain ⟨hw1, hw2⟩ := zip_wf rest _ (h + 1) hwf hrest (fits_of_size rest _ hmax hmin)
  refine ⟨hw1, hw2, ?_⟩
  rw [leaves_zip, leaves_internal]
  have := reshape_context (pathLeft rest ++ leavesIn X) (leavesIn Y ++ pathRight rest) hr
  simpa [leavesIn_append, leavesIn_cons, List.append_assoc] using this

/-- The frame after two neighbouring children have become one. -/
theorem frame_merged (rest : Path K) (h : Nat) (X Y : List (Node K)) (kx ky : List K)
    (M : Node K) (hlen : kx.length = X.length)
    (hpre : Pre h (pathBounds rest).1 kx X) (hpost : Post (pathBounds rest).2 h ky Y)
    (hM : Wf (lastOr (pathBounds rest).1 kx) (headOr (pathBounds rest).2 ky) h M)
    (sM : sizeOk M) :
    Wf (pathBounds rest).1 (pathBounds rest).2 (h + 1) (.Internal (kx ++ ky) (X ++ M :: Y)) := by
  have hwin : WfIn (pathBounds rest).1 (pathBounds rest).2 h (kx ++ ky) (X ++ M :: Y) := by
    rw [wfIn_split _ _ _ _ _ _ _ _ hlen]
    exact ⟨hpre, hM, sM, hpost⟩
  simp only [Wf]
  exact ⟨wfIn_ltOpt _ _ _ _ _ hwin, hwin⟩

end

end BPlusTree

end s21

namespace s21

namespace BPlusTree

section
variable {K : Type} [LinearOrder K]

theorem minKeys_pos (p : Path K) : 1 ≤ minKeys p := by
  cases p <;> simp [minKeys]

theorem minKeys_cons (p : Path K) (h : p ≠ []) : minKeys p = 5 := by
  cases p with
  | nil => exact absurd rfl h
  | cons f p => rfl

theorem step_share_right (rest : Path K) (h : Nat) (node R : Node K) (front kr : K)
    (kb ky : List K) (before Y : List (Node K)) (hlt : node.Size < 5) (h4 : 4 ≤ node.Size)
    (hf : node.keys.head? = some front)
    (hidx : (kb ++ kr :: ky).findIdx (fun i => decide (front < i)) = before.length)
    (hlen : kb.length = before.length) (hky : ky.length = Y.length)
    (hpre : Pre h (pathBounds rest).1 kb before)
    (hR : Wf (some kr) (headOr (pathBounds rest).2 ky) h R) (sR : sizeOk R)
    (hpost : Post (pathBounds rest).2 h ky Y)
    (hw : Wf (lastOr (pathBounds rest).1 kb) (some kr) h node) (hR5 : R.Size > 5)
    (hcl : canShare (before ++ node :: R :: Y)
      (if before.length = 0 then none else some (before.length - 1)) = false)
    (hrest : PathWf rest (h + 1)) (hmax : (kb ++ kr :: ky).length ≤ bucket_size)
    (hmin : minKeys rest ≤ (kb ++ kr :: ky).length) :
    ∃ root, UpdateTree node (⟨kb ++ kr :: ky, before, R :: Y⟩ :: rest) = some root ∧
      (∃ H, Wf none none H root) ∧ rootSizeOk root ∧
      Reshape (pathLeft rest ++ leavesIn (before ++ node :: R :: Y) ++ pathRight rest)
        (leaves root) := by
  have hstep := updateTree_share_right node R front (kb ++ kr :: ky) before Y rest hlt hf hidx
    (by simp only [List.length_append, List.length_cons]; omega) hR5 hcl
  obtain ⟨k1, A1, B1, s1, s2, s3, s4, s5, s6⟩ :=
    share_right_spec h _ _ kr node R before Y kb ky hw hR hlen (by omega)
  have sA1 : sizeOk A1 := by
    simp only [sizeOk, bucket_size]; omega
  have sB1 : sizeOk B1 := by
    have := sR.2
    simp only [sizeOk, bucket_size] at this ⊢; omega
  obtain ⟨f1, f2, f3⟩ := frame_pair rest h before Y kb ky k1 node R A1 B1 hlen hpre hpost s2 s3
    sA1 sB1 hrest (by simpa using hmax) (by simpa using hmin) s6
  refine ⟨_, ?_, f1, f2, f3⟩
  rw [hstep, s1]; rfl

theorem step_share_left (rest : Path K) (h : Nat) (node L : Node K) (front kl : K)
    (kx ka : List K) (X after : List (Node K)) (hlt : node.Size < 5) (h4 : 4 ≤ node.Size)
    (hf : node.keys.head? = some front)
    (hidx : (kx ++ kl :: ka).findIdx (fun i => decide (front < i)) = X.length + 1)
    (hlen : kx.length = X.length) (hka : ka.length = after.length)
    (hpre : Pre h (pathBounds rest).1 kx X)
    (hL : Wf (lastOr (pathBounds rest).1 kx) (some kl) h L) (sL : sizeOk L)
    (hpost : Post (pathBounds rest).2 h ka after)
    (hw : Wf (some kl) (headOr (pathBounds rest).2 ka) h node) (hL5 : L.Size > 5)
    (hrest : PathWf rest (h + 1)) (hmax : (kx ++ kl :: ka).length ≤ bucket_size)
    (hmin : minKeys rest ≤ (kx ++ kl :: ka).length) :
    ∃ root, UpdateTree node (⟨kx ++ kl :: ka, X ++ [L], after⟩ :: rest) = some root ∧
      (∃ H, Wf none none H root) ∧ rootSizeOk root ∧
      Reshape (pathLeft rest ++ leavesIn (X ++ L :: node :: after) ++ pathRight rest)
        (leaves root) := by
  have hstep := updateTree_share_left node L front (kx ++ kl :: ka) X after rest hlt hf hidx
    (by simp only [List.length_append, List.length_cons]; omega) hL5
  obtain ⟨k1, A1, B1, s1, s2, s3, s4, s5, s6⟩ :=
    share_left_spec h _ _ kl L node X after kx ka hL hw hlen (by omega)
  have sA1 : sizeOk A1 := by
    have := sL.2
    simp only [sizeOk, bucket_size] at this ⊢; omega
  have sB1 : sizeOk B1 := by
    simp only [sizeOk, bucket_size]; omega
  obtain ⟨f1, f2, f3⟩ := frame_pair rest h X after kx ka k1 L node A1 B1 hlen hpre hpost s2 s3
    sA1 sB1 hrest (by simpa using hmax) (by simpa using hmin) s6
  refine ⟨_, ?_, f1, f2, f3⟩
  rw [hstep, s1]; rfl

theorem step_merge (rest : Path K) (h : Nat) (A B : Node K) (k : K) (kx ky : List K)
    (X Y : List (Node K))
    (ih : ∀ node : Node K, Wf (pathBounds rest).1 (pathBounds rest).2 (h + 1) node →
      node.Size ≤ bucket_size → (rest ≠ [] → 4 ≤ node.Size) →
      ∃ root, UpdateTree node rest = some root ∧ (∃ H, Wf none none H root) ∧
        rootSizeOk root ∧ Reshape (pathLeft rest ++ leaves node ++ pathRight rest) (leaves root))
    (hlen : kx.length = X.length) (hpre : Pre h (pathBounds rest).1 kx X)
    (hpost : Post (pathBounds rest).2 h ky Y)
    (hA : Wf (lastOr (pathBounds rest).1 kx) (some k) h A)
    (hB : Wf (some k) (headOr (pathBounds rest).2 ky) h B) (hsum : A.Size + B.Size = 9)
    (hmax : (kx ++ k :: ky).length ≤ bucket_size)
    (hmin : minKeys rest ≤ (kx ++ k :: ky).length) :
    ∃ root, ((Merge (kx ++ k :: ky) (X ++ A :: B :: Y) X.length (X.length + 1)).bind
        fun parent => UpdateTree (.Internal parent.1 parent.2) rest) = some root ∧
      (∃ H, Wf none none H root) ∧ rootSizeOk root ∧
      Reshape (pathLeft rest ++ leavesIn (X ++ A :: B :: Y) ++ pathRight rest)
        (leaves root) := by
  have hk : k ∉ kx := fun hm =>
    lt_irrefl _ (pre_keys_lt_of_ltOpt h X kx _ hpre k (wf_ltOpt _ _ _ _ hA) k hm)
  obtain ⟨M, m1, m2, m3, m4, m5, m6⟩ := merge_spec h _ _ k A B X Y kx ky hA hB hlen hk
  have sM : sizeOk M := by
    simp only [sizeOk, bucket_size]; omega
  have hwf := frame_merged rest h X Y kx ky M hlen hpre hpost m2 sM
  simp only [List.length_append, List.length_cons] at hmax hmin
  obtain ⟨root, r1, r2, r3, r4⟩ := ih (.Internal (kx ++ ky) (X ++ M :: Y)) hwf
    (by simp only [Node.Size, Node.keys, List.length_append]; omega)
    (by
      intro hne
      have := minKeys_cons rest hne
      simp only [Node.Size, Node.keys, List.length_append]; omega)
  refine ⟨root, by rw [m1]; exact r1, r2, r3, ?_⟩
  refine Reshape.trans ?_ r4
  have := reshape_context (pathLeft rest ++ leavesIn X) (leavesIn Y ++ pathRight rest) m6
  simpa [leaves_internal, leavesIn_append, leavesIn_cons, List.append_assoc] using this

end

end BPlusTree

end s21

namespace s21

namespace BPlusTree

section
variable {K : Type} [LinearOrder K]

/-! ### `UpdateTree` -/

theorem updateTree_spec : ∀ (p : Path K) (node : Node K) (h : Nat),
    Wf (pathBounds p).1 (pathBounds p).2 h node → PathWf p h → node.Size ≤ bucket_size →
    (p ≠ [] → 4 ≤ node.Size) →
    ∃ root, UpdateTree node p = some root ∧ (∃ H, Wf none none H root) ∧ rootSizeOk root ∧
      Reshape (pathLeft p ++ leaves node ++ pathRight p) (leaves root)
  | [], node, h, hw, _, hsz, _ => by
    simp only [pathBounds] at hw
    match node, h, hw, hsz with
    | .Internal [] cs, h + 1, hw, _ =>
      simp only [Wf] at hw
      match cs, hw with
      | [c], hw =>
        simp only [WfIn] at hw
        refine ⟨c, by simp [UpdateTree], ⟨h, hw.2.1⟩,
          ⟨hw.2.2.2, fun _ => le_trans (by decide) hw.2.2.1⟩, ?_⟩
        simp only [pathLeft, pathRight, leaves, leavesIn, List.nil_append, List.append_nil]
        exact Reshape.refl _
      | [], hw => simp [WfIn] at hw
      | _ :: _ :: _, hw => simp [WfIn] at hw
    | .Internal (k :: ks) cs, h, hw, hsz =>
      refine ⟨_, by simp [UpdateTree], ⟨h, hw⟩,
        ⟨hsz, fun _ => by simp [Node.Size, Node.keys]⟩, ?_⟩
      simp only [pathLeft, pathRight, List.nil_append, List.append_nil]
      exact Reshape.refl _
    | .Leaf id ks ds nx, h, hw, hsz =>
      refine ⟨_, by simp [UpdateTree], ⟨h, hw⟩,
        ⟨hsz, fun hl => by simp [Node.IsLeaf] at hl⟩, ?_⟩
      simp only [pathLeft, pathRight, List.nil_append, List.append_nil]
      exact Reshape.refl _
    | .Internal [] cs, 0, hw, _ => simp [Wf] at hw
  | f :: rest, node, h, hw, hp, hsz, hmin4 => by
    have h4 := hmin4 (by simp)
    by_cases hbig : 5 ≤ node.Size
    · refine ⟨zip node (f :: rest), ?_, ?_⟩
      · rw [UpdateTree]
        simp only [threshold_eq, ge_iff_le, hbig, if_true]
      · obtain ⟨hw1, hw2⟩ := zip_wf (f :: rest) node h hw hp ⟨hbig, hsz⟩
        exact ⟨hw1, hw2, by rw [leaves_zip]; exact Reshape.refl _⟩
    · have hlt : node.Size < 5 := by omega
      obtain ⟨kb, ka, hk, hlen, hpre, hpost, hmax, hmin, hrest, hb⟩ := pathWf_cons f rest h hp
      obtain ⟨keys, before, after⟩ := f
      simp only at hk hlen hpre hpost
      subst hk
      rw [hb] at hw
      simp only at hw
      have hka := post_length _ _ _ _ hpost
      cases hf : node.keys.head? with
      | none =>
        rw [List.head?_eq_none_iff] at hf
        simp [Node.Size, hf] at h4
      | some front =>
        have hfm : front ∈ node.keys := List.mem_of_mem_head? hf
        have hfb := wf_keys node _ _ h hw front hfm
        have hidx : (kb ++ ka).findIdx (fun i => decide (front < i)) = before.length := by
          rw [← hlen]
          apply findIdx_split
          · intro k hkm
            exact not_lt.mpr (pre_keys_le h before kb _ hpre k hkm front hfb.1)
          · intro k hkh
            cases ka with
            | nil => simp at hkh
            | cons k1 ka =>
              simp only [List.head?_cons, Option.some.injEq] at hkh
              subst hkh
              exact hfb.2
        have hleaves : pathLeft (⟨kb ++ ka, before, after⟩ :: rest) ++ leaves node ++
            pathRight (⟨kb ++ ka, before, after⟩ :: rest) =
            pathLeft rest ++ leavesIn (before ++ node :: after) ++ pathRight rest := by
          simp [pathLeft, pathRight, leavesIn_append, leavesIn_cons, List.append_assoc]
        rw [hleaves]
        have ih := fun n => updateTree_spec rest n (h + 1)
        rcases List.eq_nil_or_concat before with hbn | ⟨X, L, hbx⟩
        · subst hbn
          have hkb : kb = [] := List.length_eq_zero.mp hlen
          subst hkb
          cases after with
          | nil =>
            have hkan : ka = [] := List.length_eq_zero.mp hka
            subst hkan
            have := minKeys_pos rest
            simp at hmin
            omega
          | cons R Y =>
            cases ka with
            | nil => simp at hka
            | cons kr ky =>
              simp only [Post] at hpost
              obtain ⟨hR, sR, hpostY⟩ := hpost
              simp only [lastOr_nil, headOr_cons] at hw
              have hky : ky.length = Y.length := by simpa using hka
              by_cases hR5 : R.Size > 5
              · exact step_share_right rest h node R front kr [] ky [] Y hlt h4 hf hidx rfl hky
                  hpre hR sR hpostY hw hR5 (by simp [canShare_none]) hrest hmax hmin
              · have hstep := updateTree_merge_right node R front (kr :: ky) Y rest hlt hf
                  (by simpa using hidx) (by simp only [List.length_cons]; omega) hR5
                have hsum : node.Size + R.Size = 9 := by
                  have := sR.1; omega
                have hm := step_merge rest h node R kr [] ky [] Y
                  (fun n hn => ih n hn hrest) rfl hpre hpostY hw hR hsum hmax hmin
                simpa only [List.nil_append, List.length_nil, Nat.zero_add, ← hstep] using hm
        · rw [List.concat_eq_append] at hbx
          subst hbx
          rcases List.eq_nil_or_concat kb with hkn | ⟨kx, kl, hkx⟩
          · subst hkn; simp at hlen
          · rw [List.concat_eq_append] at hkx
            subst hkx
            have hlenx : kx.length = X.length := by simpa using hlen
            obtain ⟨hpreX, hL, sL⟩ := pre_snoc_inv h kl L X kx _ hpre
            rw [lastOr_snoc] at hw
            have hidx1 : (kx ++ kl :: ka).findIdx (fun i => decide (front < i)) =
                X.length + 1 := by
              simpa [List.append_assoc] using hidx
            have hmax1 : (kx ++ kl :: ka).length ≤ bucket_size := by
              simpa [List.append_assoc] using hmax
            have hmin1 : minKeys rest ≤ (kx ++ kl :: ka).length := by
              simpa [List.append_assoc] using hmin
            have hkeys : kx ++ [kl] ++ ka = kx ++ kl :: ka := by simp
            have hch : X ++ [L] ++ node :: after = X ++ L :: node :: after := by simp
            rw [hkeys, hch]
            by_cases hL5 : L.Size > 5
            · exact step_share_left rest h node L front kl kx ka X after hlt h4 hf hidx1 hlenx
                hka hpreX hL sL hpost hw hL5 hrest hmax1 hmin1
            · have hsum : L.Size + node.Size = 9 := by
                have := sL.1; omega
              have hm := step_merge rest h L node kl kx ka X after
                (fun n hn => ih n hn hrest) hlenx hpreX hpost hL hw hsum hmax1 hmin1
              cases after with
              | nil =>
                have hkan : ka = [] := List.length_eq_zero.mp hka
                subst hkan
                have hstep := updateTree_merge_left node L front (kx ++ [kl]) X [] rest hlt hf
                  hidx1 (by simp [hlenx]) hL5 (by simp [hlenx, canShare_none])
                rw [hstep]
                exact hm
              | cons R Y =>
                cases ka with
                | nil => simp at hka
                | cons kr ky =>
                  simp only [Post] at hpost
                  obtain ⟨hR, sR, hpostY⟩ := hpost
                  have hky : ky.length = Y.length := by simpa using hka
                  by_cases hR5 : R.Size > 5
                  · have hsr := step_share_right rest h node R front kr (kx ++ [kl]) ky
                      (X ++ [L]) Y hlt h4 hf (by simpa [List.append_assoc] using hidx1)
                      (by simpa using hlenx) hky hpre hR sR hpostY
                      (by rw [lastOr_snoc]; simpa only [headOr_cons] using hw) hR5
                      (by
                        have := canShare_at X (node :: R :: Y) L
                        simpa [hL5] using this)
                      hrest (by simpa [List.append_assoc] using hmax1)
                      (by simpa [List.append_assoc] using hmin1)
                    simpa [List.append_assoc] using hsr
                  · have hstep := updateTree_merge_left node L front (kx ++ kl :: kr :: ky) X
                      (R :: Y) rest hlt hf hidx1
                      (by simp only [List.length_append, List.length_cons]; omega) hL5
                      (by
                        have := canShare_at (X ++ [L, node]) Y R
                        have hne : ¬ X.length + 1 = (kx ++ kl :: kr :: ky).length := by
                          simp only [List.length_append, List.length_cons]; omega
                        simp only [hne, if_false]
                        simpa [hR5] using this)
                    rw [hstep]
                    exact hm

end

end BPlusTree

end s21

namespace s21

namespace BPlusTree

section
variable {K : Type} [LinearOrder K]

/-! ### `Delete` and `Rename` -/

theorem filter_ne_self (key : K) (es : List (K × Person)) (h : ∀ e ∈ es, e.1 ≠ key) :
    es.filter (fun e => decide (e.1 ≠ key)) = es := by
  rw [List.filter_eq_self]
  intro e he
  simpa using h e he

theorem bp_delete_spec (t : Tree K) (h : Inv t) (key : K) :
    ∃ b t1, Delete t key = some (b, t1) ∧ Inv t1 ∧ Exists t key = some b ∧
      (b = false → t1 = t) ∧
      (b = true → toList t1.root = (toList t.root).filter fun e => decide (e.1 ≠ key)) := by
  obtain ⟨id, ks, ds, nx, q, h1, h2, h3, h4, h5, h6, h7, h8⟩ := getLeaf_root t h key
  simp only [Delete, Exists, h1]
  by_cases hk : key ∈ ks
  · simp only [Wf] at h4
    obtain ⟨hlt, hlen, hpw, hbd⟩ := h4
    obtain ⟨ks1, ds1, hd1, hd2, hd3, hd4, hd5, hd6⟩ :=
      leaf_delete_spec key ks ds hlen (hpw.imp fun h => ne_of_lt h) hk
    have hwf : Wf (pathBounds q).1 (pathBounds q).2 0 (.Leaf id ks1 ds1 nx : Node K) := by
      simp only [Wf]
      exact ⟨hlt, hd2, hpw.sublist hd5, fun k hk1 => hbd k (hd5.subset hk1)⟩
    have hszle := fits_size_le q _ h5
    simp only [Node.Size, Node.keys] at hszle
    obtain ⟨root, r1, r2, r3, r4⟩ := updateTree_spec q (.Leaf id ks1 ds1 nx) 0 hwf h3
      (by simp only [Node.Size, Node.keys]; omega)
      (by
        intro hne
        cases q with
        | nil => exact absurd rfl hne
        | cons f q =>
          have := h5.1
          simp only [Node.Size, Node.keys] at this ⊢; omega)
    simp only [hk, if_true, hd1, Option.some_bind, r1, Option.map_some', decide_True]
    refine ⟨true, _, rfl, ⟨r2, r3, ?_⟩, rfl, by simp, fun _ => ?_⟩
    · rw [chainOk_iff]
      apply reshape_chain _ _ r4
      simp only [leaves, List.append_assoc, List.singleton_append]
      exact chain_replace_leaf t h.2.2 id ks ks1 ds ds1 nx q h2
    · simp only [toList]
      rw [reshape_entries r4, ← toList, toList_at t id ks ds nx q h2]
      simp only [entriesOf_append, leaves, entriesOf_cons, entriesOf_nil, LeafRec.entries,
        List.append_nil, List.filter_append, hd4]
      rw [filter_ne_self key (entriesOf (pathLeft q)), filter_ne_self key (entriesOf (pathRight q))]
      · intro e he
        obtain ⟨l, hl, hkl⟩ := mem_entriesOf he
        exact ne_of_gt (path_keys_gt q 0 h3 l hl _ hkl key h7)
      · intro e he
        obtain ⟨l, hl, hkl⟩ := mem_entriesOf he
        exact ne_of_lt (path_keys_lt q 0 h3 l hl _ hkl key h6)
  · simp only [hk, if_false, decide_False]
    exact ⟨false, t, rfl, h, rfl, fun _ => rfl, by simp⟩

theorem bp_rename_spec (t : Tree K) (h : Inv t) (kFrom kTo : K) :
    ∃ b t1, Rename t kFrom kTo = some (b, t1) ∧ Inv t1 ∧
      (Exists t kFrom = some false → b = false ∧ t1 = t) ∧
      (kFrom ≠ kTo → Exists t kTo = some true → b = false ∧ t1 = t) ∧
      (kFrom = kTo → Exists t kFrom = some true → b = true ∧ t1 = t) ∧
      (kFrom ≠ kTo → Exists t kFrom = some true → Exists t kTo = some false →
        b = true ∧ ∃ v, lookup kFrom (toList t.root) = some v ∧
          toList t1.root =
            (ins kTo v (toList t.root)).filter fun e => decide (e.1 ≠ kFrom)) := by
  obtain ⟨id, ks, ds, nx, q, h1, h2, h3, h4, h5, h6, h7, h8⟩ := getLeaf_root t h kFrom
  have hex : Exists t kFrom = some (decide (kFrom ∈ ks)) := by simp [Exists, h1]
  simp only [Rename, h1]
  by_cases hk : kFrom ∈ ks
  · simp only [hk, if_true, decide_True] at hex ⊢
    by_cases hft : kFrom = kTo
    · simp only [hft, if_true]
      exact ⟨true, t, rfl, h, by simp [← hft, hex], by simp, by simp, by simp⟩
    · simp only [Wf] at h4
      obtain ⟨v, hv1, hv2⟩ := leaf_getValue kFrom ks ds h4.2.1 hk
      simp only [hft, if_false, hv1, Option.some_bind]
      obtain ⟨b, t1, s1, s2, s3, s4⟩ := bp_set_spec t h kTo v
      rw [s1]
      cases b with
      | false =>
        obtain ⟨s5, s6⟩ := s3 rfl
        subst s5
        refine ⟨false, t1, rfl, h, by simp [hex], by simp, by simp [hft], ?_⟩
        intro _ _ h9
        exact absurd s6 ((not_mem_keys_iff _ h kTo).mp h9)
      | true =>
        obtain ⟨s5, s6⟩ := s4 rfl
        obtain ⟨b1, t2, d1, d2, d3, d4, d5⟩ := bp_delete_spec t1 s2 kFrom
        have hb1 : b1 = true := by
          have : Exists t1 kFrom = some true := by
            rw [mem_keys_iff t1 s2, s6, keys_ins]
            exact Or.inr ((mem_keys_iff t h kFrom).mp hex)
          rw [this] at d3
          exact (Option.some.inj d3).symm
        subst hb1
        simp only [Option.some_bind, if_true, d1, Option.map_some']
        refine ⟨true, t2, rfl, d2, by simp [hex], ?_, by simp [hft], ?_⟩
        · intro _ h9
          exact absurd ((mem_keys_iff t h kTo).mp h9) s5
        · intro _ _ _
          refine ⟨rfl, v, ?_, ?_⟩
          · rw [h8]; exact hv2
          · rw [d5 rfl, s6]
  · simp only [hk, if_false, decide_False] at hex ⊢
    refine ⟨false, t, rfl, h, by simp, ?_, ?_, ?_⟩ <;> simp [hex]

theorem bp_inv_init : Inv (init : Tree K) := by
  refine ⟨⟨0, ?_⟩, ?_, ?_⟩
  · simp [init, Wf, ltOpt]
  · simp [init, rootSizeOk, Node.Size, Node.keys, Node.IsLeaf]
  · simp [ChainOk, init, leaves, LinkedTo]

theorem bp_reachable_inv {t : Tree K} (h : Reachable t) : Inv t := by
  induction h with
  | init => exact bp_inv_init
  | @set t t1 key value b _ hs ih =>
    obtain ⟨b1, root, h1, h2, -⟩ := bp_set_spec t ih key value
    rw [h1] at hs; cases hs; exact h2
  | @update t t1 key value b _ hs ih =>
    obtain ⟨b1, root, h1, h2, -⟩ := bp_update_spec t ih key value
    rw [h1] at hs; cases hs; exact h2
  | @delete t t1 key b _ hs ih =>
    obtain ⟨b1, root, h1, h2, -⟩ := bp_delete_spec t ih key
    rw [h1] at hs; cases hs; exact h2
  | @rename t t1 kFrom kTo b _ hs ih =>
    obtain ⟨b1, root, h1, h2, -⟩ := bp_rename_spec t ih kFrom kTo
    rw [h1] at hs; cases hs; exact h2

end

end BPlusTree

end s21

namespace s21

namespace BPlusTree

section
variable {K : Type} [LinearOrder K]

/-! ### The operations of the B+ tree seen from outside -/

theorem bp_set_absent (t : Tree K) (h : Inv t) (k : K) (v : Person)
    (habs : Exists t k = some false) :
    ∃ t1, Set t k v = some (true, t1) ∧ Exists t1 k = some true ∧ Get t1 k = some v := by
  obtain ⟨b, t1, h1, h2, h3, h4⟩ := bp_set_spec t h k v
  cases b with
  | false => exact absurd (h3 rfl).2 ((not_mem_keys_iff t h k).mp habs)
  | true =>
    obtain ⟨h5, h6⟩ := h4 rfl
    refine ⟨t1, h1, ?_, ?_⟩
    · rw [bp_exists_eq_lookup _ h2, h6, lookup_ins k h5]; simp
    · rw [bp_get_eq_lookup _ h2, h6, lookup_ins k h5]; simp

theorem bp_set_present (t : Tree K) (h : Inv t) (k : K) (v : Person)
    (hpres : Exists t k = some true) : Set t k v = some (false, t) := by
  obtain ⟨b, t1, h1, h2, h3, h4⟩ := bp_set_spec t h k v
  cases b with
  | false => rw [h1, (h3 rfl).1]
  | true => exact absurd ((mem_keys_iff t h k).mp hpres) (h4 rfl).1

theorem bp_set_frame (t : Tree K) (h : Inv t) (k : K) (v : Person) :
    ∃ b t1, Set t k v = some (b, t1) ∧
      ∀ k1, k1 ≠ k → Exists t1 k1 = Exists t k1 ∧ Get t1 k1 = Get t k1 := by
  obtain ⟨b, t1, h1, h2, h3, h4⟩ := bp_set_spec t h k v
  refine ⟨b, t1, h1, ?_⟩
  intro k1 hk1
  cases b with
  | false => rw [(h3 rfl).1]; exact ⟨rfl, rfl⟩
  | true =>
    obtain ⟨h5, h6⟩ := h4 rfl
    rw [bp_exists_eq_lookup _ h2, bp_get_eq_lookup _ h2, bp_exists_eq_lookup _ h, bp_get_eq_lookup _ h, h6,
      lookup_ins k1 h5]
    simp [hk1]

theorem bp_delete_api (t : Tree K) (h : Inv t) (k : K) :
    ∃ b t1, Delete t k = some (b, t1) ∧ Exists t k = some b ∧ Exists t1 k = some false ∧
      (b = false → t1 = t) ∧
      ∀ k1, k1 ≠ k → Exists t1 k1 = Exists t k1 ∧ Get t1 k1 = Get t k1 := by
  obtain ⟨b, t1, h1, h2, h3, h4, h5⟩ := bp_delete_spec t h k
  refine ⟨b, t1, h1, h3, ?_, h4, ?_⟩
  · cases b with
    | false => rw [h4 rfl]; exact h3
    | true =>
      rw [bp_exists_eq_lookup _ h2, h5 rfl, lookup_filter_ne]
      simp
  · intro k1 hk1
    cases b with
    | false => rw [h4 rfl]; exact ⟨rfl, rfl⟩
    | true =>
      rw [bp_exists_eq_lookup _ h2, bp_get_eq_lookup _ h2, bp_exists_eq_lookup _ h, bp_get_eq_lookup _ h,
        h5 rfl, lookup_filter_ne]
      simp [hk1]

theorem bp_update_api (t : Tree K) (h : Inv t) (k : K) (p : Person) :
    ∃ b t1, Update t k p = some (b, t1) ∧ Exists t k = some b ∧
      (b = true → ∃ old new, Get t k = some old ∧ Get t1 k = some new ∧
        Person.Merged old p new) ∧
      (b = false → t1 = t) := by
  obtain ⟨b, t1, h1, h2, h3, h4, h5⟩ := bp_update_spec t h k p
  refine ⟨b, t1, h1, h3, ?_, h4⟩
  intro hb
  obtain ⟨old, h6, h7, -⟩ := h5 hb
  refine ⟨old, old.assign p, ?_, ?_, ?_⟩
  · rw [bp_get_eq_lookup _ h, h6]; rfl
  · rw [bp_get_eq_lookup _ h2, h7]; rfl
  · simp [Person.Merged, Person.assign]

theorem bp_rename_fresh (t : Tree K) (h : Inv t) (kFrom kTo : K) (hne : kFrom ≠ kTo)
    (hfrom : Exists t kFrom = some true) (hto : Exists t kTo = some false) :
    ∃ t1, Rename t kFrom kTo = some (true, t1) ∧ Exists t1 kFrom = some false ∧
      Exists t1 kTo = some true ∧ Get t1 kTo = Get t kFrom := by
  obtain ⟨b, t1, h1, h2, -, -, -, h6⟩ := bp_rename_spec t h kFrom kTo
  obtain ⟨hb, v, hv, hl⟩ := h6 hne hfrom hto
  subst hb
  have hk := (not_mem_keys_iff t h kTo).mp hto
  refine ⟨t1, h1, ?_, ?_, ?_⟩
  · rw [bp_exists_eq_lookup _ h2, hl, lookup_filter_ne]; simp
  · rw [bp_exists_eq_lookup _ h2, hl, lookup_filter_ne, lookup_ins kTo hk]
    simp [Ne.symm hne]
  · rw [bp_get_eq_lookup _ h2, bp_get_eq_lookup _ h, hl, lookup_filter_ne, lookup_ins kTo hk, hv]
    simp [Ne.symm hne]

theorem find_api (t : Tree K) (h : Inv t) (p : Person) :
    ∃ ks, Keys t = some ks ∧ Find t p = some (ks.filter fun k =>
      match Get t k with
      | some r => decide (Person.Matches r p)
      | none => false) := by
  refine ⟨_, bp_keys_eq t h, ?_⟩
  rw [bp_find_eq t h]
  congr 1
  apply List.filter_congr
  intro k _
  rw [bp_get_eq_lookup t h]

end

end BPlusTree

end s21

namespace s21

/-! ## The sample stores are reachable -/

theorem HashTable.ht_sample_reachable : HashTable.Reachable HashTable.sampleHash HashTable.sample :=
  @HashTable.Reachable.set Nat _ HashTable.sampleHash (HashTable.init 4) HashTable.sample 1
    samplePerson 0 true (HashTable.Reachable.init 4 (by decide)) rfl

theorem RBTree.rb_sample_reachable : RBTree.Reachable RBTree.sample :=
  @RBTree.Reachable.set Nat _ .nil RBTree.sample 1 samplePerson true RBTree.Reachable.empty rfl

theorem BPlusTree.bp_sample_reachable : BPlusTree.Reachable BPlusTree.sample :=
  @BPlusTree.Reachable.set Nat _ BPlusTree.init BPlusTree.sample 1 samplePerson true
    BPlusTree.Reachable.init rfl

end s21

namespace s21

/-! ## The claims about `Set`, `Delete` and `Update` -/

section
variable (K : Type) [LinearOrder K]

/-- Claim C1: in each of the three backends and every reachable store, `Set(k, v)` on an
absent key `k` returns true, and afterwards `Exists(k)` is true and `Get(k)` is the record
`v` itself, its "-" fields included. -/
theorem set_absent_then_exists_get :
    (∀ (hash : K → Nat) (t : HashTable.Table K) (k : K) (v : Person) (lifetime : Int),
      HashTable.Reachable hash t → HashTable.Exists hash t k = some false →
      ∃ t1, HashTable.Set hash t k v lifetime = some (true, t1) ∧
        HashTable.Exists hash t1 k = some true ∧ HashTable.Get hash t1 k = some v) ∧
    (∀ (t : RBTree.Tree K) (k : K) (v : Person),
      RBTree.Reachable t → RBTree.Exists t k = false →
      ∃ t1, RBTree.Set t k v = some (true, t1) ∧ RBTree.Exists t1 k = true ∧
        RBTree.Get t1 k = v) ∧
    (∀ (t : BPlusTree.Tree K) (k : K) (v : Person),
      BPlusTree.Reachable t → BPlusTree.Exists t k = some false →
      ∃ t1, BPlusTree.Set t k v = some (true, t1) ∧ BPlusTree.Exists t1 k = some true ∧
        BPlusTree.Get t1 k = some v) := by
  refine ⟨?_, ?_, ?_⟩
  · intro hash t k v lifetime hr habs
    exact HashTable.ht_set_absent (HashTable.ht_reachable_inv hr) k v lifetime habs
  · intro t k v hr habs
    exact RBTree.rb_set_absent t (RBTree.rb_reachable_inv hr) k v habs
  · intro t k v hr habs
    exact BPlusTree.bp_set_absent t (BPlusTree.bp_reachable_inv hr) k v habs

/-- Claim C2: in each backend and every reachable store where `k` is present with record
`v1`, `Set(k, v2)` returns false, and afterwards `Get(k)` is still `v1` and `Keys()` and
`ShowAll()` are what they were. -/
theorem set_present_returns_false :
    (∀ (hash : K → Nat) (t : HashTable.Table K) (k : K) (v1 v2 : Person) (lifetime : Int),
      HashTable.Reachable hash t → HashTable.Exists hash t k = some true →
      HashTable.Get hash t k = some v1 →
      ∃ t1, HashTable.Set hash t k v2 lifetime = some (false, t1) ∧
        HashTable.Get hash t1 k = some v1 ∧ HashTable.Keys t1 = HashTable.Keys t ∧
        HashTable.ShowAll t1 = HashTable.ShowAll t) ∧
    (∀ (t : RBTree.Tree K) (k : K) (v1 v2 : Person),
      RBTree.Reachable t → RBTree.Exists t k = true → RBTree.Get t k = v1 →
      ∃ t1, RBTree.Set t k v2 = some (false, t1) ∧ RBTree.Get t1 k = v1 ∧
        RBTree.Keys t1 = RBTree.Keys t ∧ RBTree.ShowAll t1 = RBTree.ShowAll t) ∧
    (∀ (t : BPlusTree.Tree K) (k : K) (v1 v2 : Person),
      BPlusTree.Reachable t → BPlusTree.Exists t k = some true →
      BPlusTree.Get t k = some v1 →
      ∃ t1, BPlusTree.Set t k v2 = some (false, t1) ∧ BPlusTree.Get t1 k = some v1 ∧
        BPlusTree.Keys t1 = BPlusTree.Keys t ∧ BPlusTree.ShowAll t1 = BPlusTree.ShowAll t) := by
  refine ⟨?_, ?_, ?_⟩
  · intro hash t k v1 v2 lifetime _ hpres hget
    exact ⟨t, HashTable.ht_set_present k v2 lifetime hpres, hget, rfl, rfl⟩
  · intro t k v1 v2 hr hpres hget
    exact ⟨t, RBTree.rb_set_present t (RBTree.rb_reachable_inv hr) k v2 hpres, hget, rfl, rfl⟩
  · intro t k v1 v2 hr hpres hget
    exact ⟨t, BPlusTree.bp_set_present t (BPlusTree.bp_reachable_inv hr) k v2 hpres, hget, rfl,
      rfl⟩

/-- Claim C3: in each backend, every reachable store and every key `k`, `Delete(k)` returns
what `Exists(k)` was before the call (true iff the key was present); afterwards `Exists(k)`
is false; and when the key was absent `Keys()` and `ShowAll()` are what they were. -/
theorem delete_returns_exists :
    (∀ (hash : K → Nat) (t : HashTable.Table K) (k : K), HashTable.Reachable hash t →
      ∃ b t1, HashTable.Delete hash t k = some (b, t1) ∧ HashTable.Exists hash t k = some b ∧
        HashTable.Exists hash t1 k = some false ∧
        (b = false → HashTable.Keys t1 = HashTable.Keys t ∧
          HashTable.ShowAll t1 = HashTable.ShowAll t)) ∧
    (∀ (t : RBTree.Tree K) (k : K), RBTree.Reachable t →
      ∃ b t1, RBTree.Delete t k = some (b, t1) ∧ RBTree.Exists t k = b ∧
        RBTree.Exists t1 k = false ∧
        (b = false → RBTree.Keys t1 = RBTree.Keys t ∧ RBTree.ShowAll t1 = RBTree.ShowAll t)) ∧
    (∀ (t : BPlusTree.Tree K) (k : K), BPlusTree.Reachable t →
      ∃ b t1, BPlusTree.Delete t k = some (b, t1) ∧ BPlusTree.Exists t k = some b ∧
        BPlusTree.Exists t1 k = some false ∧
        (b = false → BPlusTree.Keys t1 = BPlusTree.Keys t ∧
          BPlusTree.ShowAll t1 = BPlusTree.ShowAll t)) := by
  refine ⟨?_, ?_, ?_⟩
  · intro hash t k hr
    obtain ⟨b, t1, h1, h2, h3, h4⟩ := HashTable.ht_delete_spec (HashTable.ht_reachable_inv hr) k
    exact ⟨b, t1, h1, h2, h3, fun hb => by rw [h4 hb]; exact ⟨rfl, rfl⟩⟩
  · intro t k hr
    obtain ⟨b, t1, h1, h2, h3, h4⟩ := RBTree.rb_delete_api t (RBTree.rb_reachable_inv hr) k
    exact ⟨b, t1, h1, h2.symm, h3, fun hb => by rw [h4 hb]; exact ⟨rfl, rfl⟩⟩
  · intro t k hr
    obtain ⟨b, t1, h1, h2, h3, h4, -⟩ :=
      BPlusTree.bp_delete_api t (BPlusTree.bp_reachable_inv hr) k
    exact ⟨b, t1, h1, h2, h3, fun hb => by rw [h4 hb]; exact ⟨rfl, rfl⟩⟩

/-- Claim C4: in each backend and every reachable store, `Update(k, p)` returns what
`Exists(k)` is (true iff the key is present); when the key is present with record `old`, the
record `Get(k)` returns afterwards has in each of the five fields the field of `p` unless
that is "-", and the field of `old` otherwise; when the key is absent `Keys()` and
`ShowAll()` are what they were. -/
theorem update_merges_fields :
    (∀ (hash : K → Nat) (t : HashTable.Table K) (k : K) (p : Person),
      HashTable.Reachable hash t →
      ∃ b t1, HashTable.Update hash t k p = some (b, t1) ∧ HashTable.Exists hash t k = some b ∧
        (b = true → ∃ old new, HashTable.Get hash t k = some old ∧
          HashTable.Get hash t1 k = some new ∧ Person.Merged old p new) ∧
        (b = false → HashTable.Keys t1 = HashTable.Keys t ∧
          HashTable.ShowAll t1 = HashTable.ShowAll t)) ∧
    (∀ (t : RBTree.Tree K) (k : K) (p : Person), RBTree.Reachable t →
      ∃ b t1, RBTree.Update t k p = (b, t1) ∧ RBTree.Exists t k = b ∧
        (b = true → Person.Merged (RBTree.Get t k) p (RBTree.Get t1 k)) ∧
        (b = false → RBTree.Keys t1 = RBTree.Keys t ∧ RBTree.ShowAll t1 = RBTree.ShowAll t)) ∧
    (∀ (t : BPlusTree.Tree K) (k : K) (p : Person), BPlusTree.Reachable t →
      ∃ b t1, BPlusTree.Update t k p = some (b, t1) ∧ BPlusTree.Exists t k = some b ∧
        (b = true → ∃ old new, BPlusTree.Get t k = some old ∧
          BPlusTree.Get t1 k = some new ∧ Person.Merged old p new) ∧
        (b = false → BPlusTree.Keys t1 = BPlusTree.Keys t ∧
          BPlusTree.ShowAll t1 = BPlusTree.ShowAll t)) := by
  refine ⟨?_, ?_, ?_⟩
  · intro hash t k p hr
    obtain ⟨b, t1, h1, h2, h3, h4⟩ :=
      HashTable.ht_update_spec (HashTable.ht_reachable_inv hr) k p
    exact ⟨b, t1, h1, h2, h3, fun hb => by rw [h4 hb]; exact ⟨rfl, rfl⟩⟩
  · intro t k p hr
    obtain ⟨b, t1, h1, h2, h3, h4⟩ := RBTree.rb_update_api t (RBTree.rb_reachable_inv hr) k p
    exact ⟨b, t1, h1, h2.symm, h3, fun hb => by rw [h4 hb]; exact ⟨rfl, rfl⟩⟩
  · intro t k p hr
    obtain ⟨b, t1, h1, h2, h3, h4⟩ :=
      BPlusTree.bp_update_api t (BPlusTree.bp_reachable_inv hr) k p
    exact ⟨b, t1, h1, h2, h3, fun hb => by rw [h4 hb]; exact ⟨rfl, rfl⟩⟩

end

end s21

namespace s21

/-! ## The claims about `Rename`, `Find` and the entries an operation leaves alone -/

/-- The comparisons of the keys used below. -/
theorem key_a_lt_b : ("a" : String) < "b" := by rw [String.lt_iff_toList_lt]; decide

theorem key_b_lt_c : ("b" : String) < "c" := by rw [String.lt_iff_toList_lt]; decide

theorem key_b_lt_d : ("b" : String) < "d" := by rw [String.lt_iff_toList_lt]; decide

theorem key_b_lt_e : ("b" : String) < "e" := by rw [String.lt_iff_toList_lt]; decide

theorem key_d_lt_e : ("d" : String) < "e" := by rw [String.lt_iff_toList_lt]; decide

/-- Claim C5, the red-black tree at a concrete input: after `Set("b", v)` with
`v.last_name = "-"`, `Set("a", _)` and `Set("d", w)`, the call `Rename("b", "e")` returns
true, but `Get("e")` afterwards is not the record `Get("b")` returned before: its
`last_name` is the one of `w`. -/
theorem rb_rename_alters_moved_record :
    ∃ t1 t2 t3 t4 : RBTree.Tree String,
      RBTree.Set .nil "b" ⟨"-", "b", "2", "y", "2"⟩ = some (true, t1) ∧
      RBTree.Set t1 "a" ⟨"A", "a", "1", "x", "1"⟩ = some (true, t2) ∧
      RBTree.Set t2 "d" ⟨"D", "d", "4", "w", "4"⟩ = some (true, t3) ∧
      RBTree.Exists t3 "b" = true ∧ RBTree.Exists t3 "e" = false ∧
      RBTree.Rename t3 "b" "e" = some (true, t4) ∧
      RBTree.Get t3 "b" = ⟨"-", "b", "2", "y", "2"⟩ ∧
      RBTree.Get t4 "e" = ⟨"D", "b", "2", "y", "2"⟩ ∧
      RBTree.Get t4 "e" ≠ RBTree.Get t3 "b" := by
  refine ⟨.node .kBlack .nil "b" ⟨"-", "b", "2", "y", "2"⟩ .nil,
    .node .kBlack (.node .kRed .nil "a" ⟨"A", "a", "1", "x", "1"⟩ .nil) "b"
      ⟨"-", "b", "2", "y", "2"⟩ .nil,
    .node .kBlack (.node .kRed .nil "a" ⟨"A", "a", "1", "x", "1"⟩ .nil) "b"
      ⟨"-", "b", "2", "y", "2"⟩ (.node .kRed .nil "d" ⟨"D", "d", "4", "w", "4"⟩ .nil),
    .node .kBlack (.node .kBlack .nil "a" ⟨"A", "a", "1", "x", "1"⟩ .nil) "d"
      ⟨"D", "d", "4", "w", "4"⟩ (.node .kBlack .nil "e" ⟨"D", "b", "2", "y", "2"⟩ .nil),
    ?_, ?_, ?_, ?_, ?_, ?_, ?_, ?_, ?_⟩
  · simp [RBTree.Set]
  · simp [RBTree.Set, RBTree.Insert, key_a_lt_b, RBTree.InsertionCheck, RBTree.zip,
      RBTree.Frame.fill, -String.lt_iff_toList_lt]
  · simp [RBTree.Set, RBTree.Insert, key_b_lt_d, not_lt_of_lt key_b_lt_d,
      RBTree.InsertionCheck, RBTree.zip, RBTree.Frame.fill, -String.lt_iff_toList_lt]
  · simp [RBTree.Exists, RBTree.GetNode, -String.lt_iff_toList_lt]
  · simp [RBTree.Exists, RBTree.GetNode, key_b_lt_e, not_lt_of_lt key_b_lt_e, key_d_lt_e,
      not_lt_of_lt key_d_lt_e, -String.lt_iff_toList_lt]
  · simp [RBTree.Rename, RBTree.Set, RBTree.Insert, RBTree.Delete, RBTree.GetNode,
      RBTree.DeleteNode, RBTree.leftmost, RBTree.Tree.size, Person.swap, Person.assign,
      RBTree.DeletionCheck, RBTree.zip, RBTree.Frame.fill, RBTree.InsertionCheck,
      RBTree.Recolor, key_b_lt_e, not_lt_of_lt key_b_lt_e, key_d_lt_e,
      not_lt_of_lt key_d_lt_e, -String.lt_iff_toList_lt]
  · simp [RBTree.Get, RBTree.GetNode, -String.lt_iff_toList_lt]
  · simp [RBTree.Get, RBTree.GetNode, key_d_lt_e, not_lt_of_lt key_d_lt_e,
      -String.lt_iff_toList_lt]
  · simp [RBTree.Get, RBTree.GetNode, key_d_lt_e, not_lt_of_lt key_d_lt_e,
      -String.lt_iff_toList_lt]

/-- Claim C10 at a concrete input: after `Set("b", _)`, `Set("a", _)` and `Set("c", v)` with
`v.last_name = "-"`, the call `Delete("b")` returns true and `Get("c")`, which returned `v`
before the call, returns a record with the `last_name` of the deleted entry. -/
theorem rb_delete_alters_other_record :
    ∃ t1 t2 t3 t4 : RBTree.Tree String,
      RBTree.Set .nil "b" ⟨"B", "b", "2", "y", "2"⟩ = some (true, t1) ∧
      RBTree.Set t1 "a" ⟨"A", "a", "1", "x", "1"⟩ = some (true, t2) ∧
      RBTree.Set t2 "c" ⟨"-", "c", "3", "z", "3"⟩ = some (true, t3) ∧
      RBTree.Delete t3 "b" = some (true, t4) ∧
      RBTree.Exists t3 "c" = true ∧ RBTree.Exists t4 "c" = true ∧
      RBTree.Get t3 "c" = ⟨"-", "c", "3", "z", "3"⟩ ∧
      RBTree.Get t4 "c" = ⟨"B", "c", "3", "z", "3"⟩ ∧
      RBTree.Get t4 "c" ≠ RBTree.Get t3 "c" := by
  refine ⟨.node .kBlack .nil "b" ⟨"B", "b", "2", "y", "2"⟩ .nil,
    .node .kBlack (.node .kRed .nil "a" ⟨"A", "a", "1", "x", "1"⟩ .nil) "b"
      ⟨"B", "b", "2", "y", "2"⟩ .nil,
    .node .kBlack (.node .kRed .nil "a" ⟨"A", "a", "1", "x", "1"⟩ .nil) "b"
      ⟨"B", "b", "2", "y", "2"⟩ (.node .kRed .nil "c" ⟨"-", "c", "3", "z", "3"⟩ .nil),
    .node .kBlack (.node .kRed .nil "a" ⟨"A", "a", "1", "x", "1"⟩ .nil) "c"
      ⟨"B", "c", "3", "z", "3"⟩ .nil,
    ?_, ?_, ?_, ?_, ?_, ?_, ?_, ?_, ?_⟩
  · simp [RBTree.Set]
  · simp [RBTree.Set, RBTree.Insert, key_a_lt_b, RBTree.InsertionCheck, RBTree.zip,
      RBTree.Frame.fill, -String.lt_iff_toList_lt]
  · simp [RBTree.Set, RBTree.Insert, key_b_lt_c, not_lt_of_lt key_b_lt_c,
      RBTree.InsertionCheck, RBTree.zip, RBTree.Frame.fill, -String.lt_iff_toList_lt]
  · simp [RBTree.Delete, RBTree.GetNode, RBTree.DeleteNode, RBTree.leftmost, RBTree.Tree.size,
      Person.swap, Person.assign, RBTree.DeletionCheck, RBTree.zip, RBTree.Frame.fill,
      -String.lt_iff_toList_lt]
  · simp [RBTree.Exists, RBTree.GetNode, key_b_lt_c, not_lt_of_lt key_b_lt_c,
      -String.lt_iff_toList_lt]
  · simp [RBTree.Exists, RBTree.GetNode, -String.lt_iff_toList_lt]
  · simp [RBTree.Get, RBTree.GetNode, key_b_lt_c, not_lt_of_lt key_b_lt_c,
      -String.lt_iff_toList_lt]
  · simp [RBTree.Get, RBTree.GetNode, -String.lt_iff_toList_lt]
  · simp [RBTree.Get, RBTree.GetNode, key_b_lt_c, not_lt_of_lt key_b_lt_c,
      -String.lt_iff_toList_lt]

end s21

namespace s21

section
variable (K : Type) [LinearOrder K]

/-- Claim C6: in each of the three backends and every reachable store, `Rename(from, to)`
returns false and leaves `Keys()` and `ShowAll()` as they were when `from` is absent
(whatever `to` is, `from` itself included) and when `to` is another key that is present; it
returns true and leaves `Keys()` and `ShowAll()` as they were when `to` is `from` and the
key is present. The three backends agree in each of these cases. -/
theorem rename_refused_or_same_key :
    (∀ (hash : K → Nat) (t : HashTable.Table K) (kFrom kTo : K) (ttl : Int),
      HashTable.Reachable hash t →
      (HashTable.Exists hash t kFrom = some false →
        ∃ t1, HashTable.Rename hash t kFrom kTo ttl = some (false, t1) ∧
          HashTable.Keys t1 = HashTable.Keys t ∧ HashTable.ShowAll t1 = HashTable.ShowAll t) ∧
      (kFrom ≠ kTo → HashTable.Exists hash t kTo = some true →
        ∃ t1, HashTable.Rename hash t kFrom kTo ttl = some (false, t1) ∧
          HashTable.Keys t1 = HashTable.Keys t ∧ HashTable.ShowAll t1 = HashTable.ShowAll t) ∧
      (kFrom = kTo → HashTable.Exists hash t kFrom = some true →
        ∃ t1, HashTable.Rename hash t kFrom kTo ttl = some (true, t1) ∧
          HashTable.Keys t1 = HashTable.Keys t ∧ HashTable.ShowAll t1 = HashTable.ShowAll t)) ∧
    (∀ (t : RBTree.Tree K) (kFrom kTo : K), RBTree.Reachable t →
      (RBTree.Exists t kFrom = false →
        ∃ t1, RBTree.Rename t kFrom kTo = some (false, t1) ∧
          RBTree.Keys t1 = RBTree.Keys t ∧ RBTree.ShowAll t1 = RBTree.ShowAll t) ∧
      (kFrom ≠ kTo → RBTree.Exists t kTo = true →
        ∃ t1, RBTree.Rename t kFrom kTo = some (false, t1) ∧
          RBTree.Keys t1 = RBTree.Keys t ∧ RBTree.ShowAll t1 = RBTree.ShowAll t) ∧
      (kFrom = kTo → RBTree.Exists t kFrom = true →
        ∃ t1, RBTree.Rename t kFrom kTo = some (true, t1) ∧
          RBTree.Keys t1 = RBTree.Keys t ∧ RBTree.ShowAll t1 = RBTree.ShowAll t)) ∧
    (∀ (t : BPlusTree.Tree K) (kFrom kTo : K), BPlusTree.Reachable t →
      (BPlusTree.Exists t kFrom = some false →
        ∃ t1, BPlusTree.Rename t kFrom kTo = some (false, t1) ∧
          BPlusTree.Keys t1 = BPlusTree.Keys t ∧ BPlusTree.ShowAll t1 = BPlusTree.ShowAll t) ∧
      (kFrom ≠ kTo → BPlusTree.Exists t kTo = some true →
        ∃ t1, BPlusTree.Rename t kFrom kTo = some (false, t1) ∧
          BPlusTree.Keys t1 = BPlusTree.Keys t ∧ BPlusTree.ShowAll t1 = BPlusTree.ShowAll t) ∧
      (kFrom = kTo → BPlusTree.Exists t kFrom = some true →
        ∃ t1, BPlusTree.Rename t kFrom kTo = some (true, t1) ∧
          BPlusTree.Keys t1 = BPlusTree.Keys t ∧
          BPlusTree.ShowAll t1 = BPlusTree.ShowAll t)) := by
  refine ⟨?_, ?_, ?_⟩
  · intro hash t kFrom kTo ttl hr
    have hi := HashTable.ht_reachable_inv hr
    refine ⟨fun h => ⟨t, HashTable.rename_absent hi kFrom kTo ttl h, rfl, rfl⟩,
      fun hne h => ⟨t, HashTable.rename_occupied hi kFrom kTo ttl hne h, rfl, rfl⟩, ?_⟩
    intro heq h
    subst heq
    exact ⟨t, HashTable.rename_same kFrom ttl h, rfl, rfl⟩
  · intro t kFrom kTo hr
    obtain ⟨b, t1, h1, -, h3, h4, h5, -⟩ :=
      RBTree.rb_rename_spec t (RBTree.rb_reachable_inv hr) kFrom kTo
    refine ⟨fun h => ?_, fun hne h => ?_, fun heq h => ?_⟩
    · obtain ⟨hb, ht⟩ := h3 h
      subst hb; subst ht
      exact ⟨t1, h1, rfl, rfl⟩
    · obtain ⟨hb, ht⟩ := h4 hne h
      subst hb; subst ht
      exact ⟨t1, h1, rfl, rfl⟩
    · obtain ⟨hb, ht⟩ := h5 heq h
      subst hb; subst ht
      exact ⟨t1, h1, rfl, rfl⟩
  · intro t kFrom kTo hr
    obtain ⟨b, t1, h1, -, h3, h4, h5, -⟩ :=
      BPlusTree.bp_rename_spec t (BPlusTree.bp_reachable_inv hr) kFrom kTo
    refine ⟨fun h => ?_, fun hne h => ?_, fun heq h => ?_⟩
    · obtain ⟨hb, ht⟩ := h3 h
      subst hb; subst ht
      exact ⟨t1, h1, rfl, rfl⟩
    · obtain ⟨hb, ht⟩ := h4 hne h
      subst hb; subst ht
      exact ⟨t1, h1, rfl, rfl⟩
    · obtain ⟨hb, ht⟩ := h5 heq h
      subst hb; subst ht
      exact ⟨t1, h1, rfl, rfl⟩

/-- Claim C7: in each backend and every reachable store, `Find(p)` is the list `Keys()`
with exactly those keys kept, in the order of `Keys()`, whose stored record `r` (what
`Get` returns) has in each of the five fields `p.field = "-"` or `r.field = p.field`. -/
theorem find_is_keys_filtered :
    (∀ (hash : K → Nat) (t : HashTable.Table K) (p : Person), HashTable.Reachable hash t →
      HashTable.Find t p = (HashTable.Keys t).filter fun k =>
        match HashTable.Get hash t k with
        | some r => decide (Person.Matches r p)
        | none => false) ∧
    (∀ (t : RBTree.Tree K) (p : Person), RBTree.Reachable t →
      ∃ ks, RBTree.Keys t = some ks ∧
        RBTree.Find t p = some (ks.filter fun k => decide (Person.Matches (RBTree.Get t k) p))) ∧
    (∀ (t : BPlusTree.Tree K) (p : Person), BPlusTree.Reachable t →
      ∃ ks, BPlusTree.Keys t = some ks ∧
        BPlusTree.Find t p = some (ks.filter fun k =>
          match BPlusTree.Get t k with
          | some r => decide (Person.Matches r p)
          | none => false)) := by
  refine ⟨?_, ?_, ?_⟩
  · intro hash t p hr
    exact HashTable.find_spec (HashTable.ht_reachable_inv hr) p
  · intro t p hr
    exact ⟨_, RBTree.rb_keys_eq t, RBTree.rb_find_eq t (RBTree.rb_reachable_inv hr) p⟩
  · intro t p hr
    exact BPlusTree.find_api t (BPlusTree.bp_reachable_inv hr) p

/-- Claim C8: in the red-black tree and the B+ tree, in every reachable store, a call
`Set(k, v)` returns (true or false) and leaves `Exists(k1)` and `Get(k1)` as they were for
every key `k1` other than `k`. -/
theorem set_leaves_other_keys :
    (∀ (t : RBTree.Tree K) (k : K) (v : Person), RBTree.Reachable t →
      ∃ b t1, RBTree.Set t k v = some (b, t1) ∧
        ∀ k1, k1 ≠ k → RBTree.Exists t1 k1 = RBTree.Exists t k1 ∧
          RBTree.Get t1 k1 = RBTree.Get t k1) ∧
    (∀ (t : BPlusTree.Tree K) (k : K) (v : Person), BPlusTree.Reachable t →
      ∃ b t1, BPlusTree.Set t k v = some (b, t1) ∧
        ∀ k1, k1 ≠ k → BPlusTree.Exists t1 k1 = BPlusTree.Exists t k1 ∧
          BPlusTree.Get t1 k1 = BPlusTree.Get t k1) := by
  refine ⟨?_, ?_⟩
  · intro t k v hr
    exact RBTree.rb_set_frame t (RBTree.rb_reachable_inv hr) k v
  · intro t k v hr
    exact BPlusTree.bp_set_frame t (BPlusTree.bp_reachable_inv hr) k v

/-- Claim C9: in the B+ tree, in every reachable store, a call `Delete(k)` returns and
leaves `Exists(k1)` and `Get(k1)` as they were for every key `k1` other than `k`. -/
theorem bplus_delete_leaves_other_keys (t : BPlusTree.Tree K) (k : K)
    (hr : BPlusTree.Reachable t) :
    ∃ b t1, BPlusTree.Delete t k = some (b, t1) ∧
      ∀ k1, k1 ≠ k → BPlusTree.Exists t1 k1 = BPlusTree.Exists t k1 ∧
        BPlusTree.Get t1 k1 = BPlusTree.Get t k1 := by
  obtain ⟨b, t1, h1, -, -, -, h5⟩ := BPlusTree.bp_delete_api t (BPlusTree.bp_reachable_inv hr) k
  exact ⟨b, t1, h1, h5⟩

end

end s21

namespace s21

/-! ## The theorems at the sample stores -/

/-- The theorem of C1 at the sample stores: `Set(2, samplePatch)` on the stores that hold key 1. -/
theorem set_absent_then_exists_get_witness :
    (∃ t1, HashTable.Set HashTable.sampleHash HashTable.sample 2 samplePatch 0 =
        some (true, t1) ∧
      HashTable.Exists HashTable.sampleHash t1 2 = some true ∧
      HashTable.Get HashTable.sampleHash t1 2 = some samplePatch) ∧
    (∃ t1, RBTree.Set RBTree.sample 2 samplePatch = some (true, t1) ∧
      RBTree.Exists t1 2 = true ∧ RBTree.Get t1 2 = samplePatch) ∧
    (∃ t1, BPlusTree.Set BPlusTree.sample 2 samplePatch = some (true, t1) ∧
      BPlusTree.Exists t1 2 = some true ∧ BPlusTree.Get t1 2 = some samplePatch) :=
  ⟨(set_absent_then_exists_get Nat).1 HashTable.sampleHash HashTable.sample 2 samplePatch 0
      HashTable.ht_sample_reachable rfl,
    (set_absent_then_exists_get Nat).2.1 RBTree.sample 2 samplePatch RBTree.rb_sample_reachable rfl,
    (set_absent_then_exists_get Nat).2.2 BPlusTree.sample 2 samplePatch
      BPlusTree.bp_sample_reachable rfl⟩

/-- The theorem of C2 at the sample stores: `Set(1, samplePatch)` on the stores that hold key 1. -/
theorem set_present_returns_false_witness :
    (∃ t1, HashTable.Set HashTable.sampleHash HashTable.sample 1 samplePatch 0 =
        some (false, t1) ∧
      HashTable.Get HashTable.sampleHash t1 1 = some samplePerson ∧
      HashTable.Keys t1 = HashTable.Keys HashTable.sample ∧
      HashTable.ShowAll t1 = HashTable.ShowAll HashTable.sample) ∧
    (∃ t1, RBTree.Set RBTree.sample 1 samplePatch = some (false, t1) ∧
      RBTree.Get t1 1 = samplePerson ∧ RBTree.Keys t1 = RBTree.Keys RBTree.sample ∧
      RBTree.ShowAll t1 = RBTree.ShowAll RBTree.sample) ∧
    (∃ t1, BPlusTree.Set BPlusTree.sample 1 samplePatch = some (false, t1) ∧
      BPlusTree.Get t1 1 = some samplePerson ∧
      BPlusTree.Keys t1 = BPlusTree.Keys BPlusTree.sample ∧
      BPlusTree.ShowAll t1 = BPlusTree.ShowAll BPlusTree.sample) :=
  ⟨(set_present_returns_false Nat).1 HashTable.sampleHash HashTable.sample 1 samplePerson
      samplePatch 0 HashTable.ht_sample_reachable rfl rfl,
    (set_present_returns_false Nat).2.1 RBTree.sample 1 samplePerson samplePatch
      RBTree.rb_sample_reachable rfl rfl,
    (set_present_returns_false Nat).2.2 BPlusTree.sample 1 samplePerson samplePatch
      BPlusTree.bp_sample_reachable rfl rfl⟩

/-- The theorem of C3 at the sample stores: `Delete(1)` on the stores that hold key 1. -/
theorem delete_returns_exists_witness :
    (∃ b t1, HashTable.Delete HashTable.sampleHash HashTable.sample 1 = some (b, t1) ∧
      HashTable.Exists HashTable.sampleHash HashTable.sample 1 = some b ∧
      HashTable.Exists HashTable.sampleHash t1 1 = some false ∧
      (b = false → HashTable.Keys t1 = HashTable.Keys HashTable.sample ∧
        HashTable.ShowAll t1 = HashTable.ShowAll HashTable.sample)) ∧
    (∃ b t1, RBTree.Delete RBTree.sample 1 = some (b, t1) ∧ RBTree.Exists RBTree.sample 1 = b ∧
      RBTree.Exists t1 1 = false ∧
      (b = false → RBTree.Keys t1 = RBTree.Keys RBTree.sample ∧
        RBTree.ShowAll t1 = RBTree.ShowAll RBTree.sample)) ∧
    (∃ b t1, BPlusTree.Delete BPlusTree.sample 1 = some (b, t1) ∧
      BPlusTree.Exists BPlusTree.sample 1 = some b ∧ BPlusTree.Exists t1 1 = some false ∧
      (b = false → BPlusTree.Keys t1 = BPlusTree.Keys BPlusTree.sample ∧
        BPlusTree.ShowAll t1 = BPlusTree.ShowAll BPlusTree.sample)) :=
  ⟨(delete_returns_exists Nat).1 HashTable.sampleHash HashTable.sample 1
      HashTable.ht_sample_reachable,
    (delete_returns_exists Nat).2.1 RBTree.sample 1 RBTree.rb_sample_reachable,
    (delete_returns_exists Nat).2.2 BPlusTree.sample 1 BPlusTree.bp_sample_reachable⟩

/-- The theorem of C4 at the sample stores: `Update(1, samplePatch)` on the stores that hold key 1. -/
theorem update_merges_fields_witness :
    (∃ b t1, HashTable.Update HashTable.sampleHash HashTable.sample 1 samplePatch =
        some (b, t1) ∧
      HashTable.Exists HashTable.sampleHash HashTable.sample 1 = some b ∧
      (b = true → ∃ old new, HashTable.Get HashTable.sampleHash HashTable.sample 1 = some old ∧
        HashTable.Get HashTable.sampleHash t1 1 = some new ∧
        Person.Merged old samplePatch new) ∧
      (b = false → HashTable.Keys t1 = HashTable.Keys HashTable.sample ∧
        HashTable.ShowAll t1 = HashTable.ShowAll HashTable.sample)) ∧
    (∃ b t1, RBTree.Update RBTree.sample 1 samplePatch = (b, t1) ∧
      RBTree.Exists RBTree.sample 1 = b ∧
      (b = true → Person.Merged (RBTree.Get RBTree.sample 1) samplePatch (RBTree.Get t1 1)) ∧
      (b = false → RBTree.Keys t1 = RBTree.Keys RBTree.sample ∧
        RBTree.ShowAll t1 = RBTree.ShowAll RBTree.sample)) ∧
    (∃ b t1, BPlusTree.Update BPlusTree.sample 1 samplePatch = some (b, t1) ∧
      BPlusTree.Exists BPlusTree.sample 1 = some b ∧
      (b = true → ∃ old new, BPlusTree.Get BPlusTree.sample 1 = some old ∧
        BPlusTree.Get t1 1 = some new ∧ Person.Merged old samplePatch new) ∧
      (b = false → BPlusTree.Keys t1 = BPlusTree.Keys BPlusTree.sample ∧
        BPlusTree.ShowAll t1 = BPlusTree.ShowAll BPlusTree.sample)) :=
  ⟨(update_merges_fields Nat).1 HashTable.sampleHash HashTable.sample 1 samplePatch
      HashTable.ht_sample_reachable,
    (update_merges_fields Nat).2.1 RBTree.sample 1 samplePatch RBTree.rb_sample_reachable,
    (update_merges_fields Nat).2.2 BPlusTree.sample 1 samplePatch BPlusTree.bp_sample_reachable⟩

/-- The theorem of C6 at the sample stores: `Rename(2, 3)` with key 2 absent, `Rename(1, 1)` with
key 1 present. -/
theorem rename_refused_or_same_key_witness :
    ((∃ t1, HashTable.Rename HashTable.sampleHash HashTable.sample 2 3 0 = some (false, t1) ∧
        HashTable.Keys t1 = HashTable.Keys HashTable.sample ∧
        HashTable.ShowAll t1 = HashTable.ShowAll HashTable.sample) ∧
      ∃ t1, HashTable.Rename HashTable.sampleHash HashTable.sample 1 1 0 = some (true, t1) ∧
        HashTable.Keys t1 = HashTable.Keys HashTable.sample ∧
        HashTable.ShowAll t1 = HashTable.ShowAll HashTable.sample) ∧
    ((∃ t1, RBTree.Rename RBTree.sample 2 3 = some (false, t1) ∧
        RBTree.Keys t1 = RBTree.Keys RBTree.sample ∧
        RBTree.ShowAll t1 = RBTree.ShowAll RBTree.sample) ∧
      ∃ t1, RBTree.Rename RBTree.sample 1 1 = some (true, t1) ∧
        RBTree.Keys t1 = RBTree.Keys RBTree.sample ∧
        RBTree.ShowAll t1 = RBTree.ShowAll RBTree.sample) ∧
    ((∃ t1, BPlusTree.Rename BPlusTree.sample 2 3 = some (false, t1) ∧
        BPlusTree.Keys t1 = BPlusTree.Keys BPlusTree.sample ∧
        BPlusTree.ShowAll t1 = BPlusTree.ShowAll BPlusTree.sample) ∧
      ∃ t1, BPlusTree.Rename BPlusTree.sample 1 1 = some (true, t1) ∧
        BPlusTree.Keys t1 = BPlusTree.Keys BPlusTree.sample ∧
        BPlusTree.ShowAll t1 = BPlusTree.ShowAll BPlusTree.sample) :=
  ⟨⟨((rename_refused_or_same_key Nat).1 HashTable.sampleHash HashTable.sample 2 3 0
        HashTable.ht_sample_reachable).1 rfl,
      ((rename_refused_or_same_key Nat).1 HashTable.sampleHash HashTable.sample 1 1 0
        HashTable.ht_sample_reachable).2.2 rfl rfl⟩,
    ⟨((rename_refused_or_same_key Nat).2.1 RBTree.sample 2 3 RBTree.rb_sample_reachable).1 rfl,
      ((rename_refused_or_same_key Nat).2.1 RBTree.sample 1 1 RBTree.rb_sample_reachable).2.2
        rfl rfl⟩,
    ⟨((rename_refused_or_same_key Nat).2.2 BPlusTree.sample 2 3
        BPlusTree.bp_sample_reachable).1 rfl,
      ((rename_refused_or_same_key Nat).2.2 BPlusTree.sample 1 1
        BPlusTree.bp_sample_reachable).2.2 rfl rfl⟩⟩

/-- The theorem of C8 at the sample stores: `Set(2, samplePatch)` on the trees that hold key 1. -/
theorem set_leaves_other_keys_witness :
    (∃ b t1, RBTree.Set RBTree.sample 2 samplePatch = some (b, t1) ∧
      ∀ k1, k1 ≠ 2 → RBTree.Exists t1 k1 = RBTree.Exists RBTree.sample k1 ∧
        RBTree.Get t1 k1 = RBTree.Get RBTree.sample k1) ∧
    (∃ b t1, BPlusTree.Set BPlusTree.sample 2 samplePatch = some (b, t1) ∧
      ∀ k1, k1 ≠ 2 → BPlusTree.Exists t1 k1 = BPlusTree.Exists BPlusTree.sample k1 ∧
        BPlusTree.Get t1 k1 = BPlusTree.Get BPlusTree.sample k1) :=
  ⟨(set_leaves_other_keys Nat).1 RBTree.sample 2 samplePatch RBTree.rb_sample_reachable,
    (set_leaves_other_keys Nat).2 BPlusTree.sample 2 samplePatch BPlusTree.bp_sample_reachable⟩

end s21

namespace s21

namespace RBTree

section
variable {K : Type} [LinearOrder K]

/-! ### The red-black shape in the words of the structural properties -/

theorem noRedRed_of_bal : ∀ t : Tree K, Bal t → NoRedRed t
  | .nil, _ => trivial
  | .node _ l _ _ r, h => by
    simp only [Bal] at h
    exact ⟨h.2.2.2, noRedRed_of_bal l h.1, noRedRed_of_bal r h.2.1⟩

theorem blackCounts_of_bal : ∀ t : Tree K, Bal t → ∀ a ∈ blackCounts t, a = bh t
  | .nil, _, a, ha => by simpa [blackCounts, bh] using ha
  | .node c l _ _ r, h, a, ha => by
    simp only [Bal] at h
    simp only [blackCounts, List.mem_map, List.mem_append] at ha
    obtain ⟨x, hx, rfl⟩ := ha
    simp only [bh]
    rcases hx with hx | hx
    · rw [blackCounts_of_bal l h.1 x hx]
    · rw [blackCounts_of_bal r h.2.1 x hx, h.2.2.1]

theorem bal_subtrees : ∀ t : Tree K, Bal t → ∀ s ∈ subtrees t, Bal s
  | .nil, _, s, hs => by
    simp only [subtrees, List.mem_singleton] at hs
    subst hs; trivial
  | .node c l k v r, h, s, hs => by
    simp only [subtrees, List.mem_cons, List.mem_append] at hs
    rcases hs with rfl | hs | hs
    · exact h
    · simp only [Bal] at h
      exact bal_subtrees l h.1 s hs
    · simp only [Bal] at h
      exact bal_subtrees r h.2.1 s hs

theorem rb_keys_pairwise (t : Tree K) (h : Inv t) :
    ∃ ks, Keys t = some ks ∧ ks.Pairwise (· < ·) :=
  ⟨_, rb_keys_eq t, h.2.2⟩

theorem rb_keys_showAll (t : Tree K) (h : Inv t) :
    ∃ ks vs, Keys t = some ks ∧ ShowAll t = some vs ∧ ks.length = vs.length ∧
      ∀ (i : Nat) (k : K) (v : Person), ks[i]? = some k → vs[i]? = some v → Get t k = v := by
  refine ⟨_, _, rb_keys_eq t, rb_showAll_eq t, by simp, ?_⟩
  intro i k v hk hv
  rw [List.getElem?_map] at hk hv
  cases he : (toList t)[i]? with
  | none => simp [he] at hk
  | some e =>
    simp only [he, Option.map_some', Option.some.injEq] at hk hv
    subst hk; subst hv
    exact rb_get_of_mem t h e (List.getElem?_mem he)

theorem rb_exists_iff_mem_keys (t : Tree K) (h : Inv t) :
    ∃ ks, Keys t = some ks ∧ ks.Nodup ∧ ∀ k, Exists t k = true ↔ k ∈ ks := by
  refine ⟨_, rb_keys_eq t, ?_, fun k => mem_keys_iff_exists t h k⟩
  exact h.2.2.imp fun hlt => ne_of_lt hlt

end

end RBTree

end s21

namespace s21

namespace HashTable

section
variable {K : Type} [LinearOrder K]

/-! ### The full scan of the hash table and the point lookup -/

theorem mem_flatten_bucket {t : Table K} {n : Node K} (hn : n ∈ t.data.flatten) :
    ∃ (i : Nat) (b : List (Node K)), t.data[i]? = some b ∧ n ∈ b := by
  obtain ⟨b, hb, hnb⟩ := List.mem_flatten.mp hn
  obtain ⟨i, hi, hib⟩ := List.getElem_of_mem hb
  exact ⟨i, b, by rw [List.getElem?_eq_getElem hi, hib], hnb⟩

theorem ht_keys_showAll {hash : K → Nat} {t : Table K} (h : Inv hash t) :
    (Keys t).length = (ShowAll t).length ∧
      ∀ (i : Nat) (k : K) (v : Person), (Keys t)[i]? = some k → (ShowAll t)[i]? = some v →
        Get hash t k = some v := by
  refine ⟨by simp only [Keys, ShowAll, List.length_map], ?_⟩
  intro i k v hk hv
  simp only [Keys, ShowAll, List.getElem?_map] at hk hv
  cases he : t.data.flatten[i]? with
  | none => simp [he] at hk
  | some n =>
    simp only [he, Option.map_some', Option.some.injEq] at hk hv
    subst hk; subst hv
    obtain ⟨j, b, hb, hnb⟩ := mem_flatten_bucket (List.getElem?_mem he)
    exact ht_get_of_mem h j b hb n hnb

theorem nodup_flatten_keys (G : K → Nat) : ∀ (L : List (List (Node K))) (off : Nat),
    (∀ (i : Nat) (b : List (Node K)), L[i]? = some b →
      (∀ n ∈ b, G n.key = off + i) ∧ (b.map fun n => n.key).Nodup) →
    (L.flatten.map fun n => n.key).Nodup
  | [], _, _ => by simp
  | b :: L, off, h => by
    have h0 := h 0 b (by simp)
    have ih := nodup_flatten_keys G L (off + 1) fun i b1 hb1 => by
      have := h (i + 1) b1 (by simpa using hb1)
      refine ⟨fun n hn => ?_, this.2⟩
      rw [this.1 n hn]; omega
    rw [List.flatten_cons, List.map_append, List.nodup_append]
    refine ⟨h0.2, ih, ?_⟩
    intro k hk1 hk2
    obtain ⟨n1, hn1, rfl⟩ := List.mem_map.mp hk1
    obtain ⟨n2, hn2, hk⟩ := List.mem_map.mp hk2
    obtain ⟨b2, hb2, hnb2⟩ := List.mem_flatten.mp hn2
    obtain ⟨j, hj, hjb⟩ := List.getElem_of_mem hb2
    have h2 := (h (j + 1) b2 (by simp [List.getElem?_eq_getElem hj, hjb])).1 n2 hnb2
    have h1 := h0.1 n1 hn1
    rw [hk] at h2
    omega

theorem ht_exists_iff_mem_keys {hash : K → Nat} {t : Table K} (h : Inv hash t) :
    (Keys t).Nodup ∧ ∀ k, Exists hash t k = some true ↔ k ∈ Keys t := by
  constructor
  · apply nodup_flatten_keys (fun k => hash k % t.capacity) t.data 0
    intro i b hb
    have := h.2.2 i b hb
    exact ⟨fun n hn => by rw [this.1 n hn]; omega, this.2⟩
  · intro k
    obtain ⟨b, hb, -, hbk⟩ := inv_bucket h k
    rw [exists_eq hbk]
    simp only [Option.some.injEq, List.any_eq_true, beq_iff_eq, Keys, List.mem_map]
    constructor
    · rintro ⟨n, hn, hnk⟩
      exact ⟨n, List.mem_flatten.mpr ⟨b, List.getElem?_mem hb, hn⟩, hnk⟩
    · rintro ⟨n, hn, hnk⟩
      obtain ⟨i, b1, hb1, hnb1⟩ := mem_flatten_bucket hn
      have hi := (h.2.2 i b1 hb1).1 n hnb1
      rw [hnk] at hi
      rw [hi, hb1] at hb
      cases hb
      exact ⟨n, hnb1, hnk⟩

end

end HashTable

end s21

namespace s21

namespace BPlusTree

section
variable {K : Type} [LinearOrder K]

/-! ### The scan of the B+ tree and the point lookup -/

theorem bp_keys_pairwise (t : Tree K) (h : Inv t) :
    ∃ ks, Keys t = some ks ∧ ks.Pairwise (· < ·) :=
  ⟨_, bp_keys_eq t h, inv_asc t h⟩

theorem bp_keys_showAll (t : Tree K) (h : Inv t) :
    ∃ ks vs, Keys t = some ks ∧ ShowAll t = some vs ∧ ks.length = vs.length ∧
      ∀ (i : Nat) (k : K) (v : Person), ks[i]? = some k → vs[i]? = some v →
        Get t k = some v := by
  refine ⟨_, _, bp_keys_eq t h, bp_showAll_eq t h, by simp, ?_⟩
  intro i k v hk hv
  rw [List.getElem?_map] at hk hv
  cases he : (toList t.root)[i]? with
  | none => simp [he] at hk
  | some e =>
    simp only [he, Option.map_some', Option.some.injEq] at hk hv
    subst hk; subst hv
    exact bp_get_of_mem t h e (List.getElem?_mem he)

theorem bp_exists_iff_mem_keys (t : Tree K) (h : Inv t) :
    ∃ ks, Keys t = some ks ∧ ks.Nodup ∧ ∀ k, Exists t k = some true ↔ k ∈ ks := by
  refine ⟨_, bp_keys_eq t h, ?_, fun k => mem_keys_iff t h k⟩
  exact (inv_asc t h).imp fun hlt => ne_of_lt hlt

/-! ### The shape of the B+ tree in the words of the structural properties -/

mutual
theorem wf_leafDepths : ∀ (n : Node K) (lo hi : Option K) (h d : Nat), Wf lo hi h n →
    ∀ x ∈ leafDepths d n, x = d + h
  | .Leaf _ _ _ _, _, _, 0, d, _ => by simp [leafDepths]
  | .Leaf _ _ _ _, _, _, _ + 1, _, hw => by simp [Wf] at hw
  | .Internal _ _, _, _, 0, _, hw => by simp [Wf] at hw
  | .Internal ks cs, lo, hi, h + 1, d, hw => by
    simp only [Wf] at hw
    intro x hx
    simp only [leafDepths] at hx
    rw [wfIn_leafDepths cs ks lo hi h (d + 1) hw.2 x hx]
    omega
theorem wfIn_leafDepths : ∀ (cs : List (Node K)) (ks : List K) (lo hi : Option K)
    (h d : Nat), WfIn lo hi h ks cs → ∀ x ∈ leafDepthsIn d cs, x = d + h
  | [], [], _, _, _, _, hw => by simp [WfIn] at hw
  | [], _ :: _, _, _, _, _, hw => by simp [WfIn] at hw
  | [c], [], lo, hi, h, d, hw => by
    simp only [WfIn] at hw
    simpa [leafDepthsIn] using wf_leafDepths c lo hi h d hw.1
  | _ :: _ :: _, [], _, _, _, _, hw => by simp [WfIn] at hw
  | c :: cs, k0 :: ks, lo, hi, h, d, hw => by
    simp only [WfIn] at hw
    intro x hx
    simp only [leafDepthsIn, List.mem_append] at hx
    rcases hx with hx | hx
    · exact wf_leafDepths c lo (some k0) h d hw.1 x hx
    · exact wfIn_leafDepths cs ks (some k0) hi h d hw.2.2 x hx
end

mutual
theorem wf_below : ∀ (n : Node K) (lo hi : Option K) (h : Nat), Wf lo hi h n →
    ∀ m ∈ below n, sizeOk m ∧ ∃ lo1 hi1 h1, Wf lo1 hi1 h1 m
  | .Leaf _ _ _ _, _, _, _, _ => by simp [below]
  | .Internal _ _, _, _, 0, hw => by simp [Wf] at hw
  | .Internal ks cs, lo, hi, h + 1, hw => by
    simp only [Wf] at hw
    simp only [below]
    exact wfIn_below cs ks lo hi h hw.2
theorem wfIn_below : ∀ (cs : List (Node K)) (ks : List K) (lo hi : Option K) (h : Nat),
    WfIn lo hi h ks cs → ∀ m ∈ belowIn cs, sizeOk m ∧ ∃ lo1 hi1 h1, Wf lo1 hi1 h1 m
  | [], [], _, _, _, hw => by simp [WfIn] at hw
  | [], _ :: _, _, _, _, hw => by simp [WfIn] at hw
  | [c], [], lo, hi, h, hw => by
    simp only [WfIn] at hw
    intro m hm
    simp only [belowIn, List.append_nil, List.mem_cons] at hm
    rcases hm with rfl | hm
    · exact ⟨hw.2, lo, hi, h, hw.1⟩
    · exact wf_below c lo hi h hw.1 m hm
  | _ :: _ :: _, [], _, _, _, hw => by simp [WfIn] at hw
  | c :: cs, k0 :: ks, lo, hi, h, hw => by
    simp only [WfIn] at hw
    intro m hm
    simp only [belowIn, List.mem_cons, List.mem_append] at hm
    rcases hm with rfl | hm | hm
    · exact ⟨hw.2.1, lo, some k0, h, hw.1⟩
    · exact wf_below c lo (some k0) h hw.1 m hm
    · exact wfIn_below cs ks (some k0) hi h hw.2.2 m hm
end

mutual
theorem wf_allKeys : ∀ (n : Node K) (lo hi : Option K) (h : Nat), Wf lo hi h n →
    ∀ k ∈ allKeys n, geLo lo k ∧ ltHi hi k
  | .Leaf _ ks _ _, _, _, 0, hw => by
    simp only [Wf] at hw
    simpa [allKeys] using hw.2.2.2
  | .Leaf _ _ _ _, _, _, _ + 1, hw => by simp [Wf] at hw
  | .Internal _ _, _, _, 0, hw => by simp [Wf] at hw
  | .Internal ks cs, lo, hi, h + 1, hw => by
    intro k hk
    simp only [allKeys, List.mem_append] at hk
    rcases hk with hk | hk
    · exact wf_keys _ lo hi (h + 1) hw k hk
    · simp only [Wf] at hw
      exact wfIn_allKeys cs ks lo hi h hw.2 k hk
theorem wfIn_allKeys : ∀ (cs : List (Node K)) (ks : List K) (lo hi : Option K) (h : Nat),
    WfIn lo hi h ks cs → ∀ k ∈ allKeysIn cs, geLo lo k ∧ ltHi hi k
  | [], [], _, _, _, hw => by simp [WfIn] at hw
  | [], _ :: _, _, _, _, hw => by simp [WfIn] at hw
  | [c], [], lo, hi, h, hw => by
    simp only [WfIn] at hw
    simpa [allKeysIn] using wf_allKeys c lo hi h hw.1
  | _ :: _ :: _, [], _, _, _, hw => by simp [WfIn] at hw
  | c :: cs, k0 :: ks, lo, hi, h, hw => by
    simp only [WfIn] at hw
    intro k hk
    simp only [allKeysIn, List.mem_append] at hk
    have h1 := wf_ltOpt _ _ _ _ hw.1
    have h2 := wfIn_ltOpt _ _ _ _ _ hw.2.2
    rcases hk with hk | hk
    · have := wf_allKeys c lo (some k0) h hw.1 k hk
      exact ⟨this.1, ltHi_of_lt this.2 h2⟩
    · have := wfIn_allKeys cs ks (some k0) hi h hw.2.2 k hk
      exact ⟨geLo_of_le this.1 h1, this.2⟩
end

end

end BPlusTree

end s21

namespace s21

namespace BPlusTree

section
variable {K : Type} [LinearOrder K]

theorem wfIn_pairwise : ∀ (ks : List K) (cs : List (Node K)) (lo hi : Option K) (h : Nat),
    WfIn lo hi h ks cs → ks.Pairwise (· < ·)
  | [], _, _, _, _, _ => List.Pairwise.nil
  | _ :: _, [], _, _, _, hw => by simp [WfIn] at hw
  | k0 :: ks, c :: cs, lo, hi, h, hw => by
    simp only [WfIn] at hw
    rw [List.pairwise_cons]
    exact ⟨fun k hk => (wfIn_keys ks cs (some k0) hi h hw.2.2 k hk).1,
      wfIn_pairwise ks cs (some k0) hi h hw.2.2⟩

theorem wfIn_first : ∀ (ks : List K) (cs : List (Node K)) (lo hi : Option K) (h : Nat),
    WfIn lo hi h ks cs → ∀ c, cs[0]? = some c → ∀ key ∈ allKeys c, geLo lo key
  | [], [], _, _, _, hw, _, _, _, _ => by simp [WfIn] at hw
  | [], [c], lo, hi, h, hw, c1, hc, key, hk => by
    simp only [WfIn] at hw
    simp only [List.getElem?_cons_zero, Option.some.injEq] at hc
    subst hc
    exact (wf_allKeys c lo hi h hw.1 key hk).1
  | [], _ :: _ :: _, _, _, _, hw, _, _, _, _ => by simp [WfIn] at hw
  | _ :: _, [], _, _, _, hw, _, _, _, _ => by simp [WfIn] at hw
  | k0 :: ks, c :: cs, lo, hi, h, hw, c1, hc, key, hk => by
    simp only [WfIn] at hw
    simp only [List.getElem?_cons_zero, Option.some.injEq] at hc
    subst hc
    exact (wf_allKeys c lo (some k0) h hw.1 key hk).1

theorem wfIn_sep : ∀ (ks : List K) (cs : List (Node K)) (lo hi : Option K) (h : Nat),
    WfIn lo hi h ks cs → ∀ (i : Nat) (k : K), ks[i]? = some k →
      (∀ c, cs[i]? = some c → ∀ key ∈ allKeys c, key < k) ∧
      (∀ c, cs[i + 1]? = some c → ∀ key ∈ allKeys c, k ≤ key)
  | [], _, _, _, _, _, i, k, hk => by simp at hk
  | _ :: _, [], _, _, _, hw, _, _, _ => by simp [WfIn] at hw
  | k0 :: ks, c :: cs, lo, hi, h, hw, 0, k, hk => by
    simp only [WfIn] at hw
    simp only [List.getElem?_cons_zero, Option.some.injEq] at hk
    subst hk
    constructor
    · intro c1 hc key hkey
      simp only [List.getElem?_cons_zero, Option.some.injEq] at hc
      subst hc
      exact (wf_allKeys c lo (some k0) h hw.1 key hkey).2
    · intro c1 hc key hkey
      simp only [Nat.zero_add, List.getElem?_cons_succ] at hc
      exact wfIn_first ks cs (some k0) hi h hw.2.2 c1 hc key hkey
  | k0 :: ks, c :: cs, lo, hi, h, hw, i + 1, k, hk => by
    simp only [WfIn] at hw
    simp only [List.getElem?_cons_succ] at hk ⊢
    exact wfIn_sep ks cs (some k0) hi h hw.2.2 i k hk

theorem separatorsOk_of_wf (n : Node K) (lo hi : Option K) (h : Nat) (hw : Wf lo hi h n) :
    SeparatorsOk n := by
  match n, h, hw with
  | .Leaf _ _ _ _, _, _ => trivial
  | .Internal ks cs, h + 1, hw =>
    simp only [Wf] at hw
    exact ⟨wfIn_length ks cs lo hi h hw.2, wfIn_pairwise ks cs lo hi h hw.2,
      wfIn_sep ks cs lo hi h hw.2⟩
  | .Internal _ _, 0, hw => simp [Wf] at hw

theorem childCount_of_wf (n : Node K) (lo hi : Option K) (h : Nat) (hw : Wf lo hi h n) :
    ∀ c, childCount n = some c → c = n.Size + 1 := by
  match n, h, hw with
  | .Leaf _ _ _ _, _, _ => simp [childCount]
  | .Internal ks cs, h + 1, hw =>
    simp only [Wf] at hw
    intro c hc
    simp only [childCount, Option.some.injEq] at hc
    rw [← hc, wfIn_length ks cs lo hi h hw.2]
    rfl
  | .Internal _ _, 0, hw => simp [Wf] at hw

/-- The shape of a tree that satisfies the invariant, node by node. -/
theorem inv_shape (t : Tree K) (h : Inv t) :
    (∀ a ∈ leafDepths 0 t.root, ∀ b ∈ leafDepths 0 t.root, a = b) ∧
    (∀ m ∈ below t.root, 5 ≤ m.Size ∧ m.Size ≤ bucket_size) ∧
    t.root.Size ≤ bucket_size ∧
    (∀ m, m = t.root ∨ m ∈ below t.root → SeparatorsOk m) ∧
    (∀ m ∈ below t.root, ∀ c, childCount m = some c → 6 ≤ c ∧ c ≤ bucket_size + 1) ∧
    (∀ c, childCount t.root = some c → 2 ≤ c) := by
  obtain ⟨⟨H, hw⟩, hs, -⟩ := h
  refine ⟨?_, ?_, hs.1, ?_, ?_, ?_⟩
  · intro a ha b hb
    rw [wf_leafDepths _ _ _ H 0 hw a ha, wf_leafDepths _ _ _ H 0 hw b hb]
  · intro m hm
    exact (wf_below _ _ _ H hw m hm).1
  · intro m hm
    rcases hm with rfl | hm
    · exact separatorsOk_of_wf _ _ _ H hw
    · obtain ⟨-, lo1, hi1, h1, hw1⟩ := wf_below _ _ _ H hw m hm
      exact separatorsOk_of_wf _ _ _ h1 hw1
  · intro m hm c hc
    obtain ⟨hsz, lo1, hi1, h1, hw1⟩ := wf_below _ _ _ H hw m hm
    have := childCount_of_wf m lo1 hi1 h1 hw1 c hc
    have h5 := hsz.1
    have h10 := hsz.2
    omega
  · intro c hc
    have := childCount_of_wf _ _ _ H hw c hc
    have h1 : t.root.IsLeaf = false := by
      cases hr : t.root with
      | Leaf _ _ _ _ => rw [hr] at hc; simp [childCount] at hc
      | Internal _ _ => rfl
    have := hs.2 h1
    omega

end

end BPlusTree

end s21

namespace s21

namespace BPlusTree

section
variable {K : Type} [LinearOrder K]

/-! ### Runs of `Set` calls -/

theorem reachable_setAll (v : Person) : ∀ (ks : List K) (t : Tree K), Reachable t →
    ∃ t1, setAll v ks t = some t1 ∧ Reachable t1
  | [], t, h => ⟨t, rfl, h⟩
  | k :: ks, t, h => by
    obtain ⟨b, t1, h1, -⟩ := bp_set_spec t (bp_reachable_inv h) k v
    obtain ⟨t2, h2, h3⟩ := reachable_setAll v ks t1 (Reachable.set h h1)
    exact ⟨t2, by simp [setAll, h1, h2], h3⟩

theorem chain_keys_pairwise (t : Tree K) (h : Inv t) :
    ((leaves t.root).map fun l => l.keys).flatten.Pairwise (· < ·) := by
  have ha := inv_asc t h
  obtain ⟨⟨H, hw⟩, -, -⟩ := h
  rw [← map_fst_entriesOf _ fun l hl => (wf_data_length _ _ _ _ hw l hl).1]
  exact ha

end

theorem sampleRun_eq :
    setAll samplePerson (List.range 86) (init : Tree Nat) = some sampleRun := by
  obtain ⟨t, h1, -⟩ := reachable_setAll samplePerson (List.range 86) (init : Tree Nat)
    Reachable.init
  rw [sampleRun, h1]
  rfl

theorem sampleRun_reachable : Reachable sampleRun := by
  obtain ⟨t, h1, h2⟩ := reachable_setAll samplePerson (List.range 86) (init : Tree Nat)
    Reachable.init
  rw [sampleRun, h1]
  exact h2

/-- The child counts of the nodes below the root of the sample tree: the root has two
children, which have 6 and 11 children. -/
theorem sampleRun_childCounts :
    (below sampleRun.root).filterMap childCount = [6, 11] := by
  decide!

end BPlusTree

namespace RBTree

theorem rb_sampleThree_reachable : Reachable sampleThree := by
  have h1 : Reachable (Tree.node .kBlack .nil 2 samplePerson .nil) :=
    @Reachable.set Nat _ .nil _ 2 samplePerson true Reachable.empty rfl
  have h2 : Reachable (Tree.node .kBlack (.node .kRed .nil 1 samplePerson .nil) 2
      samplePerson .nil) :=
    @Reachable.set Nat _ _ _ 1 samplePerson true h1 rfl
  exact @Reachable.set Nat _ _ _ 3 samplePerson true h2 rfl

end RBTree

end s21

namespace s21

/-! ## The claims about the full scan and the shape of the red-black tree -/

section
variable (K : Type) [LinearOrder K]

/-- Claim C11: for the red-black tree and the B+ tree and every store reachable from the
empty one by `Set`, `Update`, `Delete` and `Rename` calls, `Keys()` returns a list that is
strictly ascending in the order of the keys (sorted, no key twice). -/
theorem keys_strictly_ascending :
    (∀ t : RBTree.Tree K, RBTree.Reachable t →
      ∃ ks, RBTree.Keys t = some ks ∧ ks.Pairwise (· < ·)) ∧
    (∀ t : BPlusTree.Tree K, BPlusTree.Reachable t →
      ∃ ks, BPlusTree.Keys t = some ks ∧ ks.Pairwise (· < ·)) :=
  ⟨fun t hr => RBTree.rb_keys_pairwise t (RBTree.rb_reachable_inv hr),
    fun t hr => BPlusTree.bp_keys_pairwise t (BPlusTree.bp_reachable_inv hr)⟩

/-- Claim C12: in each of the three backends and every reachable store, `Keys()` and
`ShowAll()` have the same length, and for every index `i` the record `ShowAll()[i]` is
`Get(Keys()[i])`. -/
theorem showAll_aligned_with_keys :
    (∀ (hash : K → Nat) (t : HashTable.Table K), HashTable.Reachable hash t →
      (HashTable.Keys t).length = (HashTable.ShowAll t).length ∧
      ∀ (i : Nat) (k : K) (v : Person), (HashTable.Keys t)[i]? = some k →
        (HashTable.ShowAll t)[i]? = some v → HashTable.Get hash t k = some v) ∧
    (∀ t : RBTree.Tree K, RBTree.Reachable t →
      ∃ ks vs, RBTree.Keys t = some ks ∧ RBTree.ShowAll t = some vs ∧
        ks.length = vs.length ∧
        ∀ (i : Nat) (k : K) (v : Person), ks[i]? = some k → vs[i]? = some v →
          RBTree.Get t k = v) ∧
    (∀ t : BPlusTree.Tree K, BPlusTree.Reachable t →
      ∃ ks vs, BPlusTree.Keys t = some ks ∧ BPlusTree.ShowAll t = some vs ∧
        ks.length = vs.length ∧
        ∀ (i : Nat) (k : K) (v : Person), ks[i]? = some k → vs[i]? = some v →
          BPlusTree.Get t k = some v) :=
  ⟨fun _ _ hr => HashTable.ht_keys_showAll (HashTable.ht_reachable_inv hr),
    fun t hr => RBTree.rb_keys_showAll t (RBTree.rb_reachable_inv hr),
    fun t hr => BPlusTree.bp_keys_showAll t (BPlusTree.bp_reachable_inv hr)⟩

/-- Claim C13: in each of the three backends and every reachable store, the point lookup
and the full scan agree: for every key `k`, `Exists(k)` is true exactly when `k` occurs in
`Keys()`, and no key occurs in `Keys()` twice. -/
theorem exists_iff_in_keys :
    (∀ (hash : K → Nat) (t : HashTable.Table K), HashTable.Reachable hash t →
      (HashTable.Keys t).Nodup ∧
      ∀ k, HashTable.Exists hash t k = some true ↔ k ∈ HashTable.Keys t) ∧
    (∀ t : RBTree.Tree K, RBTree.Reachable t →
      ∃ ks, RBTree.Keys t = some ks ∧ ks.Nodup ∧
        ∀ k, RBTree.Exists t k = true ↔ k ∈ ks) ∧
    (∀ t : BPlusTree.Tree K, BPlusTree.Reachable t →
      ∃ ks, BPlusTree.Keys t = some ks ∧ ks.Nodup ∧
        ∀ k, BPlusTree.Exists t k = some true ↔ k ∈ ks) :=
  ⟨fun _ _ hr => HashTable.ht_exists_iff_mem_keys (HashTable.ht_reachable_inv hr),
    fun t hr => RBTree.rb_exists_iff_mem_keys t (RBTree.rb_reachable_inv hr),
    fun t hr => BPlusTree.bp_exists_iff_mem_keys t (BPlusTree.bp_reachable_inv hr)⟩

/-- Claim C19: in every red-black tree reachable from the empty one by `Set`, `Update`,
`Delete` and `Rename` calls, the root is not red (an empty tree has no root), and no red
node has a red child. -/
theorem rb_root_black_no_red_red (t : RBTree.Tree K) (hr : RBTree.Reachable t) :
    (∀ c l k v r, t = RBTree.Tree.node c l k v r → c = RBTree.NodeColor.kBlack) ∧
      RBTree.NoRedRed t := by
  refine ⟨?_, RBTree.noRedRed_of_bal t (RBTree.rb_reachable_inv hr).1⟩
  intro c l k v r ht
  have h := (RBTree.rb_reachable_inv hr).2.1
  subst ht
  cases c with
  | kRed => simp [RBTree.isRed] at h
  | kBlack => rfl

/-- Claim C20: in every red-black tree reachable from the empty one by `Set`, `Update`,
`Delete` and `Rename` calls, for every node (and every null child) all the paths from it
down to a null child hold the same number of black nodes. -/
theorem rb_equal_black_counts (t : RBTree.Tree K) (hr : RBTree.Reachable t) :
    ∀ s ∈ RBTree.subtrees t, ∀ a ∈ RBTree.blackCounts s, ∀ b ∈ RBTree.blackCounts s,
      a = b := by
  intro s hs a ha b hb
  have hbal := RBTree.bal_subtrees t (RBTree.rb_reachable_inv hr).1 s hs
  rw [RBTree.blackCounts_of_bal s hbal a ha, RBTree.blackCounts_of_bal s hbal b hb]

end

end s21

namespace s21

/-! ## The claims about the shape of the B+ tree -/

section
variable (K : Type) [LinearOrder K]

/-- Claim C14: in every B+ tree reachable from the empty one (by `Set` and `Delete` calls,
and by `Update` and `Rename` calls as well), all leaves lie at the same depth below the
root. -/
theorem bplus_leaves_same_depth (t : BPlusTree.Tree K) (hr : BPlusTree.Reachable t) :
    ∀ a ∈ BPlusTree.leafDepths 0 t.root, ∀ b ∈ BPlusTree.leafDepths 0 t.root, a = b :=
  (BPlusTree.inv_shape t (BPlusTree.bp_reachable_inv hr)).1

/-- Claim C15: in every B+ tree reachable from the empty one, with `bucket_size` 10, every
node other than the root, `Leaf` or `Internal`, holds at least 5 and at most `bucket_size`
keys, and the root holds at most `bucket_size` keys. The nodes a `Merge` produced during a
`Delete` are nodes of the tree the call leaves, so none of them holds more than
`bucket_size` keys. -/
theorem bplus_node_key_bounds (t : BPlusTree.Tree K) (hr : BPlusTree.Reachable t) :
    (∀ m ∈ BPlusTree.below t.root, 5 ≤ m.Size ∧ m.Size ≤ BPlusTree.bucket_size) ∧
      t.root.Size ≤ BPlusTree.bucket_size :=
  ⟨(BPlusTree.inv_shape t (BPlusTree.bp_reachable_inv hr)).2.1,
    (BPlusTree.inv_shape t (BPlusTree.bp_reachable_inv hr)).2.2.1⟩

/-- Claim C16: in every B+ tree reachable from the empty one, every `Internal` node, the
root included, with `n` keys has exactly `n + 1` children, its keys are strictly ascending,
and for the key `k` at place `i` every key stored in child `i` or below it is below `k` and
every key stored in child `i + 1` or below it is at least `k`. -/
theorem bplus_separators_consistent (t : BPlusTree.Tree K) (hr : BPlusTree.Reachable t) :
    ∀ m, m = t.root ∨ m ∈ BPlusTree.below t.root → BPlusTree.SeparatorsOk m :=
  (BPlusTree.inv_shape t (BPlusTree.bp_reachable_inv hr)).2.2.2.1

/-- Claim C17: in every B+ tree reachable from the empty one, `list_` is the leftmost leaf
of the tree, every leaf links by `next` to the leaf on its right and the rightmost leaf to
nothing, no two leaves are the same, so that the loop that follows `next` from `list_`
ends after it has visited the leaves of the tree from left to right, each once; and the
keys of the visited leaves, put one after the other, are strictly ascending. -/
theorem bplus_leaf_chain (t : BPlusTree.Tree K) (hr : BPlusTree.Reachable t) :
    ((BPlusTree.leaves t.root).head?.map fun l => l.id) = some t.list_ ∧
    BPlusTree.LinkedTo none (BPlusTree.leaves t.root) ∧
    ((BPlusTree.leaves t.root).map fun l => l.id).Nodup ∧
    BPlusTree.chain t = some ((BPlusTree.leaves t.root).map fun l => (l.keys, l.data)) ∧
    ((BPlusTree.leaves t.root).map fun l => l.keys).flatten.Pairwise (· < ·) := by
  have hi := BPlusTree.bp_reachable_inv hr
  exact ⟨hi.2.2.1, hi.2.2.2.1, hi.2.2.2.2.1, BPlusTree.chain_eq t hi.2.2,
    BPlusTree.chain_keys_pairwise t hi⟩

/-- The amended claim C18: in every B+ tree reachable from the empty one, with
`bucket_size` 10, every `Internal` node other than the root has at least 5 and at most
`bucket_size + 1 = 11` children, and a root that is an `Internal` has at least 2
children. -/
theorem bplus_internal_child_bounds (t : BPlusTree.Tree K) (hr : BPlusTree.Reachable t) :
    (∀ m ∈ BPlusTree.below t.root, ∀ c, BPlusTree.childCount m = some c →
      5 ≤ c ∧ c ≤ BPlusTree.bucket_size + 1) ∧
    (∀ c, BPlusTree.childCount t.root = some c → 2 ≤ c) := by
  have h := BPlusTree.inv_shape t (BPlusTree.bp_reachable_inv hr)
  refine ⟨fun m hm c hc => ?_, h.2.2.2.2.2⟩
  have := h.2.2.2.2.1 m hm c hc
  omega

end

/-- Claim C18 as it stands fails: `Set` of the 86 keys `0, …, 85` in ascending order on the
empty B+ tree leaves a tree in which an `Internal` node other than the root has 11
children, more than `bucket_size`. The leaves split at the 11th key and at every fifth key
after it, the root splits at the 61st key into two nodes of 5 keys, and the five splits of
leaves that follow bring the right one to 10 keys, hence 11 children. -/
theorem bplus_internal_eleven_children :
    BPlusTree.setAll samplePerson (List.range 86) (BPlusTree.init : BPlusTree.Tree Nat) =
      some BPlusTree.sampleRun ∧
    (BPlusTree.below BPlusTree.sampleRun.root).filterMap BPlusTree.childCount = [6, 11] ∧
    ∃ m ∈ BPlusTree.below BPlusTree.sampleRun.root,
      BPlusTree.childCount m = some 11 ∧ ¬ 11 ≤ BPlusTree.bucket_size := by
  refine ⟨BPlusTree.sampleRun_eq, BPlusTree.sampleRun_childCounts, ?_⟩
  have h : 11 ∈
      (BPlusTree.below BPlusTree.sampleRun.root).filterMap BPlusTree.childCount := by
    rw [BPlusTree.sampleRun_childCounts]
    simp
  obtain ⟨m, hm, hc⟩ := List.mem_filterMap.mp h
  exact ⟨m, hm, hc, by decide⟩

end s21

namespace s21

/-! ## The theorems of the scan and shape claims at sample stores -/

/-- The theorem of C11 at the sample trees: the red-black tree of the keys 1, 2, 3 and the
B+ tree of the keys `0, …, 85`. -/
theorem keys_strictly_ascending_witness :
    (∃ ks, RBTree.Keys RBTree.sampleThree = some ks ∧ ks.Pairwise (· < ·)) ∧
    (∃ ks, BPlusTree.Keys BPlusTree.sampleRun = some ks ∧ ks.Pairwise (· < ·)) :=
  ⟨(keys_strictly_ascending Nat).1 RBTree.sampleThree RBTree.rb_sampleThree_reachable,
    (keys_strictly_ascending Nat).2 BPlusTree.sampleRun BPlusTree.sampleRun_reachable⟩

/-- The theorem of C12 at the sample stores. -/
theorem showAll_aligned_with_keys_witness :
    ((HashTable.Keys HashTable.sample).length = (HashTable.ShowAll HashTable.sample).length ∧
      ∀ (i : Nat) (k : Nat) (v : Person), (HashTable.Keys HashTable.sample)[i]? = some k →
        (HashTable.ShowAll HashTable.sample)[i]? = some v →
        HashTable.Get HashTable.sampleHash HashTable.sample k = some v) ∧
    (∃ ks vs, RBTree.Keys RBTree.sampleThree = some ks ∧
      RBTree.ShowAll RBTree.sampleThree = some vs ∧ ks.length = vs.length ∧
      ∀ (i : Nat) (k : Nat) (v : Person), ks[i]? = some k → vs[i]? = some v →
        RBTree.Get RBTree.sampleThree k = v) ∧
    (∃ ks vs, BPlusTree.Keys BPlusTree.sampleRun = some ks ∧
      BPlusTree.ShowAll BPlusTree.sampleRun = some vs ∧ ks.length = vs.length ∧
      ∀ (i : Nat) (k : Nat) (v : Person), ks[i]? = some k → vs[i]? = some v →
        BPlusTree.Get BPlusTree.sampleRun k = some v) :=
  ⟨(showAll_aligned_with_keys Nat).1 HashTable.sampleHash HashTable.sample
      HashTable.ht_sample_reachable,
    (showAll_aligned_with_keys Nat).2.1 RBTree.sampleThree RBTree.rb_sampleThree_reachable,
    (showAll_aligned_with_keys Nat).2.2 BPlusTree.sampleRun BPlusTree.sampleRun_reachable⟩

/-- The theorem of C13 at the sample stores. -/
theorem exists_iff_in_keys_witness :
    ((HashTable.Keys HashTable.sample).Nodup ∧
      ∀ k, HashTable.Exists HashTable.sampleHash HashTable.sample k = some true ↔
        k ∈ HashTable.Keys HashTable.sample) ∧
    (∃ ks, RBTree.Keys RBTree.sampleThree = some ks ∧ ks.Nodup ∧
      ∀ k, RBTree.Exists RBTree.sampleThree k = true ↔ k ∈ ks) ∧
    (∃ ks, BPlusTree.Keys BPlusTree.sampleRun = some ks ∧ ks.Nodup ∧
      ∀ k, BPlusTree.Exists BPlusTree.sampleRun k = some true ↔ k ∈ ks) :=
  ⟨(exists_iff_in_keys Nat).1 HashTable.sampleHash HashTable.sample
      HashTable.ht_sample_reachable,
    (exists_iff_in_keys Nat).2.1 RBTree.sampleThree RBTree.rb_sampleThree_reachable,
    (exists_iff_in_keys Nat).2.2 BPlusTree.sampleRun BPlusTree.sampleRun_reachable⟩

/-- The theorem of C14 at the B+ tree of the keys `0, …, 85`, which has three levels. -/
theorem bplus_leaves_same_depth_witness :
    BPlusTree.Reachable BPlusTree.sampleRun ∧
    ∀ a ∈ BPlusTree.leafDepths 0 BPlusTree.sampleRun.root,
      ∀ b ∈ BPlusTree.leafDepths 0 BPlusTree.sampleRun.root, a = b :=
  ⟨BPlusTree.sampleRun_reachable,
    bplus_leaves_same_depth Nat BPlusTree.sampleRun BPlusTree.sampleRun_reachable⟩

/-- The theorem of C15 at the B+ tree of the keys `0, …, 85`. -/
theorem bplus_node_key_bounds_witness :
    (∀ m ∈ BPlusTree.below BPlusTree.sampleRun.root,
      5 ≤ m.Size ∧ m.Size ≤ BPlusTree.bucket_size) ∧
      BPlusTree.sampleRun.root.Size ≤ BPlusTree.bucket_size :=
  bplus_node_key_bounds Nat BPlusTree.sampleRun BPlusTree.sampleRun_reachable

/-- The theorem of C16 at the B+ tree of the keys `0, …, 85`. -/
theorem bplus_separators_consistent_witness :
    BPlusTree.Reachable BPlusTree.sampleRun ∧
    ∀ m, m = BPlusTree.sampleRun.root ∨ m ∈ BPlusTree.below BPlusTree.sampleRun.root →
      BPlusTree.SeparatorsOk m :=
  ⟨BPlusTree.sampleRun_reachable,
    bplus_separators_consistent Nat BPlusTree.sampleRun BPlusTree.sampleRun_reachable⟩

/-- The theorem of C17 at the B+ tree of the keys `0, …, 85`. -/
theorem bplus_leaf_chain_witness :
    ((BPlusTree.leaves BPlusTree.sampleRun.root).head?.map fun l => l.id) =
      some BPlusTree.sampleRun.list_ ∧
    BPlusTree.LinkedTo none (BPlusTree.leaves BPlusTree.sampleRun.root) ∧
    ((BPlusTree.leaves BPlusTree.sampleRun.root).map fun l => l.id).Nodup ∧
    BPlusTree.chain BPlusTree.sampleRun =
      some ((BPlusTree.leaves BPlusTree.sampleRun.root).map fun l => (l.keys, l.data)) ∧
    ((BPlusTree.leaves BPlusTree.sampleRun.root).map fun l => l.keys).flatten.Pairwise
      (· < ·) :=
  bplus_leaf_chain Nat BPlusTree.sampleRun BPlusTree.sampleRun_reachable

/-- The theorem of the amended C18 at the B+ tree of the keys `0, …, 85`. -/
theorem bplus_internal_child_bounds_witness :
    (∀ m ∈ BPlusTree.below BPlusTree.sampleRun.root, ∀ c, BPlusTree.childCount m = some c →
      5 ≤ c ∧ c ≤ BPlusTree.bucket_size + 1) ∧
    (∀ c, BPlusTree.childCount BPlusTree.sampleRun.root = some c → 2 ≤ c) :=
  bplus_internal_child_bounds Nat BPlusTree.sampleRun BPlusTree.sampleRun_reachable

/-- The theorem of C19 at the red-black tree of the keys 1, 2, 3, whose root is black and
has two red children. -/
theorem rb_root_black_no_red_red_witness :
    (∀ c l k v r, RBTree.sampleThree = RBTree.Tree.node c l k v r →
      c = RBTree.NodeColor.kBlack) ∧ RBTree.NoRedRed RBTree.sampleThree :=
  rb_root_black_no_red_red Nat RBTree.sampleThree RBTree.rb_sampleThree_reachable

/-- The theorem of C20 at the red-black tree of the keys 1, 2, 3. -/
theorem rb_equal_black_counts_witness :
    RBTree.Reachable RBTree.sampleThree ∧
    ∀ s ∈ RBTree.subtrees RBTree.sampleThree, ∀ a ∈ RBTree.blackCounts s,
      ∀ b ∈ RBTree.blackCounts s, a = b :=
  ⟨RBTree.rb_sampleThree_reachable,
    rb_equal_black_counts Nat RBTree.sampleThree RBTree.rb_sampleThree_reachable⟩

end s21

namespace s21

/-! ## The scheduler and the bookkeeping -/

theorem lookup_cons_eq {α β : Type} [DecidableEq α] (a k : α) (b : β) (es : List (α × β)) :
    List.lookup a ((k, b) :: es) = if a = k then some b else List.lookup a es := by
  rw [List.lookup_cons]
  by_cases h : a = k
  · simp [h]
  · have : (a == k) = false := by simpa using h
    simp [this, h]

theorem lookup_filter_key {α β : Type} [DecidableEq α] (a key : α) (es : List (α × β)) :
    List.lookup a (es.filter fun e => !(e.1 == key)) =
      if a = key then none else List.lookup a es := by
  induction es with
  | nil => simp
  | cons e es ih =>
    obtain ⟨k, b⟩ := e
    by_cases hk : k = key
    · subst hk
      rw [List.filter_cons_of_neg (by simp), ih, lookup_cons_eq]
      by_cases h : a = k <;> simp [h]
    · rw [List.filter_cons_of_pos (by simpa using hk), lookup_cons_eq, lookup_cons_eq, ih]
      by_cases h : a = k
      · subst h; simp [hk]
      · simp [h]

theorem lookup_map_snd {α β : Type} [DecidableEq α] (a : α) (f : α → β → β)
    (es : List (α × β)) :
    List.lookup a (es.map fun e => (e.1, f e.1 e.2)) = (List.lookup a es).map (f a) := by
  induction es with
  | nil => simp
  | cons e es ih =>
    obtain ⟨k, b⟩ := e
    rw [List.map_cons, lookup_cons_eq, lookup_cons_eq, ih]
    by_cases h : a = k
    · subst h; simp
    · simp [h]

theorem lookup_filter_keep {α β : Type} [DecidableEq α] (a : α) (b : β) (q : α × β → Bool)
    (es : List (α × β)) (h : List.lookup a es = some b) (hq : q (a, b) = true) :
    List.lookup a (es.filter q) = some b := by
  induction es with
  | nil => simp at h
  | cons e es ih =>
    obtain ⟨k, c⟩ := e
    rw [lookup_cons_eq] at h
    by_cases hk : a = k
    · subst hk
      simp only [if_true, Option.some.injEq] at h
      subst h
      rw [List.filter_cons_of_pos hq, lookup_cons_eq]
      simp
    · simp only [hk, if_false] at h
      by_cases hc : q (k, c) = true
      · rw [List.filter_cons_of_pos hc, lookup_cons_eq]
        simpa [hk] using ih h
      · rw [List.filter_cons_of_neg hc]
        exact ih h

namespace AsyncPool

section
variable {A : Type}

theorem find_stopTask (p : AsyncPool A) (id id1 : Nat) :
    (p.StopTask id).find id1 =
      (p.find id1).map fun info => if id1 = id then { info with remove := true } else info := by
  have := lookup_map_snd id1
    (fun (i : Nat) (info : Info A) => if i = id then { info with remove := true } else info)
    p.tasks
  simp only [find, StopTask]
  rw [← this]
  congr 1
  apply List.map_congr_left
  intro e _
  by_cases h : e.1 = id <;> simp [h]

theorem find_finish (p : AsyncPool A) (id id1 : Nat) :
    (p.finish id).find id1 =
      (p.find id1).map fun info => if id1 = id then { info with ready := true } else info := by
  have := lookup_map_snd id1
    (fun (i : Nat) (info : Info A) => if i = id then { info with ready := true } else info)
    p.tasks
  simp only [find, finish]
  rw [← this]
  congr 1
  apply List.map_congr_left
  intro e _
  by_cases h : e.1 = id <;> simp [h]

theorem find_collect (p : AsyncPool A) (ids : List Nat) (id : Nat) (info : Info A)
    (h : p.find id = some info) (hr : info.ready = false) :
    (p.collect ids).find id = some info := by
  simp only [find, collect]
  exact lookup_filter_keep id info _ p.tasks h (by simp [hr])

theorem skipUsed_spec (p : AsyncPool A) : ∀ (fuel id0 id : Nat),
    skipUsed p fuel id0 = some id → p.find id = none
  | 0, _, _, h => by simp [skipUsed] at h
  | fuel + 1, id0, id, h => by
    simp only [skipUsed] at h
    cases hf : p.find id0 with
    | none =>
      simp only [hf, Option.some.injEq] at h
      rw [← h]; exact hf
    | some info =>
      simp only [hf] at h
      exact skipUsed_spec p fuel _ id h

theorem skipUsed_free (p : AsyncPool A) (fuel id0 : Nat) (h : p.find id0 = none) :
    skipUsed p (fuel + 1) id0 = some id0 := by
  simp [skipUsed, h]

theorem delayTask_spec (p p1 : AsyncPool A) (now sec : Int) (task : A) (id : Nat)
    (h : p.DelayTask now sec task = some (id, p1)) :
    p.find id = none ∧ p1.stop = p.stop ∧
      ∀ id1, p1.find id1 =
        if id1 = id then some ⟨task, false, now + sec * ticksPerSecond, false⟩
        else p.find id1 := by
  simp only [DelayTask, Option.map_eq_some'] at h
  obtain ⟨i, hi, he⟩ := h
  simp only [Prod.mk.injEq] at he
  obtain ⟨rfl, rfl⟩ := he
  refine ⟨skipUsed_spec p _ _ _ hi, rfl, fun id1 => ?_⟩
  simp only [find]
  rw [lookup_cons_eq]

theorem due_spec (p : AsyncPool A) (id : Nat) (now : Int) (o : Option A)
    (h : p.due id now = some o) :
    ∃ info, p.find id = some info ∧ info.ready = false ∧
      (o = none → (info.remove || p.stop) = true) ∧
      (∀ key, o = some key → info.task = key ∧ info.remove = false ∧ p.stop = false ∧
        info.delete_time ≤ now) := by
  unfold due at h
  cases hf : p.find id with
  | none => simp [hf] at h
  | some info =>
    simp only [hf] at h
    refine ⟨info, rfl, ?_⟩
    by_cases hr : info.ready = true
    · simp [hr] at h
    · simp only [hr, Bool.false_eq_true, if_false] at h
      by_cases hs : (info.remove || p.stop) = true
      · simp only [hs, if_true, Option.some.injEq] at h
        subst h
        exact ⟨by simpa using hr, fun _ => hs, fun key hk => (by cases hk)⟩
      · simp only [hs, Bool.false_eq_true, if_false] at h
        by_cases hd : info.delete_time ≤ now
        · simp only [hd, if_true, Option.some.injEq] at h
          subst h
          refine ⟨by simpa using hr, fun hn => (by cases hn), fun key hk => ?_⟩
          simp only [Option.some.injEq] at hk
          simp only [Bool.or_eq_true, not_or, Bool.not_eq_true] at hs
          exact ⟨hk, hs.1, hs.2, hd⟩
        · simp [hd] at h

end

end AsyncPool

end s21

namespace s21

namespace Store

section
variable {S K : Type} [LinearOrder K]

theorem lookup_emplace (key : K) (id : Nat) (q : List (K × Nat)) (h : q.lookup key = none)
    (k : K) : (emplace key id q).lookup k = if k = key then some id else q.lookup k := by
  simp only [emplace, h]
  rw [lookup_cons_eq]

theorem schedule_spec (s s1 : Store S K) (key : K) (lifetime now : Int)
    (hq : s.queue.lookup key = none) (h : s.schedule key lifetime now = some s1) :
    s1.data = s.data ∧ s1.pool.stop = s.pool.stop ∧
    (lifetime > -1 → ∃ id, s.pool.find id = none ∧
      (∀ k, s1.queue.lookup k = if k = key then some id else s.queue.lookup k) ∧
      ∀ id1, s1.pool.find id1 =
        if id1 = id then some ⟨key, false, now + lifetime * ticksPerSecond, false⟩
        else s.pool.find id1) ∧
    (¬ lifetime > -1 → s1 = s) := by
  unfold schedule at h
  by_cases hl : lifetime > -1
  · simp only [hl, if_true, Option.map_eq_some'] at h
    obtain ⟨⟨id, p1⟩, hd, rfl⟩ := h
    obtain ⟨h1, h2, h3⟩ := AsyncPool.delayTask_spec _ _ _ _ _ _ hd
    exact ⟨rfl, h2, fun _ => ⟨id, h1, fun k => lookup_emplace key id s.queue hq k, h3⟩,
      fun h => absurd hl h⟩
  · simp only [hl, if_false, Option.some.injEq] at h
    subst h
    exact ⟨rfl, rfl, fun h => absurd h hl, fun _ => rfl⟩

theorem cancel_spec (s : Store S K) (key : K) :
    (s.cancel key).data = s.data ∧ (s.cancel key).pool.stop = s.pool.stop ∧
    (∀ k, (s.cancel key).queue.lookup k = if k = key then none else s.queue.lookup k) ∧
    ∀ id1, (s.cancel key).pool.find id1 =
      (s.pool.find id1).map fun info =>
        if s.queue.lookup key = some id1 then { info with remove := true } else info := by
  unfold cancel
  cases hq : s.queue.lookup key with
  | none =>
    refine ⟨rfl, rfl, fun k => ?_, fun id1 => ?_⟩
    · by_cases hk : k = key
      · subst hk; simp [hq]
      · simp [hk]
    · simp
  | some id =>
    refine ⟨rfl, rfl, fun k => lookup_filter_key k key s.queue, fun id1 => ?_⟩
    simp only [AsyncPool.find_stopTask, Option.some.injEq]
    congr 1
    funext info
    by_cases h : id1 = id
    · subst h; simp
    · simp [h, Ne.symm h]

theorem ok_init (present : S → K → Prop) (d : S) :
    Ok present (⟨d, [], AsyncPool.init⟩ : Store S K) :=
  ⟨rfl, fun k id h => by simp at h⟩

theorem ok_unbound {present : S → K → Prop} {s : Store S K} (h : Ok present s) (k : K)
    (hk : ¬ present s.data k) : s.queue.lookup k = none := by
  cases hq : s.queue.lookup k with
  | none => rfl
  | some id => exact absurd (h.2 k id hq).1 hk

theorem ok_inj {present : S → K → Prop} {s : Store S K} (h : Ok present s) (k1 k2 : K)
    (id : Nat) (h1 : s.queue.lookup k1 = some id) (h2 : s.queue.lookup k2 = some id) :
    k1 = k2 := by
  obtain ⟨-, i1, hf1, ht1, -⟩ := h.2 k1 id h1
  obtain ⟨-, i2, hf2, ht2, -⟩ := h.2 k2 id h2
  rw [hf1] at hf2
  cases hf2
  rw [← ht1, ← ht2]

theorem ok_data {present : S → K → Prop} {s : Store S K} (h : Ok present s) (d : S)
    (hd : ∀ k id, s.queue.lookup k = some id → present d k) :
    Ok present { s with data := d } :=
  ⟨h.1, fun k id hq => ⟨hd k id hq, (h.2 k id hq).2⟩⟩

theorem ok_schedule {present : S → K → Prop} {s s1 : Store S K} (h : Ok present s) (key : K)
    (lifetime now : Int) (hq : s.queue.lookup key = none)
    (hs : s.schedule key lifetime now = some s1) (d : S)
    (hd : ∀ k id, s.queue.lookup k = some id → present d k) (hp : present d key) :
    Ok present { s1 with data := d } := by
  obtain ⟨-, h2, h3, h4⟩ := schedule_spec s s1 key lifetime now hq hs
  by_cases hl : lifetime > -1
  · obtain ⟨id, hf, hqs, hps⟩ := h3 hl
    refine ⟨by simpa [h2] using h.1, fun k i hk => ?_⟩
    simp only [hqs] at hk
    by_cases hkk : k = key
    · subst hkk
      simp only [if_true, Option.some.injEq] at hk
      subst hk
      exact ⟨hp, ⟨k, false, now + lifetime * ticksPerSecond, false⟩, by simp [hps],
        rfl, rfl, rfl⟩
    · simp only [hkk, if_false] at hk
      obtain ⟨-, info, hfi, hi⟩ := h.2 k i hk
      refine ⟨hd k i hk, info, ?_, hi⟩
      have : i ≠ id := fun e => by rw [e, hf] at hfi; cases hfi
      simp [hps, this, hfi]
  · rw [h4 hl]; exact ok_data h d hd

theorem ok_cancel {present : S → K → Prop} {s : Store S K} (h : Ok present s) (key : K)
    (d : S) (hd : ∀ k id, k ≠ key → s.queue.lookup k = some id → present d k) :
    Ok present { s.cancel key with data := d } := by
  obtain ⟨h1, h2, h3, h4⟩ := cancel_spec s key
  refine ⟨by simpa [h2] using h.1, fun k i hk => ?_⟩
  simp only [h3] at hk
  by_cases hkk : k = key
  · simp [hkk] at hk
  · simp only [hkk, if_false] at hk
    obtain ⟨-, info, hfi, hi⟩ := h.2 k i hk
    refine ⟨hd k i hkk hk, info, ?_, hi⟩
    simp only [h4, hfi, Option.map_some', Option.some.injEq]
    have : s.queue.lookup key ≠ some i := fun e => hkk (ok_inj h k key i hk e)
    simp [this]

theorem ok_finish {present : S → K → Prop} {s : Store S K} (h : Ok present s) (id : Nat)
    (hid : ∀ k, s.queue.lookup k ≠ some id) :
    Ok present { s with pool := s.pool.finish id } := by
  refine ⟨by simpa [AsyncPool.finish] using h.1, fun k i hk => ?_⟩
  obtain ⟨hp, info, hfi, hi⟩ := h.2 k i hk
  refine ⟨hp, info, ?_, hi⟩
  have : i ≠ id := fun e => hid k (e ▸ hk)
  simp [AsyncPool.find_finish, hfi, this]

theorem ok_collect {present : S → K → Prop} {s : Store S K} (h : Ok present s)
    (ids : List Nat) : Ok present { s with pool := s.pool.collect ids } := by
  refine ⟨by simpa [AsyncPool.collect] using h.1, fun k i hk => ?_⟩
  obtain ⟨hp, info, hfi, hi⟩ := h.2 k i hk
  exact ⟨hp, info, AsyncPool.find_collect _ ids i info hfi hi.2.2, hi⟩

theorem scheduled_of_schedule (s s1 : Store S K) (key : K) (lifetime now : Int)
    (hq : s.queue.lookup key = none) (h : s.schedule key lifetime now = some s1) :
    Scheduled s s1 key lifetime now := by
  obtain ⟨-, -, h3, h4⟩ := schedule_spec s s1 key lifetime now hq h
  exact ⟨h3, fun hl => by rw [h4 hl]; exact ⟨rfl, rfl⟩⟩

theorem cancelled_cancel (s : Store S K) (key : K) (d : S) :
    Cancelled s { s.cancel key with data := d } key :=
  ⟨(cancel_spec s key).2.2.1, (cancel_spec s key).2.2.2⟩

theorem cancelled_self (s : Store S K) (key : K) (d : S) (h : s.queue.lookup key = none) :
    Cancelled s { s with data := d } key := by
  refine ⟨fun k => ?_, fun id1 => ?_⟩
  · by_cases hk : k = key
    · subst hk; simp [h]
    · simp [hk]
  · simp [h]

theorem unbound_of_removed {present : S → K → Prop} {s : Store S K} (h : Ok present s)
    (id : Nat) (info : Info K) (hf : s.pool.find id = some info)
    (hr : (info.remove || s.pool.stop) = true) : ∀ k, s.queue.lookup k ≠ some id := by
  intro k hk
  obtain ⟨-, info1, hf1, -, hr1, -⟩ := h.2 k id hk
  rw [hf] at hf1
  cases hf1
  simp [hr1, h.1] at hr

theorem unbound_of_cancelled {present : S → K → Prop} {s s1 : Store S K} (h : Ok present s)
    (key : K) (hc : Cancelled s s1 key) (id : Nat) (info : Info K)
    (hf : s.pool.find id = some info) (ht : info.task = key) :
    ∀ k, s1.queue.lookup k ≠ some id := by
  intro k hk
  rw [hc.1] at hk
  by_cases hkk : k = key
  · simp [hkk] at hk
  · simp only [hkk, if_false] at hk
    obtain ⟨-, info1, hf1, ht1, -⟩ := h.2 k id hk
    rw [hf] at hf1
    cases hf1
    exact hkk (ht1.symm.trans ht)

theorem ttl_unbound (s : Store S K) (k : K) (now : Int) (h : s.queue.lookup k = none) :
    s.Ttl k now = -1 := by
  simp [Ttl, h]

end

end Store

end s21

namespace s21

namespace HashTable

section
variable {K : Type} [LinearOrder K]

/-! ### Which keys are present after a call -/

/-- `Exists` after the bucket of `k` was replaced by `b1`. -/
theorem exists_set_bucket {hash : K → Nat} {t : Table K} (h : Inv hash t) (k : K)
    (b1 : List (Node K)) (k1 : K) :
    Exists hash { t with data := t.data.set (hash k % t.capacity) b1 } k1 =
      if hash k1 % t.capacity = hash k % t.capacity then
        some (b1.any fun node => node.key == k1)
      else Exists hash t k1 := by
  rw [Exists, bucket_set h _ (Nat.mod_lt _ h.1)]
  split <;> simp [Exists]

theorem exists_same_bucket {hash : K → Nat} {t : Table K} (h : Inv hash t) (k k1 : K)
    (b : List (Node K)) (hb : bucket hash t k = some b)
    (heq : hash k1 % t.capacity = hash k % t.capacity) :
    Exists hash t k1 = some (b.any fun node => node.key == k1) := by
  obtain ⟨b1, hb1, hi1, hbk1⟩ := inv_bucket h k1
  obtain ⟨b2, hb2, hi2, hbk2⟩ := inv_bucket h k
  rw [heq, hb2] at hb1
  rw [hb] at hbk2
  cases hb1; cases hbk2
  exact exists_eq hbk1

theorem ht_present_set {hash : K → Nat} {t t1 : Table K} (h : Inv hash t) {k : K}
    {v : Person} {lifetime : Int} {r : Bool} (hs : Set hash t k v lifetime = some (r, t1)) :
    (r = false → t1 = t) ∧
    (r = true → Exists hash t k = some false ∧
      ∀ k1, Exists hash t1 k1 = some true ↔ (k1 = k ∨ Exists hash t k1 = some true)) := by
  obtain ⟨b, hb, hi, hbk⟩ := inv_bucket h k
  cases hany : (b.any fun node => node.key == k) with
  | true =>
    simp only [Set, exists_eq hbk, hany, Option.some_bind, if_true, Option.some.injEq,
      Prod.mk.injEq] at hs
    obtain ⟨rfl, rfl⟩ := hs
    simp
  | false =>
    simp only [Set, exists_eq hbk, hany, Option.some_bind, hi, hb, Option.map_some',
      Option.some.injEq, Prod.mk.injEq] at hs
    simp only [Bool.false_eq_true, if_false, Option.some.injEq, Prod.mk.injEq] at hs
    obtain ⟨rfl, rfl⟩ := hs
    refine ⟨by simp, fun _ => ⟨by rw [exists_eq hbk, hany], fun k1 => ?_⟩⟩
    rw [exists_set_bucket h k _ k1]
    split
    · rename_i heq
      rw [exists_same_bucket h k k1 b hbk heq]
      simp only [List.any_append, List.any_cons, List.any_nil, Bool.or_false,
        Option.some.injEq, Bool.or_eq_true, beq_iff_eq]
      constructor
      · rintro (h1 | h1)
        · exact Or.inr h1
        · exact Or.inl h1.symm
      · rintro (h1 | h1)
        · exact Or.inr h1.symm
        · exact Or.inl h1
    · rename_i hne
      constructor
      · exact Or.inr
      · rintro (h1 | h1)
        · rw [h1] at hne; exact absurd rfl hne
        · exact h1

theorem ht_present_delete {hash : K → Nat} {t t1 : Table K} (h : Inv hash t) {k : K}
    {r : Bool} (hs : Delete hash t k = some (r, t1)) :
    Exists hash t k = some r ∧ (r = false → t1 = t) ∧
    ∀ k1, Exists hash t1 k1 = some true ↔ (k1 ≠ k ∧ Exists hash t k1 = some true) := by
  obtain ⟨b, hb, hi, hbk⟩ := inv_bucket h k
  cases hany : (b.any fun node => node.key == k) with
  | true =>
    simp only [Delete, hi, hb, Option.some_bind, Option.map_some', hany, if_true,
      Option.some.injEq, Prod.mk.injEq] at hs
    obtain ⟨rfl, rfl⟩ := hs
    refine ⟨by rw [exists_eq hbk, hany], by simp, fun k1 => ?_⟩
    rw [exists_set_bucket h k _ k1]
    split
    · rename_i heq
      rw [exists_same_bucket h k k1 b hbk heq]
      simp only [Option.some.injEq, List.any_eq_true, List.mem_filter, beq_iff_eq,
        Bool.not_eq_true', beq_eq_false_iff_ne, ne_eq]
      constructor
      · rintro ⟨n, ⟨hn, hnk⟩, hk1⟩
        exact ⟨by rw [← hk1]; exact hnk, n, hn, hk1⟩
      · rintro ⟨hne, n, hn, hk1⟩
        exact ⟨n, ⟨hn, by rw [hk1]; exact hne⟩, hk1⟩
    · rename_i hne
      constructor
      · intro h1
        exact ⟨fun e => hne (by rw [e]), h1⟩
      · exact fun h1 => h1.2
  | false =>
    simp only [Delete, hi, hb, Option.some_bind, Option.map_some', hany, Option.some.injEq,
      Prod.mk.injEq] at hs
    simp only [Bool.false_eq_true, if_false, Prod.mk.injEq] at hs
    obtain ⟨rfl, rfl⟩ := hs
    refine ⟨by rw [exists_eq hbk, hany], by simp, fun k1 => ?_⟩
    constructor
    · intro h1
      refine ⟨fun e => ?_, h1⟩
      rw [e, exists_eq hbk, hany] at h1
      cases h1
    · exact fun h1 => h1.2

theorem ht_present_update {hash : K → Nat} {t t1 : Table K} (h : Inv hash t) {k : K}
    {v : Person} {r : Bool} (hs : Update hash t k v = some (r, t1)) :
    ∀ k1, Exists hash t1 k1 = some true ↔ Exists hash t k1 = some true := by
  obtain ⟨b, hb, hi, hbk⟩ := inv_bucket h k
  cases hany : (b.any fun node => node.key == k) with
  | true =>
    simp only [Update, hi, hb, Option.some_bind, Option.map_some', hany, if_true,
      Option.some.injEq, Prod.mk.injEq] at hs
    obtain ⟨rfl, rfl⟩ := hs
    intro k1
    rw [exists_set_bucket h k _ k1]
    split
    · rename_i heq
      rw [exists_same_bucket h k k1 b hbk heq]
      simp only [Option.some.injEq, any_key_iff, updateBucket_keys]
    · rfl
  | false =>
    simp only [Update, hi, hb, Option.some_bind, Option.map_some', hany, Option.some.injEq,
      Prod.mk.injEq] at hs
    simp only [Bool.false_eq_true, if_false, Prod.mk.injEq] at hs
    obtain ⟨rfl, rfl⟩ := hs
    exact fun _ => Iff.rfl

end

end HashTable

end s21

namespace s21

/-! ### The remaining time -/

namespace AsyncPool

section
variable {A : Type}

theorem tdiv_nonpos_of_nonpos (a b : Int) (ha : a ≤ 0) (hb : 0 ≤ b) : a.tdiv b ≤ 0 := by
  have h := @Int.tdiv_nonneg (-a) b (by omega) hb
  rw [Int.neg_tdiv] at h
  omega

theorem getRemainTime_nonneg (p : AsyncPool A) (id : Nat) (now : Int) :
    0 ≤ p.GetRemainTime id now := by
  unfold GetRemainTime
  split
  · simp only
    split <;> omega
  · exact le_refl _

theorem getRemainTime_unknown (p : AsyncPool A) (id : Nat) (now : Int)
    (h : p.find id = none) : p.GetRemainTime id now = 0 := by
  simp [GetRemainTime, h]

theorem getRemainTime_passed (p : AsyncPool A) (id : Nat) (now : Int) (info : Info A)
    (h : p.find id = some info) (hd : info.delete_time ≤ now) :
    p.GetRemainTime id now = 0 := by
  simp only [GetRemainTime, h]
  have := tdiv_nonpos_of_nonpos (info.delete_time - now) ticksPerSecond (by omega)
    (by decide)
  split
  · omega
  · rfl

/-- Before the deadline the result is the number of whole seconds that remain. -/
theorem getRemainTime_floor (p : AsyncPool A) (id : Nat) (now : Int) (info : Info A)
    (h : p.find id = some info) (hd : now ≤ info.delete_time) :
    p.GetRemainTime id now * ticksPerSecond ≤ info.delete_time - now ∧
      info.delete_time - now < (p.GetRemainTime id now + 1) * ticksPerSecond := by
  simp only [GetRemainTime, h]
  rw [Int.tdiv_eq_ediv (by omega) (by decide)]
  have h0 : 0 ≤ (info.delete_time - now) / ticksPerSecond :=
    Int.ediv_nonneg (by omega) (by decide)
  have h1 : (if (info.delete_time - now) / ticksPerSecond > 0 then
      (info.delete_time - now) / ticksPerSecond else 0) =
      (info.delete_time - now) / ticksPerSecond := by
    split
    · rfl
    · omega
  rw [h1]
  have hpos : (0 : Int) < ticksPerSecond := by decide
  constructor
  · exact Int.ediv_mul_le _ (ne_of_gt hpos)
  · exact Int.lt_ediv_add_one_mul_self _ hpos

end

end AsyncPool

namespace Store

section
variable {S K : Type} [LinearOrder K]

/-- After the block of `Set` with a lifetime `T ≥ 0` at `t0`, `Ttl` read at `t0` is `T`,
and read within the second that follows it is `T - 1` or `T`, and not negative. -/
theorem ttl_scheduled (s s1 : Store S K) (key : K) (lifetime t0 : Int)
    (h : Scheduled s s1 key lifetime t0) (hl : 0 ≤ lifetime) (t : Int) (h0 : t0 ≤ t)
    (h1 : t < t0 + ticksPerSecond) :
    lifetime - 1 ≤ s1.Ttl key t ∧ s1.Ttl key t ≤ lifetime ∧ 0 ≤ s1.Ttl key t ∧
      (t = t0 → s1.Ttl key t = lifetime) := by
  obtain ⟨id, -, hq, hp⟩ := h.1 (by omega)
  have hq1 := hq key
  simp only [if_true] at hq1
  have hp1 := hp id
  simp only [if_true] at hp1
  have hpos : (0 : Int) < ticksPerSecond := by decide
  have hnn := AsyncPool.getRemainTime_nonneg s1.pool id t
  simp only [Ttl, hq1]
  by_cases hd : t ≤ t0 + lifetime * ticksPerSecond
  · obtain ⟨ha, hb⟩ := AsyncPool.getRemainTime_floor s1.pool id t _ hp1 hd
    simp only at ha hb
    generalize s1.pool.GetRemainTime id t = r at ha hb hnn
    have e1 : r * ticksPerSecond ≤ lifetime * ticksPerSecond := by omega
    have e2 : (lifetime - 1) * ticksPerSecond < (r + 1) * ticksPerSecond := by
      have : (lifetime - 1) * ticksPerSecond = lifetime * ticksPerSecond - ticksPerSecond := by
        ring
      omega
    have e3 := le_of_mul_le_mul_right e1 hpos
    have e4 := lt_of_mul_lt_mul_right e2 (le_of_lt hpos)
    refine ⟨by omega, e3, hnn, fun ht => ?_⟩
    subst ht
    have e5 : lifetime * ticksPerSecond < (r + 1) * ticksPerSecond := by omega
    have e6 := lt_of_mul_lt_mul_right e5 (le_of_lt hpos)
    omega
  · have hz := AsyncPool.getRemainTime_passed s1.pool id t _ hp1 (by simp only; omega)
    rw [hz]
    have : lifetime * ticksPerSecond < 1 * ticksPerSecond := by omega
    have e := lt_of_mul_lt_mul_right this (le_of_lt hpos)
    refine ⟨by omega, by omega, le_refl _, fun ht => ?_⟩
    subst ht
    omega

theorem cancelled_spec {present : S → K → Prop} (s s1 : Store S K) (key : K)
    (hok : Ok present s) (h : Cancelled s s1 key) :
    s1.queue.lookup key = none ∧ (∀ now, s1.Ttl key now = -1) ∧
    ∀ id, s.queue.lookup key = some id →
      ∃ info, s1.pool.find id = some info ∧ info.remove = true := by
  have hq := h.1 key
  simp only [if_true] at hq
  refine ⟨hq, fun now => ttl_unbound s1 key now hq, fun id hid => ?_⟩
  obtain ⟨-, info, hf, -⟩ := hok.2 key id hid
  exact ⟨{ info with remove := true }, by rw [h.2, hf]; simp [hid], rfl⟩

/-- What `Rename` does to the bookkeeping: the block of `Set` for `kTo` with the lifetime
`Ttl(kFrom)`, then the block of `Delete` for `kFrom`, with the clock read at one instant. -/
theorem rename_ttl {present : S → K → Prop} (s s2 s3 : Store S K) (kFrom kTo : K) (now : Int)
    (hok : Ok present s) (hne : kFrom ≠ kTo) (hto : s.queue.lookup kTo = none)
    (h1 : Scheduled s s2 kTo (s.Ttl kFrom now) now) (h2 : Cancelled s2 s3 kFrom) :
    s3.Ttl kFrom now = -1 ∧ s3.Ttl kTo now = s.Ttl kFrom now ∧
    ∀ id, s.queue.lookup kFrom = some id →
      ∃ info, s3.pool.find id = some info ∧ info.remove = true := by
  have hq3 := h2.1
  have hf3 : s3.queue.lookup kFrom = none := by simpa using hq3 kFrom
  have ht3 : s3.queue.lookup kTo = s2.queue.lookup kTo := by
    simpa [Ne.symm hne] using hq3 kTo
  refine ⟨ttl_unbound s3 kFrom now hf3, ?_, ?_⟩
  · cases hb : s.queue.lookup kFrom with
    | none =>
      have hr : s.Ttl kFrom now = -1 := ttl_unbound s kFrom now hb
      rw [hr] at h1 ⊢
      obtain ⟨hq2, -⟩ := h1.2 (by decide)
      apply ttl_unbound
      rw [ht3, hq2, hto]
    | some id0 =>
      have hr : s.Ttl kFrom now = s.pool.GetRemainTime id0 now := by simp [Ttl, hb]
      have hnn := AsyncPool.getRemainTime_nonneg s.pool id0 now
      rw [← hr] at hnn
      obtain ⟨id, hfree, hq2, hp2⟩ := h1.1 (by omega)
      have hq2to : s2.queue.lookup kTo = some id := by simpa using hq2 kTo
      have hq2from : s2.queue.lookup kFrom = some id0 := by simpa [hne, hb] using hq2 kFrom
      obtain ⟨-, info0, hf0, -⟩ := hok.2 kFrom id0 hb
      have hne0 : id ≠ id0 := fun e => by rw [e, hf0] at hfree; cases hfree
      have hp3 : s3.pool.find id =
          some ⟨kTo, false, now + s.Ttl kFrom now * ticksPerSecond, false⟩ := by
        rw [h2.2, hp2, hq2from]
        simp [Ne.symm hne0]
      have hfl := AsyncPool.getRemainTime_floor s3.pool id now _ hp3
        (by simp only; have : 0 ≤ s.Ttl kFrom now * ticksPerSecond :=
              Int.mul_nonneg hnn (by decide)
            omega)
      simp only [add_sub_cancel_left] at hfl
      have hpos : (0 : Int) < ticksPerSecond := by decide
      have e1 := le_of_mul_le_mul_right hfl.1 hpos
      have e2 := lt_of_mul_lt_mul_right hfl.2 (le_of_lt hpos)
      have hq : s3.Ttl kTo now = s3.pool.GetRemainTime id now := by simp [Ttl, ht3, hq2to]
      rw [hq]
      omega
  · intro id0 hb
    obtain ⟨-, info0, hf0, -⟩ := hok.2 kFrom id0 hb
    have hq2from : s2.queue.lookup kFrom = some id0 := by
      by_cases hl : s.Ttl kFrom now > -1
      · obtain ⟨id, -, hq2, -⟩ := h1.1 hl
        simpa [hne, hb] using hq2 kFrom
      · rw [(h1.2 hl).1]; exact hb
    have hp2 : s2.pool.find id0 = some info0 := by
      by_cases hl : s.Ttl kFrom now > -1
      · obtain ⟨id, hfree, -, hp2⟩ := h1.1 hl
        have hne0 : id0 ≠ id := fun e => by rw [← e, hf0] at hfree; cases hfree
        rw [hp2]; simp [hne0, hf0]
      · rw [(h1.2 hl).2]; exact hf0
    exact ⟨{ info0 with remove := true }, by rw [h2.2, hp2]; simp [hq2from], rfl⟩

/-- The value that `Rename` carries over, with the clock read at one instant: a key without
a binding leaves the new key without one; for a key bound to a task with the deadline `d`,
the new key is bound to a new task that holds it, with the deadline `now + r` seconds, where
`r` is the number of whole seconds from `now` to `d` (0 when `d` has passed), and `Ttl` of
the new key is `r`. -/
theorem rename_ttl_value {present : S → K → Prop} (s s2 s3 : Store S K) (kFrom kTo : K)
    (now : Int) (hok : Ok present s) (hne : kFrom ≠ kTo) (hto : s.queue.lookup kTo = none)
    (h1 : Scheduled s s2 kTo (s.Ttl kFrom now) now) (h2 : Cancelled s2 s3 kFrom) :
    (s.queue.lookup kFrom = none → s3.Ttl kTo now = -1 ∧ s3.queue.lookup kTo = none) ∧
    ∀ id, s.queue.lookup kFrom = some id →
      ∃ (info : Info K) (r : Int), s.pool.find id = some info ∧ s3.Ttl kTo now = r ∧ 0 ≤ r ∧
        (now < info.delete_time → r * ticksPerSecond ≤ info.delete_time - now ∧
          info.delete_time - now < (r + 1) * ticksPerSecond) ∧
        (info.delete_time ≤ now → r = 0) ∧
        ∃ id1, s.pool.find id1 = none ∧ s3.queue.lookup kTo = some id1 ∧
          s3.pool.find id1 = some ⟨kTo, false, now + r * ticksPerSecond, false⟩ := by
  have hq3 := h2.1
  have ht3 : s3.queue.lookup kTo = s2.queue.lookup kTo := by
    simpa [Ne.symm hne] using hq3 kTo
  obtain ⟨-, hval, -⟩ := rename_ttl s s2 s3 kFrom kTo now hok hne hto h1 h2
  refine ⟨fun hb => ?_, fun id0 hb => ?_⟩
  · have hr : s.Ttl kFrom now = -1 := ttl_unbound s kFrom now hb
    rw [hr] at h1 hval
    obtain ⟨hq2, -⟩ := h1.2 (by decide)
    exact ⟨hval, by rw [ht3, hq2, hto]⟩
  · obtain ⟨-, info0, hf0, -⟩ := hok.2 kFrom id0 hb
    have hr : s.Ttl kFrom now = s.pool.GetRemainTime id0 now := by simp [Ttl, hb]
    have hnn := AsyncPool.getRemainTime_nonneg s.pool id0 now
    rw [← hr] at hnn
    obtain ⟨id, hfree, hq2, hp2⟩ := h1.1 (by omega)
    have hq2to : s2.queue.lookup kTo = some id := by simpa using hq2 kTo
    have hq2from : s2.queue.lookup kFrom = some id0 := by simpa [hne, hb] using hq2 kFrom
    have hne0 : id ≠ id0 := fun e => by rw [e, hf0] at hfree; cases hfree
    have hp3 : s3.pool.find id =
        some ⟨kTo, false, now + s.Ttl kFrom now * ticksPerSecond, false⟩ := by
      rw [h2.2, hp2, hq2from]
      simp [Ne.symm hne0]
    refine ⟨info0, s.Ttl kFrom now, hf0, hval, hnn, fun hd => ?_, fun hd => ?_, id, hfree,
      by rw [ht3, hq2to], hp3⟩
    · rw [hr]
      exact AsyncPool.getRemainTime_floor s.pool id0 now info0 hf0 (le_of_lt hd)
    · rw [hr]
      exact AsyncPool.getRemainTime_passed s.pool id0 now info0 hf0 hd

theorem setBinds_of (s s1 : Store S K) (k : K) (b : Bool) (lifetime now : Int)
    (h0 : b = false → s1 = s)
    (h1 : b = true → s.queue.lookup k = none ∧ Scheduled s s1 k lifetime now) :
    SetBinds s s1 k b lifetime now := by
  cases b with
  | false =>
    rw [h0 rfl]
    exact ⟨fun h => (by cases h.1), fun _ => ⟨rfl, rfl⟩⟩
  | true =>
    obtain ⟨hq, hs⟩ := h1 rfl
    refine ⟨fun h => ⟨hq, ?_⟩, fun h => hs.2 fun hl => h ⟨rfl, by omega⟩⟩
    obtain ⟨id, hf, hq1, hp1⟩ := hs.1 (by omega)
    exact ⟨id, hf, by simpa using hq1 k, by simpa using hp1 id⟩

theorem unbinds_of {present : S → K → Prop} (s s1 : Store S K) (key : K)
    (hok : Ok present s) (h : Cancelled s s1 key) : Unbinds s s1 key :=
  ⟨(cancelled_spec s s1 key hok h).1, (cancelled_spec s s1 key hok h).2.2⟩

end

end Store

end s21

namespace s21

namespace HashTable

namespace Timed

section
variable {K : Type} [LinearOrder K]

/-! ### The hash table with its bookkeeping -/

theorem ht_timed_set {hash : K → Nat} {s s1 : Store (Table K) K} {k : K} {v : Person}
    {lifetime now : Int} {b : Bool} (hi : Inv hash s)
    (h : Set hash s k v lifetime now = some (b, s1)) :
    HashTable.Set hash s.data k v lifetime = some (b, s1.data) ∧ Inv hash s1 ∧
    (b = false → s1 = s) ∧
    (b = true → Exists hash s.data k = some false ∧ Exists hash s1.data k = some true ∧
      s.queue.lookup k = none ∧ Store.Scheduled s s1 k lifetime now) := by
  simp only [Set, Option.bind_eq_some] at h
  obtain ⟨⟨r, t1⟩, hd, h⟩ := h
  have hp := ht_present_set hi.1 hd
  have hinv := inv_set hi.1 hd
  cases r with
  | false =>
    simp only [Bool.false_eq_true, if_false, Option.some.injEq, Prod.mk.injEq] at h
    obtain ⟨rfl, rfl⟩ := h
    rw [hp.1 rfl] at hd
    exact ⟨hd, hi, fun _ => rfl, by simp⟩
  | true =>
    simp only [if_true, Option.map_eq_some', Prod.mk.injEq] at h
    obtain ⟨s0, hs0, rfl, rfl⟩ := h
    obtain ⟨habs, hpres⟩ := hp.2 rfl
    have hq : s.queue.lookup k = none :=
      Store.ok_unbound hi.2 k (by simp only [habs]; simp)
    have hsch := Store.scheduled_of_schedule s s0 k lifetime now hq hs0
    refine ⟨hd, ⟨hinv, ?_⟩, by simp,
      fun _ => ⟨habs, (hpres k).mpr (Or.inl rfl), hq, hsch⟩⟩
    exact Store.ok_schedule hi.2 k lifetime now hq hs0 t1
      (fun k1 id hk1 => (hpres k1).mpr (Or.inr (hi.2.2 k1 id hk1).1))
      ((hpres k).mpr (Or.inl rfl))

theorem ht_timed_delete {hash : K → Nat} {s s1 : Store (Table K) K} {k : K} {b : Bool}
    (hi : Inv hash s) (h : Delete hash s k = some (b, s1)) :
    HashTable.Delete hash s.data k = some (b, s1.data) ∧ Inv hash s1 ∧
    Exists hash s.data k = some b ∧ Store.Cancelled s s1 k := by
  simp only [Delete, Option.map_eq_some'] at h
  obtain ⟨⟨r, t1⟩, hd, h⟩ := h
  obtain ⟨hex, hsame, hpres⟩ := ht_present_delete hi.1 hd
  have hinv := inv_delete hi.1 hd
  cases r with
  | false =>
    simp only [Bool.false_eq_true, if_false, Prod.mk.injEq] at h
    obtain ⟨rfl, rfl⟩ := h
    rw [hsame rfl] at hd
    have hq : s.queue.lookup k = none :=
      Store.ok_unbound hi.2 k (by simp only [hex]; simp)
    exact ⟨hd, hi, hex, Store.cancelled_self s k s.data hq⟩
  | true =>
    simp only [if_true, Prod.mk.injEq] at h
    obtain ⟨rfl, rfl⟩ := h
    refine ⟨hd, ⟨hinv, ?_⟩, hex, Store.cancelled_cancel s k t1⟩
    exact Store.ok_cancel hi.2 k t1
      fun k1 id hne hk1 => (hpres k1).mpr ⟨hne, (hi.2.2 k1 id hk1).1⟩

theorem ht_timed_update {hash : K → Nat} {s s1 : Store (Table K) K} {k : K} {v : Person}
    {b : Bool} (hi : Inv hash s) (h : Update hash s k v = some (b, s1)) :
    HashTable.Update hash s.data k v = some (b, s1.data) ∧ Inv hash s1 ∧
    s1.queue = s.queue ∧ s1.pool = s.pool := by
  simp only [Update, Option.map_eq_some', Prod.mk.injEq] at h
  obtain ⟨⟨r, t1⟩, hd, rfl, rfl⟩ := h
  refine ⟨hd, ⟨inv_update hi.1 hd, ?_⟩, rfl, rfl⟩
  exact Store.ok_data hi.2 t1
    fun k1 id hk1 => (ht_present_update hi.1 hd k1).mpr (hi.2.2 k1 id hk1).1

theorem ht_timed_rename {hash : K → Nat} {s s1 : Store (Table K) K} {kFrom kTo : K}
    {tTtl tSet : Int} {b : Bool} (hi : Inv hash s)
    (h : Rename hash s kFrom kTo tTtl tSet = some (b, s1)) :
    HashTable.Rename hash s.data kFrom kTo (s.Ttl kFrom tTtl) = some (b, s1.data) ∧
    Inv hash s1 ∧
    (b = true → kFrom ≠ kTo → ∃ v s2,
      Set hash s kTo v (s.Ttl kFrom tTtl) tSet = some (true, s2) ∧
      Delete hash s2 kFrom = some (true, s1)) := by
  obtain ⟨bt, hbt, hit, hbkt⟩ := inv_bucket hi.1 kTo
  obtain ⟨bf, hbf, hif, hbkf⟩ := inv_bucket hi.1 kFrom
  simp only [Rename, HashTable.Rename, exists_eq hbkt, exists_eq hbkf, Option.some_bind,
    Option.map_some', hbkf] at h ⊢
  cases hT : (bt.any fun node => node.key == kTo) with
  | true =>
    simp only [hT, if_true, Option.some_bind] at h ⊢
    by_cases hsame : ((bf.any fun node => node.key == kFrom) && kFrom == kTo) = true
    · simp only [hsame, if_true, Option.some.injEq, Prod.mk.injEq] at h ⊢
      obtain ⟨rfl, rfl⟩ := h
      refine ⟨⟨rfl, rfl⟩, hi, fun _ hne => ?_⟩
      simp only [Bool.and_eq_true, beq_iff_eq] at hsame
      exact absurd hsame.2 hne
    · simp only [hsame, if_false, Option.some.injEq, Prod.mk.injEq] at h ⊢
      simp only [Bool.false_eq_true, if_false, Option.some.injEq, Prod.mk.injEq] at h ⊢
      obtain ⟨rfl, rfl⟩ := h
      exact ⟨⟨rfl, rfl⟩, hi, by simp⟩
  | false =>
    simp only [hT, Bool.false_eq_true, if_false, Option.some_bind] at h ⊢
    cases hfind : bf.find? (fun node => node.key == kFrom) with
    | none =>
      simp only [hfind, Option.some.injEq, Prod.mk.injEq] at h ⊢
      obtain ⟨rfl, rfl⟩ := h
      exact ⟨⟨rfl, rfl⟩, hi, by simp⟩
    | some node =>
      have hk : node.key = kFrom := by simpa using List.find?_some hfind
      simp only [hfind, hk, Option.bind_eq_some] at h ⊢
      obtain ⟨⟨r, s2⟩, hset, hdel⟩ := h
      obtain ⟨hs1, hs2, hs3, hs4⟩ := ht_timed_set hi hset
      obtain ⟨hd1, hd2, hd3, hd4⟩ := ht_timed_delete hs2 hdel
      refine ⟨⟨(r, s2.data), hs1, hd1⟩, hd2, fun hb _ => ?_⟩
      subst hb
      have hr : r = true := by
        cases r with
        | true => rfl
        | false =>
          rw [HashTable.Set, exists_eq hbkt, hT] at hs1
          simp [hit, hbt] at hs1
      subst hr
      exact ⟨node.value, s2, hset, hdel⟩

theorem ht_timed_fire {hash : K → Nat} {s s1 : Store (Table K) K} {id : Nat} {now : Int}
    (hi : Inv hash s) (h : Fire hash s id now = some s1) :
    Inv hash s1 ∧
      (s1.data = s.data ∨ ∃ k b, HashTable.Delete hash s.data k = some (b, s1.data)) := by
  unfold Fire at h
  cases hdue : s.pool.due id now with
  | none => rw [hdue] at h; cases h
  | some o =>
    rw [hdue] at h
    obtain ⟨info, hf, -, h1, h2⟩ := AsyncPool.due_spec _ _ _ _ hdue
    cases o with
    | none =>
      simp only [Option.some.injEq] at h
      subst h
      exact ⟨⟨hi.1, Store.ok_finish hi.2 id
        (Store.unbound_of_removed hi.2 id info hf (h1 rfl))⟩, Or.inl rfl⟩
    | some key =>
      simp only [Option.map_eq_some'] at h
      obtain ⟨⟨b, s2⟩, hdel, rfl⟩ := h
      obtain ⟨hd1, hd2, -, hd4⟩ := ht_timed_delete hi hdel
      exact ⟨⟨hd2.1, Store.ok_finish hd2.2 id
        (Store.unbound_of_cancelled hi.2 key hd4 id info hf (h2 key rfl).1)⟩,
        Or.inr ⟨key, b, hd1⟩⟩

theorem ht_timed_reachable {hash : K → Nat} {s : Store (Table K) K} (h : Reachable hash s) :
    Inv hash s ∧ HashTable.Reachable hash s.data := by
  induction h with
  | init capacity hc =>
    exact ⟨⟨ht_inv_init hash capacity hc, Store.ok_init _ _⟩,
      HashTable.Reachable.init capacity hc⟩
  | set _ hs ih =>
    obtain ⟨h1, h2, -⟩ := ht_timed_set ih.1 hs
    exact ⟨h2, HashTable.Reachable.set ih.2 h1⟩
  | update _ hs ih =>
    obtain ⟨h1, h2, -⟩ := ht_timed_update ih.1 hs
    exact ⟨h2, HashTable.Reachable.update ih.2 h1⟩
  | delete _ hs ih =>
    obtain ⟨h1, h2, -⟩ := ht_timed_delete ih.1 hs
    exact ⟨h2, HashTable.Reachable.delete ih.2 h1⟩
  | rename _ hs ih =>
    obtain ⟨h1, h2, -⟩ := ht_timed_rename ih.1 hs
    exact ⟨h2, HashTable.Reachable.rename ih.2 h1⟩
  | fire _ hs ih =>
    obtain ⟨h1, h2⟩ := ht_timed_fire ih.1 hs
    refine ⟨h1, ?_⟩
    rcases h2 with h2 | ⟨k, b, h2⟩
    · rw [h2]; exact ih.2
    · exact HashTable.Reachable.delete ih.2 h2
  | collect ids _ ih =>
    exact ⟨⟨ih.1.1, Store.ok_collect ih.1.2 ids⟩, ih.2⟩

end

end Timed

end HashTable

end s21

namespace s21

namespace RBTree

section
variable {K : Type} [LinearOrder K]

/-! ### Which keys are present after a call -/

theorem rb_present_set {t t1 : Tree K} (h : Inv t) {k : K} {v : Person} {r : Bool}
    (hs : Set t k v = some (r, t1)) :
    Inv t1 ∧ (r = false → t1 = t) ∧
    (r = true → Exists t k = false ∧
      ∀ k1, Exists t1 k1 = true ↔ (k1 = k ∨ Exists t k1 = true)) := by
  obtain ⟨b, root, h1, h2, h3, h4⟩ := rb_set_spec t h k v
  rw [hs] at h1
  simp only [Option.some.injEq, Prod.mk.injEq] at h1
  obtain ⟨rfl, rfl⟩ := h1
  refine ⟨h2, fun hr => (h3 hr).1, fun hr => ?_⟩
  obtain ⟨h5, h6⟩ := h4 hr
  refine ⟨?_, fun k1 => ?_⟩
  · rw [← Bool.not_eq_true, mem_keys_iff_exists t h k]; exact h5
  · rw [mem_keys_iff_exists t1 h2, mem_keys_iff_exists t h, h6]
    exact keys_ins k v (toList t) k1

theorem rb_present_delete {t t1 : Tree K} (h : Inv t) {k : K} {r : Bool}
    (hs : Delete t k = some (r, t1)) :
    Inv t1 ∧ r = Exists t k ∧ (r = false → t1 = t) ∧
    ∀ k1, Exists t1 k1 = true ↔ (k1 ≠ k ∧ Exists t k1 = true) := by
  obtain ⟨b, root, h1, h2, h3, h4, h5⟩ := rb_delete_spec t h k
  rw [hs] at h1
  simp only [Option.some.injEq, Prod.mk.injEq] at h1
  obtain ⟨rfl, rfl⟩ := h1
  refine ⟨h2, h3, h4, fun k1 => ?_⟩
  cases r with
  | false =>
    rw [h4 rfl]
    constructor
    · intro h6
      refine ⟨fun e => ?_, h6⟩
      rw [e, ← h3] at h6
      cases h6
    · exact fun h6 => h6.2
  | true =>
    obtain ⟨as, bs, h6, h7⟩ := h5 rfl
    rw [mem_keys_iff_exists t1 h2, mem_keys_iff_exists t h, h6, h7]
    have ha := h.2.2
    unfold Ascending at ha
    rw [h6] at ha
    have hnd : (as ++ k :: bs).Nodup := ha.imp fun hlt => ne_of_lt hlt
    rw [List.nodup_append] at hnd
    obtain ⟨-, hnd2, hdis⟩ := hnd
    rw [List.nodup_cons] at hnd2
    simp only [List.mem_append, List.mem_cons]
    constructor
    · rintro (h8 | h8)
      · exact ⟨fun e => hdis h8 (by rw [e]; exact List.mem_cons_self _ _), Or.inl h8⟩
      · exact ⟨fun e => hnd2.1 (by rw [← e]; exact h8), Or.inr (Or.inr h8)⟩
    · rintro ⟨hne, h8 | h8 | h8⟩
      · exact Or.inl h8
      · exact absurd h8 hne
      · exact Or.inr h8

theorem rb_present_update {t t1 : Tree K} (h : Inv t) {k : K} {v : Person} {r : Bool}
    (hs : Update t k v = (r, t1)) :
    Inv t1 ∧ ∀ k1, Exists t1 k1 = true ↔ Exists t k1 = true := by
  obtain ⟨b, root, h1, h2, h3, h4, h5⟩ := rb_update_spec t h k v
  rw [hs] at h1
  simp only [Prod.mk.injEq] at h1
  obtain ⟨rfl, rfl⟩ := h1
  refine ⟨h2, fun k1 => ?_⟩
  cases r with
  | false => rw [h4 rfl]
  | true =>
    obtain ⟨old, -, -, -, h6⟩ := h5 rfl
    rw [mem_keys_iff_exists t1 h2, mem_keys_iff_exists t h, h6]

end

namespace Timed

section
variable {K : Type} [LinearOrder K]

/-! ### The red-black tree with its bookkeeping -/

theorem rb_timed_set {s s1 : Store (Tree K) K} {k : K} {v : Person}
    {lifetime now : Int} {b : Bool} (hi : Inv s)
    (h : Set s k v lifetime now = some (b, s1)) :
    RBTree.Set s.data k v = some (b, s1.data) ∧ Inv s1 ∧
    (b = false → s1 = s) ∧
    (b = true → Exists s.data k = false ∧ Exists s1.data k = true ∧
      s.queue.lookup k = none ∧ Store.Scheduled s s1 k lifetime now) := by
  simp only [Set, Option.bind_eq_some] at h
  obtain ⟨⟨r, t1⟩, hd, h⟩ := h
  obtain ⟨hinv, hsame, hp⟩ := rb_present_set hi.1 hd
  cases r with
  | false =>
    simp only [Bool.false_eq_true, if_false, Option.some.injEq, Prod.mk.injEq] at h
    obtain ⟨rfl, rfl⟩ := h
    rw [hsame rfl] at hd ⊢
    exact ⟨hd, hi, fun _ => rfl, by simp⟩
  | true =>
    simp only [if_true, Option.map_eq_some', Prod.mk.injEq] at h
    obtain ⟨s0, hs0, rfl, rfl⟩ := h
    obtain ⟨habs, hpres⟩ := hp rfl
    have hq : s.queue.lookup k = none :=
      Store.ok_unbound hi.2 k (by simp only [habs]; simp)
    have hsp := Store.schedule_spec { s with data := t1 } s0 k lifetime now hq hs0
    have hsch := Store.scheduled_of_schedule { s with data := t1 } s0 k lifetime now hq hs0
    have hdata : s0.data = t1 := hsp.1
    have hok := Store.ok_schedule
      (Store.ok_data hi.2 t1 fun k1 id hk1 => (hpres k1).mpr (Or.inr (hi.2.2 k1 id hk1).1))
      k lifetime now hq hs0 t1
      (fun k1 id hk1 => (hpres k1).mpr (Or.inr (hi.2.2 k1 id hk1).1))
      ((hpres k).mpr (Or.inl rfl))
    have he : ({ s0 with data := t1 } : Store (Tree K) K) = s0 := by
      rw [← hdata]
    rw [he] at hok
    rw [hdata]
    exact ⟨hd, ⟨by rw [hdata]; exact hinv, hok⟩, by simp,
      fun _ => ⟨habs, (hpres k).mpr (Or.inl rfl), hq, hsch⟩⟩

theorem rb_timed_delete {s s1 : Store (Tree K) K} {k : K} {b : Bool}
    (hi : Inv s) (h : Delete s k = some (b, s1)) :
    RBTree.Delete s.data k = some (b, s1.data) ∧ Inv s1 ∧
    b = Exists s.data k ∧ Store.Cancelled s s1 k := by
  simp only [Delete, Option.map_eq_some', Prod.mk.injEq] at h
  obtain ⟨⟨r, t1⟩, hd, rfl, rfl⟩ := h
  rw [(Store.cancel_spec s k).1] at hd
  obtain ⟨hinv, hex, -, hpres⟩ := rb_present_delete hi.1 hd
  refine ⟨hd, ⟨hinv, ?_⟩, hex, Store.cancelled_cancel s k t1⟩
  exact Store.ok_cancel hi.2 k t1
    fun k1 id hne hk1 => (hpres k1).mpr ⟨hne, (hi.2.2 k1 id hk1).1⟩

theorem rb_timed_update {s s1 : Store (Tree K) K} {k : K} {v : Person}
    {b : Bool} (hi : Inv s) (h : Update s k v = (b, s1)) :
    RBTree.Update s.data k v = (b, s1.data) ∧ Inv s1 ∧
    s1.queue = s.queue ∧ s1.pool = s.pool := by
  simp only [Update, Prod.mk.injEq] at h
  obtain ⟨rfl, rfl⟩ := h
  obtain ⟨hinv, hpres⟩ := rb_present_update hi.1 (rfl : RBTree.Update s.data k v = (_, _))
  refine ⟨rfl, ⟨hinv, ?_⟩, rfl, rfl⟩
  exact Store.ok_data hi.2 _ fun k1 id hk1 => (hpres k1).mpr (hi.2.2 k1 id hk1).1

theorem rb_timed_rename {s s1 : Store (Tree K) K} {kFrom kTo : K}
    {tTtl tSet : Int} {b : Bool} (hi : Inv s)
    (h : Rename s kFrom kTo tTtl tSet = some (b, s1)) :
    RBTree.Rename s.data kFrom kTo = some (b, s1.data) ∧ Inv s1 ∧
    (b = true → kFrom ≠ kTo → ∃ v s2 b1,
      Set s kTo v (s.Ttl kFrom tTtl) tSet = some (true, s2) ∧
      Delete s2 kFrom = some (b1, s1)) := by
  unfold Rename at h
  unfold RBTree.Rename
  split at h
  · rename_i c l k0 value r p hg
    by_cases hk : kFrom = kTo
    · simp only [hk, if_true, Option.some.injEq, Prod.mk.injEq] at h ⊢
      obtain ⟨rfl, rfl⟩ := h
      exact ⟨⟨rfl, rfl⟩, hi, fun _ hne => absurd rfl hne⟩
    · simp only [hk, if_false, Option.bind_eq_some] at h ⊢
      obtain ⟨⟨r1, s2⟩, hset, h⟩ := h
      obtain ⟨hs1, hs2, hs3, hs4⟩ := rb_timed_set hi hset
      cases r1 with
      | false =>
        simp only [Bool.false_eq_true, if_false, Option.some.injEq, Prod.mk.injEq] at h
        obtain ⟨rfl, rfl⟩ := h
        exact ⟨⟨(false, s2.data), hs1, by simp⟩, hs2, by simp⟩
      | true =>
        simp only [if_true, Option.map_eq_some', Prod.mk.injEq] at h
        obtain ⟨⟨b1, s3⟩, hdel, rfl, rfl⟩ := h
        obtain ⟨hd1, hd2, -, -⟩ := rb_timed_delete hs2 hdel
        refine ⟨⟨(true, s2.data), hs1, ?_⟩, hd2, fun _ _ => ⟨value, s2, b1, hset, hdel⟩⟩
        simp only [if_true, Option.map_eq_some', Prod.mk.injEq]
        exact ⟨(b1, s3.data), hd1, by simp⟩
  · rename_i hg
    simp only [Option.some.injEq, Prod.mk.injEq] at h
    obtain ⟨rfl, rfl⟩ := h
    refine ⟨?_, hi, by simp⟩
    rfl

theorem rb_timed_fire {s s1 : Store (Tree K) K} {id : Nat} {now : Int}
    (hi : Inv s) (h : Fire s id now = some s1) :
    Inv s1 ∧
      (s1.data = s.data ∨ ∃ k b, RBTree.Delete s.data k = some (b, s1.data)) := by
  unfold Fire at h
  cases hdue : s.pool.due id now with
  | none => rw [hdue] at h; cases h
  | some o =>
    rw [hdue] at h
    obtain ⟨info, hf, -, h1, h2⟩ := AsyncPool.due_spec _ _ _ _ hdue
    cases o with
    | none =>
      simp only [Option.some.injEq] at h
      subst h
      exact ⟨⟨hi.1, Store.ok_finish hi.2 id
        (Store.unbound_of_removed hi.2 id info hf (h1 rfl))⟩, Or.inl rfl⟩
    | some key =>
      simp only [Option.map_eq_some'] at h
      obtain ⟨⟨b, s2⟩, hdel, rfl⟩ := h
      obtain ⟨hd1, hd2, -, hd4⟩ := rb_timed_delete hi hdel
      exact ⟨⟨hd2.1, Store.ok_finish hd2.2 id
        (Store.unbound_of_cancelled hi.2 key hd4 id info hf (h2 key rfl).1)⟩,
        Or.inr ⟨key, b, hd1⟩⟩

theorem rb_timed_reachable {s : Store (Tree K) K} (h : Reachable s) :
    Inv s ∧ RBTree.Reachable s.data := by
  induction h with
  | init => exact ⟨⟨inv_nil, Store.ok_init _ _⟩, RBTree.Reachable.empty⟩
  | set _ hs ih =>
    obtain ⟨h1, h2, -⟩ := rb_timed_set ih.1 hs
    exact ⟨h2, RBTree.Reachable.set ih.2 h1⟩
  | update _ hs ih =>
    obtain ⟨h1, h2, -⟩ := rb_timed_update ih.1 hs
    exact ⟨h2, RBTree.Reachable.update ih.2 h1⟩
  | delete _ hs ih =>
    obtain ⟨h1, h2, -⟩ := rb_timed_delete ih.1 hs
    exact ⟨h2, RBTree.Reachable.delete ih.2 h1⟩
  | rename _ hs ih =>
    obtain ⟨h1, h2, -⟩ := rb_timed_rename ih.1 hs
    exact ⟨h2, RBTree.Reachable.rename ih.2 h1⟩
  | fire _ hs ih =>
    obtain ⟨h1, h2⟩ := rb_timed_fire ih.1 hs
    refine ⟨h1, ?_⟩
    rcases h2 with h2 | ⟨k, b, h2⟩
    · rw [h2]; exact ih.2
    · exact RBTree.Reachable.delete ih.2 h2
  | collect ids _ ih =>
    exact ⟨⟨ih.1.1, Store.ok_collect ih.1.2 ids⟩, ih.2⟩

end

end Timed

end RBTree

end s21

namespace s21

namespace BPlusTree

section
variable {K : Type} [LinearOrder K]

/-! ### Which keys are present after a call -/

theorem bp_present_set {t t1 : Tree K} (h : Inv t) {k : K} {v : Person} {r : Bool}
    (hs : Set t k v = some (r, t1)) :
    Inv t1 ∧ (r = false → t1 = t) ∧
    (r = true → Exists t k = some false ∧
      ∀ k1, Exists t1 k1 = some true ↔ (k1 = k ∨ Exists t k1 = some true)) := by
  obtain ⟨b, root, h1, h2, h3, h4⟩ := bp_set_spec t h k v
  rw [hs] at h1
  simp only [Option.some.injEq, Prod.mk.injEq] at h1
  obtain ⟨rfl, rfl⟩ := h1
  refine ⟨h2, fun hr => (h3 hr).1, fun hr => ?_⟩
  obtain ⟨h5, h6⟩ := h4 hr
  refine ⟨(not_mem_keys_iff t h k).mpr h5, fun k1 => ?_⟩
  rw [mem_keys_iff t1 h2, mem_keys_iff t h, h6]
  exact keys_ins k v (toList t.root) k1

theorem bp_present_delete {t t1 : Tree K} (h : Inv t) {k : K} {r : Bool}
    (hs : Delete t k = some (r, t1)) :
    Inv t1 ∧ Exists t k = some r ∧ (r = false → t1 = t) ∧
    ∀ k1, Exists t1 k1 = some true ↔ (k1 ≠ k ∧ Exists t k1 = some true) := by
  obtain ⟨b, root, h1, h2, h3, h4, h5⟩ := bp_delete_spec t h k
  rw [hs] at h1
  simp only [Option.some.injEq, Prod.mk.injEq] at h1
  obtain ⟨rfl, rfl⟩ := h1
  refine ⟨h2, h3, h4, fun k1 => ?_⟩
  cases r with
  | false =>
    rw [h4 rfl]
    constructor
    · intro h6
      refine ⟨fun e => ?_, h6⟩
      rw [e, h3] at h6
      cases h6
    · exact fun h6 => h6.2
  | true =>
    rw [mem_keys_iff t1 h2, mem_keys_iff t h, h5 rfl]
    simp only [List.mem_map, List.mem_filter, decide_eq_true_eq]
    constructor
    · rintro ⟨e, ⟨he, hne⟩, rfl⟩
      exact ⟨hne, e, he, rfl⟩
    · rintro ⟨hne, e, he, rfl⟩
      exact ⟨e, ⟨he, hne⟩, rfl⟩

theorem bp_present_update {t t1 : Tree K} (h : Inv t) {k : K} {v : Person} {r : Bool}
    (hs : Update t k v = some (r, t1)) :
    Inv t1 ∧ ∀ k1, Exists t1 k1 = some true ↔ Exists t k1 = some true := by
  obtain ⟨b, root, h1, h2, h3, h4, h5⟩ := bp_update_spec t h k v
  rw [hs] at h1
  simp only [Option.some.injEq, Prod.mk.injEq] at h1
  obtain ⟨rfl, rfl⟩ := h1
  refine ⟨h2, fun k1 => ?_⟩
  cases r with
  | false => rw [h4 rfl]
  | true =>
    obtain ⟨old, -, -, -, h6⟩ := h5 rfl
    rw [mem_keys_iff t1 h2, mem_keys_iff t h, h6]

end

namespace Timed

section
variable {K : Type} [LinearOrder K]

/-! ### The B+ tree with its bookkeeping -/

theorem bp_timed_set {s s1 : Store (Tree K) K} {k : K} {v : Person}
    {lifetime now : Int} {b : Bool} (hi : Inv s)
    (h : Set s k v lifetime now = some (b, s1)) :
    BPlusTree.Set s.data k v = some (b, s1.data) ∧ Inv s1 ∧
    (b = false → s1 = s) ∧
    (b = true → Exists s.data k = some false ∧ Exists s1.data k = some true ∧
      s.queue.lookup k = none ∧ Store.Scheduled s s1 k lifetime now) := by
  simp only [Set, Option.bind_eq_some] at h
  obtain ⟨⟨r, t1⟩, hd, h⟩ := h
  obtain ⟨hinv, hsame, hp⟩ := bp_present_set hi.1 hd
  cases r with
  | false =>
    simp only [Bool.false_eq_true, if_false, Option.some.injEq, Prod.mk.injEq] at h
    obtain ⟨rfl, rfl⟩ := h
    rw [hsame rfl] at hd
    exact ⟨hd, hi, fun _ => rfl, by simp⟩
  | true =>
    simp only [if_true, Option.map_eq_some', Prod.mk.injEq] at h
    obtain ⟨s0, hs0, rfl, rfl⟩ := h
    obtain ⟨habs, hpres⟩ := hp rfl
    have hq : s.queue.lookup k = none :=
      Store.ok_unbound hi.2 k (by simp only [habs]; simp)
    have hsp := Store.schedule_spec { s with data := t1 } s0 k lifetime now hq hs0
    have hsch := Store.scheduled_of_schedule { s with data := t1 } s0 k lifetime now hq hs0
    have hdata : s0.data = t1 := hsp.1
    have hok := Store.ok_schedule
      (Store.ok_data hi.2 t1 fun k1 id hk1 => (hpres k1).mpr (Or.inr (hi.2.2 k1 id hk1).1))
      k lifetime now hq hs0 t1
      (fun k1 id hk1 => (hpres k1).mpr (Or.inr (hi.2.2 k1 id hk1).1))
      ((hpres k).mpr (Or.inl rfl))
    have he : ({ s0 with data := t1 } : Store (Tree K) K) = s0 := by
      rw [← hdata]
    rw [he] at hok
    rw [hdata]
    exact ⟨hd, ⟨by rw [hdata]; exact hinv, hok⟩, by simp,
      fun _ => ⟨habs, (hpres k).mpr (Or.inl rfl), hq, hsch⟩⟩

theorem bp_timed_delete {s s1 : Store (Tree K) K} {k : K} {b : Bool}
    (hi : Inv s) (h : Delete s k = some (b, s1)) :
    BPlusTree.Delete s.data k = some (b, s1.data) ∧ Inv s1 ∧
    Exists s.data k = some b ∧ Store.Cancelled s s1 k := by
  simp only [Delete, Option.map_eq_some', Prod.mk.injEq] at h
  obtain ⟨⟨r, t1⟩, hd, rfl, rfl⟩ := h
  rw [(Store.cancel_spec s k).1] at hd
  obtain ⟨hinv, hex, -, hpres⟩ := bp_present_delete hi.1 hd
  refine ⟨hd, ⟨hinv, ?_⟩, hex, Store.cancelled_cancel s k t1⟩
  exact Store.ok_cancel hi.2 k t1
    fun k1 id hne hk1 => (hpres k1).mpr ⟨hne, (hi.2.2 k1 id hk1).1⟩

theorem bp_timed_update {s s1 : Store (Tree K) K} {k : K} {v : Person}
    {b : Bool} (hi : Inv s) (h : Update s k v = some (b, s1)) :
    BPlusTree.Update s.data k v = some (b, s1.data) ∧ Inv s1 ∧
    s1.queue = s.queue ∧ s1.pool = s.pool := by
  simp only [Update, Option.map_eq_some', Prod.mk.injEq] at h
  obtain ⟨⟨r, t1⟩, hd, rfl, rfl⟩ := h
  obtain ⟨hinv, hpres⟩ := bp_present_update hi.1 hd
  refine ⟨hd, ⟨hinv, ?_⟩, rfl, rfl⟩
  exact Store.ok_data hi.2 t1 fun k1 id hk1 => (hpres k1).mpr (hi.2.2 k1 id hk1).1

theorem bp_timed_rename {s s1 : Store (Tree K) K} {kFrom kTo : K}
    {tTtl tSet : Int} {b : Bool} (hi : Inv s)
    (h : Rename s kFrom kTo tTtl tSet = some (b, s1)) :
    BPlusTree.Rename s.data kFrom kTo = some (b, s1.data) ∧ Inv s1 ∧
    (b = true → kFrom ≠ kTo → ∃ v s2 b1,
      Set s kTo v (s.Ttl kFrom tTtl) tSet = some (true, s2) ∧
      Delete s2 kFrom = some (b1, s1)) := by
  unfold Rename at h
  unfold BPlusTree.Rename
  split at h
  · rename_i id keys data next p hg
    by_cases hmem : kFrom ∈ keys
    · simp only [hmem, if_true] at h ⊢
      by_cases hk : kFrom = kTo
      · simp only [hk, if_true, Option.some.injEq, Prod.mk.injEq] at h ⊢
        obtain ⟨rfl, rfl⟩ := h
        exact ⟨⟨rfl, rfl⟩, hi, fun _ hne => absurd rfl hne⟩
      · simp only [hk, if_false, Option.bind_eq_some] at h ⊢
        obtain ⟨value, hv, ⟨r1, s2⟩, hset, h⟩ := h
        obtain ⟨hs1, hs2, hs3, hs4⟩ := bp_timed_set hi hset
        cases r1 with
        | false =>
          simp only [Bool.false_eq_true, if_false, Option.some.injEq, Prod.mk.injEq] at h
          obtain ⟨rfl, rfl⟩ := h
          exact ⟨⟨value, hv, (false, s2.data), hs1, by simp⟩, hs2, by simp⟩
        | true =>
          simp only [if_true, Option.map_eq_some', Prod.mk.injEq] at h
          obtain ⟨⟨b1, s3⟩, hdel, rfl, rfl⟩ := h
          obtain ⟨hd1, hd2, -, -⟩ := bp_timed_delete hs2 hdel
          refine ⟨⟨value, hv, (true, s2.data), hs1, ?_⟩, hd2,
            fun _ _ => ⟨value, s2, b1, hset, hdel⟩⟩
          simp only [if_true, Option.map_eq_some', Prod.mk.injEq]
          exact ⟨(b1, s3.data), hd1, by simp⟩
    · simp only [hmem, if_false, Option.some.injEq, Prod.mk.injEq] at h ⊢
      obtain ⟨rfl, rfl⟩ := h
      exact ⟨⟨rfl, rfl⟩, hi, by simp⟩
  · cases h

theorem bp_timed_fire {s s1 : Store (Tree K) K} {id : Nat} {now : Int}
    (hi : Inv s) (h : Fire s id now = some s1) :
    Inv s1 ∧
      (s1.data = s.data ∨ ∃ k b, BPlusTree.Delete s.data k = some (b, s1.data)) := by
  unfold Fire at h
  cases hdue : s.pool.due id now with
  | none => rw [hdue] at h; cases h
  | some o =>
    rw [hdue] at h
    obtain ⟨info, hf, -, h1, h2⟩ := AsyncPool.due_spec _ _ _ _ hdue
    cases o with
    | none =>
      simp only [Option.some.injEq] at h
      subst h
      exact ⟨⟨hi.1, Store.ok_finish hi.2 id
        (Store.unbound_of_removed hi.2 id info hf (h1 rfl))⟩, Or.inl rfl⟩
    | some key =>
      simp only [Option.map_eq_some'] at h
      obtain ⟨⟨b, s2⟩, hdel, rfl⟩ := h
      obtain ⟨hd1, hd2, -, hd4⟩ := bp_timed_delete hi hdel
      exact ⟨⟨hd2.1, Store.ok_finish hd2.2 id
        (Store.unbound_of_cancelled hi.2 key hd4 id info hf (h2 key rfl).1)⟩,
        Or.inr ⟨key, b, hd1⟩⟩

theorem bp_timed_reachable {s : Store (Tree K) K} (h : Reachable s) :
    Inv s ∧ BPlusTree.Reachable s.data := by
  induction h with
  | init => exact ⟨⟨bp_inv_init, Store.ok_init _ _⟩, BPlusTree.Reachable.init⟩
  | set _ hs ih =>
    obtain ⟨h1, h2, -⟩ := bp_timed_set ih.1 hs
    exact ⟨h2, BPlusTree.Reachable.set ih.2 h1⟩
  | update _ hs ih =>
    obtain ⟨h1, h2, -⟩ := bp_timed_update ih.1 hs
    exact ⟨h2, BPlusTree.Reachable.update ih.2 h1⟩
  | delete _ hs ih =>
    obtain ⟨h1, h2, -⟩ := bp_timed_delete ih.1 hs
    exact ⟨h2, BPlusTree.Reachable.delete ih.2 h1⟩
  | rename _ hs ih =>
    obtain ⟨h1, h2, -⟩ := bp_timed_rename ih.1 hs
    exact ⟨h2, BPlusTree.Reachable.rename ih.2 h1⟩
  | fire _ hs ih =>
    obtain ⟨h1, h2⟩ := bp_timed_fire ih.1 hs
    refine ⟨h1, ?_⟩
    rcases h2 with h2 | ⟨k, b, h2⟩
    · rw [h2]; exact ih.2
    · exact BPlusTree.Reachable.delete ih.2 h2
  | collect ids _ ih =>
    exact ⟨⟨ih.1.1, Store.ok_collect ih.1.2 ids⟩, ih.2⟩

end

end Timed

end BPlusTree

end s21

namespace s21

namespace AsyncPool

section
variable {A : Type}

/-! ### The ids of the scheduler -/

theorem lookup_none_of_lt_id (n : Nat) : ∀ (es : List (Nat × Info A)),
    (∀ e ∈ es, e.1 < n) → es.lookup n = none
  | [], _ => rfl
  | (i, info) :: es, h => by
    rw [lookup_cons_eq]
    have hi : i < n := h (i, info) (List.mem_cons_self _ _)
    have hne : n ≠ i := by omega
    simp only [hne, if_false]
    exact lookup_none_of_lt_id n es fun e he => h e (List.mem_cons_of_mem _ he)

theorem find_none_of_lt (p : AsyncPool A) (n : Nat)
    (h : ∀ e ∈ p.tasks, e.1 < n) : p.find n = none :=
  lookup_none_of_lt_id n p.tasks h

/-- Before the counter wraps, `last_id_` is the number of calls of `DelayTask` so far and
every task has a smaller id. -/
theorem reachable_ids {n : Nat} {p : AsyncPool A} (h : Reachable n p) (hn : n < sizeMod) :
    p.last_id = n ∧ ∀ e ∈ p.tasks, e.1 < n := by
  induction h with
  | init => exact ⟨rfl, fun e he => by cases he⟩
  | @delay n p p1 now sec task id _ hd ih =>
    obtain ⟨h1, h2⟩ := ih (by omega)
    simp only [DelayTask, skipUsed, h1, find_none_of_lt p n h2, Option.map_some',
      Option.some.injEq, Prod.mk.injEq] at hd
    obtain ⟨rfl, rfl⟩ := hd
    refine ⟨Nat.mod_eq_of_lt hn, fun e he => ?_⟩
    rcases List.mem_cons.mp he with rfl | he
    · exact Nat.lt_succ_self _
    · exact Nat.lt_succ_of_lt (h2 e he)
  | stop id _ ih =>
    obtain ⟨h1, h2⟩ := ih hn
    refine ⟨h1, fun e he => ?_⟩
    simp only [StopTask, List.mem_map] at he
    obtain ⟨e0, he0, rfl⟩ := he
    have := h2 e0 he0
    split <;> exact this
  | finish id _ ih =>
    obtain ⟨h1, h2⟩ := ih hn
    refine ⟨h1, fun e he => ?_⟩
    simp only [finish, List.mem_map] at he
    obtain ⟨e0, he0, rfl⟩ := he
    have := h2 e0 he0
    split <;> exact this
  | collect ids _ ih =>
    obtain ⟨h1, h2⟩ := ih hn
    exact ⟨h1, fun e he => h2 e (List.mem_of_mem_filter he)⟩

/-- The call number `n + 1` of `DelayTask` returns the id `n`, as long as `n < 2 ^ 64`. -/
theorem delayTask_reachable {n : Nat} {p : AsyncPool A} (h : Reachable n p)
    (hn : n < sizeMod) (now sec : Int) (task : A) :
    ∃ p1, p.DelayTask now sec task = some (n, p1) := by
  obtain ⟨h1, h2⟩ := reachable_ids h hn
  simp only [DelayTask, skipUsed, h1, find_none_of_lt p n h2, Option.map_some']
  exact ⟨_, rfl⟩

end

end AsyncPool

namespace HashTable

theorem ht_timed_sample_reachable : Timed.Reachable sampleHash Timed.sample :=
  @Timed.Reachable.set Nat _ sampleHash _ _ 1 samplePerson 5 0 true
    (Timed.Reachable.init 4 (by decide)) rfl

end HashTable

namespace RBTree

theorem rb_timed_sample_reachable : Timed.Reachable Timed.sample :=
  @Timed.Reachable.set Nat _ _ _ 1 samplePerson 5 0 true Timed.Reachable.init rfl

end RBTree

namespace BPlusTree

theorem bp_timed_sample_reachable : Timed.Reachable Timed.sample :=
  @Timed.Reachable.set Nat _ _ _ 1 samplePerson 5 0 true Timed.Reachable.init rfl

end BPlusTree

end s21

namespace s21

/-! ## The claims about the time to live -/

section
variable (K : Type) [LinearOrder K]

/-- Claim C24: in each of the three backends and every reachable store with its
bookkeeping, `Ttl(k)` is -1 whenever `k` has no scheduled deletion: when `k` has no binding,
in particular when `k` is absent, and after a `Set(k, v, lifetime)` with a negative
`lifetime` that returned true. A `Set` with a negative lifetime leaves the scheduler and
the map of bindings as they were: it registers no task. -/
theorem ttl_minus_one_without_task :
    (∀ (hash : K → Nat) (s : Store (HashTable.Table K) K) (k : K),
      HashTable.Timed.Reachable hash s →
      (∀ now, s.queue.lookup k = none → s.Ttl k now = -1) ∧
      (HashTable.Exists hash s.data k = some false → ∀ now, s.Ttl k now = -1) ∧
      ∀ (v : Person) (lifetime now : Int) (b : Bool) (s1 : Store (HashTable.Table K) K),
        lifetime < 0 → HashTable.Timed.Set hash s k v lifetime now = some (b, s1) →
        s1.pool = s.pool ∧ s1.queue = s.queue ∧ (b = true → ∀ t, s1.Ttl k t = -1)) ∧
    (∀ (s : Store (RBTree.Tree K) K) (k : K), RBTree.Timed.Reachable s →
      (∀ now, s.queue.lookup k = none → s.Ttl k now = -1) ∧
      (RBTree.Exists s.data k = false → ∀ now, s.Ttl k now = -1) ∧
      ∀ (v : Person) (lifetime now : Int) (b : Bool) (s1 : Store (RBTree.Tree K) K),
        lifetime < 0 → RBTree.Timed.Set s k v lifetime now = some (b, s1) →
        s1.pool = s.pool ∧ s1.queue = s.queue ∧ (b = true → ∀ t, s1.Ttl k t = -1)) ∧
    (∀ (s : Store (BPlusTree.Tree K) K) (k : K), BPlusTree.Timed.Reachable s →
      (∀ now, s.queue.lookup k = none → s.Ttl k now = -1) ∧
      (BPlusTree.Exists s.data k = some false → ∀ now, s.Ttl k now = -1) ∧
      ∀ (v : Person) (lifetime now : Int) (b : Bool) (s1 : Store (BPlusTree.Tree K) K),
        lifetime < 0 → BPlusTree.Timed.Set s k v lifetime now = some (b, s1) →
        s1.pool = s.pool ∧ s1.queue = s.queue ∧ (b = true → ∀ t, s1.Ttl k t = -1)) := by
  refine ⟨fun hash s k hr => ?_, fun s k hr => ?_, fun s k hr => ?_⟩
  · have hi := (HashTable.Timed.ht_timed_reachable hr).1
    refine ⟨fun now hq => Store.ttl_unbound s k now hq, fun habs now =>
      Store.ttl_unbound s k now (Store.ok_unbound hi.2 k (by simp only [habs]; simp)), ?_⟩
    intro v lifetime now b s1 hl hs
    obtain ⟨-, -, h0, h1⟩ := HashTable.Timed.ht_timed_set hi hs
    have hb := Store.setBinds_of s s1 k b lifetime now h0
      fun hb => ⟨(h1 hb).2.2.1, (h1 hb).2.2.2⟩
    obtain ⟨hq, hp⟩ := hb.2 fun h => by omega
    exact ⟨hp, hq, fun hb t => Store.ttl_unbound s1 k t (by rw [hq]; exact (h1 hb).2.2.1)⟩
  · have hi := (RBTree.Timed.rb_timed_reachable hr).1
    refine ⟨fun now hq => Store.ttl_unbound s k now hq, fun habs now =>
      Store.ttl_unbound s k now (Store.ok_unbound hi.2 k (by simp only [habs]; simp)), ?_⟩
    intro v lifetime now b s1 hl hs
    obtain ⟨-, -, h0, h1⟩ := RBTree.Timed.rb_timed_set hi hs
    have hb := Store.setBinds_of s s1 k b lifetime now h0
      fun hb => ⟨(h1 hb).2.2.1, (h1 hb).2.2.2⟩
    obtain ⟨hq, hp⟩ := hb.2 fun h => by omega
    exact ⟨hp, hq, fun hb t => Store.ttl_unbound s1 k t (by rw [hq]; exact (h1 hb).2.2.1)⟩
  · have hi := (BPlusTree.Timed.bp_timed_reachable hr).1
    refine ⟨fun now hq => Store.ttl_unbound s k now hq, fun habs now =>
      Store.ttl_unbound s k now (Store.ok_unbound hi.2 k (by simp only [habs]; simp)), ?_⟩
    intro v lifetime now b s1 hl hs
    obtain ⟨-, -, h0, h1⟩ := BPlusTree.Timed.bp_timed_set hi hs
    have hb := Store.setBinds_of s s1 k b lifetime now h0
      fun hb => ⟨(h1 hb).2.2.1, (h1 hb).2.2.2⟩
    obtain ⟨hq, hp⟩ := hb.2 fun h => by omega
    exact ⟨hp, hq, fun hb t => Store.ttl_unbound s1 k t (by rw [hq]; exact (h1 hb).2.2.1)⟩

/-- Claim C25: in each of the three backends, with the scheduler as explicit state, and in
every store reachable by `Set` (any lifetime), `Update`, `Delete`, `Rename`, the tasks that
fire and the passes of the collector: every key that has a binding is present in the
store; a `Set` creates a binding exactly when it returns true with `lifetime ≥ 0`, and
otherwise leaves the map and the scheduler as they were (`Store.SetBinds`); and after
`Delete(k)` the key has no binding and the task it was bound to is marked removed
(`Store.Unbinds`). -/
theorem ttl_binding_invariant :
    (∀ (hash : K → Nat) (s : Store (HashTable.Table K) K), HashTable.Timed.Reachable hash s →
      (∀ k id, s.queue.lookup k = some id → HashTable.Exists hash s.data k = some true) ∧
      (∀ k v lifetime now b s1, HashTable.Timed.Set hash s k v lifetime now = some (b, s1) →
        Store.SetBinds s s1 k b lifetime now) ∧
      (∀ k b s1, HashTable.Timed.Delete hash s k = some (b, s1) → Store.Unbinds s s1 k)) ∧
    (∀ (s : Store (RBTree.Tree K) K), RBTree.Timed.Reachable s →
      (∀ k id, s.queue.lookup k = some id → RBTree.Exists s.data k = true) ∧
      (∀ k v lifetime now b s1, RBTree.Timed.Set s k v lifetime now = some (b, s1) →
        Store.SetBinds s s1 k b lifetime now) ∧
      (∀ k b s1, RBTree.Timed.Delete s k = some (b, s1) → Store.Unbinds s s1 k)) ∧
    (∀ (s : Store (BPlusTree.Tree K) K), BPlusTree.Timed.Reachable s →
      (∀ k id, s.queue.lookup k = some id → BPlusTree.Exists s.data k = some true) ∧
      (∀ k v lifetime now b s1, BPlusTree.Timed.Set s k v lifetime now = some (b, s1) →
        Store.SetBinds s s1 k b lifetime now) ∧
      (∀ k b s1, BPlusTree.Timed.Delete s k = some (b, s1) → Store.Unbinds s s1 k)) := by
  refine ⟨fun hash s hr => ?_, fun s hr => ?_, fun s hr => ?_⟩
  · have hi := (HashTable.Timed.ht_timed_reachable hr).1
    refine ⟨fun k id hk => (hi.2.2 k id hk).1, fun k v lifetime now b s1 hs => ?_,
      fun k b s1 hd => ?_⟩
    · obtain ⟨-, -, h0, h1⟩ := HashTable.Timed.ht_timed_set hi hs
      exact Store.setBinds_of s s1 k b lifetime now h0
        fun hb => ⟨(h1 hb).2.2.1, (h1 hb).2.2.2⟩
    · exact Store.unbinds_of s s1 k hi.2 (HashTable.Timed.ht_timed_delete hi hd).2.2.2
  · have hi := (RBTree.Timed.rb_timed_reachable hr).1
    refine ⟨fun k id hk => (hi.2.2 k id hk).1, fun k v lifetime now b s1 hs => ?_,
      fun k b s1 hd => ?_⟩
    · obtain ⟨-, -, h0, h1⟩ := RBTree.Timed.rb_timed_set hi hs
      exact Store.setBinds_of s s1 k b lifetime now h0
        fun hb => ⟨(h1 hb).2.2.1, (h1 hb).2.2.2⟩
    · exact Store.unbinds_of s s1 k hi.2 (RBTree.Timed.rb_timed_delete hi hd).2.2.2
  · have hi := (BPlusTree.Timed.bp_timed_reachable hr).1
    refine ⟨fun k id hk => (hi.2.2 k id hk).1, fun k v lifetime now b s1 hs => ?_,
      fun k b s1 hd => ?_⟩
    · obtain ⟨-, -, h0, h1⟩ := BPlusTree.Timed.bp_timed_set hi hs
      exact Store.setBinds_of s s1 k b lifetime now h0
        fun hb => ⟨(h1 hb).2.2.1, (h1 hb).2.2.2⟩
    · exact Store.unbinds_of s s1 k hi.2 (BPlusTree.Timed.bp_timed_delete hi hd).2.2.2

/-- Claim C26: in each of the three backends, with the clock read at the one instant `now`:
when `Rename(kFrom, kTo)` with `kFrom ≠ kTo` returns true on a reachable store, afterwards
`Ttl(kFrom)` is -1, `Ttl(kTo)` is the value `Ttl(kFrom)` had before the call, and the task
`kFrom` was bound to is marked removed. The value is -1, with no task for `kTo`, when `kFrom`
had no scheduled deletion; otherwise it is the number of whole seconds that remained until
the deadline of the task of `kFrom`, and `kTo` has a new task with that lifetime
(`Store.TtlMoved`). -/
theorem rename_moves_ttl :
    (∀ (hash : K → Nat) (s s1 : Store (HashTable.Table K) K) (kFrom kTo : K) (now : Int),
      HashTable.Timed.Reachable hash s → kFrom ≠ kTo →
      HashTable.Timed.Rename hash s kFrom kTo now now = some (true, s1) →
      Store.TtlMoved s s1 kFrom kTo now) ∧
    (∀ (s s1 : Store (RBTree.Tree K) K) (kFrom kTo : K) (now : Int),
      RBTree.Timed.Reachable s → kFrom ≠ kTo →
      RBTree.Timed.Rename s kFrom kTo now now = some (true, s1) →
      Store.TtlMoved s s1 kFrom kTo now) ∧
    (∀ (s s1 : Store (BPlusTree.Tree K) K) (kFrom kTo : K) (now : Int),
      BPlusTree.Timed.Reachable s → kFrom ≠ kTo →
      BPlusTree.Timed.Rename s kFrom kTo now now = some (true, s1) →
      Store.TtlMoved s s1 kFrom kTo now) := by
  refine ⟨fun hash s s1 kFrom kTo now hr hne h => ?_, fun s s1 kFrom kTo now hr hne h => ?_,
    fun s s1 kFrom kTo now hr hne h => ?_⟩
  · have hi := (HashTable.Timed.ht_timed_reachable hr).1
    obtain ⟨v, s2, hset, hdel⟩ := (HashTable.Timed.ht_timed_rename hi h).2.2 rfl hne
    obtain ⟨-, hi2, -, h1⟩ := HashTable.Timed.ht_timed_set hi hset
    obtain ⟨-, -, hq, hsch⟩ := h1 rfl
    obtain ⟨a1, a2, a3⟩ := Store.rename_ttl s s2 s1 kFrom kTo now hi.2 hne hq hsch
      (HashTable.Timed.ht_timed_delete hi2 hdel).2.2.2
    obtain ⟨a4, a5⟩ := Store.rename_ttl_value s s2 s1 kFrom kTo now hi.2 hne hq hsch
      (HashTable.Timed.ht_timed_delete hi2 hdel).2.2.2
    exact ⟨a1, a2, a3, a4, a5⟩
  · have hi := (RBTree.Timed.rb_timed_reachable hr).1
    obtain ⟨v, s2, b1, hset, hdel⟩ := (RBTree.Timed.rb_timed_rename hi h).2.2 rfl hne
    obtain ⟨-, hi2, -, h1⟩ := RBTree.Timed.rb_timed_set hi hset
    obtain ⟨-, -, hq, hsch⟩ := h1 rfl
    obtain ⟨a1, a2, a3⟩ := Store.rename_ttl s s2 s1 kFrom kTo now hi.2 hne hq hsch
      (RBTree.Timed.rb_timed_delete hi2 hdel).2.2.2
    obtain ⟨a4, a5⟩ := Store.rename_ttl_value s s2 s1 kFrom kTo now hi.2 hne hq hsch
      (RBTree.Timed.rb_timed_delete hi2 hdel).2.2.2
    exact ⟨a1, a2, a3, a4, a5⟩
  · have hi := (BPlusTree.Timed.bp_timed_reachable hr).1
    obtain ⟨v, s2, b1, hset, hdel⟩ := (BPlusTree.Timed.bp_timed_rename hi h).2.2 rfl hne
    obtain ⟨-, hi2, -, h1⟩ := BPlusTree.Timed.bp_timed_set hi hset
    obtain ⟨-, -, hq, hsch⟩ := h1 rfl
    obtain ⟨a1, a2, a3⟩ := Store.rename_ttl s s2 s1 kFrom kTo now hi.2 hne hq hsch
      (BPlusTree.Timed.bp_timed_delete hi2 hdel).2.2.2
    obtain ⟨a4, a5⟩ := Store.rename_ttl_value s s2 s1 kFrom kTo now hi.2 hne hq hsch
      (BPlusTree.Timed.bp_timed_delete hi2 hdel).2.2.2
    exact ⟨a1, a2, a3, a4, a5⟩

/-- Claim C27: with the clock as a parameter. In each of the three backends, when
`Set(k, v, T)` with `T ≥ 0` returns true at the instant `t0` on a reachable store, `Ttl(k)`
read at an instant `t` with `t0 ≤ t < t0 + 1 s` on the store the call left is `T - 1` or
`T` and is not negative (`Store.TtlFresh`). `GetRemainTime(id)` is never negative, is 0 when
the id is unknown or the deadline has passed, and before the deadline is the number of whole
seconds that remain. -/
theorem ttl_after_set_bounds :
    (∀ (hash : K → Nat) (s s1 : Store (HashTable.Table K) K) (k : K) (v : Person) (T t0 : Int),
      HashTable.Timed.Reachable hash s → 0 ≤ T →
      HashTable.Timed.Set hash s k v T t0 = some (true, s1) → Store.TtlFresh s1 k T t0) ∧
    (∀ (s s1 : Store (RBTree.Tree K) K) (k : K) (v : Person) (T t0 : Int),
      RBTree.Timed.Reachable s → 0 ≤ T →
      RBTree.Timed.Set s k v T t0 = some (true, s1) → Store.TtlFresh s1 k T t0) ∧
    (∀ (s s1 : Store (BPlusTree.Tree K) K) (k : K) (v : Person) (T t0 : Int),
      BPlusTree.Timed.Reachable s → 0 ≤ T →
      BPlusTree.Timed.Set s k v T t0 = some (true, s1) → Store.TtlFresh s1 k T t0) ∧
    (∀ (p : AsyncPool K) (id : Nat) (now : Int),
      0 ≤ p.GetRemainTime id now ∧
      (p.find id = none → p.GetRemainTime id now = 0) ∧
      ∀ info, p.find id = some info →
        (info.delete_time ≤ now → p.GetRemainTime id now = 0) ∧
        (now ≤ info.delete_time →
          p.GetRemainTime id now * ticksPerSecond ≤ info.delete_time - now ∧
          info.delete_time - now < (p.GetRemainTime id now + 1) * ticksPerSecond)) := by
  refine ⟨fun hash s s1 k v T t0 hr hT h => ?_, fun s s1 k v T t0 hr hT h => ?_,
    fun s s1 k v T t0 hr hT h => ?_, fun p id now => ?_⟩
  · have hi := (HashTable.Timed.ht_timed_reachable hr).1
    obtain ⟨-, -, -, hsch⟩ := (HashTable.Timed.ht_timed_set hi h).2.2.2 rfl
    intro t h0 h1
    obtain ⟨e1, e2, e3, -⟩ := Store.ttl_scheduled s s1 k T t0 hsch hT t h0 h1
    exact ⟨e1, e2, e3⟩
  · have hi := (RBTree.Timed.rb_timed_reachable hr).1
    obtain ⟨-, -, -, hsch⟩ := (RBTree.Timed.rb_timed_set hi h).2.2.2 rfl
    intro t h0 h1
    obtain ⟨e1, e2, e3, -⟩ := Store.ttl_scheduled s s1 k T t0 hsch hT t h0 h1
    exact ⟨e1, e2, e3⟩
  · have hi := (BPlusTree.Timed.bp_timed_reachable hr).1
    obtain ⟨-, -, -, hsch⟩ := (BPlusTree.Timed.bp_timed_set hi h).2.2.2 rfl
    intro t h0 h1
    obtain ⟨e1, e2, e3, -⟩ := Store.ttl_scheduled s s1 k T t0 hsch hT t h0 h1
    exact ⟨e1, e2, e3⟩
  · exact ⟨AsyncPool.getRemainTime_nonneg p id now, AsyncPool.getRemainTime_unknown p id now,
      fun info hf => ⟨AsyncPool.getRemainTime_passed p id now info hf,
        AsyncPool.getRemainTime_floor p id now info hf⟩⟩

end

/-- Claim C28 as it stands fails: on a freshly constructed scheduler `DelayTask` returns
the id 0 (`last_id_` starts at 0 and `last_id_++` is returned). -/
theorem delayTask_first_id_zero :
    (AsyncPool.init : AsyncPool Nat).DelayTask 0 5 1 = some (0, samplePool) := rfl

/-- The amended claim C28: the id that `DelayTask` returns is nonzero in every state that a
scheduler reaches after at least one and fewer than `2 ^ 64` calls of `DelayTask`: the call
number `n + 1` returns the id `n`. -/
theorem delayTask_id_nonzero (A : Type) (n : Nat) (p : AsyncPool A)
    (hr : AsyncPool.Reachable n p) (h0 : 0 < n) (hn : n < sizeMod) (now sec : Int) (task : A) :
    ∃ id p1, p.DelayTask now sec task = some (id, p1) ∧ id = n ∧ id ≠ 0 := by
  obtain ⟨p1, h⟩ := AsyncPool.delayTask_reachable hr hn now sec task
  exact ⟨n, p1, h, rfl, by omega⟩

end s21

namespace s21

/-! ## The reader undoes the writer -/

namespace IStream

theorem dropWhile_spaces (ws : List Char) (d : Char) (rest : List Char)
    (hws : ∀ c ∈ ws, isspace c = true) (hd : isspace d = false) :
    (ws ++ d :: rest).dropWhile isspace = d :: rest := by
  induction ws with
  | nil => simp [List.dropWhile, hd]
  | cons c ws ih =>
    have hc := hws c (List.mem_cons_self _ _)
    simp only [List.cons_append, List.dropWhile, hc]
    exact ih fun x hx => hws x (List.mem_cons_of_mem _ hx)

theorem takeWhile_word (word rest : List Char) (hw : ∀ c ∈ word, isspace c = false)
    (hr : ∀ r ∈ rest.head?, isspace r = true) :
    (word ++ rest).takeWhile (fun c => !isspace c) = word ∧
      (word ++ rest).dropWhile (fun c => !isspace c) = rest := by
  induction word with
  | nil =>
    cases rest with
    | nil => simp
    | cons r rs =>
      have := hr r (by simp)
      simp [List.takeWhile, List.dropWhile, this]
  | cons c word ih =>
    have hc := hw c (List.mem_cons_self _ _)
    obtain ⟨h1, h2⟩ := ih fun x hx => hw x (List.mem_cons_of_mem _ hx)
    simp [List.takeWhile, List.dropWhile, hc, h1, h2]

/-- `stream >> str` on white space, a word and what follows it. -/
theorem getString_word (old ws word rest : List Char) (hws : ∀ c ∈ ws, isspace c = true)
    (hne : word ≠ []) (hw : ∀ c ∈ word, isspace c = false)
    (hr : ∀ r ∈ rest.head?, isspace r = true) :
    getString old ⟨ws ++ (word ++ rest), false, false⟩ =
      (word, ⟨rest, rest.isEmpty, false⟩) := by
  obtain ⟨c, w, rfl⟩ := List.exists_cons_of_ne_nil hne
  have hc := hw c (List.mem_cons_self _ _)
  obtain ⟨h1, h2⟩ := takeWhile_word (c :: w) rest hw hr
  simp only [getString, sentry, good, Bool.not_false, Bool.and_self, if_true,
    List.cons_append, dropWhile_spaces ws c (w ++ rest) hws hc]
  simp only [List.cons_append] at h1 h2
  simp [h1, h2]

theorem quotedLoop_escaped (str : List Char) : ∀ (acc rest : List Char),
    quotedLoop false acc
      ((str.flatMap fun c => if c = '"' ∨ c = '\\' then ['\\', c] else [c]) ++ '"' :: rest) =
      (acc ++ str, ⟨rest, false, false⟩) := by
  induction str with
  | nil => intro acc rest; simp [quotedLoop]
  | cons c str ih =>
    intro acc rest
    simp only [List.flatMap_cons, List.append_assoc]
    by_cases h1 : c = '\\'
    · subst h1
      simp only [or_true, if_true, List.cons_append, List.nil_append, quotedLoop, List.append_eq]
      rw [ih]
      simp
    · by_cases h2 : c = '"'
      · subst h2
        simp only [true_or, if_true, List.cons_append, List.nil_append, quotedLoop, List.append_eq]
        rw [ih]
        simp
      · simp only [h1, h2, or_self, if_false, List.cons_append, List.nil_append, quotedLoop,
          List.append_eq]
        rw [ih]
        simp

/-- `stream >> std::quoted(str)` on white space, a quoted text and what follows it. -/
theorem getQuoted_quoted (old ws str rest : List Char) (hws : ∀ c ∈ ws, isspace c = true) :
    getQuoted old ⟨ws ++ (quoted str ++ rest), false, false⟩ =
      (str, ⟨rest, false, false⟩) := by
  have hq : isspace '"' = false := by decide
  simp only [getQuoted, getChar, sentry, good, Bool.not_false, Bool.and_self, if_true, quoted,
    List.cons_append, dropWhile_spaces ws '"' _ hws hq, List.append_assoc]
  have := quotedLoop_escaped str [] rest
  simpa using this

end IStream

namespace Person

/-- The reader on white space, the text written for a record and what follows it. -/
theorem read_write (old p : Person) (ws rest : List Char) (hws : ∀ c ∈ ws, isspace c = true)
    (hb : p.birthday.data ≠ []) (hbs : ∀ c ∈ p.birthday.data, isspace c = false)
    (hc : p.coins.data ≠ []) (hcs : ∀ c ∈ p.coins.data, isspace c = false)
    (hr : ∀ r ∈ rest.head?, isspace r = true) :
    read old ⟨ws ++ (p.write ++ rest), false, false⟩ =
      (p, ⟨rest, rest.isEmpty, false⟩) := by
  have hsp : ∀ c ∈ [' '], isspace c = true := by
    intro c hc
    simp only [List.mem_singleton] at hc
    subst hc
    decide
  have e1 : ws ++ (p.write ++ rest) = ws ++ (quoted p.last_name.data ++
      ([' '] ++ (quoted p.first_name.data ++ ([' '] ++ (p.birthday.data ++
        ([' '] ++ (quoted p.city.data ++ ([' '] ++ (p.coins.data ++ rest))))))))) := by
    simp [write]
  have h1 := IStream.getQuoted_quoted old.last_name.data ws p.last_name.data
    ([' '] ++ (quoted p.first_name.data ++ ([' '] ++ (p.birthday.data ++
      ([' '] ++ (quoted p.city.data ++ ([' '] ++ (p.coins.data ++ rest)))))))) hws
  have h2 := IStream.getQuoted_quoted old.first_name.data [' '] p.first_name.data
    ([' '] ++ (p.birthday.data ++
      ([' '] ++ (quoted p.city.data ++ ([' '] ++ (p.coins.data ++ rest)))))) hsp
  have h3 := IStream.getString_word old.birthday.data [' '] p.birthday.data
    ([' '] ++ (quoted p.city.data ++ ([' '] ++ (p.coins.data ++ rest)))) hsp hb hbs
    (by simp; decide)
  have h4 := IStream.getQuoted_quoted old.city.data [' '] p.city.data
    ([' '] ++ (p.coins.data ++ rest)) hsp
  have h5 := IStream.getString_word old.coins.data [' '] p.coins.data rest hsp hc hcs hr
  simp only [List.isEmpty_cons, List.singleton_append, List.cons_append, List.nil_append]
    at h3
  rw [read, e1]
  simp only [h1, h2]
  simp only [List.singleton_append, List.cons_append, List.nil_append] at h3 h4 h5 ⊢
  simp only [h3, h4, h5]

theorem isspace_of_isdigit (c : Char) (h : isdigit c = true) : isspace c = false := by
  simp only [isdigit, Bool.and_eq_true, decide_eq_true_eq] at h
  simp only [isspace, Bool.or_eq_false_iff, decide_eq_false_iff_not]
  have h1 : (48 : Nat) ≤ c.toNat := h.1
  refine ⟨⟨⟨⟨⟨?_, ?_⟩, ?_⟩, ?_⟩, ?_⟩, ?_⟩ <;>
    · intro e
      rw [e] at h1
      exact absurd h1 (by decide)

end Person

end s21

namespace s21

/-! ## `Upload` reads what `Export` wrote -/

theorem read_failed (old : Person) (s : IStream) (h : s.fail = true) :
    (Person.read old s).2.fail = true := by
  simp [Person.read, IStream.getQuoted, IStream.getChar, IStream.getString, IStream.sentry,
    IStream.good, h]

theorem getString_spaces (old ws : List Char) (hws : ∀ c ∈ ws, isspace c = true) :
    (IStream.getString old ⟨ws, false, false⟩).2.fail = true := by
  have : ws.dropWhile isspace = [] := by
    rw [List.dropWhile_eq_nil_iff]
    exact hws
  simp [IStream.getString, IStream.sentry, IStream.good, this]

theorem formatted_readable (v : Person) (h : v.Formatted) :
    v.birthday.data ≠ [] ∧ (∀ c ∈ v.birthday.data, isspace c = false) ∧
    v.coins.data ≠ [] ∧ (∀ c ∈ v.coins.data, isspace c = false) :=
  ⟨h.2.2.2.1, fun c hc => Person.isspace_of_isdigit c (h.2.2.2.2.1 c hc), h.2.2.2.2.2.1,
    fun c hc => Person.isspace_of_isdigit c (h.2.2.2.2.2.2 c hc)⟩

theorem uploadLoop_lines {S : Type} (set : S → String → Person → Option S) :
    ∀ (es : List (String × Person)), (∀ e ∈ es, KeyOk e.1 ∧ e.2.Formatted) →
    ∀ (fuel : Nat) (ws key : List Char) (value : Person) (t : S) (n : Nat),
      (∀ c ∈ ws, isspace c = true) → es.length < fuel →
      uploadLoop set fuel key value ⟨ws ++ exportLines es, false, false⟩ t n =
        (uploadAll set es t).map fun t1 => (n + es.length, t1)
  | [], _, fuel, ws, key, value, t, n, hws, hf => by
    obtain ⟨f, rfl⟩ : ∃ f, fuel = f + 1 := ⟨fuel - 1, by simp at hf; omega⟩
    simp only [exportLines, List.flatMap_nil, List.append_nil, uploadLoop,
      read_failed _ _ (getString_spaces key ws hws), if_true, uploadAll, Option.map_some',
      List.length_nil, Nat.add_zero]
  | (k, v) :: es, h, fuel, ws, key, value, t, n, hws, hf => by
    obtain ⟨f, rfl⟩ : ∃ f, fuel = f + 1 := ⟨fuel - 1, by simp at hf; omega⟩
    obtain ⟨⟨hk1, hk2⟩, hv⟩ := h (k, v) (List.mem_cons_self _ _)
    obtain ⟨hb, hbs, hc, hcs⟩ := formatted_readable v hv
    have e1 : ws ++ exportLines ((k, v) :: es) =
        ws ++ (k.data ++ ([' '] ++ (v.write ++ (['\n'] ++ exportLines es)))) := by
      simp [exportLines, exportLine]
    have h1 := IStream.getString_word key ws k.data
      ([' '] ++ (v.write ++ (['\n'] ++ exportLines es))) hws hk1 hk2 (by simp; decide)
    have h2 := Person.read_write value v [' '] (['\n'] ++ exportLines es)
      (by simp; decide) hb hbs hc hcs (by simp; decide)
    simp only [List.singleton_append, List.isEmpty_cons] at h1 h2
    have ih := uploadLoop_lines set es (fun e he => h e (List.mem_cons_of_mem _ he)) f ['\n']
      k.data v
    simp only [List.singleton_append] at ih
    rw [e1]
    simp only [uploadLoop, List.singleton_append, h1, h2, Bool.false_eq_true, if_false,
      uploadAll]
    cases hs : set t k v with
    | none => simp [hs]
    | some t1 =>
      simp only [hs, Option.some_bind]
      rw [ih t1 (n + 1) (by simp; decide) (by simp at hf; omega)]
      simp only [List.length_cons]
      congr 1
      funext t2
      simp only [Prod.mk.injEq, and_true]
      omega

theorem length_exportLines (es : List (String × Person)) :
    es.length ≤ (exportLines es).length := by
  induction es with
  | nil => simp [exportLines]
  | cons e es ih =>
    simp only [exportLines, List.flatMap_cons, List.length_append, List.length_cons,
      exportLine] at ih ⊢
    omega

/-- `Upload` of the text that `Export` wrote for the entries `es`. -/
theorem uploadLoop_export {S : Type} (set : S → String → Person → Option S)
    (es : List (String × Person)) (h : ∀ e ∈ es, KeyOk e.1 ∧ e.2.Formatted) (t : S) :
    uploadLoop set ((exportLines es).length + 1) [] Person.empty
      (IStream.ofText (exportLines es)) t 0 =
      (uploadAll set es t).map fun t1 => (es.length, t1) := by
  have := uploadLoop_lines set es h ((exportLines es).length + 1) [] [] Person.empty t 0
    (by simp) (by have := length_exportLines es; omega)
  simpa [IStream.ofText] using this

end s21

namespace s21

theorem zip_fst_snd {α β : Type} (l : List (α × β)) :
    (l.map Prod.fst).zip (l.map Prod.snd) = l :=
  (List.zip_of_prod rfl rfl).symm

theorem ascending_last_max {K : Type} [LinearOrder K] (es : List (K × Person)) (k : K)
    (v : Person) (rest : List (K × Person)) (h : Ascending (es ++ (k, v) :: rest)) :
    ∀ e ∈ es, e.1 < k := by
  intro e he
  unfold Ascending at h
  rw [List.map_append, List.pairwise_append] at h
  exact h.2.2 e.1 (List.mem_map.mpr ⟨e, he, rfl⟩) k (by simp)

namespace RBTree

/-- The entries of an ascending list, set one after the other, are appended to the entries
of the tree. -/
theorem rb_uploadAll : ∀ (es : List (String × Person)) (t0 : Tree String), Inv t0 →
    Ascending (toList t0 ++ es) →
    ∃ t1, uploadAll (fun t key value => (Set t key value).map Prod.snd) es t0 = some t1 ∧
      Inv t1 ∧ toList t1 = toList t0 ++ es
  | [], t0, h0, _ => ⟨t0, rfl, h0, by simp⟩
  | (k, v) :: es, t0, h0, hasc => by
    obtain ⟨b, root, h1, h2, h3, h4⟩ := rb_set_spec t0 h0 k v
    have hmax := ascending_last_max (toList t0) k v es hasc
    have hnot : k ∉ (toList t0).map Prod.fst := by
      intro hk
      obtain ⟨e, he, hek⟩ := List.mem_map.mp hk
      have := hmax e he
      rw [hek] at this
      exact lt_irrefl _ this
    cases b with
    | false => exact absurd (h3 rfl).2 hnot
    | true =>
      have h5 := (h4 rfl).2
      rw [ins_max k v _ hmax] at h5
      obtain ⟨t1, h6, h7, h8⟩ := rb_uploadAll es root h2
        (by rw [h5, List.append_assoc]; exact hasc)
      refine ⟨t1, ?_, h7, by rw [h8, h5, List.append_assoc]; rfl⟩
      simp only [uploadAll, h1, Option.map_some', Option.some_bind]
      exact h6

/-- `Export` writes a line for each entry, in the order of `Keys`; `Upload` of this text
into the empty tree gives a tree with the same `Keys` and `ShowAll`. -/
theorem rb_export_upload (t : Tree String) (h : Inv t)
    (hf : ∀ e ∈ toList t, KeyOk e.1 ∧ e.2.Formatted) :
    ∃ ks vs text t1, Keys t = some ks ∧ ShowAll t = some vs ∧
      text = exportLines (ks.zip vs) ∧ Export t = some (text, ks.length) ∧
      Upload .nil text = some (ks.length, t1) ∧ Keys t1 = some ks ∧ ShowAll t1 = some vs := by
  obtain ⟨t1, h1, h2, h3⟩ := rb_uploadAll (toList t) .nil inv_nil
    (by simpa [toList] using h.2.2)
  simp only [toList, List.nil_append] at h3
  refine ⟨(toList t).map Prod.fst, (toList t).map Prod.snd, exportLines (toList t), t1,
    rb_keys_eq t, rb_showAll_eq t, by rw [zip_fst_snd], ?_, ?_, ?_, ?_⟩
  · simp [Export, entries_eq]
  · rw [Upload, uploadLoop_export _ _ hf, h1]
    simp
  · rw [rb_keys_eq, h3]
  · rw [rb_showAll_eq, h3]

end RBTree

namespace BPlusTree

theorem bp_uploadAll : ∀ (es : List (String × Person)) (t0 : Tree String), Inv t0 →
    Ascending (toList t0.root ++ es) →
    ∃ t1, uploadAll (fun t key value => (Set t key value).map Prod.snd) es t0 = some t1 ∧
      Inv t1 ∧ toList t1.root = toList t0.root ++ es
  | [], t0, h0, _ => ⟨t0, rfl, h0, by simp⟩
  | (k, v) :: es, t0, h0, hasc => by
    obtain ⟨b, root, h1, h2, h3, h4⟩ := bp_set_spec t0 h0 k v
    have hmax := ascending_last_max (toList t0.root) k v es hasc
    have hnot : k ∉ (toList t0.root).map Prod.fst := by
      intro hk
      obtain ⟨e, he, hek⟩ := List.mem_map.mp hk
      have := hmax e he
      rw [hek] at this
      exact lt_irrefl _ this
    cases b with
    | false => exact absurd (h3 rfl).2 hnot
    | true =>
      have h5 := (h4 rfl).2
      rw [ins_max k v _ hmax] at h5
      obtain ⟨t1, h6, h7, h8⟩ := bp_uploadAll es root h2
        (by rw [h5, List.append_assoc]; exact hasc)
      refine ⟨t1, ?_, h7, by rw [h8, h5, List.append_assoc]; rfl⟩
      simp only [uploadAll, h1, Option.map_some', Option.some_bind]
      exact h6

theorem leaf_export (ks : List String) (ds : List Person) (hl : ds.length = ks.length) :
    ∀ rest : List String, (∀ i ∈ rest, i ∈ ks) →
    Leaf.Export ks ds rest =
      some (exportLines (rest.map fun i => (i, (lookup i (ks.zip ds)).getD Person.empty)),
        rest.length)
  | [], _ => by simp [Leaf.Export, exportLines]
  | i :: rest, h => by
    obtain ⟨v, h1, h2⟩ := leaf_getValue i ks ds hl (h i (List.mem_cons_self _ _))
    have ih := leaf_export ks ds hl rest fun x hx => h x (List.mem_cons_of_mem _ hx)
    simp [Leaf.Export, h1, ih, h2, exportLines]

theorem map_lookup_zip : ∀ (ks : List String) (ds : List Person), ds.length = ks.length →
    ks.Nodup → (ks.map fun i => (i, (lookup i (ks.zip ds)).getD Person.empty)) = ks.zip ds
  | [], _, _, _ => by simp
  | k :: ks, [], hl, _ => by simp at hl
  | k :: ks, d :: ds, hl, hn => by
    rw [List.nodup_cons] at hn
    have ih := map_lookup_zip ks ds (by simpa using hl) hn.2
    simp only [List.map_cons, List.zip_cons_cons, lookup_cons, if_true, Option.getD_some,
      List.cons.injEq, true_and]
    refine Eq.trans ?_ ih
    apply List.map_congr_left
    intro i hi
    have hne : k ≠ i := fun e => hn.1 (e ▸ hi)
    simp [hne]

theorem exportChain_eq : ∀ ls : List (LeafRec String),
    (∀ l ∈ ls, l.data.length = l.keys.length ∧ l.keys.Nodup) →
    exportChain (ls.map fun l => (l.keys, l.data)) =
      some (exportLines (entriesOf ls), (entriesOf ls).length)
  | [], _ => by simp [exportChain, exportLines, entriesOf]
  | l :: ls, h => by
    have ih := exportChain_eq ls fun x hx => h x (List.mem_cons_of_mem _ hx)
    obtain ⟨hl, hn⟩ := h l (List.mem_cons_self _ _)
    have h1 := leaf_export l.keys l.data hl l.keys fun _ hi => hi
    rw [map_lookup_zip l.keys l.data hl hn] at h1
    simp only [List.map_cons, exportChain, h1, ih, Option.some_bind, Option.map_some',
      entriesOf_cons, LeafRec.entries, exportLines, List.flatMap_append, List.length_append,
      List.length_zip, hl, min_self]

theorem bp_export_upload (t : Tree String) (h : Inv t)
    (hf : ∀ e ∈ toList t.root, KeyOk e.1 ∧ e.2.Formatted) :
    ∃ ks vs text t1, Keys t = some ks ∧ ShowAll t = some vs ∧
      text = exportLines (ks.zip vs) ∧ Export t = some (text, ks.length) ∧
      Upload init text = some (ks.length, t1) ∧ Keys t1 = some ks ∧ ShowAll t1 = some vs := by
  obtain ⟨t1, h1, h2, h3⟩ := bp_uploadAll (toList t.root) init bp_inv_init
    (by simpa [toList, init, leaves, entriesOf, LeafRec.entries] using inv_asc t h)
  have h0 : toList (init : Tree String).root = [] := by
    simp [toList, init, leaves, entriesOf, LeafRec.entries]
  rw [h0, List.nil_append] at h3
  refine ⟨(toList t.root).map Prod.fst, (toList t.root).map Prod.snd,
    exportLines (toList t.root), t1, bp_keys_eq t h, bp_showAll_eq t h, by rw [zip_fst_snd],
    ?_, ?_, ?_, ?_⟩
  · obtain ⟨⟨H, hw⟩, -, hc⟩ := h
    rw [Export, chain_eq t hc, Option.some_bind, exportChain_eq _ (wf_data_length _ _ _ _ hw)]
    simp [toList]
  · rw [Upload, uploadLoop_export _ _ hf, h1]
    simp
  · rw [bp_keys_eq t1 h2, h3]
  · rw [bp_showAll_eq t1 h2, h3]

end BPlusTree

end s21

namespace s21

namespace HashTable

/-! ### `Upload` of the text of `Export` into a fresh hash table -/

theorem filter_flatten_buckets {α : Type} (g : α → Nat) :
    ∀ (L : List (List α)) (off i : Nat),
    (∀ (j : Nat) (b : List α), L[j]? = some b → ∀ n ∈ b, g n = off + j) →
    L.flatten.filter (fun n => decide (g n = i)) =
      if off ≤ i then (L[i - off]?).getD [] else []
  | [], off, i, _ => by simp
  | b :: L, off, i, h => by
    have hb : ∀ n ∈ b, g n = off := fun n hn => by simpa using h 0 b (by simp) n hn
    have ih := filter_flatten_buckets g L (off + 1) i fun j c hj n hn => by
      have := h (j + 1) c (by simpa using hj) n hn
      omega
    rw [List.flatten_cons, List.filter_append, ih]
    by_cases hi : i = off
    · subst hi
      have : b.filter (fun n => decide (g n = i)) = b := by
        rw [List.filter_eq_self]
        intro n hn
        simp [hb n hn]
      simp [this]
    · have : b.filter (fun n => decide (g n = i)) = [] := by
        rw [List.filter_eq_nil_iff]
        intro n hn
        simp [hb n hn, Ne.symm hi]
      rw [this, List.nil_append]
      by_cases hle : off ≤ i
      · have h1 : off + 1 ≤ i := by omega
        have h2 : i - off = (i - (off + 1)) + 1 := by omega
        simp only [h1, hle, if_true]
        rw [h2, List.getElem?_cons_succ]
      · have h1 : ¬ off + 1 ≤ i := by omega
        simp [h1, hle]

theorem set_fresh {K : Type} [LinearOrder K] {hash : K → Nat} {t : Table K} (k : K)
    (v : Person) (lifetime : Int) (b : List (Node K)) (hc : 0 < t.capacity)
    (hb : t.data[hash k % t.capacity]? = some b)
    (hany : ∀ n ∈ b, n.key ≠ k) :
    Set hash t k v lifetime = some (true,
      { t with data := t.data.set (hash k % t.capacity) (b ++ [⟨k, v, lifetime⟩]) }) := by
  have h1 : (b.any fun node => node.key == k) = false := by
    rw [List.any_eq_false]
    intro n hn
    simpa using hany n hn
  simp [Set, Exists, bucket, CalcIndex, Nat.pos_iff_ne_zero.mp hc, hb, h1]

theorem uploadAll_buckets (hash : String → Nat) (cap : Nat) (hc : 0 < cap) :
    ∀ (es P : List (String × Person)), ((P ++ es).map Prod.fst).Nodup →
    uploadAll (fun t key value => (Set hash t key value (-1)).map Prod.snd) es
      ⟨cap, (List.range cap).map fun i =>
        (P.filter fun e => decide (hash e.1 % cap = i)).map fun e => ⟨e.1, e.2, -1⟩⟩ =
      some ⟨cap, (List.range cap).map fun i =>
        ((P ++ es).filter fun e => decide (hash e.1 % cap = i)).map fun e => ⟨e.1, e.2, -1⟩⟩
  | [], P, _ => by simp [uploadAll]
  | (k, v) :: es, P, hn => by
    have hlt : hash k % cap < cap := Nat.mod_lt _ hc
    have hk : k ∉ P.map Prod.fst := by
      rw [List.map_append, List.nodup_append] at hn
      intro hk
      exact hn.2.2 hk (by simp)
    have hany : ∀ n ∈ ((P.filter fun e => decide (hash e.1 % cap = hash k % cap)).map
        fun e => (⟨e.1, e.2, -1⟩ : Node String)), n.key ≠ k := by
      intro n hn1 hek
      obtain ⟨e, he, rfl⟩ := List.mem_map.mp hn1
      exact hk (List.mem_map.mpr ⟨e, (List.mem_filter.mp he).1, hek⟩)
    have ih := uploadAll_buckets hash cap hc es (P ++ [(k, v)])
      (by simpa [List.append_assoc] using hn)
    have hset : (List.range cap).map (fun i =>
        ((P ++ [(k, v)]).filter fun e => decide (hash e.1 % cap = i)).map
          fun e => (⟨e.1, e.2, -1⟩ : Node String)) =
        ((List.range cap).map fun i =>
          (P.filter fun e => decide (hash e.1 % cap = i)).map
            fun e => (⟨e.1, e.2, -1⟩ : Node String)).set (hash k % cap)
          ((P.filter fun e => decide (hash e.1 % cap = hash k % cap)).map
            (fun e => (⟨e.1, e.2, -1⟩ : Node String)) ++ [⟨k, v, -1⟩]) := by
      apply List.ext_getElem?
      intro j
      rw [List.getElem?_set]
      by_cases hj : hash k % cap = j
      · subst hj
        simp [hlt, List.filter_append]
      · by_cases hjc : j < cap
        · simp [hj, hjc, List.filter_append, List.getElem?_range]
        · have hnone : (List.range cap)[j]? = none :=
            List.getElem?_eq_none (by simp; omega)
          simp [hj, hnone]
    rw [uploadAll, set_fresh k v (-1) _ hc
      (by simp only [List.getElem?_map, List.getElem?_range hlt, Option.map_some']) hany]
    simp only [Option.map_some', Option.some_bind]
    rw [← hset, ih]
    simp [List.append_assoc]

theorem ht_export_upload (hash : String → Nat) (t : Table String) (h : Inv hash t)
    (hn : (Keys t).Nodup) (hf : ∀ n ∈ t.data.flatten, KeyOk n.key ∧ n.value.Formatted) :
    (Export t).1 = exportLines ((Keys t).zip (ShowAll t)) ∧
    (Export t).2 = (Keys t).length ∧
    ∃ t1, Upload hash (init t.capacity) (Export t).1 = some ((Keys t).length, t1) ∧
      Keys t1 = Keys t ∧ ShowAll t1 = ShowAll t := by
  have hes : (Keys t).zip (ShowAll t) = t.data.flatten.map fun n => (n.key, n.value) := by
    simp only [Keys, ShowAll, List.zip_map']
  have h1 : (Export t).1 = exportLines ((Keys t).zip (ShowAll t)) := by
    rw [hes]
    simp only [Export, exportLines, List.flatMap_def, List.map_map, Function.comp_def]
  have hup := uploadAll_buckets hash t.capacity h.1
    (t.data.flatten.map fun n => (n.key, n.value)) []
    (by simpa [Keys, List.map_map, Function.comp_def] using hn)
  have hinit : (⟨t.capacity, (List.range t.capacity).map fun i =>
      (([] : List (String × Person)).filter fun e =>
        decide (hash e.1 % t.capacity = i)).map fun e => ⟨e.1, e.2, -1⟩⟩ : Table String) =
      init t.capacity := by
    simp only [init, List.filter_nil, List.map_nil, Table.mk.injEq, true_and]
    apply List.ext_getElem?
    intro j
    by_cases hj : j < t.capacity
    · simp [hj, List.getElem?_range, List.getElem?_replicate]
    · simp [hj, List.getElem?_replicate]
  rw [hinit, List.nil_append] at hup
  have hdata : (List.range t.capacity).map (fun i =>
      ((t.data.flatten.map fun n => (n.key, n.value)).filter fun e =>
        decide (hash e.1 % t.capacity = i)).map fun e => (⟨e.1, e.2, -1⟩ : Node String)) =
      t.data.map fun b => b.map fun n => ⟨n.key, n.value, -1⟩ := by
    apply List.ext_getElem?
    intro j
    by_cases hj : j < t.capacity
    · have hfl := filter_flatten_buckets (fun n : Node String => hash n.key % t.capacity)
        t.data 0 j fun i b hb n hnb => by simpa using (h.2.2 i b hb).1 n hnb
      simp only [Nat.zero_le, if_true, Nat.sub_zero] at hfl
      simp only [List.getElem?_map, List.getElem?_range hj, Option.map_some', List.filter_map,
        List.map_map]
      have hfl2 : (t.data.flatten.filter
          ((fun e : String × Person => decide (hash e.1 % t.capacity = j)) ∘
            fun n => (n.key, n.value))) = (t.data[j]?).getD [] := by
        rw [← hfl]
        rfl
      rw [hfl2]
      have hlen : j < t.data.length := by rw [h.2.1]; exact hj
      simp [List.getElem?_eq_getElem hlen, Function.comp_def]
    · have e1 : (List.range t.capacity)[j]? = none :=
        List.getElem?_eq_none (by simp; omega)
      have e2 : t.data[j]? = none := List.getElem?_eq_none (by rw [h.2.1]; omega)
      simp only [List.getElem?_map, e1, e2, Option.map_none']
  rw [hdata] at hup
  refine ⟨h1, by simp only [Export, Keys, List.length_map],
    ⟨t.capacity, t.data.map fun b => b.map fun n => ⟨n.key, n.value, -1⟩⟩, ?_, ?_, ?_⟩
  · rw [Upload, h1, uploadLoop_export _ _ ?_, hes, hup]
    · simp only [Option.map_some', List.length_map, Keys]
    · intro e he
      rw [hes] at he
      obtain ⟨n, hn1, rfl⟩ := List.mem_map.mp he
      exact hf n hn1
  · simp only [Keys, List.map_flatten, List.map_map, Function.comp_def]
  · simp only [ShowAll, List.map_flatten, List.map_map, Function.comp_def]

end HashTable

end s21

namespace s21

/-! ## The claims about the records, the absent keys and the text format -/

/-- Claim C21 at a concrete input: the calls `Set("b", _)`, `Set("a", _)`, `Set("c", v)`
with `v.last_name = "-"`, `Delete("b")`, `Get("c")`, in lockstep on an empty red-black tree
and an empty B+ tree, return the same four times and then differ: `Get("c")` returns `v` on
the B+ tree and a record with the `last_name` of the deleted entry on the red-black tree. -/
theorem rb_bplus_replies_differ :
    RBTree.run .nil sampleCalls = some [.bool true, .bool true, .bool true, .bool true,
      .record ⟨"B", "c", "3", "z", "3"⟩] ∧
    BPlusTree.run BPlusTree.init sampleCalls = some [.bool true, .bool true, .bool true,
      .bool true, .record ⟨"-", "c", "3", "z", "3"⟩] ∧
    RBTree.run .nil sampleCalls ≠ BPlusTree.run BPlusTree.init sampleCalls := by
  decide!

/-- Claim C22: `a == b` holds exactly when, for each of the five fields, the fields are
equal or the field of `b` is "-"; the relation is not symmetric: there are records `a`, `b`
with `a == b` true and `b == a` false. -/
theorem person_eq_wildcard_right :
    (∀ a b : Person, a.eq b = true ↔
      (a.last_name = b.last_name ∨ b.last_name = "-") ∧
      (a.first_name = b.first_name ∨ b.first_name = "-") ∧
      (a.birthday = b.birthday ∨ b.birthday = "-") ∧
      (a.city = b.city ∨ b.city = "-") ∧
      (a.coins = b.coins ∨ b.coins = "-")) ∧
    ∃ a b : Person, a.eq b = true ∧ b.eq a = false := by
  refine ⟨fun a b => ?_, samplePerson, ⟨"-", "-", "-", "-", "-"⟩, by decide, by decide⟩
  simp only [Person.eq, Bool.and_eq_true, Bool.or_eq_true, beq_iff_eq]
  tauto

section
variable (K : Type) [LinearOrder K]

/-- Claim C23: in each of the three backends and every reachable store, for a key `k` that
does not occur in `Keys()`, `Get(k)` returns the record whose five fields are empty strings
and `Exists(k)` returns false. Both are `const` member functions: in the embedding they
return a result and no store, so the store is what it was. -/
theorem get_exists_of_absent :
    (∀ (hash : K → Nat) (t : HashTable.Table K) (k : K), HashTable.Reachable hash t →
      k ∉ HashTable.Keys t →
      HashTable.Get hash t k = some ⟨"", "", "", "", ""⟩ ∧
        HashTable.Exists hash t k = some false) ∧
    (∀ (t : RBTree.Tree K) (k : K) (ks : List K), RBTree.Reachable t →
      RBTree.Keys t = some ks → k ∉ ks →
      RBTree.Get t k = ⟨"", "", "", "", ""⟩ ∧ RBTree.Exists t k = false) ∧
    (∀ (t : BPlusTree.Tree K) (k : K) (ks : List K), BPlusTree.Reachable t →
      BPlusTree.Keys t = some ks → k ∉ ks →
      BPlusTree.Get t k = some ⟨"", "", "", "", ""⟩ ∧
        BPlusTree.Exists t k = some false) := by
  refine ⟨fun hash t k hr hk => ?_, fun t k ks hr hks hk => ?_, fun t k ks hr hks hk => ?_⟩
  · have hi := HashTable.ht_reachable_inv hr
    obtain ⟨b, hb, hidx, hbk⟩ := HashTable.inv_bucket hi k
    have hany : (b.any fun node => node.key == k) = false := by
      cases hany : (b.any fun node => node.key == k) with
      | false => rfl
      | true =>
        have := ((HashTable.ht_exists_iff_mem_keys hi).2 k).mp
          (by rw [HashTable.exists_eq hbk, hany])
        exact absurd this hk
    refine ⟨?_, by rw [HashTable.exists_eq hbk, hany]⟩
    simp [HashTable.Get, hbk, HashTable.find_key_none b k hany, Person.empty]
  · have hi := RBTree.rb_reachable_inv hr
    rw [RBTree.rb_keys_eq] at hks
    cases hks
    have hl : lookup k (RBTree.toList t) = none := by
      rw [← Option.not_isSome_iff_eq_none, lookup_isSome]
      exact hk
    refine ⟨by rw [RBTree.rb_get_eq_lookup t k hi.2.2, hl]; rfl, ?_⟩
    rw [RBTree.rb_exists_eq_lookup t k hi.2.2, hl]
    rfl
  · have hi := BPlusTree.bp_reachable_inv hr
    rw [BPlusTree.bp_keys_eq t hi] at hks
    cases hks
    have hl : lookup k (BPlusTree.toList t.root) = none := by
      rw [← Option.not_isSome_iff_eq_none, lookup_isSome]
      exact hk
    refine ⟨by rw [BPlusTree.bp_get_eq_lookup t hi, hl]; rfl, ?_⟩
    rw [BPlusTree.bp_exists_eq_lookup t hi, hl]
    rfl

end

theorem quoted_plain (str : List Char) (h : ∀ c ∈ str, c ≠ '"' ∧ c ≠ '\\') :
    quoted str = '"' :: str ++ ['"'] := by
  have : (str.flatMap fun c => if c = '"' ∨ c = '\\' then ['\\', c] else [c]) = str := by
    induction str with
    | nil => rfl
    | cons c str ih =>
      obtain ⟨h1, h2⟩ := h c (List.mem_cons_self _ _)
      rw [List.flatMap_cons, ih fun x hx => h x (List.mem_cons_of_mem _ hx)]
      simp [h1, h2]
  simp [quoted, this]

/-- Claim C29 as it stands fails: the record `sampleBackslash` has the format of the
codec, and the writer doubles the backslash of its `last_name`, so the text written is not
of the form `"<last_name>" "<first_name>" <birthday> "<city>" <coins>`; the reader still
gives the record back. -/
theorem write_doubles_backslash :
    sampleBackslash.Formatted ∧
    sampleBackslash.write = "\"a\\\\b\" \"c\" 1 \"d\" 2".data ∧
    sampleBackslash.plainForm = "\"a\\b\" \"c\" 1 \"d\" 2".data ∧
    sampleBackslash.write ≠ sampleBackslash.plainForm ∧
    Person.read Person.empty (IStream.ofText sampleBackslash.write) =
      (sampleBackslash, ⟨[], true, false⟩) := by
  decide!

/-- The amended claim C29: for every record whose `last_name`, `first_name` and `city` hold
no double quote and no white space and whose `birthday` and `coins` are non-empty runs of
digits, reading the text that the writer produced succeeds (`failbit` is not set) and
yields the record, whatever record is read into; and when these three fields hold no
backslash either, the text written has the form
`"<last_name>" "<first_name>" <birthday> "<city>" <coins>` with single spaces. -/
theorem read_write_inverse (p : Person) (h : p.Formatted) :
    (∀ old, Person.read old (IStream.ofText p.write) = (p, ⟨[], true, false⟩)) ∧
    ((∀ c ∈ p.last_name.data ++ p.first_name.data ++ p.city.data, c ≠ '\\') →
      p.write = p.plainForm) := by
  obtain ⟨hb, hbs, hc, hcs⟩ := formatted_readable p h
  refine ⟨fun old => ?_, fun hns => ?_⟩
  · have := Person.read_write old p [] [] (by simp) hb hbs hc hcs (by simp)
    simpa [IStream.ofText] using this
  · simp only [List.mem_append] at hns
    rw [Person.write, quoted_plain _ fun c hc => ⟨(h.1 c hc).1, hns c (Or.inl (Or.inl hc))⟩,
      quoted_plain _ fun c hc => ⟨(h.2.1 c hc).1, hns c (Or.inl (Or.inr hc))⟩,
      quoted_plain _ fun c hc => ⟨(h.2.2.1 c hc).1, hns c (Or.inr hc)⟩]
    simp [Person.plainForm]

/-- Claim C30: in each of the three backends and every reachable store whose keys are
non-empty and free of white space and whose records have the format of the codec, `Export`
writes one line `<key> <record>` per entry in the order of `Keys()` and returns the number
of entries; `Upload` of this text into an empty store of the same backend (of the same
capacity for the hash table) returns the same number and leaves a store with the same
`Keys()` and the same `ShowAll()`. -/
theorem export_upload_roundtrip :
    (∀ (hash : String → Nat) (t : HashTable.Table String), HashTable.Reachable hash t →
      (∀ k ∈ HashTable.Keys t, KeyOk k) → (∀ v ∈ HashTable.ShowAll t, v.Formatted) →
      (HashTable.Export t).1 = exportLines ((HashTable.Keys t).zip (HashTable.ShowAll t)) ∧
      (HashTable.Export t).2 = (HashTable.Keys t).length ∧
      ∃ t1, HashTable.Upload hash (HashTable.init t.capacity) (HashTable.Export t).1 =
          some ((HashTable.Keys t).length, t1) ∧
        HashTable.Keys t1 = HashTable.Keys t ∧ HashTable.ShowAll t1 = HashTable.ShowAll t) ∧
    (∀ (t : RBTree.Tree String) (ks : List String) (vs : List Person), RBTree.Reachable t →
      RBTree.Keys t = some ks → RBTree.ShowAll t = some vs →
      (∀ k ∈ ks, KeyOk k) → (∀ v ∈ vs, v.Formatted) →
      RBTree.Export t = some (exportLines (ks.zip vs), ks.length) ∧
      ∃ t1, RBTree.Upload .nil (exportLines (ks.zip vs)) = some (ks.length, t1) ∧
        RBTree.Keys t1 = some ks ∧ RBTree.ShowAll t1 = some vs) ∧
    (∀ (t : BPlusTree.Tree String) (ks : List String) (vs : List Person),
      BPlusTree.Reachable t → BPlusTree.Keys t = some ks → BPlusTree.ShowAll t = some vs →
      (∀ k ∈ ks, KeyOk k) → (∀ v ∈ vs, v.Formatted) →
      BPlusTree.Export t = some (exportLines (ks.zip vs), ks.length) ∧
      ∃ t1, BPlusTree.Upload BPlusTree.init (exportLines (ks.zip vs)) = some (ks.length, t1) ∧
        BPlusTree.Keys t1 = some ks ∧ BPlusTree.ShowAll t1 = some vs) := by
  refine ⟨fun hash t hr hk hv => ?_, fun t ks vs hr hks hvs hk hv => ?_,
    fun t ks vs hr hks hvs hk hv => ?_⟩
  · have hi := HashTable.ht_reachable_inv hr
    exact HashTable.ht_export_upload hash t hi (HashTable.ht_exists_iff_mem_keys hi).1
      fun n hn => ⟨hk n.key (List.mem_map.mpr ⟨n, hn, rfl⟩),
        hv n.value (List.mem_map.mpr ⟨n, hn, rfl⟩)⟩
  · have hi := RBTree.rb_reachable_inv hr
    rw [RBTree.rb_keys_eq] at hks
    rw [RBTree.rb_showAll_eq] at hvs
    cases hks; cases hvs
    obtain ⟨ks1, vs1, text, t1, h1, h2, h3, h4, h5, h6, h7⟩ :=
      RBTree.rb_export_upload t hi fun e he =>
        ⟨hk e.1 (List.mem_map.mpr ⟨e, he, rfl⟩), hv e.2 (List.mem_map.mpr ⟨e, he, rfl⟩)⟩
    rw [RBTree.rb_keys_eq] at h1
    rw [RBTree.rb_showAll_eq] at h2
    cases h1; cases h2
    subst h3
    exact ⟨h4, t1, h5, h6, h7⟩
  · have hi := BPlusTree.bp_reachable_inv hr
    rw [BPlusTree.bp_keys_eq t hi] at hks
    rw [BPlusTree.bp_showAll_eq t hi] at hvs
    cases hks; cases hvs
    obtain ⟨ks1, vs1, text, t1, h1, h2, h3, h4, h5, h6, h7⟩ :=
      BPlusTree.bp_export_upload t hi fun e he =>
        ⟨hk e.1 (List.mem_map.mpr ⟨e, he, rfl⟩), hv e.2 (List.mem_map.mpr ⟨e, he, rfl⟩)⟩
    rw [BPlusTree.bp_keys_eq t hi] at h1
    rw [BPlusTree.bp_showAll_eq t hi] at h2
    cases h1; cases h2
    subst h3
    exact ⟨h4, t1, h5, h6, h7⟩

end s21

namespace s21

/-! ## The theorems of the last claims at sample stores -/

theorem ht_sampleText_reachable :
    HashTable.Reachable HashTable.sampleTextHash HashTable.sampleText :=
  @HashTable.Reachable.set String _ HashTable.sampleTextHash _ _ "k1" samplePerson (-1) true
    (HashTable.Reachable.init 4 (by decide)) rfl

theorem rb_sampleText_reachable : RBTree.Reachable RBTree.sampleText :=
  @RBTree.Reachable.set String _ _ _ "k1" samplePerson true RBTree.Reachable.empty rfl

theorem bp_sampleText_reachable : BPlusTree.Reachable BPlusTree.sampleText :=
  @BPlusTree.Reachable.set String _ _ _ "k1" samplePerson true BPlusTree.Reachable.init rfl

theorem pool_sample_reachable : AsyncPool.Reachable 1 samplePool :=
  @AsyncPool.Reachable.delay Nat 0 AsyncPool.init samplePool 0 5 1 0 AsyncPool.Reachable.init
    rfl

theorem ht_timed_samplePlain_reachable :
    HashTable.Timed.Reachable HashTable.sampleHash HashTable.Timed.samplePlain :=
  @HashTable.Timed.Reachable.set Nat _ HashTable.sampleHash _ _ 1 samplePerson (-1) 0 true
    (HashTable.Timed.Reachable.init 4 (by decide)) (by rfl)

theorem rb_timed_samplePlain_reachable : RBTree.Timed.Reachable RBTree.Timed.samplePlain :=
  @RBTree.Timed.Reachable.set Nat _ _ _ 1 samplePerson (-1) 0 true
    RBTree.Timed.Reachable.init (by rfl)

theorem bp_timed_samplePlain_reachable :
    BPlusTree.Timed.Reachable BPlusTree.Timed.samplePlain :=
  @BPlusTree.Timed.Reachable.set Nat _ _ _ 1 samplePerson (-1) 0 true
    BPlusTree.Timed.Reachable.init (by rfl)

/-- The theorem of C23 at the sample stores, which hold the key 1: the absent key 2. -/
theorem get_exists_of_absent_witness :
    (HashTable.Get HashTable.sampleHash HashTable.sample 2 = some ⟨"", "", "", "", ""⟩ ∧
      HashTable.Exists HashTable.sampleHash HashTable.sample 2 = some false) ∧
    (RBTree.Get RBTree.sample 2 = ⟨"", "", "", "", ""⟩ ∧
      RBTree.Exists RBTree.sample 2 = false) ∧
    (BPlusTree.Get BPlusTree.sample 2 = some ⟨"", "", "", "", ""⟩ ∧
      BPlusTree.Exists BPlusTree.sample 2 = some false) :=
  ⟨(get_exists_of_absent Nat).1 HashTable.sampleHash HashTable.sample 2
      HashTable.ht_sample_reachable (by decide),
    (get_exists_of_absent Nat).2.1 RBTree.sample 2 [1] RBTree.rb_sample_reachable rfl
      (by decide),
    (get_exists_of_absent Nat).2.2 BPlusTree.sample 2 [1] BPlusTree.bp_sample_reachable rfl
      (by decide)⟩

/-- The theorem of C24 at the sample stores with their bookkeeping: the absent key 2. -/
theorem ttl_minus_one_without_task_witness :
    (∀ now, HashTable.Timed.sample.Ttl 2 now = -1) ∧
    (∀ now, RBTree.Timed.sample.Ttl 2 now = -1) ∧
    (∀ now, BPlusTree.Timed.sample.Ttl 2 now = -1) :=
  ⟨((ttl_minus_one_without_task Nat).1 HashTable.sampleHash HashTable.Timed.sample 2
      HashTable.ht_timed_sample_reachable).2.1 rfl,
    ((ttl_minus_one_without_task Nat).2.1 RBTree.Timed.sample 2
      RBTree.rb_timed_sample_reachable).2.1 rfl,
    ((ttl_minus_one_without_task Nat).2.2 BPlusTree.Timed.sample 2
      BPlusTree.bp_timed_sample_reachable).2.1 rfl⟩

/-- The theorem of C25 at the sample stores with their bookkeeping, in which the key 1 is
bound to the task 0: `Delete(1)`. -/
theorem ttl_binding_invariant_witness :
    (∃ s1, HashTable.Timed.Delete HashTable.sampleHash HashTable.Timed.sample 1 =
        some (true, s1) ∧ Store.Unbinds HashTable.Timed.sample s1 1) ∧
    (∃ s1, RBTree.Timed.Delete RBTree.Timed.sample 1 = some (true, s1) ∧
      Store.Unbinds RBTree.Timed.sample s1 1) ∧
    (∃ s1, BPlusTree.Timed.Delete BPlusTree.Timed.sample 1 = some (true, s1) ∧
      Store.Unbinds BPlusTree.Timed.sample s1 1) :=
  ⟨⟨_, rfl, ((ttl_binding_invariant Nat).1 HashTable.sampleHash HashTable.Timed.sample
      HashTable.ht_timed_sample_reachable).2.2 1 true _ rfl⟩,
    ⟨_, rfl, ((ttl_binding_invariant Nat).2.1 RBTree.Timed.sample
      RBTree.rb_timed_sample_reachable).2.2 1 true _ rfl⟩,
    ⟨_, rfl, ((ttl_binding_invariant Nat).2.2 BPlusTree.Timed.sample
      BPlusTree.bp_timed_sample_reachable).2.2 1 true _ rfl⟩⟩

/-- The theorem of C26 at the sample stores with their bookkeeping, in which the key 1 is
bound to the task 0 with the deadline 5 s: `Rename(1, 2)` at the instant 1.5 s. Three whole
seconds remain: `Ttl(2)` is 3 afterwards, the key 2 is bound to the new task 1 with the
deadline 4.5 s, the task 0 is removed, and `Ttl(1)` is -1. And at the stores that
`Set(1, samplePerson)` without a lifetime leaves: `Ttl(2)` is -1 afterwards and the key 2 has
no task. -/
theorem rename_moves_ttl_witness :
    (HashTable.Timed.sample.Ttl 1 1500000000 = 3 ∧
      ∃ s1, HashTable.Timed.Rename HashTable.sampleHash HashTable.Timed.sample 1 2 1500000000
          1500000000 = some (true, s1) ∧
        s1.Ttl 2 1500000000 = 3 ∧ s1.Ttl 1 1500000000 = -1 ∧ s1.queue.lookup 2 = some 1 ∧
        (s1.pool.find 1).map (fun i => (i.task, i.ready, i.delete_time, i.remove)) =
          some (2, false, 4500000000, false) ∧
        (s1.pool.find 0).map (fun i => i.remove) = some true ∧
        Store.TtlMoved HashTable.Timed.sample s1 1 2 1500000000) ∧
    (RBTree.Timed.sample.Ttl 1 1500000000 = 3 ∧
      ∃ s1, RBTree.Timed.Rename RBTree.Timed.sample 1 2 1500000000 1500000000 =
          some (true, s1) ∧
        s1.Ttl 2 1500000000 = 3 ∧ s1.Ttl 1 1500000000 = -1 ∧ s1.queue.lookup 2 = some 1 ∧
        (s1.pool.find 1).map (fun i => (i.task, i.ready, i.delete_time, i.remove)) =
          some (2, false, 4500000000, false) ∧
        (s1.pool.find 0).map (fun i => i.remove) = some true ∧
        Store.TtlMoved RBTree.Timed.sample s1 1 2 1500000000) ∧
    (BPlusTree.Timed.sample.Ttl 1 1500000000 = 3 ∧
      ∃ s1, BPlusTree.Timed.Rename BPlusTree.Timed.sample 1 2 1500000000 1500000000 =
          some (true, s1) ∧
        s1.Ttl 2 1500000000 = 3 ∧ s1.Ttl 1 1500000000 = -1 ∧ s1.queue.lookup 2 = some 1 ∧
        (s1.pool.find 1).map (fun i => (i.task, i.ready, i.delete_time, i.remove)) =
          some (2, false, 4500000000, false) ∧
        (s1.pool.find 0).map (fun i => i.remove) = some true ∧
        Store.TtlMoved BPlusTree.Timed.sample s1 1 2 1500000000) ∧
    (HashTable.Timed.samplePlain.Ttl 1 1500000000 = -1 ∧
      ∃ s1, HashTable.Timed.Rename HashTable.sampleHash HashTable.Timed.samplePlain 1 2
          1500000000 1500000000 = some (true, s1) ∧
        s1.Ttl 2 1500000000 = -1 ∧ s1.queue.lookup 2 = none ∧
        Store.TtlMoved HashTable.Timed.samplePlain s1 1 2 1500000000) ∧
    (RBTree.Timed.samplePlain.Ttl 1 1500000000 = -1 ∧
      ∃ s1, RBTree.Timed.Rename RBTree.Timed.samplePlain 1 2 1500000000 1500000000 =
          some (true, s1) ∧
        s1.Ttl 2 1500000000 = -1 ∧ s1.queue.lookup 2 = none ∧
        Store.TtlMoved RBTree.Timed.samplePlain s1 1 2 1500000000) ∧
    (BPlusTree.Timed.samplePlain.Ttl 1 1500000000 = -1 ∧
      ∃ s1, BPlusTree.Timed.Rename BPlusTree.Timed.samplePlain 1 2 1500000000 1500000000 =
          some (true, s1) ∧
        s1.Ttl 2 1500000000 = -1 ∧ s1.queue.lookup 2 = none ∧
        Store.TtlMoved BPlusTree.Timed.samplePlain s1 1 2 1500000000) :=
  ⟨⟨rfl, _, rfl, rfl, rfl, rfl, rfl, rfl,
      (rename_moves_ttl Nat).1 HashTable.sampleHash HashTable.Timed.sample _ 1 2 1500000000
        HashTable.ht_timed_sample_reachable (by decide) rfl⟩,
    ⟨rfl, _, rfl, rfl, rfl, rfl, rfl, rfl,
      (rename_moves_ttl Nat).2.1 RBTree.Timed.sample _ 1 2 1500000000
        RBTree.rb_timed_sample_reachable (by decide) rfl⟩,
    ⟨rfl, _, rfl, rfl, rfl, rfl, rfl, rfl,
      (rename_moves_ttl Nat).2.2 BPlusTree.Timed.sample _ 1 2 1500000000
        BPlusTree.bp_timed_sample_reachable (by decide) rfl⟩,
    ⟨rfl, _, rfl, rfl, rfl,
      (rename_moves_ttl Nat).1 HashTable.sampleHash HashTable.Timed.samplePlain _ 1 2
        1500000000 ht_timed_samplePlain_reachable (by decide) rfl⟩,
    ⟨rfl, _, rfl, rfl, rfl,
      (rename_moves_ttl Nat).2.1 RBTree.Timed.samplePlain _ 1 2 1500000000
        rb_timed_samplePlain_reachable (by decide) rfl⟩,
    ⟨rfl, _, rfl, rfl, rfl,
      (rename_moves_ttl Nat).2.2 BPlusTree.Timed.samplePlain _ 1 2 1500000000
        bp_timed_samplePlain_reachable (by decide) rfl⟩⟩

/-- The theorem of C27 at the fresh stores: `Set(1, samplePerson, 5)` at the instant 0
leaves the sample stores. -/
theorem ttl_after_set_bounds_witness :
    Store.TtlFresh HashTable.Timed.sample 1 5 0 ∧ Store.TtlFresh RBTree.Timed.sample 1 5 0 ∧
      Store.TtlFresh BPlusTree.Timed.sample 1 5 0 :=
  ⟨(ttl_after_set_bounds Nat).1 HashTable.sampleHash (HashTable.Timed.init 4)
      HashTable.Timed.sample 1 samplePerson 5 0 (HashTable.Timed.Reachable.init 4 (by decide))
      (by decide) rfl,
    (ttl_after_set_bounds Nat).2.1 RBTree.Timed.init RBTree.Timed.sample 1 samplePerson 5 0
      RBTree.Timed.Reachable.init (by decide) rfl,
    (ttl_after_set_bounds Nat).2.2.1 BPlusTree.Timed.init BPlusTree.Timed.sample 1
      samplePerson 5 0 BPlusTree.Timed.Reachable.init (by decide) rfl⟩

/-- The theorem of the amended C28 at the scheduler of the samples, after one call of
`DelayTask`: the next call returns the id 1. -/
theorem delayTask_id_nonzero_witness :
    AsyncPool.Reachable 1 samplePool ∧
      ∃ id p1, samplePool.DelayTask 0 5 2 = some (id, p1) ∧ id = 1 ∧ id ≠ 0 :=
  ⟨pool_sample_reachable,
    delayTask_id_nonzero Nat 1 samplePool pool_sample_reachable (by decide) (by decide) 0 5 2⟩

/-- The theorem of the amended C29 at the sample record. -/
theorem read_write_inverse_witness :
    samplePerson.Formatted ∧
    (∀ old, Person.read old (IStream.ofText samplePerson.write) =
      (samplePerson, ⟨[], true, false⟩)) ∧
    ((∀ c ∈ samplePerson.last_name.data ++ samplePerson.first_name.data ++
        samplePerson.city.data, c ≠ '\\') →
      samplePerson.write = samplePerson.plainForm) :=
  ⟨by decide, read_write_inverse samplePerson (by decide)⟩

/-- The theorem of C30 at the sample stores with the text key "k1". -/
theorem export_upload_roundtrip_witness :
    (∃ t1, HashTable.Upload HashTable.sampleTextHash (HashTable.init 4)
        (HashTable.Export HashTable.sampleText).1 = some (1, t1) ∧
      HashTable.Keys t1 = ["k1"] ∧ HashTable.ShowAll t1 = [samplePerson]) ∧
    (RBTree.Export RBTree.sampleText =
        some (exportLines (["k1"].zip [samplePerson]), 1) ∧
      ∃ t1, RBTree.Upload .nil (exportLines (["k1"].zip [samplePerson])) = some (1, t1) ∧
        RBTree.Keys t1 = some ["k1"] ∧ RBTree.ShowAll t1 = some [samplePerson]) ∧
    (BPlusTree.Export BPlusTree.sampleText =
        some (exportLines (["k1"].zip [samplePerson]), 1) ∧
      ∃ t1, BPlusTree.Upload BPlusTree.init (exportLines (["k1"].zip [samplePerson])) =
          some (1, t1) ∧
        BPlusTree.Keys t1 = some ["k1"] ∧ BPlusTree.ShowAll t1 = some [samplePerson]) :=
  ⟨((export_upload_roundtrip).1 HashTable.sampleTextHash HashTable.sampleText
      ht_sampleText_reachable (by decide) (by decide)).2.2,
    (export_upload_roundtrip).2.1 RBTree.sampleText ["k1"] [samplePerson]
      rb_sampleText_reachable rfl rfl (by decide) (by decide),
    (export_upload_roundtrip).2.2 BPlusTree.sampleText ["k1"] [samplePerson]
      bp_sampleText_reachable rfl rfl (by decide) (by decide)⟩

end s21
namespace s21

/-! ## Records: the merge and the wildcard match together -/

theorem merged_matches {old p new : Person} (h : Person.Merged old p new) :
    Person.Matches new p := by
  obtain ⟨h1, h2, h3, h4, h5⟩ := h
  refine ⟨?_, ?_, ?_, ?_, ?_⟩
  · by_cases hp : p.last_name = "-"
    · exact Or.inl hp
    · exact Or.inr (by rw [h1, if_neg hp])
  · by_cases hp : p.first_name = "-"
    · exact Or.inl hp
    · exact Or.inr (by rw [h2, if_neg hp])
  · by_cases hp : p.birthday = "-"
    · exact Or.inl hp
    · exact Or.inr (by rw [h3, if_neg hp])
  · by_cases hp : p.city = "-"
    · exact Or.inl hp
    · exact Or.inr (by rw [h4, if_neg hp])
  · by_cases hp : p.coins = "-"
    · exact Or.inl hp
    · exact Or.inr (by rw [h5, if_neg hp])

theorem merged_idem {old p new new2 : Person} (h : Person.Merged old p new)
    (h2 : Person.Merged new p new2) : new2 = new := by
  obtain ⟨a1, a2, a3, a4, a5⟩ := h
  obtain ⟨b1, b2, b3, b4, b5⟩ := h2
  cases new with
  | mk n1 n2 n3 n4 n5 =>
    cases new2 with
    | mk m1 m2 m3 m4 m5 =>
      simp only at a1 a2 a3 a4 a5 b1 b2 b3 b4 b5
      simp only [Person.mk.injEq]
      refine ⟨?_, ?_, ?_, ?_, ?_⟩
      · rw [b1]; split
        · rfl
        · rw [a1, if_neg ‹_›]
      · rw [b2]; split
        · rfl
        · rw [a2, if_neg ‹_›]
      · rw [b3]; split
        · rfl
        · rw [a3, if_neg ‹_›]
      · rw [b4]; split
        · rfl
        · rw [a4, if_neg ‹_›]
      · rw [b5]; split
        · rfl
        · rw [a5, if_neg ‹_›]

theorem matches_refl (a : Person) : Person.Matches a a :=
  ⟨Or.inr rfl, Or.inr rfl, Or.inr rfl, Or.inr rfl, Or.inr rfl⟩

theorem matches_trans {a b c : Person} (h1 : Person.Matches a b) (h2 : Person.Matches b c) :
    Person.Matches a c := by
  obtain ⟨a1, a2, a3, a4, a5⟩ := h1
  obtain ⟨b1, b2, b3, b4, b5⟩ := h2
  refine ⟨?_, ?_, ?_, ?_, ?_⟩
  · rcases b1 with h | h
    · exact Or.inl h
    · rcases a1 with g | g
      · exact Or.inl (by rw [← h, g])
      · exact Or.inr (by rw [g, h])
  · rcases b2 with h | h
    · exact Or.inl h
    · rcases a2 with g | g
      · exact Or.inl (by rw [← h, g])
      · exact Or.inr (by rw [g, h])
  · rcases b3 with h | h
    · exact Or.inl h
    · rcases a3 with g | g
      · exact Or.inl (by rw [← h, g])
      · exact Or.inr (by rw [g, h])
  · rcases b4 with h | h
    · exact Or.inl h
    · rcases a4 with g | g
      · exact Or.inl (by rw [← h, g])
      · exact Or.inr (by rw [g, h])
  · rcases b5 with h | h
    · exact Or.inl h
    · rcases a5 with g | g
      · exact Or.inl (by rw [← h, g])
      · exact Or.inr (by rw [g, h])

section
variable {K : Type} [LinearOrder K]

theorem ht_find_mem {hash : K → Nat} {t : HashTable.Table K} (h : HashTable.Inv hash t)
    (k : K) (p r : Person) (hk : HashTable.Exists hash t k = some true)
    (hg : HashTable.Get hash t k = some r) (hm : Person.Matches r p) :
    k ∈ HashTable.Find t p := by
  rw [HashTable.find_spec h p, List.mem_filter]
  refine ⟨((HashTable.ht_exists_iff_mem_keys h).2 k).mp hk, ?_⟩
  simp only [hg, decide_eq_true_eq]
  exact hm

theorem rb_find_mem (t : RBTree.Tree K) (h : RBTree.Inv t) (k : K) (p : Person)
    (hk : RBTree.Exists t k = true) (hm : Person.Matches (RBTree.Get t k) p) :
    ∃ ks, RBTree.Find t p = some ks ∧ k ∈ ks := by
  refine ⟨_, RBTree.rb_find_eq t h p, ?_⟩
  rw [List.mem_filter]
  exact ⟨(RBTree.mem_keys_iff_exists t h k).mp hk, by simpa using hm⟩

theorem bp_find_mem (t : BPlusTree.Tree K) (h : BPlusTree.Inv t) (k : K) (p r : Person)
    (hk : BPlusTree.Exists t k = some true) (hg : BPlusTree.Get t k = some r)
    (hm : Person.Matches r p) : ∃ ks, BPlusTree.Find t p = some ks ∧ k ∈ ks := by
  obtain ⟨ks, h1, h2⟩ := BPlusTree.find_api t h p
  obtain ⟨ks1, h3, -, h4⟩ := BPlusTree.bp_exists_iff_mem_keys t h
  rw [h1] at h3
  cases h3
  refine ⟨_, h2, ?_⟩
  rw [List.mem_filter]
  refine ⟨(h4 k).mp hk, ?_⟩
  simp only [hg, decide_eq_true_eq]
  exact hm

end

end s21
namespace s21

section
variable {K : Type} [LinearOrder K]

end

end s21
namespace s21

namespace AsyncPool

section
variable {A : Type}

/-- Among more consecutive ids than there are tasks, one is free: the loop of `DelayTask`
ends. -/
theorem skipUsed_total (p : AsyncPool A) : ∀ (fuel id0 : Nat) (S : Finset Nat),
    S.card < fuel → fuel ≤ sizeMod → id0 < sizeMod →
    (∀ j, j < fuel → (p.find ((id0 + j) % sizeMod)).isSome = true →
      (id0 + j) % sizeMod ∈ S) →
    ∃ id, skipUsed p fuel id0 = some id
  | 0, _, _, h, _, _, _ => absurd h (Nat.not_lt_zero _)
  | fuel + 1, id0, S, hc, hf, hid, hS => by
    simp only [skipUsed]
    cases hfind : p.find id0 with
    | none => exact ⟨id0, rfl⟩
    | some info =>
      simp only
      have h0 : id0 ∈ S := by
        have := hS 0 (Nat.succ_pos _)
        simp only [Nat.add_zero, Nat.mod_eq_of_lt hid, hfind, Option.isSome_some,
          forall_const] at this
        exact this
      refine skipUsed_total p fuel ((id0 + 1) % sizeMod) (S.erase id0) ?_ (by omega)
        (Nat.mod_lt _ (by decide)) ?_
      · rw [Finset.card_erase_of_mem h0]
        have : 0 < S.card := Finset.card_pos.mpr ⟨id0, h0⟩
        omega
      · intro j hj hsome
        have heq : ((id0 + 1) % sizeMod + j) % sizeMod = (id0 + (j + 1)) % sizeMod := by
          rw [Nat.add_mod, Nat.mod_mod, ← Nat.add_mod]
          congr 1
          omega
        rw [heq] at hsome ⊢
        refine Finset.mem_erase.mpr ⟨?_, hS (j + 1) (by omega) hsome⟩
        intro hcontra
        have h1 : (id0 + (j + 1)) % sizeMod = id0 % sizeMod := by
          rw [hcontra, Nat.mod_eq_of_lt hid]
        have h2 : sizeMod ∣ (id0 + (j + 1)) - id0 :=
          (Nat.modEq_iff_dvd' (by omega)).mp h1.symm
        have h3 : id0 + (j + 1) - id0 = j + 1 := by omega
        rw [h3] at h2
        have := Nat.le_of_dvd (Nat.succ_pos _) h2
        omega

theorem mem_fst_of_lookup (id : Nat) : ∀ (es : List (Nat × Info A)),
    (es.lookup id).isSome = true → id ∈ es.map Prod.fst
  | [], h => by simp at h
  | (i, info) :: es, h => by
    rw [lookup_cons_eq] at h
    by_cases hi : id = i
    · simp [hi]
    · simp only [hi, if_false] at h
      exact List.mem_cons_of_mem _ (mem_fst_of_lookup id es h)

theorem lookup_isSome_of_mem (id : Nat) : ∀ (es : List (Nat × Info A)),
    id ∈ es.map Prod.fst → (es.lookup id).isSome = true
  | [], h => by simp at h
  | (i, info) :: es, h => by
    rw [lookup_cons_eq]
    by_cases hi : id = i
    · simp [hi]
    · simp only [hi, if_false]
      simp only [List.map_cons, List.mem_cons, hi, false_or] at h
      exact lookup_isSome_of_mem id es h

/-- `DelayTask` returns, and the id it returns is not a key of `tasks_` when it is called,
in every state with fewer than `2 ^ 64` tasks. -/
theorem delayTask_total (p : AsyncPool A) (hl : p.last_id < sizeMod)
    (ht : p.tasks.length < sizeMod) (now sec : Int) (task : A) :
    ∃ id p1, p.DelayTask now sec task = some (id, p1) ∧ p.find id = none := by
  obtain ⟨id, hid⟩ := skipUsed_total p (p.tasks.length + 1) p.last_id
    (p.tasks.map Prod.fst).toFinset
    (Nat.lt_succ_of_le (le_trans (List.toFinset_card_le _) (by simp))) (by omega) hl
    (fun j _ hsome => List.mem_toFinset.mpr (mem_fst_of_lookup _ _ hsome))
  exact ⟨id, ⟨(id, ⟨task, false, now + sec * ticksPerSecond, false⟩) :: p.tasks,
    (id + 1) % sizeMod, p.stop⟩, by simp only [DelayTask, hid, Option.map_some'],
    skipUsed_spec p _ _ _ hid⟩

theorem issued_reachable {ids : List Nat} {p : AsyncPool A} (h : Issued ids p) :
    Reachable ids.length p := by
  induction h with
  | init => exact Reachable.init
  | delay _ hd ih => exact Reachable.delay ih hd
  | stop id _ ih => exact Reachable.stop id ih
  | finish id _ ih => exact Reachable.finish id ih
  | collect ids1 _ ih => exact Reachable.collect ids1 ih

/-- Before the counter wraps, the ids returned so far are below the number of calls. -/
theorem issued_lt {ids : List Nat} {p : AsyncPool A} (h : Issued ids p)
    (hn : ids.length ≤ sizeMod) : ∀ j ∈ ids, j < ids.length := by
  induction h with
  | init => intro j hj; cases hj
  | @delay ids p p1 now sec task id hi hd ih =>
    simp only [List.length_cons] at hn ⊢
    obtain ⟨p2, h2⟩ := delayTask_reachable (issued_reachable hi) (by omega) now sec task
    rw [hd] at h2
    simp only [Option.some.injEq, Prod.mk.injEq] at h2
    intro j hj
    rcases List.mem_cons.mp hj with rfl | hj
    · omega
    · exact Nat.lt_succ_of_lt (ih (by omega) j hj)
  | stop id _ ih => exact ih hn
  | finish id _ ih => exact ih hn
  | collect ids1 _ ih => exact ih hn

theorem last_id_lt {n : Nat} {p : AsyncPool A} (h : Reachable n p) : p.last_id < sizeMod := by
  induction h with
  | init => exact (by decide : (0 : Nat) < sizeMod)
  | delay _ hd _ =>
    simp only [DelayTask, Option.map_eq_some'] at hd
    obtain ⟨id, -, h2⟩ := hd
    simp only [Prod.mk.injEq] at h2
    rw [← h2.2]
    exact Nat.mod_lt _ (by decide)
  | stop id _ ih => exact ih
  | finish id _ ih => exact ih
  | collect ids1 _ ih => exact ih

end

end AsyncPool

end s21
namespace s21

/-- When `StopTask(id)` returns before the thread of the task makes the test after its
loop, the test fails and the thread ends without the call. -/
theorem test_after_stopTask {A : Type} (p : AsyncPool A) (id : Nat) (info : Info A)
    (h : p.find id = some info) : (p.StopTask id).test id .test = .done := by
  simp [AsyncPool.test, AsyncPool.find_stopTask, h]

namespace AsyncPool

section
variable {A : Type}

theorem find_halt (p : AsyncPool A) (id : Nat) :
    ({ p with stop := true } : AsyncPool A).find id = p.find id := rfl

/-- A step keeps the thread of a removed task from the call. -/
theorem stopped_step (id : Nat) (x y : AsyncPool A × Pc × Bool) (h : Step id x y)
    (hx : Stopped id x) : Stopped id y := by
  obtain ⟨hran, hpc⟩ := hx
  cases h with
  | delay p p1 pc ran now sec task id1 hd =>
    refine ⟨hran, ?_⟩
    rcases hpc with hpc | ⟨hpc, info, hf, hr, hy⟩
    · exact Or.inl hpc
    · obtain ⟨hfree, -, hfind⟩ := delayTask_spec p p1 now sec task id1 hd
      have hne : id ≠ id1 := fun e => by
        simp only at hf
        rw [e, hfree] at hf
        cases hf
      exact Or.inr ⟨hpc, info, by rw [hfind]; simpa [hne] using hf, hr, hy⟩
  | stop p pc ran j =>
    refine ⟨hran, ?_⟩
    rcases hpc with hpc | ⟨hpc, info, hf, hr, hy⟩
    · exact Or.inl hpc
    · simp only at hf
      refine Or.inr ⟨hpc, if id = j then { info with remove := true } else info, ?_, ?_, ?_⟩
      · simp only [find_stopTask, hf, Option.map_some']
      · split
        · rfl
        · exact hr
      · split
        · exact hy
        · exact hy
  | finish p pc ran j hj =>
    refine ⟨hran, ?_⟩
    rcases hpc with hpc | ⟨hpc, info, hf, hr, hy⟩
    · exact Or.inl hpc
    · simp only at hf
      exact Or.inr ⟨hpc, info, by simp [find_finish, hf, Ne.symm hj], hr, hy⟩
  | collect p pc ran ids =>
    refine ⟨hran, ?_⟩
    rcases hpc with hpc | ⟨hpc, info, hf, hr, hy⟩
    · exact Or.inl hpc
    · exact Or.inr ⟨hpc, info, find_collect p ids id info hf hy, hr, hy⟩
  | halt p pc ran =>
    refine ⟨hran, ?_⟩
    rcases hpc with hpc | ⟨hpc, info, hf, hr, hy⟩
    · exact Or.inl hpc
    · exact Or.inr ⟨hpc, info, hf, hr, hy⟩
  | poll p pc ran now =>
    refine ⟨hran, ?_⟩
    rcases hpc with hpc | ⟨hpc, info, hf, hr, hy⟩
    · simp only at hpc
      subst hpc
      exact Or.inl rfl
    · simp only at hpc hf
      refine Or.inr ⟨?_, info, hf, hr, hy⟩
      rcases hpc with hpc | hpc
      · subst hpc
        simp [poll, hf, hr]
      · subst hpc
        exact Or.inr rfl
  | test p ran ht =>
    rcases hpc with hpc | ⟨-, info, hf, hr, -⟩
    · cases hpc
    · simp only at hf
      simp [AsyncPool.test, hf, hr] at ht
  | skip p ran ht => exact ⟨hran, Or.inl rfl⟩
  | call p ran task hc =>
    rcases hpc with hpc | ⟨hpc, -⟩
    · cases hpc
    · rcases hpc with hpc | hpc <;> cases hpc

/-- A run keeps the thread of a removed task from the call. -/
theorem stopped_run (id : Nat) (x y : AsyncPool A × Pc × Bool)
    (h : Relation.ReflTransGen (Step id) x y) (hx : Stopped id x) : Stopped id y := by
  induction h with
  | refl => exact hx
  | tail _ hstep ih => exact stopped_step id _ _ hstep ih

/-- After `StopTask(id)` the thread of the task, which stands in its loop or before its
test, cannot come to the call. -/
theorem stopped_stopTask (id : Nat) (p : AsyncPool A) (info : Info A) (pc : Pc)
    (hf : p.find id = some info) (hy : info.ready = false) (hpc : pc = .loop ∨ pc = .test) :
    Stopped id (p.StopTask id, pc, false) :=
  ⟨rfl, Or.inr ⟨hpc, { info with remove := true }, by simp [find_stopTask, hf], rfl, hy⟩⟩

end

end AsyncPool

end s21
namespace s21

namespace IStream

theorem length_dropWhile_le {α : Type} (q : α → Bool) (l : List α) :
    (l.dropWhile q).length ≤ l.length :=
  (List.dropWhile_sublist q).length_le

theorem sentry_length (s : IStream) : (sentry s).2.buf.length ≤ s.buf.length := by
  unfold sentry
  split
  · have := length_dropWhile_le isspace s.buf
    split <;> simp_all
  · simp

theorem sentry_fail (s : IStream) (h : (sentry s).1 = false) : (sentry s).2.fail = true := by
  unfold sentry at h ⊢
  split
  · split <;> simp_all
  · simp

theorem getString_length (old : List Char) (s : IStream) :
    (getString old s).2.buf.length ≤ s.buf.length := by
  unfold getString
  have h1 := sentry_length s
  cases hs : sentry s with
  | mk b s1 =>
    rw [hs] at h1
    cases b with
    | false => exact h1
    | true =>
      simp only
      exact le_trans (length_dropWhile_le _ _) h1

/-- An extraction of a word that does not fail takes at least one character. -/
theorem getString_shorter (old : List Char) (s : IStream)
    (h : (getString old s).2.fail = false) :
    (getString old s).2.buf.length < s.buf.length := by
  unfold getString at h ⊢
  have h1 := sentry_length s
  have h2 := sentry_fail s
  cases hs : sentry s with
  | mk b s1 =>
    rw [hs] at h1 h2
    cases b with
    | false =>
      simp only [hs] at h
      simp only [forall_const] at h2
      rw [h2] at h
      cases h
    | true =>
      simp only [hs] at h ⊢
      simp only at h1
      have hne : s1.buf.takeWhile (fun c => !isspace c) ≠ [] := by
        intro hnil
        rw [hnil] at h
        simp at h
      have hlen := congrArg List.length
        (List.takeWhile_append_dropWhile (fun c => !isspace c) s1.buf)
      rw [List.length_append] at hlen
      have hpos := List.length_pos.mpr hne
      omega

theorem getString_failed (old : List Char) (s : IStream) (h : s.fail = true) :
    (getString old s).2.fail = true := by
  unfold getString sentry
  simp [good, h]

theorem getChar_length (s : IStream) :
    (getChar s).2.buf.length + (if (getChar s).1.isSome then 1 else 0) ≤ s.buf.length := by
  unfold getChar
  have h1 := sentry_length s
  cases hs : sentry s with
  | mk b s1 =>
    rw [hs] at h1
    cases b with
    | false => simpa using h1
    | true =>
      simp only at h1 ⊢
      obtain ⟨buf, eof, fail⟩ := s1
      cases buf with
      | nil => simp
      | cons c rest => simpa using h1

theorem quotedLoop_length : ∀ (buf : List Char) (esc : Bool) (acc : List Char),
    (quotedLoop esc acc buf).2.buf.length ≤ buf.length
  | [], esc, acc => by cases esc <;> simp [quotedLoop]
  | c :: rest, true, acc => by
    simp only [quotedLoop, List.length_cons]
    exact Nat.le_succ_of_le (quotedLoop_length rest false _)
  | c :: rest, false, acc => by
    simp only [quotedLoop, List.length_cons]
    split
    · exact Nat.le_succ_of_le (quotedLoop_length rest true _)
    · split
      · simp
      · exact Nat.le_succ_of_le (quotedLoop_length rest false _)

theorem getQuoted_length (old : List Char) (s : IStream) :
    (getQuoted old s).2.buf.length ≤ s.buf.length := by
  unfold getQuoted
  have h1 := getChar_length s
  cases hg : getChar s with
  | mk o s1 =>
    rw [hg] at h1
    cases o with
    | none => simpa using h1
    | some c =>
      simp only [Option.isSome_some, if_true] at h1 ⊢
      split
      · exact le_trans (quotedLoop_length _ _ _) (by omega)
      · have h2 := getString_length old { s1 with buf := c :: s1.buf }
        simp only [List.length_cons] at h2
        omega

end IStream

theorem read_length (old : Person) (s : IStream) :
    (Person.read old s).2.buf.length ≤ s.buf.length := by
  unfold Person.read
  simp only
  have h1 := IStream.getQuoted_length old.last_name.data s
  have h2 := IStream.getQuoted_length old.first_name.data
    (IStream.getQuoted old.last_name.data s).2
  have h3 := IStream.getString_length old.birthday.data
    (IStream.getQuoted old.first_name.data (IStream.getQuoted old.last_name.data s).2).2
  have h4 := IStream.getQuoted_length old.city.data
    (IStream.getString old.birthday.data
      (IStream.getQuoted old.first_name.data (IStream.getQuoted old.last_name.data s).2).2).2
  have h5 := IStream.getString_length old.coins.data
    (IStream.getQuoted old.city.data
      (IStream.getString old.birthday.data
        (IStream.getQuoted old.first_name.data
          (IStream.getQuoted old.last_name.data s).2).2).2).2
  omega

/-- An entry that parses takes at least one character. -/
theorem readEntry_shorter (key : List Char) (value : Person) (s : IStream)
    (h : (readEntry key value s).2.2.fail = false) :
    (readEntry key value s).2.2.buf.length < s.buf.length := by
  unfold readEntry at h ⊢
  simp only at h ⊢
  have h1 : (IStream.getString key s).2.fail = false := by
    cases hf : (IStream.getString key s).2.fail with
    | false => rfl
    | true => rw [read_failed _ _ hf] at h; cases h
  have h2 := IStream.getString_shorter key s h1
  have h3 := read_length value (IStream.getString key s).2
  omega

/-- More iterations than the text has characters read no more entries. -/
theorem parseEntries_stable : ∀ (fuel extra : Nat) (key : List Char) (value : Person)
    (s : IStream), s.buf.length < fuel →
    parseEntries (fuel + extra) key value s = parseEntries fuel key value s
  | 0, _, _, _, _, h => absurd h (Nat.not_lt_zero _)
  | fuel + 1, extra, key, value, s, h => by
    rw [Nat.add_right_comm]
    simp only [parseEntries]
    cases hf : (readEntry key value s).2.2.fail with
    | true => simp
    | false =>
      simp only [Bool.false_eq_true, if_false]
      have := readEntry_shorter key value s hf
      rw [parseEntries_stable fuel extra _ _ _ (by omega)]

/-- The loop of `Upload` sets the entries that parse, one after the other, and counts
them. -/
theorem uploadLoop_parse {S : Type} (set : S → String → Person → Option S) :
    ∀ (fuel : Nat) (key : List Char) (value : Person) (s : IStream) (t : S) (n : Nat),
      s.buf.length < fuel →
      uploadLoop set fuel key value s t n =
        (uploadAll set (parseEntries fuel key value s) t).map fun t1 =>
          (n + (parseEntries fuel key value s).length, t1)
  | 0, _, _, _, _, _, h => absurd h (Nat.not_lt_zero _)
  | fuel + 1, key, value, s, t, n, h => by
    simp only [uploadLoop, parseEntries, readEntry]
    cases hf : (Person.read value (IStream.getString key s).2).2.fail with
    | true => simp [uploadAll]
    | false =>
      simp only [Bool.false_eq_true, if_false, uploadAll, List.length_cons]
      have hsh := readEntry_shorter key value s (by simpa [readEntry] using hf)
      simp only [readEntry] at hsh
      cases hset : set t ⟨(IStream.getString key s).1⟩
          (Person.read value (IStream.getString key s).2).1 with
      | none => simp
      | some t1 =>
        simp only [Option.some_bind]
        rw [uploadLoop_parse set fuel _ _ _ t1 (n + 1) (by omega)]
        congr 1
        funext t2
        simp only [Prod.mk.injEq, and_true]
        omega

/-- Where `Set` leaves a present key alone and adds an absent one, the calls `Set` for a
list of entries leave each key that was present with its record, and give each other key
of the list the record of its first entry. -/
theorem uploadAll_content {S G : Type} (set : S → String → Person → Option S)
    (I : S → Prop) (present : S → String → Prop) (get : S → String → G) (val : Person → G)
    (hset : ∀ t k v, I t → ∃ t1, set t k v = some t1 ∧ I t1 ∧
      (present t k → t1 = t) ∧
      (¬ present t k → present t1 k ∧ get t1 k = val v ∧
        ∀ k1, k1 ≠ k → (present t1 k1 ↔ present t k1) ∧ get t1 k1 = get t k1)) :
    ∀ (es : List (String × Person)) (t : S), I t →
      ∃ t1, uploadAll set es t = some t1 ∧ I t1 ∧
        (∀ k, present t1 k ↔ present t k ∨ k ∈ es.map Prod.fst) ∧
        (∀ k, present t k → get t1 k = get t k) ∧
        (∀ k v, ¬ present t k → lookup k es = some v → get t1 k = val v)
  | [], t, ht => ⟨t, rfl, ht, by simp, fun _ _ => rfl, fun k v _ h => by rw [lookup_nil] at h; cases h⟩
  | e :: es, t, ht => by
    obtain ⟨t0, h1, h2, h3, h4⟩ := hset t e.1 e.2 ht
    obtain ⟨t1, g1, g2, g3, g4, g5⟩ := uploadAll_content set I present get val hset es t0 h2
    refine ⟨t1, by simp only [uploadAll, h1, Option.some_bind, g1], g2, fun k => ?_,
      fun k hk => ?_, fun k v hk hl => ?_⟩
    · rw [g3 k, List.map_cons, List.mem_cons]
      by_cases hp : present t e.1
      · rw [h3 hp]
        constructor
        · rintro (h | h)
          · exact Or.inl h
          · exact Or.inr (Or.inr h)
        · rintro (h | h | h)
          · exact Or.inl h
          · exact Or.inl (h ▸ hp)
          · exact Or.inr h
      · obtain ⟨a1, -, a3⟩ := h4 hp
        by_cases hk : k = e.1
        · subst hk
          exact ⟨fun _ => Or.inr (Or.inl rfl), fun _ => Or.inl a1⟩
        · rw [(a3 k hk).1]
          constructor
          · rintro (h | h)
            · exact Or.inl h
            · exact Or.inr (Or.inr h)
          · rintro (h | h | h)
            · exact Or.inl h
            · exact absurd h hk
            · exact Or.inr h
    · by_cases hp : present t e.1
      · rw [h3 hp] at g4
        exact g4 k hk
      · obtain ⟨-, -, a3⟩ := h4 hp
        have hne : k ≠ e.1 := fun h => hp (h ▸ hk)
        rw [g4 k ((a3 k hne).1.mpr hk), (a3 k hne).2]
    · rw [lookup_cons] at hl
      by_cases hke : e.1 = k
      · simp only [hke, if_true, Option.some.injEq] at hl
        subst hke
        have hv : v = e.2 := hl.symm
        obtain ⟨a1, a2, -⟩ := h4 hk
        rw [g4 _ a1, a2, hv]
      · have hl1 : lookup k es = some v := by
          simpa only [hke, if_false] using hl
        by_cases hp : present t e.1
        · rw [h3 hp] at g5
          exact g5 k v hk hl1
        · obtain ⟨-, -, a3⟩ := h4 hp
          exact g5 k v (fun h => hk ((a3 k (Ne.symm hke)).1.mp h)) hl1

end s21

namespace s21

section
variable {K : Type} [LinearOrder K]

/-- `Set` of an absent key leaves `Get` of the other keys as it was. -/
theorem ht_set_get_frame {hash : K → Nat} {t t1 : HashTable.Table K}
    (h : HashTable.Inv hash t) (k : K) (v : Person) (lifetime : Int)
    (hs : HashTable.Set hash t k v lifetime = some (true, t1)) (k1 : K) (hne : k1 ≠ k) :
    HashTable.Get hash t1 k1 = HashTable.Get hash t k1 := by
  obtain ⟨b, hb, hi, hbk⟩ := HashTable.inv_bucket h k
  have habs := ((HashTable.ht_present_set h hs).2 rfl).1
  have hany : ∀ n ∈ b, n.key ≠ k := by
    rw [HashTable.exists_eq hbk] at habs
    simp only [Option.some.injEq, List.any_eq_false] at habs
    intro n hn
    simpa using habs n hn
  rw [HashTable.set_fresh k v lifetime b h.1 hb hany] at hs
  simp only [Option.some.injEq, Prod.mk.injEq, true_and] at hs
  subst hs
  simp only [HashTable.Get, HashTable.bucket_set h _ (Nat.mod_lt _ h.1)]
  by_cases hk : hash k1 % t.capacity = hash k % t.capacity
  · have hb1 : HashTable.bucket hash t k1 = some b := by
      simp only [HashTable.bucket, HashTable.CalcIndex, Nat.pos_iff_ne_zero.mp h.1, if_false,
        Option.some_bind, hk, hb]
    have hnew : ((k == k1) = false) := by simpa using Ne.symm hne
    simp only [hk, if_true, Option.map_some', hb1, List.find?_append, List.find?_cons,
      hnew, List.find?_nil, Option.or_none]
  · simp only [hk, if_false]

theorem ht_upload_step (hash : K → Nat) (t : HashTable.Table K) (k : K) (v : Person)
    (h : HashTable.Inv hash t) :
    ∃ t1, (HashTable.Set hash t k v (-1)).map Prod.snd = some t1 ∧ HashTable.Inv hash t1 ∧
      (HashTable.Exists hash t k = some true → t1 = t) ∧
      (¬ HashTable.Exists hash t k = some true →
        HashTable.Exists hash t1 k = some true ∧ HashTable.Get hash t1 k = some v ∧
        ∀ k1, k1 ≠ k →
          (HashTable.Exists hash t1 k1 = some true ↔ HashTable.Exists hash t k1 = some true) ∧
          HashTable.Get hash t1 k1 = HashTable.Get hash t k1) := by
  obtain ⟨b, hb, -, hbk⟩ := HashTable.inv_bucket h k
  have hex := HashTable.exists_eq hbk
  cases hany : (b.any fun node => node.key == k) with
  | true =>
    rw [hany] at hex
    rw [HashTable.ht_set_present k v (-1) hex]
    exact ⟨t, rfl, h, fun _ => rfl, fun hn => absurd hex hn⟩
  | false =>
    rw [hany] at hex
    obtain ⟨t1, h1, h2, h3⟩ := HashTable.ht_set_absent h k v (-1) hex
    refine ⟨t1, by rw [h1]; rfl, HashTable.inv_set h h1, fun hp => ?_, fun _ =>
      ⟨h2, h3, fun k1 hne => ⟨?_, ht_set_get_frame h k v (-1) h1 k1 hne⟩⟩⟩
    · rw [hex] at hp; cases hp
    · rw [((HashTable.ht_present_set h h1).2 rfl).2 k1]
      simp [hne]

theorem rb_upload_step (t : RBTree.Tree K) (k : K) (v : Person) (h : RBTree.Inv t) :
    ∃ t1, (RBTree.Set t k v).map Prod.snd = some t1 ∧ RBTree.Inv t1 ∧
      (RBTree.Exists t k = true → t1 = t) ∧
      (¬ RBTree.Exists t k = true →
        RBTree.Exists t1 k = true ∧ RBTree.Get t1 k = v ∧
        ∀ k1, k1 ≠ k → (RBTree.Exists t1 k1 = true ↔ RBTree.Exists t k1 = true) ∧
          RBTree.Get t1 k1 = RBTree.Get t k1) := by
  obtain ⟨b, root, h1, h2, -, -⟩ := RBTree.rb_set_spec t h k v
  refine ⟨root, by rw [h1]; rfl, h2, fun hp => ?_, fun hn => ?_⟩
  · rw [RBTree.rb_set_present t h k v hp] at h1
    simp only [Option.some.injEq, Prod.mk.injEq] at h1
    exact h1.2.symm
  · have habs : RBTree.Exists t k = false := by simpa using hn
    obtain ⟨t1, g1, g2, g3⟩ := RBTree.rb_set_absent t h k v habs
    obtain ⟨b2, t2, f1, f2⟩ := RBTree.rb_set_frame t h k v
    rw [h1] at g1 f1
    simp only [Option.some.injEq, Prod.mk.injEq] at g1 f1
    obtain ⟨-, rfl⟩ := g1
    obtain ⟨-, rfl⟩ := f1
    exact ⟨g2, g3, fun k1 hne => ⟨by rw [(f2 k1 hne).1], (f2 k1 hne).2⟩⟩

theorem bp_upload_step (t : BPlusTree.Tree K) (k : K) (v : Person) (h : BPlusTree.Inv t) :
    ∃ t1, (BPlusTree.Set t k v).map Prod.snd = some t1 ∧ BPlusTree.Inv t1 ∧
      (BPlusTree.Exists t k = some true → t1 = t) ∧
      (¬ BPlusTree.Exists t k = some true →
        BPlusTree.Exists t1 k = some true ∧ BPlusTree.Get t1 k = some v ∧
        ∀ k1, k1 ≠ k →
          (BPlusTree.Exists t1 k1 = some true ↔ BPlusTree.Exists t k1 = some true) ∧
          BPlusTree.Get t1 k1 = BPlusTree.Get t k1) := by
  obtain ⟨b, root, h1, h2, -, -⟩ := BPlusTree.bp_set_spec t h k v
  refine ⟨root, by rw [h1]; rfl, h2, fun hp => ?_, fun hn => ?_⟩
  · rw [BPlusTree.bp_set_present t h k v hp] at h1
    simp only [Option.some.injEq, Prod.mk.injEq] at h1
    exact h1.2.symm
  · have habs : BPlusTree.Exists t k = some false := by
      rw [BPlusTree.bp_exists_eq_lookup t h k] at hn ⊢
      simpa using hn
    obtain ⟨t1, g1, g2, g3⟩ := BPlusTree.bp_set_absent t h k v habs
    obtain ⟨b2, t2, f1, f2⟩ := BPlusTree.bp_set_frame t h k v
    rw [h1] at g1 f1
    simp only [Option.some.injEq, Prod.mk.injEq] at g1 f1
    obtain ⟨-, rfl⟩ := g1
    obtain ⟨-, rfl⟩ := f1
    exact ⟨g2, g3, fun k1 hne => ⟨by rw [(f2 k1 hne).1], (f2 k1 hne).2⟩⟩

end

theorem sampleUpload_entries :
    entriesOfText sampleUpload =
      [("k1", ⟨"A", "a", "1", "x", "1"⟩), ("k1", ⟨"B", "b", "2", "y", "2"⟩),
        ("k2", ⟨"C", "c", "3", "z", "3"⟩)] := by
  decide!

/-! ### Texts of the format, with an entry cut short at the end -/

namespace IStream

theorem sentry_dead (s : IStream) (h : Dead s) :
    (sentry s).1 = false ∧ (sentry s).2.fail = true := by
  unfold sentry
  split
  · rename_i hg
    rcases h with h | h
    · simp [good, h] at hg
    · have : s.buf.dropWhile isspace = [] := by
        rw [List.dropWhile_eq_nil_iff]
        exact h
      simp [this]
  · simp

theorem getString_dead (old : List Char) (s : IStream) (h : Dead s) :
    (getString old s).2.fail = true := by
  obtain ⟨h1, h2⟩ := sentry_dead s h
  unfold getString
  cases hs : sentry s with
  | mk b s1 =>
    rw [hs] at h1 h2
    simp only at h1 h2
    subst h1
    exact h2

theorem getQuoted_dead (old : List Char) (s : IStream) (h : Dead s) :
    (getQuoted old s).2.fail = true := by
  obtain ⟨h1, h2⟩ := sentry_dead s h
  unfold getQuoted getChar
  cases hs : sentry s with
  | mk b s1 =>
    rw [hs] at h1 h2
    simp only at h1 h2
    subst h1
    exact h2

end IStream

/-- A space is white space. -/
theorem space_isspace : ∀ c ∈ [' '], isspace c = true := by
  intro c hc
  simp only [List.mem_singleton] at hc
  subst hc
  decide

/-- The extraction `stream >> key >> value` fails on an entry cut short before its last
word. -/
theorem readEntry_cut (k0 : List Char) (v0 : Person) (ws ws2 : List Char) (key : String)
    (value : Person) (n : Nat) (hws : ∀ c ∈ ws, isspace c = true)
    (hws2 : ∀ c ∈ ws2, isspace c = true) (hk : KeyOk key) (hv : value.Formatted) :
    (readEntry k0 v0 ⟨ws ++ (cutEntry key value n ++ ws2), false, false⟩).2.2.fail = true := by
  obtain ⟨hb, hbs, -, -⟩ := formatted_readable value hv
  have hsp := space_isspace
  have hd : ∀ e, IStream.Dead ⟨ws2, e, false⟩ := fun e => Or.inr hws2
  have hhead : ∀ r ∈ ws2.head?, isspace r = true := by
    intro r hr
    cases ws2 with
    | nil => simp at hr
    | cons c w =>
      simp only [List.head?_cons, Option.mem_def, Option.some.injEq] at hr
      subst hr
      exact hws2 _ (List.mem_cons_self _ _)
  simp only [readEntry, Person.read]
  match n with
  | 0 =>
    have h0 : IStream.Dead ⟨ws ++ (cutEntry key value 0 ++ ws2), false, false⟩ := by
      refine Or.inr fun c hc => ?_
      simp only [cutEntry, List.nil_append, List.mem_append] at hc
      rcases hc with hc | hc
      · exact hws c hc
      · exact hws2 c hc
    have h1 := IStream.getString_dead k0 _ h0
    exact IStream.getString_failed _ _ (IStream.getQuoted_dead _ _ (Or.inl
      (IStream.getString_failed _ _ (IStream.getQuoted_dead _ _ (Or.inl
        (IStream.getQuoted_dead _ _ (Or.inl h1)))))))
  | 1 =>
    have h1 := IStream.getString_word k0 ws key.data ws2 hws hk.1 hk.2 hhead
    simp only [cutEntry]
    rw [h1]
    exact IStream.getString_failed _ _ (IStream.getQuoted_dead _ _ (Or.inl
      (IStream.getString_failed _ _ (IStream.getQuoted_dead _ _ (Or.inl
        (IStream.getQuoted_dead _ _ (hd _)))))))
  | 2 =>
    have e : ws ++ (cutEntry key value 2 ++ ws2) =
        ws ++ (key.data ++ ([' '] ++ (quoted value.last_name.data ++ ws2))) := by
      simp [cutEntry]
    have h1 := IStream.getString_word k0 ws key.data
      ([' '] ++ (quoted value.last_name.data ++ ws2)) hws hk.1 hk.2 (by simp; decide)
    have h2 := IStream.getQuoted_quoted v0.last_name.data [' '] value.last_name.data ws2 hsp
    simp only [List.singleton_append, List.isEmpty_cons] at h1 h2
    rw [e]
    simp only [List.singleton_append, h1, h2]
    exact IStream.getString_failed _ _ (IStream.getQuoted_dead _ _ (Or.inl
      (IStream.getString_failed _ _ (IStream.getQuoted_dead _ _ (hd _)))))
  | 3 =>
    have e : ws ++ (cutEntry key value 3 ++ ws2) =
        ws ++ (key.data ++ ([' '] ++ (quoted value.last_name.data ++
          ([' '] ++ (quoted value.first_name.data ++ ws2))))) := by
      simp [cutEntry]
    have h1 := IStream.getString_word k0 ws key.data
      ([' '] ++ (quoted value.last_name.data ++
        ([' '] ++ (quoted value.first_name.data ++ ws2)))) hws hk.1 hk.2 (by simp; decide)
    have h2 := IStream.getQuoted_quoted v0.last_name.data [' '] value.last_name.data
      ([' '] ++ (quoted value.first_name.data ++ ws2)) hsp
    have h3 := IStream.getQuoted_quoted v0.first_name.data [' '] value.first_name.data ws2 hsp
    simp only [List.singleton_append, List.isEmpty_cons] at h1 h2 h3
    rw [e]
    simp only [List.singleton_append, h1, h2, h3]
    exact IStream.getString_failed _ _ (IStream.getQuoted_dead _ _ (Or.inl
      (IStream.getString_dead _ _ (hd _))))
  | 4 =>
    have e : ws ++ (cutEntry key value 4 ++ ws2) =
        ws ++ (key.data ++ ([' '] ++ (quoted value.last_name.data ++
          ([' '] ++ (quoted value.first_name.data ++
            ([' '] ++ (value.birthday.data ++ ws2))))))) := by
      simp [cutEntry]
    have h1 := IStream.getString_word k0 ws key.data
      ([' '] ++ (quoted value.last_name.data ++
        ([' '] ++ (quoted value.first_name.data ++
          ([' '] ++ (value.birthday.data ++ ws2)))))) hws hk.1 hk.2 (by simp; decide)
    have h2 := IStream.getQuoted_quoted v0.last_name.data [' '] value.last_name.data
      ([' '] ++ (quoted value.first_name.data ++ ([' '] ++ (value.birthday.data ++ ws2)))) hsp
    have h3 := IStream.getQuoted_quoted v0.first_name.data [' '] value.first_name.data
      ([' '] ++ (value.birthday.data ++ ws2)) hsp
    have h4 := IStream.getString_word v0.birthday.data [' '] value.birthday.data ws2 hsp hb hbs
      hhead
    simp only [List.singleton_append, List.isEmpty_cons] at h1 h2 h3 h4
    rw [e]
    simp only [List.singleton_append, h1, h2, h3, h4]
    exact IStream.getString_failed _ _ (IStream.getQuoted_dead _ _ (hd _))
  | n + 5 =>
    have e : ws ++ (cutEntry key value (n + 5) ++ ws2) =
        ws ++ (key.data ++ ([' '] ++ (quoted value.last_name.data ++
          ([' '] ++ (quoted value.first_name.data ++
            ([' '] ++ (value.birthday.data ++
              ([' '] ++ (quoted value.city.data ++ ws2))))))))) := by
      simp [cutEntry]
    have h1 := IStream.getString_word k0 ws key.data
      ([' '] ++ (quoted value.last_name.data ++
        ([' '] ++ (quoted value.first_name.data ++
          ([' '] ++ (value.birthday.data ++
            ([' '] ++ (quoted value.city.data ++ ws2)))))))) hws hk.1 hk.2 (by simp; decide)
    have h2 := IStream.getQuoted_quoted v0.last_name.data [' '] value.last_name.data
      ([' '] ++ (quoted value.first_name.data ++ ([' '] ++ (value.birthday.data ++
        ([' '] ++ (quoted value.city.data ++ ws2)))))) hsp
    have h3 := IStream.getQuoted_quoted v0.first_name.data [' '] value.first_name.data
      ([' '] ++ (value.birthday.data ++ ([' '] ++ (quoted value.city.data ++ ws2)))) hsp
    have h4 := IStream.getString_word v0.birthday.data [' '] value.birthday.data
      ([' '] ++ (quoted value.city.data ++ ws2)) hsp hb hbs (by simp; decide)
    have h5 := IStream.getQuoted_quoted v0.city.data [' '] value.city.data ws2 hsp
    simp only [List.singleton_append, List.isEmpty_cons] at h1 h2 h3 h4 h5
    rw [e]
    simp only [List.singleton_append, h1, h2, h3, h4, h5]
    exact IStream.getString_dead _ _ (hd _)

/-- The entries that parse from the lines of `Export` for a list of entries, followed by a
text that holds no whole entry, are the entries of the list. -/
theorem parseEntries_lines :
    ∀ (es : List (String × Person)), (∀ e ∈ es, KeyOk e.1 ∧ e.2.Formatted) →
    ∀ (tail : List Char), Incomplete tail →
    ∀ (fuel : Nat) (ws key : List Char) (value : Person),
      (∀ c ∈ ws, isspace c = true) → es.length < fuel →
      parseEntries fuel key value ⟨ws ++ (exportLines es ++ tail), false, false⟩ = es
  | [], _, tail, ht, fuel, ws, key, value, hws, hf => by
    obtain ⟨f, rfl⟩ : ∃ f, fuel = f + 1 := ⟨fuel - 1, by simp at hf; omega⟩
    obtain ⟨ws1, k, v, n, ws2, rfl, h1, h2, hk, hv⟩ := ht
    have h := readEntry_cut key value (ws ++ ws1) ws2 k v n
      (fun c hc => by
        rcases List.mem_append.mp hc with hc | hc
        · exact hws c hc
        · exact h1 c hc) h2 hk hv
    simp only [exportLines, List.flatMap_nil, List.nil_append, parseEntries]
    rw [List.append_assoc] at h
    rw [h]
    rfl
  | (k, v) :: es, h, tail, ht, fuel, ws, key, value, hws, hf => by
    obtain ⟨f, rfl⟩ : ∃ f, fuel = f + 1 := ⟨fuel - 1, by simp at hf; omega⟩
    obtain ⟨⟨hk1, hk2⟩, hv⟩ := h (k, v) (List.mem_cons_self _ _)
    obtain ⟨hb, hbs, hc, hcs⟩ := formatted_readable v hv
    have e1 : ws ++ (exportLines ((k, v) :: es) ++ tail) =
        ws ++ (k.data ++ ([' '] ++ (v.write ++ (['\n'] ++ (exportLines es ++ tail))))) := by
      simp [exportLines, exportLine]
    have h1 := IStream.getString_word key ws k.data
      ([' '] ++ (v.write ++ (['\n'] ++ (exportLines es ++ tail)))) hws hk1 hk2
      (by simp; decide)
    have h2 := Person.read_write value v [' '] (['\n'] ++ (exportLines es ++ tail))
      (by simp; decide) hb hbs hc hcs (by simp; decide)
    simp only [List.singleton_append, List.isEmpty_cons] at h1 h2
    have ih := parseEntries_lines es (fun e he => h e (List.mem_cons_of_mem _ he)) tail ht f
      ['\n'] k.data v (by simp; decide) (by simp at hf; omega)
    simp only [List.singleton_append] at ih
    rw [e1]
    simp only [parseEntries, readEntry, List.singleton_append, h1, h2, Bool.false_eq_true,
      if_false, ih]

/-- The entries that parse from a text of the format: the lines of `Export` for a list of
entries, followed by a text that holds no whole entry. -/
theorem entriesOfText_lines (es : List (String × Person))
    (h : ∀ e ∈ es, KeyOk e.1 ∧ e.2.Formatted) (tail : List Char) (ht : Incomplete tail) :
    entriesOfText (exportLines es ++ tail) = es := by
  have := parseEntries_lines es h tail ht ((exportLines es ++ tail).length + 1) [] []
    Person.empty (by simp) (by
      have := length_exportLines es
      simp only [List.length_append]
      omega)
  simpa [entriesOfText, IStream.ofText] using this

theorem sampleUpload_text :
    sampleUpload = exportLines sampleEntries ++
      ([] ++ (cutEntry "k3" ⟨"D", "d", "4", "w", "4"⟩ 2 ++ [])) := by
  decide

end s21
namespace s21

namespace BPlusTree

section
variable {K : Type} [LinearOrder K]

/-! ### The calls of `UpdateTree`, one by one -/

theorem calls_root (node : Node K) : UpdateTree.calls node [] = [(node, [])] := by
  rw [UpdateTree.calls]

theorem calls_stop (node : Node K) (f : Frame K) (rest : Path K) (h : 5 ≤ node.Size) :
    UpdateTree.calls node (f :: rest) = [(node, f :: rest)] := by
  rw [UpdateTree.calls]
  simp only [threshold_eq, ge_iff_le, h, if_true]

theorem updateTree_stop (node : Node K) (f : Frame K) (rest : Path K) (h : 5 ≤ node.Size) :
    UpdateTree node (f :: rest) = some (zip node (f :: rest)) := by
  rw [UpdateTree]
  simp only [threshold_eq, ge_iff_le, h, if_true]

theorem calls_share_left (node L : Node K) (front : K) (pk : List K)
    (X after : List (Node K)) (rest : Path K) (hsz : node.Size < 5)
    (hfront : node.keys.head? = some front)
    (hidx : pk.findIdx (fun i => decide (front < i)) = X.length + 1)
    (hpk : pk.length = X.length + 1 + after.length) (hL : L.Size > 5) :
    UpdateTree.calls node (⟨pk, X ++ [L], after⟩ :: rest) =
      [(node, ⟨pk, X ++ [L], after⟩ :: rest)] := by
  have hs := getSiblings_eq front pk (X ++ L :: node :: after) (X.length + 1) hidx
    (by simp only [List.length_append, List.length_cons]; omega) (by omega)
  have hnz : ¬ X.length + 1 = 0 := by omega
  have hc := canShare_at X (node :: after) L
  simp only [hnz, if_false, Nat.add_sub_cancel] at hs
  rw [UpdateTree.calls]
  simp only [threshold_eq, ge_iff_le, not_le.mpr hsz, if_false, hfront, Option.some_bind,
    List.length_append, List.length_singleton, List.append_assoc, List.singleton_append, hs,
    hc, hL, decide_True, if_true]

theorem calls_share_right (node R : Node K) (front : K) (pk : List K)
    (before Y : List (Node K)) (rest : Path K) (hsz : node.Size < 5)
    (hfront : node.keys.head? = some front)
    (hidx : pk.findIdx (fun i => decide (front < i)) = before.length)
    (hpk : pk.length = before.length + (Y.length + 1)) (hR : R.Size > 5)
    (hcl : canShare (before ++ node :: R :: Y)
      (if before.length = 0 then none else some (before.length - 1)) = false) :
    UpdateTree.calls node (⟨pk, before, R :: Y⟩ :: rest) =
      [(node, ⟨pk, before, R :: Y⟩ :: rest)] := by
  have hs := getSiblings_eq front pk (before ++ node :: R :: Y) before.length hidx
    (by simp only [List.length_append, List.length_cons]; omega) (by omega)
  have hne : ¬ before.length = pk.length := by omega
  have hc := canShare_at_succ before Y node R
  simp only [hne, if_false] at hs
  rw [UpdateTree.calls]
  simp only [threshold_eq, ge_iff_le, not_le.mpr hsz, if_false, hfront, Option.some_bind, hs,
    hcl, Bool.false_eq_true, hc, hR, decide_True, if_true]

theorem calls_merge_left (node L : Node K) (front : K) (pk : List K)
    (X after : List (Node K)) (rest : Path K) (hsz : node.Size < 5)
    (hfront : node.keys.head? = some front)
    (hidx : pk.findIdx (fun i => decide (front < i)) = X.length + 1)
    (hpk : pk.length = X.length + 1 + after.length) (hL : ¬ L.Size > 5)
    (hcr : canShare (X ++ L :: node :: after)
      (if X.length + 1 = pk.length then none else some (X.length + 1 + 1)) = false)
    (parent : List K × List (Node K))
    (hm : Merge pk (X ++ L :: node :: after) X.length (X.length + 1) = some parent) :
    UpdateTree.calls node (⟨pk, X ++ [L], after⟩ :: rest) =
      (node, ⟨pk, X ++ [L], after⟩ :: rest) ::
        UpdateTree.calls (.Internal parent.1 parent.2) rest := by
  have hs := getSiblings_eq front pk (X ++ L :: node :: after) (X.length + 1) hidx
    (by simp only [List.length_append, List.length_cons]; omega) (by omega)
  have hnz : ¬ X.length + 1 = 0 := by omega
  have hc := canShare_at X (node :: after) L
  simp only [hnz, if_false, Nat.add_sub_cancel] at hs
  rw [UpdateTree.calls]
  simp only [threshold_eq, ge_iff_le, not_le.mpr hsz, if_false, hfront, Option.some_bind,
    List.length_append, List.length_singleton, List.append_assoc, List.singleton_append, hs,
    hc, hL, decide_False, Bool.false_eq_true, hcr, hm]

theorem calls_merge_right (node R : Node K) (front : K) (pk : List K)
    (Y : List (Node K)) (rest : Path K) (hsz : node.Size < 5)
    (hfront : node.keys.head? = some front)
    (hidx : pk.findIdx (fun i => decide (front < i)) = 0)
    (hpk : pk.length = Y.length + 1) (hR : ¬ R.Size > 5)
    (parent : List K × List (Node K))
    (hm : Merge pk (node :: R :: Y) 0 1 = some parent) :
    UpdateTree.calls node (⟨pk, [], R :: Y⟩ :: rest) =
      (node, ⟨pk, [], R :: Y⟩ :: rest) ::
        UpdateTree.calls (.Internal parent.1 parent.2) rest := by
  have hs := getSiblings_eq front pk (node :: R :: Y) 0 hidx
    (by simp only [List.length_cons]; omega) (by omega)
  have hne : ¬ 0 = pk.length := by omega
  have hc := canShare_at_succ [] Y node R
  simp only [hne, if_false, if_true, Nat.zero_add] at hs
  simp only [List.nil_append, List.length_nil, Nat.zero_add] at hc
  rw [UpdateTree.calls]
  simp only [threshold_eq, ge_iff_le, not_le.mpr hsz, if_false, hfront, Option.some_bind,
    List.nil_append, List.length_nil, hs, canShare_none, Bool.false_eq_true, hc, hR,
    decide_False, Nat.zero_add, hm]

theorem wf_isLeaf (n : Node K) (lo hi : Option K) (h : Nat) (hw : Wf lo hi h n)
    (hl : n.IsLeaf = true) : h = 0 := by
  cases n with
  | Leaf id ks ds nx =>
    cases h with
    | zero => rfl
    | succ h => simp [Wf] at hw
  | Internal ks cs => simp [Node.IsLeaf] at hl

theorem wf_entries_length (n : Node K) (lo hi : Option K) (hw : Wf lo hi 0 n) :
    (toList n).length = n.Size := by
  cases n with
  | Leaf id ks ds nx =>
    simp only [Wf] at hw
    rw [toList_leaf]
    simp [Node.Size, Node.keys, hw.2.1]
  | Internal ks cs => simp [Wf] at hw

theorem toList_pair {a b a1 b1 : Node K}
    (h : Reshape (leaves a ++ leaves b) (leaves a1 ++ leaves b1)) :
    toList a1 ++ toList b1 = toList a ++ toList b := by
  have := reshape_entries h
  simpa only [toList, entriesOf_append] using this

/-- The call of `UpdateTree` that takes an entry from the right sibling. -/
theorem sharesRight_of (rest : Path K) (h : Nat) (node R : Node K) (front kr : K)
    (kb ky : List K) (before Y : List (Node K)) (hlt : node.Size < 5)
    (hf : node.keys.head? = some front)
    (hidx : (kb ++ kr :: ky).findIdx (fun i => decide (front < i)) = before.length)
    (hlen : kb.length = before.length) (hky : ky.length = Y.length)
    (hR : Wf (some kr) (headOr (pathBounds rest).2 ky) h R)
    (hw : Wf (lastOr (pathBounds rest).1 kb) (some kr) h node) (hR5 : R.Size > 5)
    (hcl : canShare (before ++ node :: R :: Y)
      (if before.length = 0 then none else some (before.length - 1)) = false) :
    SharesRight node ⟨kb ++ kr :: ky, before, R :: Y⟩ rest R Y := by
  have hpk : (kb ++ kr :: ky).length = before.length + (Y.length + 1) := by
    simp only [List.length_append, List.length_cons]; omega
  have hstep := updateTree_share_right node R front (kb ++ kr :: ky) before Y rest hlt hf hidx
    hpk hR5 hcl
  have hcalls := calls_share_right node R front (kb ++ kr :: ky) before Y rest hlt hf hidx
    hpk hR5 hcl
  obtain ⟨k1, A1, B1, s1, s2, s3, s4, s5, s6⟩ :=
    share_right_spec h _ _ kr node R before Y kb ky hw hR hlen (by omega)
  refine ⟨kb, ky, kr, k1, A1, B1, rfl, hlen, s1, by rw [hstep, s1]; rfl, hcalls, s5, s4,
    toList_pair s6, fun hl => ?_⟩
  have h0 := wf_isLeaf R _ _ h hR hl
  subst h0
  rw [wf_entries_length _ _ _ s3, wf_entries_length _ _ _ hR]
  exact s5

/-- The call of `UpdateTree` that takes an entry from the left sibling. -/
theorem sharesLeft_of (rest : Path K) (h : Nat) (node L : Node K) (front kl : K)
    (kx ka : List K) (X after : List (Node K)) (hlt : node.Size < 5)
    (hf : node.keys.head? = some front)
    (hidx : (kx ++ kl :: ka).findIdx (fun i => decide (front < i)) = X.length + 1)
    (hlen : kx.length = X.length) (hka : ka.length = after.length)
    (hL : Wf (lastOr (pathBounds rest).1 kx) (some kl) h L)
    (hw : Wf (some kl) (headOr (pathBounds rest).2 ka) h node) (hL5 : L.Size > 5) :
    SharesLeft node ⟨kx ++ kl :: ka, X ++ [L], after⟩ rest X L := by
  have hpk : (kx ++ kl :: ka).length = X.length + 1 + after.length := by
    simp only [List.length_append, List.length_cons]; omega
  have hstep := updateTree_share_left node L front (kx ++ kl :: ka) X after rest hlt hf hidx
    hpk hL5
  have hcalls := calls_share_left node L front (kx ++ kl :: ka) X after rest hlt hf hidx
    hpk hL5
  obtain ⟨k1, A1, B1, s1, s2, s3, s4, s5, s6⟩ :=
    share_left_spec h _ _ kl L node X after kx ka hL hw hlen (by omega)
  refine ⟨kx, ka, kl, k1, A1, B1, rfl, hlen, ?_, by rw [hstep, s1]; rfl, hcalls, s4, s5,
    toList_pair s6, fun hl => ?_⟩
  · simpa using s1
  · have h0 := wf_isLeaf L _ _ h hL hl
    subst h0
    rw [wf_entries_length _ _ _ s2, wf_entries_length _ _ _ hL]
    exact s4

/-- The call of `UpdateTree` that merges two neighbours, and the shape of the parent on
which the next call runs. -/
theorem merges_of (rest : Path K) (h : Nat) (A B : Node K) (k : K) (kx ky : List K)
    (X Y : List (Node K)) (hlen : kx.length = X.length)
    (hpre : Pre h (pathBounds rest).1 kx X) (hpost : Post (pathBounds rest).2 h ky Y)
    (hA : Wf (lastOr (pathBounds rest).1 kx) (some k) h A)
    (hB : Wf (some k) (headOr (pathBounds rest).2 ky) h B) (hsum : A.Size + B.Size = 9)
    (hrest : PathWf rest (h + 1))
    (hmax : (kx ++ k :: ky).length ≤ bucket_size)
    (hmin : minKeys rest ≤ (kx ++ k :: ky).length) :
    ∃ M, Merge (kx ++ k :: ky) (X ++ A :: B :: Y) X.length (X.length + 1) =
        some (kx ++ ky, X ++ M :: Y) ∧
      toList M = toList A ++ toList B ∧
      Visited (.Internal (kx ++ ky) (X ++ M :: Y)) rest := by
  have hk : k ∉ kx := fun hm =>
    lt_irrefl _ (pre_keys_lt_of_ltOpt h X kx _ hpre k (wf_ltOpt _ _ _ _ hA) k hm)
  obtain ⟨M, m1, m2, m3, m4, m5, m6⟩ := merge_spec h _ _ k A B X Y kx ky hA hB hlen hk
  have sM : sizeOk M := by
    simp only [sizeOk, bucket_size]; omega
  have hwf := frame_merged rest h X Y kx ky M hlen hpre hpost m2 sM
  simp only [List.length_append, List.length_cons] at hmax hmin
  refine ⟨M, m1, ?_, h + 1, hwf, hrest, ?_, ?_⟩
  · have := reshape_entries m6
    simpa only [toList, entriesOf_append] using this
  · simp only [Node.Size, Node.keys, List.length_append]; omega
  · intro hne
    have := minKeys_cons rest hne
    simp only [Node.Size, Node.keys, List.length_append]; omega

/-- What the shape of a position says about the frame of the parent, for a node with fewer
than five keys: the keys of the parent split at the place of the node, and the first key of
the node finds this place. -/
theorem visited_frame (node : Node K) (f : Frame K) (rest : Path K)
    (hv : Visited node (f :: rest)) :
    ∃ h kb ka front, f.keys = kb ++ ka ∧ kb.length = f.before.length ∧
      ka.length = f.after.length ∧
      Pre h (pathBounds rest).1 kb f.before ∧ Post (pathBounds rest).2 h ka f.after ∧
      (kb ++ ka).length ≤ bucket_size ∧ minKeys rest ≤ (kb ++ ka).length ∧
      PathWf rest (h + 1) ∧
      Wf (lastOr (pathBounds rest).1 kb) (headOr (pathBounds rest).2 ka) h node ∧
      4 ≤ node.Size ∧ node.keys.head? = some front ∧
      (kb ++ ka).findIdx (fun i => decide (front < i)) = f.before.length := by
  obtain ⟨h, hw, hp, hsz, hmin4⟩ := hv
  have h4 := hmin4 (by simp)
  obtain ⟨kb, ka, hk, hlen, hpre, hpost, hmax, hmin, hrest, hb⟩ := pathWf_cons f rest h hp
  rw [hb] at hw
  simp only at hw
  have hka := post_length _ _ _ _ hpost
  cases hf : node.keys.head? with
  | none =>
    rw [List.head?_eq_none_iff] at hf
    simp [Node.Size, hf] at h4
  | some front =>
    have hfm : front ∈ node.keys := List.mem_of_mem_head? hf
    have hfb := wf_keys node _ _ h hw front hfm
    refine ⟨h, kb, ka, front, hk, hlen, hka, hpre, hpost, hmax, hmin, hrest, hw, h4, rfl, ?_⟩
    rw [← hlen]
    apply findIdx_split
    · intro k hkm
      exact not_lt.mpr (pre_keys_le h f.before kb _ hpre k hkm front hfb.1)
    · intro k hkh
      cases ka with
      | nil => simp at hkh
      | cons k1 ka =>
        simp only [List.head?_cons, Option.some.injEq] at hkh
        subst hkh
        exact hfb.2

/-- `GetSiblings` on a node with fewer than five keys returns its neighbours, and it has
one. -/
theorem visited_neighbours (node : Node K) (f : Frame K) (rest : Path K)
    (hv : Visited node (f :: rest)) :
    NeighboursFound node f ∧ (f.before ≠ [] ∨ f.after ≠ []) := by
  obtain ⟨h, kb, ka, front, hk, hlen, hka, hpre, hpost, hmax, hmin, hrest, hw, h4, hf, hidx⟩ :=
    visited_frame node f rest hv
  have hcl : (f.before ++ node :: f.after).length = f.keys.length + 1 := by
    rw [hk]
    simp only [List.length_append, List.length_cons]
    omega
  refine ⟨⟨front, hf, hcl, get_at _ _ _, ?_, fun hne => ?_, ?_⟩, ?_⟩
  · have := getSiblings_eq front f.keys (f.before ++ node :: f.after) f.before.length
      (by rw [hk]; exact hidx) hcl (by rw [hk, List.length_append]; omega)
    rw [this, hcl]
    simp only [Nat.add_right_cancel_iff]
  · rcases List.eq_nil_or_concat f.before with hb | ⟨X, L, hb⟩
    · rw [hb] at hne; simp at hne
    · rw [List.concat_eq_append] at hb
      rw [hb]
      simp only [List.length_append, List.length_singleton, Nat.add_sub_cancel,
        List.append_assoc, List.singleton_append, List.getLast?_append,
        List.getLast?_singleton, Option.or_some]
      exact get_at X (node :: f.after) L
  · cases f.after with
    | nil => simp
    | cons R Y => simpa using get_at_succ f.before Y node R
  · by_contra hcon
    simp only [not_or, not_not] at hcon
    have h1 : kb = [] := List.length_eq_zero.mp (by rw [hlen, hcon.1]; rfl)
    have h2 : ka = [] := List.length_eq_zero.mp (by rw [hka, hcon.2]; rfl)
    have := minKeys_pos rest
    rw [h1, h2] at hmin
    simp at hmin
    omega

theorem visited_shares_left (node : Node K) (f : Frame K) (rest : Path K)
    (hv : Visited node (f :: rest)) (hlt : node.Size < 5) (X : List (Node K)) (L : Node K)
    (hb : f.before = X ++ [L]) (hL5 : L.Size > 5) : SharesLeft node f rest X L := by
  obtain ⟨h, kb, ka, front, hk, hlen, hka, hpre, hpost, hmax, hmin, hrest, hw, h4, hf, hidx⟩ :=
    visited_frame node f rest hv
  obtain ⟨keys, before, after⟩ := f
  simp only at hk hlen hka hpre hpost hidx hb
  subst hk hb
  rcases List.eq_nil_or_concat kb with hkn | ⟨kx, kl, hkx⟩
  · subst hkn; simp at hlen
  · rw [List.concat_eq_append] at hkx
    subst hkx
    have hlenx : kx.length = X.length := by simpa using hlen
    obtain ⟨-, hL, -⟩ := pre_snoc_inv h kl L X kx _ hpre
    rw [lastOr_snoc] at hw
    have hkeys : kx ++ [kl] ++ ka = kx ++ kl :: ka := by simp
    rw [hkeys] at hidx ⊢
    exact sharesLeft_of rest h node L front kl kx ka X after hlt hf
      (by simpa using hidx) hlenx hka hL hw hL5

theorem canShare_left_false (node : Node K) (before after : List (Node K))
    (hl : ∀ X L, before = X ++ [L] → ¬ L.Size > 5) :
    canShare (before ++ node :: after)
      (if before.length = 0 then none else some (before.length - 1)) = false := by
  rcases List.eq_nil_or_concat before with hb | ⟨X, L, hb⟩
  · subst hb; rfl
  · rw [List.concat_eq_append] at hb
    have := canShare_at X (node :: after) L
    subst hb
    simpa [hl X L rfl] using this

theorem visited_shares_right (node : Node K) (f : Frame K) (rest : Path K)
    (hv : Visited node (f :: rest)) (hlt : node.Size < 5) (R : Node K) (Y : List (Node K))
    (ha : f.after = R :: Y) (hl : ∀ X L, f.before = X ++ [L] → ¬ L.Size > 5)
    (hR5 : R.Size > 5) : SharesRight node f rest R Y := by
  obtain ⟨h, kb, ka, front, hk, hlen, hka, hpre, hpost, hmax, hmin, hrest, hw, h4, hf, hidx⟩ :=
    visited_frame node f rest hv
  obtain ⟨keys, before, after⟩ := f
  simp only at hk hlen hka hpre hpost hidx ha hl
  subst hk ha
  cases ka with
  | nil => simp at hka
  | cons kr ky =>
    simp only [Post] at hpost
    obtain ⟨hR, -, -⟩ := hpost
    simp only [headOr_cons] at hw
    exact sharesRight_of rest h node R front kr kb ky before Y hlt hf hidx hlen
      (by simpa using hka) hR hw hR5 (canShare_left_false node before (R :: Y) hl)

theorem visited_merges_left (node : Node K) (f : Frame K) (rest : Path K)
    (hv : Visited node (f :: rest)) (hlt : node.Size < 5) (X : List (Node K)) (L : Node K)
    (hb : f.before = X ++ [L]) (hL5 : ¬ L.Size > 5)
    (hr : ∀ R Y, f.after = R :: Y → ¬ R.Size > 5) :
    ∃ kx ky k M,
      MergesInto node f rest (f.before.length - 1) f.before.length X L node f.after
        kx ky k M ∧
      Visited (.Internal (kx ++ ky) (X ++ M :: f.after)) rest := by
  obtain ⟨h, kb, ka, front, hk, hlen, hka, hpre, hpost, hmax, hmin, hrest, hw, h4, hf, hidx⟩ :=
    visited_frame node f rest hv
  obtain ⟨keys, before, after⟩ := f
  simp only at hk hlen hka hpre hpost hidx hb hr
  subst hk hb
  rcases List.eq_nil_or_concat kb with hkn | ⟨kx, kl, hkx⟩
  · subst hkn; simp at hlen
  · rw [List.concat_eq_append] at hkx
    subst hkx
    have hlenx : kx.length = X.length := by simpa using hlen
    obtain ⟨hpreX, hL, sL⟩ := pre_snoc_inv h kl L X kx _ hpre
    rw [lastOr_snoc] at hw
    have hkeys : kx ++ [kl] ++ ka = kx ++ kl :: ka := by simp
    rw [hkeys] at hidx hmax hmin ⊢
    have hidx1 : (kx ++ kl :: ka).findIdx (fun i => decide (front < i)) = X.length + 1 := by
      simpa using hidx
    have hsum : L.Size + node.Size = 9 := by
      have := sL.1; omega
    obtain ⟨M, m1, m2, m3⟩ := merges_of rest h L node kl kx ka X after hlenx hpreX hpost hL hw
      hsum hrest hmax hmin
    have hpk : (kx ++ kl :: ka).length = X.length + 1 + after.length := by
      simp only [List.length_append, List.length_cons]; omega
    have hcr : canShare (X ++ L :: node :: after)
        (if X.length + 1 = (kx ++ kl :: ka).length then none
          else some (X.length + 1 + 1)) = false := by
      cases after with
      | nil => simp [hpk, canShare_none]
      | cons R Y =>
        have := canShare_at (X ++ [L, node]) Y R
        have hne : ¬ X.length + 1 = (kx ++ kl :: ka).length := by
          rw [hpk]; simp
        simp only [hne, if_false]
        simpa [hr R Y rfl] using this
    have hstep := updateTree_merge_left node L front (kx ++ kl :: ka) X after rest hlt hf
      hidx1 hpk hL5 hcr
    have hcalls := calls_merge_left node L front (kx ++ kl :: ka) X after rest hlt hf
      hidx1 hpk hL5 hcr _ m1
    refine ⟨kx, ka, kl, M, ⟨rfl, hlenx, by simp, by simpa using m1, ?_, hcalls, m2⟩, m3⟩
    rw [hstep, m1]; rfl

theorem visited_merges_right (node : Node K) (f : Frame K) (rest : Path K)
    (hv : Visited node (f :: rest)) (hlt : node.Size < 5) (hb : f.before = [])
    (R : Node K) (Y : List (Node K)) (ha : f.after = R :: Y) (hR5 : ¬ R.Size > 5) :
    ∃ kx ky k M,
      MergesInto node f rest f.before.length (f.before.length + 1) [] node R Y kx ky k M ∧
      Visited (.Internal (kx ++ ky) (M :: Y)) rest := by
  obtain ⟨h, kb, ka, front, hk, hlen, hka, hpre, hpost, hmax, hmin, hrest, hw, h4, hf, hidx⟩ :=
    visited_frame node f rest hv
  obtain ⟨keys, before, after⟩ := f
  simp only at hk hlen hka hpre hpost hidx hb ha
  subst hk hb ha
  have hkb : kb = [] := List.length_eq_zero.mp hlen
  subst hkb
  cases ka with
  | nil => simp at hka
  | cons kr ky =>
    simp only [Post] at hpost
    obtain ⟨hR, sR, hpostY⟩ := hpost
    simp only [lastOr_nil, headOr_cons] at hw
    have hky : ky.length = Y.length := by simpa using hka
    have hsum : node.Size + R.Size = 9 := by
      have := sR.1; omega
    obtain ⟨M, m1, m2, m3⟩ := merges_of rest h node R kr [] ky [] Y rfl hpre hpostY hw hR
      hsum hrest hmax hmin
    have hstep := updateTree_merge_right node R front (kr :: ky) Y rest hlt hf
      (by simpa using hidx) (by simp only [List.length_cons]; omega) hR5
    have hcalls := calls_merge_right node R front (kr :: ky) Y rest hlt hf
      (by simpa using hidx) (by simp only [List.length_cons]; omega) hR5 _
      (by simpa using m1)
    refine ⟨[], ky, kr, M, ⟨rfl, rfl, rfl, by simpa using m1, ?_, by simpa using hcalls,
      m2⟩, by simpa using m3⟩
    simp only [List.nil_append, List.length_nil, Nat.zero_add] at m1 ⊢
    rw [hstep, m1]; rfl

/-- The shape holds for the node of every call of `UpdateTree`. -/
theorem calls_visited : ∀ (p : Path K) (node : Node K), Visited node p →
    ∀ c ∈ UpdateTree.calls node p, Visited c.1 c.2
  | [], node, hv, c, hc => by
    rw [calls_root] at hc
    simp only [List.mem_singleton] at hc
    subst hc
    exact hv
  | f :: rest, node, hv, c, hc => by
    by_cases hbig : 5 ≤ node.Size
    · rw [calls_stop node f rest hbig] at hc
      simp only [List.mem_singleton] at hc
      subst hc
      exact hv
    · have hlt : node.Size < 5 := by omega
      have one : ∀ {l : List (Node K × Path K)}, l = [(node, f :: rest)] → c ∈ l →
          Visited c.1 c.2 := by
        intro l hl hcl
        rw [hl] at hcl
        simp only [List.mem_singleton] at hcl
        subst hcl
        exact hv
      have more : ∀ {l : List (Node K × Path K)} (n1 : Node K),
          l = (node, f :: rest) :: UpdateTree.calls n1 rest → Visited n1 rest → c ∈ l →
          Visited c.1 c.2 := by
        intro l n1 hl hv1 hcl
        rw [hl] at hcl
        rcases List.mem_cons.mp hcl with rfl | hcl
        · exact hv
        · exact calls_visited rest n1 hv1 c hcl
      rcases List.eq_nil_or_concat f.before with hb | ⟨X, L, hb⟩
      · cases ha : f.after with
        | nil =>
          have := (visited_neighbours node f rest hv).2
          rw [hb, ha] at this
          simp at this
        | cons R Y =>
          by_cases hR5 : R.Size > 5
          · obtain ⟨_, _, _, _, _, _, -, -, -, -, hcalls, -⟩ :=
              visited_shares_right node f rest hv hlt R Y ha
                (fun X L hx => by rw [hb] at hx; simp at hx) hR5
            exact one hcalls hc
          · obtain ⟨kx, ky, k, M, hm, hvm⟩ :=
              visited_merges_right node f rest hv hlt hb R Y ha hR5
            exact more _ hm.2.2.2.2.2.1 hvm hc
      · rw [List.concat_eq_append] at hb
        by_cases hL5 : L.Size > 5
        · obtain ⟨_, _, _, _, _, _, -, -, -, -, hcalls, -⟩ :=
            visited_shares_left node f rest hv hlt X L hb hL5
          exact one hcalls hc
        · by_cases hr : ∀ R Y, f.after = R :: Y → ¬ R.Size > 5
          · obtain ⟨kx, ky, k, M, hm, hvm⟩ :=
              visited_merges_left node f rest hv hlt X L hb hL5 hr
            exact more _ hm.2.2.2.2.2.1 hvm hc
          · simp only [not_forall, not_not] at hr
            obtain ⟨R, Y, ha, hR5⟩ := hr
            obtain ⟨_, _, _, _, _, _, -, -, -, -, hcalls, -⟩ :=
              visited_shares_right node f rest hv hlt R Y ha
                (fun X1 L1 hx => by
                  rw [hb] at hx
                  obtain ⟨-, h2⟩ := List.append_inj' hx rfl
                  simp only [List.cons.injEq, and_true] at h2
                  rw [← h2]; exact hL5) hR5
            exact one hcalls hc

/-- The shape holds for the node of every call of `UpdateTree` in `Delete(key)`. -/
theorem delete_calls_visited (t : Tree K) (h : Inv t) (key : K) :
    ∀ c ∈ Delete.calls t key, Visited c.1 c.2 := by
  obtain ⟨id, ks, ds, nx, q, h1, h2, h3, h4, h5, h6, h7, h8⟩ := getLeaf_root t h key
  intro c hc
  simp only [Delete.calls, h1] at hc
  by_cases hk : key ∈ ks
  · simp only [Wf] at h4
    obtain ⟨hlt, hlen, hpw, hbd⟩ := h4
    obtain ⟨ks1, ds1, hd1, hd2, hd3, hd4, hd5, hd6⟩ :=
      leaf_delete_spec key ks ds hlen (hpw.imp fun h => ne_of_lt h) hk
    have hwf : Wf (pathBounds q).1 (pathBounds q).2 0 (.Leaf id ks1 ds1 nx : Node K) := by
      simp only [Wf]
      exact ⟨hlt, hd2, hpw.sublist hd5, fun k hk1 => hbd k (hd5.subset hk1)⟩
    have hszle := fits_size_le q _ h5
    simp only [Node.Size, Node.keys] at hszle
    simp only [hk, if_true, hd1] at hc
    refine calls_visited q _ ⟨0, hwf, h3, ?_, ?_⟩ c hc
    · simp only [Node.Size, Node.keys]; omega
    · intro hne
      cases q with
      | nil => exact absurd rfl hne
      | cons f q =>
        have := h5.1
        simp only [Node.Size, Node.keys] at this ⊢; omega
  · simp only [hk, if_false] at hc
    cases hc

end

end BPlusTree

end s21

namespace s21

namespace BPlusTree

section
variable {K : Type} [LinearOrder K]

/-- A call of `UpdateTree` on the root, or on a node with five keys or more, leaves the
node alone. -/
theorem visited_left_alone (node : Node K) (p : Path K) (hv : Visited node p)
    (h : p = [] ∨ 5 ≤ node.Size) : LeftAlone node p := by
  cases p with
  | nil =>
    refine ⟨calls_root node, ?_⟩
    obtain ⟨H, hw, -, -, -⟩ := hv
    simp only [pathBounds] at hw
    match node, H, hw with
    | .Leaf id ks ds nx, _, _ => exact Or.inl (by simp [UpdateTree, zip])
    | .Internal (k :: ks) cs, _, _ => exact Or.inl (by simp [UpdateTree, zip])
    | .Internal [] cs, 0, hw => simp [Wf] at hw
    | .Internal [] cs, H + 1, hw =>
      simp only [Wf] at hw
      match cs, hw with
      | [c], _ => exact Or.inr ⟨rfl, c, rfl, by simp [UpdateTree]⟩
      | [], hw => simp [WfIn] at hw
      | _ :: _ :: _, hw => simp [WfIn] at hw
  | cons f rest =>
    have h5 : 5 ≤ node.Size := by
      rcases h with h | h
      · cases h
      · exact h
    exact ⟨calls_stop node f rest h5, Or.inl (updateTree_stop node f rest h5)⟩

end

theorem sampleSix_reachable : Reachable sampleSix := by
  obtain ⟨t, h1, h2⟩ := reachable_setAll samplePerson (List.range 66) (init : Tree Nat)
    Reachable.init
  rw [sampleSix, h1]
  exact h2

theorem sampleSix_calls :
    (Delete.calls sampleSix 30).map (fun c => (c.1.IsLeaf, c.1.Size, c.2.length)) =
      [(true, 4, 2), (false, 5, 1)] := by
  decide!

theorem sampleSix_deleted :
    (Delete sampleSix 30).map (fun r => (r.1, (below r.2.root).filterMap childCount)) =
      some (true, [6, 6]) := by
  decide!

theorem sampleRun_calls :
    (Delete.calls sampleRun 0).map (fun c => (c.1.IsLeaf, c.1.Size, c.2.length)) =
      [(true, 4, 2), (false, 4, 1)] := by
  decide!

section
variable {K : Type}

/-- The tree around a position determines the node at the position. -/
theorem zip_node_inj : ∀ (p : Path K) (a b : Node K), zip a p = zip b p → a = b
  | [], _, _, h => h
  | f :: p, a, b, h => by
    have h1 := zip_node_inj p _ _ h
    simp only [Frame.fill, Node.Internal.injEq, true_and] at h1
    have h2 := List.append_cancel_left h1
    exact (List.cons.inj h2).1

end

section
variable {K : Type} [LinearOrder K]

theorem calls_ne_nil (node : Node K) (p : Path K) : UpdateTree.calls node p ≠ [] := by
  cases p with
  | nil => rw [UpdateTree.calls]; simp
  | cons f rest => rw [UpdateTree.calls]; simp

/-- A call of `UpdateTree` that takes an entry from the left sibling does not leave the
node alone. -/
theorem sharesLeft_not_alone (node : Node K) (f : Frame K) (rest : Path K)
    (X : List (Node K)) (L : Node K) (h : SharesLeft node f rest X L) :
    ¬ LeftAlone node (f :: rest) := by
  obtain ⟨kx, ky, k, k1, L1, node1, -, -, -, hu, -, -, hs, -⟩ := h
  rintro ⟨-, h1 | ⟨h1, -⟩⟩
  · rw [hu] at h1
    have h2 := zip_node_inj rest _ _ (Option.some.inj h1)
    simp only [Frame.fill, Node.Internal.injEq] at h2
    have h3 : (X ++ [L1]) ++ node1 :: f.after = f.before ++ node :: f.after := by
      rw [← h2.2]; simp
    have h4 := List.append_inj' h3 rfl
    have h5 := (List.cons.inj h4.2).1
    rw [h5] at hs
    omega
  · cases h1

/-- A call of `UpdateTree` that takes an entry from the right sibling does not leave the
node alone. -/
theorem sharesRight_not_alone (node : Node K) (f : Frame K) (rest : Path K) (R : Node K)
    (Y : List (Node K)) (h : SharesRight node f rest R Y) : ¬ LeftAlone node (f :: rest) := by
  obtain ⟨kx, ky, k, k1, node1, R1, -, -, -, hu, -, -, hs, -⟩ := h
  rintro ⟨-, h1 | ⟨h1, -⟩⟩
  · rw [hu] at h1
    have h2 := zip_node_inj rest _ _ (Option.some.inj h1)
    simp only [Frame.fill, Node.Internal.injEq] at h2
    have h5 := (List.cons.inj (List.append_cancel_left h2.2)).1
    rw [h5] at hs
    omega
  · cases h1

/-- A call of `UpdateTree` that merges does not leave the node alone. -/
theorem merges_not_alone (node : Node K) (f : Frame K) (rest : Path K) (left right : Nat)
    (X : List (Node K)) (A B : Node K) (Y : List (Node K))
    (h : Merges node f rest left right X A B Y) : ¬ LeftAlone node (f :: rest) := by
  obtain ⟨kx, ky, k, M, -, -, -, -, -, hc, -⟩ := h
  rintro ⟨h1, -⟩
  rw [hc] at h1
  exact calls_ne_nil _ _ (List.cons.inj h1).2

end

end BPlusTree

end s21
namespace s21

namespace RBTree

/-! ## `DeletionCheck` returns -/

section
variable {K : Type}

theorem height_fill (f : Frame K) (t : Tree K) : t.height + 1 ≤ (f.fill t).height := by
  unfold Frame.fill
  split <;> simp only [Tree.height] <;> omega

/-- A node at the end of a chain of `n` ancestors lies in a tree of height more than `n`. -/
theorem height_zip : ∀ (p : Path K) (t : Tree K), p.length + t.height ≤ (zip t p).height
  | [], t => by simp [zip]
  | f :: p, t => by
    have h1 := height_zip p (f.fill t)
    have h2 := height_fill f t
    simp only [zip, List.length_cons]
    omega

end

section
variable {K : Type} [LinearOrder K]

/-- `DeletionCheck` returns on every node of a tree with the red-black shape, within
`n + 3` nested calls for a node with `n` ancestors. -/
theorem dc_total (t : Tree K) (p : Path K) (fuel : Nat) (hb : Bal (zip t p))
    (hr : isRed (zip t p) = false) (hf : p.length + 3 ≤ fuel) :
    ∃ p1, DeletionCheck fuel t p = some p1 := by
  obtain ⟨m, rfl⟩ : ∃ m, fuel = m + 1 := ⟨fuel - 1, by omega⟩
  obtain ⟨-, h2⟩ := bal_unzip p t hb hr
  cases t with
  | nil => exact ⟨p, dc_nil m p⟩
  | node c l k v r =>
    cases c with
    | kRed => exact ⟨p, dc_red m l r k v p⟩
    | kBlack =>
      obtain ⟨p1, h3, -⟩ := dc_bal p (bh l) (m + 1) l r k v hf
        (by simpa [isRed, bh] using h2)
      exact ⟨p1, h3⟩

/-- The branches of `DeletionCheck` on a black node below its parent, in a tree with the
red-black shape: the sibling is a node; below a red sibling the call enters again on the
same node and three nested calls are all; below a black sibling whose far child is not red
and whose near child is red it enters again on the same node and two nested calls are all;
in the other cases it returns at once or goes on with the parent. -/
theorem dc_branches (l r : Tree K) (k : K) (v : Person) (f : Frame K) (rest : Path K)
    (hb : Bal (zip (.node .kBlack l k v r) (f :: rest)))
    (hr : isRed (zip (.node .kBlack l k v r) (f :: rest)) = false) :
    ∃ sc near sk sv far, f.other = sideNode f.isLeft sc near sk sv far ∧
      (sc = .kRed →
        (∀ fuel, DeletionCheck (fuel + 1) (.node .kBlack l k v r) (f :: rest) =
          DeletionCheck fuel (.node .kBlack l k v r)
            (⟨f.isLeft, .kRed, f.key, f.value, near⟩ :: ⟨f.isLeft, f.color, sk, sv, far⟩ ::
              rest)) ∧
        ∀ fuel, ∃ p1,
          DeletionCheck (fuel + 3) (.node .kBlack l k v r) (f :: rest) = some p1) ∧
      (sc = .kBlack → isRed far = false → isRed near = true →
        (∃ f1 : Frame K, ∀ fuel,
          DeletionCheck (fuel + 1) (.node .kBlack l k v r) (f :: rest) =
            DeletionCheck fuel (.node .kBlack l k v r) (f1 :: rest)) ∧
        ∀ fuel, ∃ p1,
          DeletionCheck (fuel + 2) (.node .kBlack l k v r) (f :: rest) = some p1) ∧
      (sc = .kBlack → (isRed far = true ∨ isRed near = false) →
        (∃ p1, ∀ fuel,
          DeletionCheck (fuel + 1) (.node .kBlack l k v r) (f :: rest) = some p1) ∨
        ∃ f1 : Frame K, ∀ fuel,
          DeletionCheck (fuel + 1) (.node .kBlack l k v r) (f :: rest) =
            (DeletionCheck fuel (f1.fill (.node .kBlack l k v r)) rest).map
              fun rest1 => f1 :: rest1) := by
  obtain ⟨-, hp⟩ := bal_unzip (f :: rest) _ hb hr
  have hp0 : PathBal (f :: rest) false (bh l + 1) := by simpa [isRed, bh] using hp
  have hp' := hp0
  simp only [PathBal] at hp'
  obtain ⟨hbo, hh, hc, hrest⟩ := hp'
  obtain ⟨sc, sl, sk, sv, sr, hfo⟩ := bh_pos_ne_nil hh
  obtain ⟨near, far, hs⟩ := exists_sideNode f.isLeft sc sl sk sv sr
  rw [hs] at hfo
  refine ⟨sc, near, sk, sv, far, hfo, fun hsc => ?_, fun hsc hfar hnear => ?_,
    fun hsc hcase => ?_⟩
  · subst hsc
    refine ⟨fun fuel => dc_red_sib fuel l r k v f rest near far sk sv hfo, fun fuel => ?_⟩
    have hfc : f.color = .kBlack := by
      cases hfc : f.color
      · have := (hc hfc).2
        rw [hfo] at this
        cases hfl : f.isLeft <;> simp [sideNode, hfl, isRed] at this
      · rfl
    rw [dc_red_sib _ _ _ _ _ _ _ _ _ _ _ hfo]
    rw [hfo] at hbo hh
    have hn : bh near = bh l + 1 ∧ bh far = bh l + 1 ∧ Bal near ∧ Bal far ∧
        isRed near = false ∧ isRed far = false := by
      cases hfl : f.isLeft <;> simp_all [Bal, bh, sideNode]
    obtain ⟨nc, nl, nk, nv, nr, hnear⟩ := bh_pos_ne_nil hn.1
    have hnc : nc = .kBlack := by
      cases nc
      · have := hn.2.2.2.2.1; rw [hnear] at this; simp [isRed] at this
      · rfl
    subst hnc
    obtain ⟨a, b, hab⟩ := exists_sideNode f.isLeft .kBlack nl nk nv nr
    obtain ⟨p1, h1, -⟩ := dc_bal_step (bh l) fuel l r k v
      ⟨f.isLeft, .kRed, f.key, f.value, near⟩ (⟨f.isLeft, f.color, sk, sv, far⟩ :: rest)
      a b nk nv (by rw [hnear, hab]) (by simp)
      (by
        simp only [PathBal, hfc] at hrest ⊢
        refine ⟨hn.2.2.1, hn.1, by simp [hn.2.2.2.2.1], hn.2.2.2.1, by simp [hn.2.1], ?_, ?_⟩
        · simp
        · simpa using hrest)
    exact ⟨p1, h1⟩
  · subst hsc
    rcases isRed_cases near with hn | ⟨nl, nk, nv, nr, rfl⟩
    · rw [hn] at hnear; cases hnear
    · obtain ⟨a, b, hab⟩ := exists_sideNode f.isLeft .kRed nl nk nv nr
      rw [hab] at hfo
      refine ⟨⟨_, fun fuel => dc_c fuel l r k v f rest a b far sk nk sv nv hfo hfar⟩,
        fun fuel => ?_⟩
      rw [← hab] at hfo
      obtain ⟨p1, h1, -⟩ := dc_bal_step (bh l) fuel l r k v f rest
        (.node .kRed nl nk nv nr) far sk sv hfo (by simp [isRed]) hp0
      exact ⟨p1, h1⟩
  · subst hsc
    rcases isRed_cases far with hfar | ⟨fl, fk, fv, fr, rfl⟩
    · have hnear : isRed near = false := by
        rcases hcase with h | h
        · rw [hfar] at h; cases h
        · exact h
      cases hfc : f.color with
      | kRed =>
        exact Or.inl ⟨_, fun fuel =>
          dc_a_red fuel l r k v f rest near far sk sv hfo hnear hfar hfc⟩
      | kBlack =>
        exact Or.inr ⟨_, fun fuel =>
          dc_a_black fuel l r k v f rest near far sk sv hfo hnear hfar hfc⟩
    · exact Or.inl ⟨_, fun fuel => dc_b fuel l r k v f rest near fl fr sk fk sv fv hfo⟩

end

theorem rb_sampleBlack_reachable : Reachable sampleBlack := by
  have h4 : Reachable (Tree.node .kBlack (.node .kBlack .nil 1 samplePerson .nil) 2
      samplePerson (.node .kBlack .nil 3 samplePerson
        (.node .kRed .nil 4 samplePerson .nil))) :=
    @Reachable.set Nat _ _ _ 4 samplePerson true rb_sampleThree_reachable rfl
  exact @Reachable.delete Nat _ _ _ 4 true h4 rfl

theorem rb_sampleBlack_bal :
    Bal (zip (Tree.node .kBlack .nil 1 samplePerson .nil)
      [(⟨true, .kBlack, 2, samplePerson, .node .kBlack .nil 3 samplePerson .nil⟩ :
        Frame Nat)]) := by
  simp [zip, Frame.fill, Bal, bh]

end RBTree

end s21
namespace s21

/-! ## The claims on `Upload`, the threads of the scheduler, the rebalancing of the B+ tree,
the capacity of the hash table, the records and `DeletionCheck` -/

/-- Claim C31, with the file as a text. The entries that parse from a text of the format,
the lines `<key> <record>` of a list of entries followed by an entry cut short before its
last word, are the entries of the list. In each of the three backends and every reachable
store, `Upload` returns the number of the entries `<key> <record>` that parse from the
start of the text up to the first extraction that fails (more iterations read no more
entries); the store it leaves holds the keys it held and the keys of these entries, and no
other key; a key that was in the store keeps its record, and a key that was not has the
record of its first entry, so that an entry with a key that is present is counted and
changes nothing; and when the file does not open, `Upload` returns 0 and the store is as it
was. -/
theorem upload_counts_parsed_entries :
    (∀ (es : List (String × Person)) (tail : List Char),
      (∀ e ∈ es, KeyOk e.1 ∧ e.2.Formatted) → Incomplete tail →
      entriesOfText (exportLines es ++ tail) = es) ∧
    (∀ (text : List Char) (extra : Nat),
      parseEntries (text.length + 1 + extra) [] Person.empty (IStream.ofText text) =
        entriesOfText text) ∧
    (∀ (hash : String → Nat) (t : HashTable.Table String) (text : List Char),
      HashTable.Reachable hash t →
      HashTable.UploadFile hash t none = some (0, t) ∧
      ∃ t1, HashTable.UploadFile hash t (some text) =
          some ((entriesOfText text).length, t1) ∧
        (∀ k, HashTable.Exists hash t1 k = some true ↔
          HashTable.Exists hash t k = some true ∨ k ∈ (entriesOfText text).map Prod.fst) ∧
        (∀ k, HashTable.Exists hash t k = some true →
          HashTable.Get hash t1 k = HashTable.Get hash t k) ∧
        (∀ k v, ¬ HashTable.Exists hash t k = some true →
          lookup k (entriesOfText text) = some v → HashTable.Get hash t1 k = some v)) ∧
    (∀ (t : RBTree.Tree String) (text : List Char), RBTree.Reachable t →
      RBTree.UploadFile t none = some (0, t) ∧
      ∃ t1, RBTree.UploadFile t (some text) = some ((entriesOfText text).length, t1) ∧
        (∀ k, RBTree.Exists t1 k = true ↔
          RBTree.Exists t k = true ∨ k ∈ (entriesOfText text).map Prod.fst) ∧
        (∀ k, RBTree.Exists t k = true → RBTree.Get t1 k = RBTree.Get t k) ∧
        (∀ k v, ¬ RBTree.Exists t k = true →
          lookup k (entriesOfText text) = some v → RBTree.Get t1 k = v)) ∧
    (∀ (t : BPlusTree.Tree String) (text : List Char), BPlusTree.Reachable t →
      BPlusTree.UploadFile t none = some (0, t) ∧
      ∃ t1, BPlusTree.UploadFile t (some text) = some ((entriesOfText text).length, t1) ∧
        (∀ k, BPlusTree.Exists t1 k = some true ↔
          BPlusTree.Exists t k = some true ∨ k ∈ (entriesOfText text).map Prod.fst) ∧
        (∀ k, BPlusTree.Exists t k = some true →
          BPlusTree.Get t1 k = BPlusTree.Get t k) ∧
        (∀ k v, ¬ BPlusTree.Exists t k = some true →
          lookup k (entriesOfText text) = some v → BPlusTree.Get t1 k = some v)) := by
  refine ⟨fun es tail h ht => entriesOfText_lines es h tail ht,
    fun text extra => parseEntries_stable _ _ _ _ _ (by simp [IStream.ofText]),
    fun hash t text hr => ⟨rfl, ?_⟩, fun t text hr => ⟨rfl, ?_⟩, fun t text hr => ⟨rfl, ?_⟩⟩
  · obtain ⟨t1, h1, -, h3, h4, h5⟩ := uploadAll_content
      (fun t key value => (HashTable.Set hash t key value (-1)).map Prod.snd)
      (HashTable.Inv hash) (fun t k => HashTable.Exists hash t k = some true)
      (HashTable.Get hash) some (fun t k v h => ht_upload_step hash t k v h)
      (entriesOfText text) t (HashTable.ht_reachable_inv hr)
    refine ⟨t1, ?_, h3, h4, h5⟩
    simp only [HashTable.UploadFile, HashTable.Upload]
    rw [uploadLoop_parse _ _ _ _ _ _ _ (by simp [IStream.ofText])]
    simp only [entriesOfText] at h1 ⊢
    rw [h1]
    simp
  · obtain ⟨t1, h1, -, h3, h4, h5⟩ := uploadAll_content
      (fun t key value => (RBTree.Set t key value).map Prod.snd)
      RBTree.Inv (fun t k => RBTree.Exists t k = true)
      RBTree.Get id (fun t k v h => rb_upload_step t k v h)
      (entriesOfText text) t (RBTree.rb_reachable_inv hr)
    refine ⟨t1, ?_, h3, h4, h5⟩
    simp only [RBTree.UploadFile, RBTree.Upload]
    rw [uploadLoop_parse _ _ _ _ _ _ _ (by simp [IStream.ofText])]
    simp only [entriesOfText] at h1 ⊢
    rw [h1]
    simp
  · obtain ⟨t1, h1, -, h3, h4, h5⟩ := uploadAll_content
      (fun t key value => (BPlusTree.Set t key value).map Prod.snd)
      BPlusTree.Inv (fun t k => BPlusTree.Exists t k = some true)
      BPlusTree.Get some (fun t k v h => bp_upload_step t k v h)
      (entriesOfText text) t (BPlusTree.bp_reachable_inv hr)
    refine ⟨t1, ?_, h3, h4, h5⟩
    simp only [BPlusTree.UploadFile, BPlusTree.Upload]
    rw [uploadLoop_parse _ _ _ _ _ _ _ (by simp [IStream.ofText])]
    simp only [entriesOfText] at h1 ⊢
    rw [h1]
    simp

/-- Claim C32 as it stands fails, at this run of a B+ tree with the caller and the thread
of task 0. `Set(1, samplePerson, 0)` schedules task 0; its thread leaves the loop and finds
`!info.remove && !stop_` true. Before the thread calls `task_func`, the caller runs
`Delete(1)`, in which `StopTask(0)` returns, and `Set(1, samplePatch)`. Then the thread
calls `task_func`, that is `Delete(1)`: the callback runs after `StopTask(0)` has returned,
and the key set anew is gone. -/
theorem stopTask_does_not_stop_passed_test :
    ∃ s1 s2 s3 s4 : Store (BPlusTree.Tree Nat) Nat,
      BPlusTree.Timed.Set BPlusTree.Timed.init 1 samplePerson 0 0 = some (true, s1) ∧
      s1.queue.lookup 1 = some 0 ∧
      s1.pool.poll 0 100000000 .loop = .test ∧
      s1.pool.test 0 .test = .call ∧
      BPlusTree.Timed.Delete s1 1 = some (true, s2) ∧
      s2.pool = s1.pool.StopTask 0 ∧
      (s2.pool.find 0).map (fun info => info.remove) = some true ∧
      BPlusTree.Timed.Set s2 1 samplePatch (-1) 200000000 = some (true, s3) ∧
      BPlusTree.Get s3.data 1 = some samplePatch ∧
      s3.pool.call 0 .call = some 1 ∧
      BPlusTree.Timed.call s3 0 .call = some (true, s4) ∧
      BPlusTree.Exists s4.data 1 = some false ∧
      BPlusTree.Get s4.data 1 = some Person.empty :=
  ⟨_, _, _, _, rfl, rfl, rfl, rfl, rfl, rfl, rfl, rfl, rfl, rfl, rfl, rfl, rfl⟩

section
variable (K : Type) [LinearOrder K]

/-- The amended claim C32: cancellation is effective in every run, with the steps of the
caller and of the thread in any order, in which `StopTask(id)` returns while the thread of
the task stands in its loop or before its test `!info.remove && !stop_`: the thread never
calls `task_func`. A call `StopTask(id)` that returns when the thread stands between that
test and the call does not stop it: the thread calls `task_func`. In each of the three
backends `Delete(key)` calls `StopTask` on the task bound to the key. -/
theorem stopTask_before_test_stops :
    (∀ (id : Nat) (p p1 : AsyncPool K) (info : Info K) (pc pc1 : Pc) (ran1 : Bool),
      p.find id = some info → info.ready = false → (pc = .loop ∨ pc = .test) →
      Relation.ReflTransGen (AsyncPool.Step id) (p.StopTask id, pc, false) (p1, pc1, ran1) →
      ran1 = false ∧ pc1 ≠ .call ∧ p1.call id pc1 = none) ∧
    (∀ (id : Nat) (p : AsyncPool K) (info : Info K), p.find id = some info →
      (p.StopTask id).call id .call = some info.task ∧
      AsyncPool.Step id (p.StopTask id, .call, false)
        ((p.StopTask id).finish id, .done, true)) ∧
    (∀ (hash : K → Nat) (s s1 : Store (HashTable.Table K) K) (key : K) (id : Nat),
      s.queue.lookup key = some id →
      HashTable.Timed.Delete hash s key = some (true, s1) → s1.pool = s.pool.StopTask id) ∧
    (∀ (s s1 : Store (RBTree.Tree K) K) (key : K) (id : Nat) (b : Bool),
      s.queue.lookup key = some id →
      RBTree.Timed.Delete s key = some (b, s1) → s1.pool = s.pool.StopTask id) ∧
    (∀ (s s1 : Store (BPlusTree.Tree K) K) (key : K) (id : Nat) (b : Bool),
      s.queue.lookup key = some id →
      BPlusTree.Timed.Delete s key = some (b, s1) → s1.pool = s.pool.StopTask id) := by
  refine ⟨fun id p p1 info pc pc1 ran1 hf hy hpc hrun => ?_, fun id p info hf => ?_,
    fun hash s s1 key id hq hd => ?_, fun s s1 key id b hq hd => ?_,
    fun s s1 key id b hq hd => ?_⟩
  · obtain ⟨h1, h2⟩ := AsyncPool.stopped_run id _ _ hrun
      (AsyncPool.stopped_stopTask id p info pc hf hy hpc)
    simp only at h1 h2
    have hne : pc1 ≠ .call := by
      rcases h2 with h2 | ⟨h2 | h2, -⟩ <;> rw [h2] <;> decide
    refine ⟨h1, hne, ?_⟩
    cases pc1 <;> first | rfl | exact absurd rfl hne
  · have hc : (p.StopTask id).call id .call = some info.task := by
      simp [AsyncPool.call, AsyncPool.find_stopTask, hf]
    exact ⟨hc, AsyncPool.Step.call _ false info.task hc⟩
  · simp only [HashTable.Timed.Delete, Option.map_eq_some'] at hd
    obtain ⟨r, -, hr⟩ := hd
    split at hr
    · simp only [Prod.mk.injEq, true_and] at hr
      rw [← hr]
      simp [Store.cancel, hq]
    · simp at hr
  · simp only [RBTree.Timed.Delete, Option.map_eq_some'] at hd
    obtain ⟨r, -, hr⟩ := hd
    simp only [Prod.mk.injEq] at hr
    rw [← hr.2]
    simp [Store.cancel, hq]
  · simp only [BPlusTree.Timed.Delete, Option.map_eq_some'] at hd
    obtain ⟨r, -, hr⟩ := hd
    simp only [Prod.mk.injEq] at hr
    rw [← hr.2]
    simp [Store.cancel, hq]

end

section
variable (K : Type) [LinearOrder K]

/-- Claim C33: in every reachable B+ tree and every call of `Delete`, for every node other
than the root on which `UpdateTree` calls `GetSiblings` (a node with fewer keys than the
threshold): the node has a first key; it is the child at the place `j` of its parent, where
`j` is the number of children before it; and `GetSiblings` returns the child at the place
`j - 1` as `left` (none when `j = 0`) and the child at the place `j + 1` as `right` (none when
the node is the last child). The node is a leaf or an internal node. -/
theorem getSiblings_immediate_neighbours :
    ∀ (t : BPlusTree.Tree K) (key : K), BPlusTree.Reachable t →
      ∀ (node : BPlusTree.Node K) (f : BPlusTree.Frame K) (rest : BPlusTree.Path K),
        (node, f :: rest) ∈ BPlusTree.Delete.calls t key →
        node.Size < (BPlusTree.bucket_size + if node.IsLeaf then 0 else 1) / 2 →
        BPlusTree.NeighboursFound node f := by
  intro t key hr node f rest hc _
  exact (BPlusTree.visited_neighbours node f rest
    (BPlusTree.delete_calls_visited t (BPlusTree.bp_reachable_inv hr) key _ hc)).1

end

/-- Claim C34 as it stands fails: in the tree that `Set` of the keys `0, …, 65` leaves,
`Delete(30)` merges two leaves below the second child of the root, an internal node, which
is left with five keys; `UpdateTree` runs on it and leaves it alone, although it is not
the root and has fewer than six keys. After the call both children of the root have six
children. -/
theorem updateTree_leaves_five_keys_alone :
    BPlusTree.Reachable BPlusTree.sampleSix ∧
    (BPlusTree.Delete.calls BPlusTree.sampleSix 30).map
      (fun c => (c.1.IsLeaf, c.1.Size, c.2.length)) = [(true, 4, 2), (false, 5, 1)] ∧
    (∀ c ∈ BPlusTree.Delete.calls BPlusTree.sampleSix 30, c.1.IsLeaf = false →
      c.1.Size < 6 ∧ c.2 ≠ [] ∧ BPlusTree.LeftAlone c.1 c.2) ∧
    (BPlusTree.Delete BPlusTree.sampleSix 30).map
      (fun r => (r.1, (BPlusTree.below r.2.root).filterMap BPlusTree.childCount)) =
      some (true, [6, 6]) := by
  refine ⟨BPlusTree.sampleSix_reachable, BPlusTree.sampleSix_calls, fun c hc hl => ?_,
    BPlusTree.sampleSix_deleted⟩
  have hv := BPlusTree.delete_calls_visited _
    (BPlusTree.bp_reachable_inv BPlusTree.sampleSix_reachable) 30 c hc
  have hm : (c.1.IsLeaf, c.1.Size, c.2.length) ∈
      (BPlusTree.Delete.calls BPlusTree.sampleSix 30).map
        (fun c => (c.1.IsLeaf, c.1.Size, c.2.length)) := List.mem_map.mpr ⟨c, hc, rfl⟩
  rw [BPlusTree.sampleSix_calls, hl] at hm
  simp only [List.mem_cons, Prod.mk.injEq, Bool.false_eq_true, false_and, true_and,
    List.mem_singleton, false_or, List.not_mem_nil, or_false] at hm
  refine ⟨by omega, fun hn => ?_, BPlusTree.visited_left_alone c.1 c.2 hv (Or.inr (by omega))⟩
  rw [hn] at hm
  simp at hm

section
variable (K : Type) [LinearOrder K]

/-- The amended claim C34: the threshold `(bucket_size_ + !node->IsLeaf()) / 2` is five
keys for a leaf and for an internal node. In every reachable B+ tree and every call of
`Delete`, a call of `UpdateTree` leaves its node alone, without a `Share` and without a
`Merge`, if and only if the node is the root or has at least five keys; and a call that does
not leave its node alone shares with a sibling or merges with one. -/
theorem updateTree_threshold_five :
    (∀ node : BPlusTree.Node K,
      (BPlusTree.bucket_size + if node.IsLeaf then 0 else 1) / 2 = 5) ∧
    ∀ (t : BPlusTree.Tree K) (key : K), BPlusTree.Reachable t →
      ∀ (node : BPlusTree.Node K) (p : BPlusTree.Path K),
        (node, p) ∈ BPlusTree.Delete.calls t key →
        (BPlusTree.LeftAlone node p ↔ p = [] ∨ 5 ≤ node.Size) ∧
        (¬ BPlusTree.LeftAlone node p → ∃ f rest, p = f :: rest ∧
          ((∃ X L, BPlusTree.SharesLeft node f rest X L) ∨
            (∃ R Y, BPlusTree.SharesRight node f rest R Y) ∨
            ∃ left right X A B Y, BPlusTree.Merges node f rest left right X A B Y)) := by
  refine ⟨fun node => BPlusTree.threshold_eq node, fun t key hr node p hc => ?_⟩
  have hv := BPlusTree.delete_calls_visited t (BPlusTree.bp_reachable_inv hr) key _ hc
  have key1 : ¬ (p = [] ∨ 5 ≤ node.Size) → ∃ f rest, p = f :: rest ∧
      ((∃ X L, BPlusTree.SharesLeft node f rest X L) ∨
        (∃ R Y, BPlusTree.SharesRight node f rest R Y) ∨
        ∃ left right X A B Y, BPlusTree.Merges node f rest left right X A B Y) := by
    intro hn
    have hne : p ≠ [] := fun h => hn (Or.inl h)
    have hlt : node.Size < 5 := by
      by_contra h
      exact hn (Or.inr (by omega))
    cases p with
    | nil => exact absurd rfl hne
    | cons f rest =>
      refine ⟨f, rest, rfl, ?_⟩
      simp only at hv
      rcases List.eq_nil_or_concat f.before with hb | ⟨X, L, hb⟩
      · cases ha : f.after with
        | nil =>
          have := (BPlusTree.visited_neighbours node f rest hv).2
          rw [hb, ha] at this
          simp at this
        | cons R Y =>
          by_cases hR5 : R.Size > 5
          · exact Or.inr (Or.inl ⟨R, Y, BPlusTree.visited_shares_right node f rest hv hlt R Y
              ha (fun X L hx => by rw [hb] at hx; simp at hx) hR5⟩)
          · obtain ⟨kx, ky, k, M, hm, -⟩ :=
              BPlusTree.visited_merges_right node f rest hv hlt hb R Y ha hR5
            exact Or.inr (Or.inr ⟨_, _, _, _, _, _, kx, ky, k, M, hm⟩)
      · rw [List.concat_eq_append] at hb
        by_cases hL5 : L.Size > 5
        · exact Or.inl ⟨X, L, BPlusTree.visited_shares_left node f rest hv hlt X L hb hL5⟩
        · by_cases hrr : ∀ R Y, f.after = R :: Y → ¬ R.Size > 5
          · obtain ⟨kx, ky, k, M, hm, -⟩ :=
              BPlusTree.visited_merges_left node f rest hv hlt X L hb hL5 hrr
            exact Or.inr (Or.inr ⟨_, _, _, _, _, _, kx, ky, k, M, hm⟩)
          · simp only [not_forall, not_not] at hrr
            obtain ⟨R, Y, ha, hR5⟩ := hrr
            refine Or.inr (Or.inl ⟨R, Y, BPlusTree.visited_shares_right node f rest hv hlt R Y
              ha (fun X1 L1 hx => ?_) hR5⟩)
            rw [hb] at hx
            obtain ⟨-, h2⟩ := List.append_inj' hx rfl
            simp only [List.cons.injEq, and_true] at h2
            rw [← h2]; exact hL5
  have key2 : BPlusTree.LeftAlone node p → p = [] ∨ 5 ≤ node.Size := by
    intro ha
    by_contra hn
    obtain ⟨f, rest, rfl, h | h | h⟩ := key1 hn
    · obtain ⟨X, L, h⟩ := h
      exact BPlusTree.sharesLeft_not_alone node f rest X L h ha
    · obtain ⟨R, Y, h⟩ := h
      exact BPlusTree.sharesRight_not_alone node f rest R Y h ha
    · obtain ⟨left, right, X, A, B, Y, h⟩ := h
      exact BPlusTree.merges_not_alone node f rest left right X A B Y h ha
  refine ⟨⟨key2, fun h => BPlusTree.visited_left_alone node p hv h⟩, fun hna => ?_⟩
  exact key1 fun h => hna (BPlusTree.visited_left_alone node p hv h)

end

section
variable (K : Type) [LinearOrder K]

/-- Claim C35: in every reachable B+ tree and every call of `Delete`, for a call of
`UpdateTree` on a node that is not the root and has fewer keys than the threshold. The
node has a sibling. When the left sibling exists and has more than `(bucket_size_ + 1) / 2`
keys, `Share` moves its last entry into the node and nothing is merged; otherwise, when
the right sibling exists and has more than `(bucket_size_ + 1) / 2` keys, `Share` moves its
first entry into the node; after a `Share` no further call follows. When neither sibling
can give, the node is merged into the left sibling if there is one, otherwise the right
sibling is merged into the node; and the next call is `UpdateTree(parent)`. -/
theorem updateTree_shares_before_merging :
    ∀ (t : BPlusTree.Tree K) (key : K), BPlusTree.Reachable t →
      ∀ (node : BPlusTree.Node K) (f : BPlusTree.Frame K) (rest : BPlusTree.Path K),
        (node, f :: rest) ∈ BPlusTree.Delete.calls t key →
        node.Size < (BPlusTree.bucket_size + if node.IsLeaf then 0 else 1) / 2 →
        (f.before ≠ [] ∨ f.after ≠ []) ∧
        (∀ X L, f.before = X ++ [L] → L.Size > (BPlusTree.bucket_size + 1) / 2 →
          BPlusTree.SharesLeft node f rest X L) ∧
        (∀ R Y, f.after = R :: Y →
          (∀ X L, f.before = X ++ [L] → ¬ L.Size > (BPlusTree.bucket_size + 1) / 2) →
          R.Size > (BPlusTree.bucket_size + 1) / 2 → BPlusTree.SharesRight node f rest R Y) ∧
        (∀ X L, f.before = X ++ [L] → ¬ L.Size > (BPlusTree.bucket_size + 1) / 2 →
          (∀ R Y, f.after = R :: Y → ¬ R.Size > (BPlusTree.bucket_size + 1) / 2) →
          BPlusTree.Merges node f rest (f.before.length - 1) f.before.length X L node
            f.after) ∧
        (f.before = [] → ∀ R Y, f.after = R :: Y →
          ¬ R.Size > (BPlusTree.bucket_size + 1) / 2 →
          BPlusTree.Merges node f rest f.before.length (f.before.length + 1) [] node R Y) := by
  intro t key hr node f rest hc hlt
  have hv := BPlusTree.delete_calls_visited t (BPlusTree.bp_reachable_inv hr) key _ hc
  rw [BPlusTree.threshold_eq] at hlt
  have h5 : (BPlusTree.bucket_size + 1) / 2 = 5 := rfl
  simp only [h5]
  refine ⟨(BPlusTree.visited_neighbours node f rest hv).2,
    fun X L hb hL => BPlusTree.visited_shares_left node f rest hv hlt X L hb hL,
    fun R Y ha hl hR => BPlusTree.visited_shares_right node f rest hv hlt R Y ha hl hR,
    fun X L hb hL hrr => ?_, fun hb R Y ha hR => ?_⟩
  · obtain ⟨kx, ky, k, M, hm, -⟩ :=
      BPlusTree.visited_merges_left node f rest hv hlt X L hb hL hrr
    exact ⟨kx, ky, k, M, hm⟩
  · obtain ⟨kx, ky, k, M, hm, -⟩ :=
      BPlusTree.visited_merges_right node f rest hv hlt hb R Y ha hR
    exact ⟨kx, ky, k, M, hm⟩

end

/-- Claim C36: with the map `tasks_` as explicit state. In every state of a scheduler with
fewer than `2 ^ 64` tasks `DelayTask` returns, and the id it returns is not a key of
`tasks_` at the moment of the call; and as long as the scheduler has returned fewer than
`2 ^ 64` ids (the counter has not wrapped), the id returned is greater than every id
returned earlier. -/
theorem delayTask_id_free_increasing (A : Type) :
    (∀ (ids : List Nat) (p : AsyncPool A) (now sec : Int) (task : A),
      AsyncPool.Issued ids p → p.tasks.length < sizeMod →
      ∃ id p1, p.DelayTask now sec task = some (id, p1) ∧ p.find id = none ∧
        id ∉ p.tasks.map Prod.fst) ∧
    (∀ (ids : List Nat) (p : AsyncPool A) (now sec : Int) (task : A),
      AsyncPool.Issued ids p → ids.length < sizeMod →
      ∃ id p1, p.DelayTask now sec task = some (id, p1) ∧ ∀ j ∈ ids, j < id) := by
  refine ⟨fun ids p now sec task hi ht => ?_, fun ids p now sec task hi hn => ?_⟩
  · obtain ⟨id, p1, h1, h2⟩ := AsyncPool.delayTask_total p
      (AsyncPool.last_id_lt (AsyncPool.issued_reachable hi)) ht now sec task
    refine ⟨id, p1, h1, h2, fun hm => ?_⟩
    have := AsyncPool.lookup_isSome_of_mem id p.tasks hm
    unfold AsyncPool.find at h2
    rw [h2] at this
    cases this
  · obtain ⟨p1, h1⟩ := AsyncPool.delayTask_reachable (AsyncPool.issued_reachable hi) hn
      now sec task
    exact ⟨_, p1, h1, AsyncPool.issued_lt hi (by omega)⟩

section
variable (K : Type) [LinearOrder K]

end

section
variable (K : Type) [LinearOrder K]

/-- Claim C38: in each of the three backends and every reachable store, when `Update(k, p)`
returns true, `Find(p)` on the store it leaves contains `k`, and the same `Update(k, p)`
once more returns true and leaves `Get(k)` as it was. -/
theorem update_then_find_and_repeat :
    (∀ (hash : K → Nat) (t t1 : HashTable.Table K) (k : K) (p : Person),
      HashTable.Reachable hash t → HashTable.Update hash t k p = some (true, t1) →
      k ∈ HashTable.Find t1 p ∧
      ∃ t2, HashTable.Update hash t1 k p = some (true, t2) ∧
        HashTable.Get hash t2 k = HashTable.Get hash t1 k) ∧
    (∀ (t t1 : RBTree.Tree K) (k : K) (p : Person),
      RBTree.Reachable t → RBTree.Update t k p = (true, t1) →
      (∃ ks, RBTree.Find t1 p = some ks ∧ k ∈ ks) ∧
      ∃ t2, RBTree.Update t1 k p = (true, t2) ∧ RBTree.Get t2 k = RBTree.Get t1 k) ∧
    (∀ (t t1 : BPlusTree.Tree K) (k : K) (p : Person),
      BPlusTree.Reachable t → BPlusTree.Update t k p = some (true, t1) →
      (∃ ks, BPlusTree.Find t1 p = some ks ∧ k ∈ ks) ∧
      ∃ t2, BPlusTree.Update t1 k p = some (true, t2) ∧
        BPlusTree.Get t2 k = BPlusTree.Get t1 k) := by
  refine ⟨fun hash t t1 k p hr hu => ?_, fun t t1 k p hr hu => ?_, fun t t1 k p hr hu => ?_⟩
  · have hi := HashTable.ht_reachable_inv hr
    have hi1 := HashTable.inv_update hi hu
    obtain ⟨b, t1a, h1, h2, h3, -⟩ := HashTable.ht_update_spec hi k p
    rw [hu] at h1
    simp only [Option.some.injEq, Prod.mk.injEq] at h1
    obtain ⟨rfl, rfl⟩ := h1
    obtain ⟨old, new, -, g1, m1⟩ := h3 rfl
    have he1 : HashTable.Exists hash t1 k = some true :=
      (HashTable.ht_present_update hi hu k).mpr h2
    refine ⟨ht_find_mem hi1 k p new he1 g1 (merged_matches m1), ?_⟩
    obtain ⟨b2, t2, u1, u2, u3, -⟩ := HashTable.ht_update_spec hi1 k p
    rw [he1] at u2
    simp only [Option.some.injEq] at u2
    subst u2
    obtain ⟨old2, new2, g2, g3, m2⟩ := u3 rfl
    rw [g1] at g2
    cases g2
    exact ⟨t2, u1, by rw [g3, g1, merged_idem m1 m2]⟩
  · have hi := RBTree.rb_reachable_inv hr
    obtain ⟨hi1, hp⟩ := RBTree.rb_present_update hi hu
    obtain ⟨b, t1a, h1, h2, h3, -⟩ := RBTree.rb_update_api t hi k p
    rw [hu] at h1
    simp only [Prod.mk.injEq] at h1
    obtain ⟨rfl, rfl⟩ := h1
    have m1 := h3 rfl
    have he1 : RBTree.Exists t1 k = true := (hp k).mpr h2.symm
    refine ⟨rb_find_mem t1 hi1 k p he1 (merged_matches m1), ?_⟩
    obtain ⟨b2, t2, u1, u2, u3, -⟩ := RBTree.rb_update_api t1 hi1 k p
    rw [he1] at u2
    subst u2
    exact ⟨t2, u1, merged_idem m1 (u3 rfl)⟩
  · have hi := BPlusTree.bp_reachable_inv hr
    obtain ⟨hi1, hp⟩ := BPlusTree.bp_present_update hi hu
    obtain ⟨b, t1a, h1, h2, h3, -⟩ := BPlusTree.bp_update_api t hi k p
    rw [hu] at h1
    simp only [Option.some.injEq, Prod.mk.injEq] at h1
    obtain ⟨rfl, rfl⟩ := h1
    obtain ⟨old, new, -, g1, m1⟩ := h3 rfl
    have he1 : BPlusTree.Exists t1 k = some true := (hp k).mpr h2
    refine ⟨bp_find_mem t1 hi1 k p new he1 g1 (merged_matches m1), ?_⟩
    obtain ⟨b2, t2, u1, u2, u3, -⟩ := BPlusTree.bp_update_api t1 hi1 k p
    rw [he1] at u2
    simp only [Option.some.injEq] at u2
    subst u2
    obtain ⟨old2, new2, g2, g3, m2⟩ := u3 rfl
    rw [g1] at g2
    cases g2
    exact ⟨t2, u1, by rw [g3, g1, merged_idem m1 m2]⟩

end

section
variable (K : Type) [LinearOrder K]

/-- Claim C39: the record equality `operator==` is reflexive and transitive; and in each of
the three backends and every reachable store, `Find(Get(k))` contains every present key
`k`. -/
theorem person_eq_reflexive_transitive :
    (∀ a : Person, a.eq a = true) ∧
    (∀ a b c : Person, a.eq b = true → b.eq c = true → a.eq c = true) ∧
    (∀ (hash : K → Nat) (t : HashTable.Table K) (k : K) (v : Person),
      HashTable.Reachable hash t → HashTable.Exists hash t k = some true →
      HashTable.Get hash t k = some v → k ∈ HashTable.Find t v) ∧
    (∀ (t : RBTree.Tree K) (k : K), RBTree.Reachable t → RBTree.Exists t k = true →
      ∃ ks, RBTree.Find t (RBTree.Get t k) = some ks ∧ k ∈ ks) ∧
    (∀ (t : BPlusTree.Tree K) (k : K) (v : Person), BPlusTree.Reachable t →
      BPlusTree.Exists t k = some true → BPlusTree.Get t k = some v →
      ∃ ks, BPlusTree.Find t v = some ks ∧ k ∈ ks) := by
  refine ⟨fun a => ?_, fun a b c h1 h2 => ?_, fun hash t k v hr he hg => ?_,
    fun t k hr he => ?_, fun t k v hr he hg => ?_⟩
  · rw [BPlusTree.person_eq_matches, decide_eq_true_eq]
    exact matches_refl a
  · rw [BPlusTree.person_eq_matches, decide_eq_true_eq] at h1 h2 ⊢
    exact matches_trans h1 h2
  · exact ht_find_mem (HashTable.ht_reachable_inv hr) k v v he hg (matches_refl v)
  · exact rb_find_mem t (RBTree.rb_reachable_inv hr) k _ he (matches_refl _)
  · exact bp_find_mem t (BPlusTree.bp_reachable_inv hr) k v v he hg (matches_refl v)

end

section
variable (K : Type) [LinearOrder K]

/-- Claim C40: on a tree with the red-black shape and a black root, `DeletionCheck(x)`
returns for every node `x`, with no more nested calls than the depth of `x` plus three,
and the depth of `x` is at most the height of the tree. For a black node `x` below a parent:
when the sibling is red the call re-enters on `x` with a black sibling and returns within
three nested calls; when the sibling is black with a red near nephew and no red far nephew
the call re-enters on `x` once and returns within two nested calls; in the other cases with
a black sibling the call returns at once or continues at the parent of `x`. `Delete`
returns on every reachable tree. -/
theorem deletionCheck_and_delete_terminate :
    (∀ (t : RBTree.Tree K) (p : RBTree.Path K) (fuel : Nat),
      RBTree.Bal (RBTree.zip t p) → RBTree.isRed (RBTree.zip t p) = false →
      p.length + 3 ≤ fuel →
      p.length + t.height ≤ (RBTree.zip t p).height ∧
      ∃ p1, RBTree.DeletionCheck fuel t p = some p1) ∧
    (∀ (l r : RBTree.Tree K) (k : K) (v : Person) (f : RBTree.Frame K) (rest : RBTree.Path K),
      RBTree.Bal (RBTree.zip (.node .kBlack l k v r) (f :: rest)) →
      RBTree.isRed (RBTree.zip (.node .kBlack l k v r) (f :: rest)) = false →
      ∃ sc near sk sv far, f.other = RBTree.sideNode f.isLeft sc near sk sv far ∧
        (sc = .kRed →
          (∀ fuel, RBTree.DeletionCheck (fuel + 1) (.node .kBlack l k v r) (f :: rest) =
            RBTree.DeletionCheck fuel (.node .kBlack l k v r)
              (⟨f.isLeft, .kRed, f.key, f.value, near⟩ ::
                ⟨f.isLeft, f.color, sk, sv, far⟩ :: rest)) ∧
          ∀ fuel, ∃ p1,
            RBTree.DeletionCheck (fuel + 3) (.node .kBlack l k v r) (f :: rest) = some p1) ∧
        (sc = .kBlack → RBTree.isRed far = false → RBTree.isRed near = true →
          (∃ f1 : RBTree.Frame K, ∀ fuel,
            RBTree.DeletionCheck (fuel + 1) (.node .kBlack l k v r) (f :: rest) =
              RBTree.DeletionCheck fuel (.node .kBlack l k v r) (f1 :: rest)) ∧
          ∀ fuel, ∃ p1,
            RBTree.DeletionCheck (fuel + 2) (.node .kBlack l k v r) (f :: rest) = some p1) ∧
        (sc = .kBlack → (RBTree.isRed far = true ∨ RBTree.isRed near = false) →
          (∃ p1, ∀ fuel,
            RBTree.DeletionCheck (fuel + 1) (.node .kBlack l k v r) (f :: rest) = some p1) ∨
          ∃ f1 : RBTree.Frame K, ∀ fuel,
            RBTree.DeletionCheck (fuel + 1) (.node .kBlack l k v r) (f :: rest) =
              (RBTree.DeletionCheck fuel (f1.fill (.node .kBlack l k v r)) rest).map
                fun rest1 => f1 :: rest1)) ∧
    ∀ (t : RBTree.Tree K) (key : K), RBTree.Reachable t →
      ∃ b t1, RBTree.Delete t key = some (b, t1) := by
  refine ⟨fun t p fuel hb hr hf => ⟨RBTree.height_zip p t, RBTree.dc_total t p fuel hb hr hf⟩,
    fun l r k v f rest hb hr => RBTree.dc_branches l r k v f rest hb hr,
    fun t key hr => ?_⟩
  obtain ⟨b, t1, h, -⟩ := RBTree.rb_delete_spec t (RBTree.rb_reachable_inv hr) key
  exact ⟨b, t1, h⟩

end

end s21
namespace s21

/-! ## The theorems of the last claims at sample stores -/

theorem sampleRun_shapes :
    (BPlusTree.Delete.calls BPlusTree.sampleRun 0).map BPlusTree.callShape =
      [(true, 4, [], [5, 5, 5, 5, 5]), (false, 4, [], [10])] := by
  decide!

theorem sampleRun_last_shapes :
    (BPlusTree.Delete.calls BPlusTree.sampleRun 84).map BPlusTree.callShape =
      [(true, 5, [5, 5, 5, 5, 5, 5, 5, 5, 5, 5], [])] := by
  decide!

theorem sampleRun_first_calls :
    ∃ node f rest R Y n2 f2 rest2 R2,
      BPlusTree.Delete.calls BPlusTree.sampleRun 0 = [(node, f :: rest), (n2, f2 :: rest2)] ∧
      node.IsLeaf = true ∧ node.Size = 4 ∧ f.before = [] ∧ f.after = R :: Y ∧ R.Size = 5 ∧
      n2.IsLeaf = false ∧ n2.Size = 4 ∧ f2.before = [] ∧ f2.after = [R2] ∧ R2.Size = 10 := by
  have h := sampleRun_shapes
  generalize BPlusTree.Delete.calls BPlusTree.sampleRun 0 = cs at h
  rcases cs with _ | ⟨⟨node, p⟩, _ | ⟨⟨n2, p2⟩, _ | ⟨c3, tl⟩⟩⟩ <;>
    simp only [List.map_cons, List.map_nil, List.cons.injEq, and_true, and_false,
      reduceCtorEq] at h
  obtain ⟨h1, h2⟩ := h
  rcases p with _ | ⟨f, rest⟩ <;> rcases p2 with _ | ⟨f2, rest2⟩ <;>
    simp only [BPlusTree.callShape, Prod.mk.injEq, List.map_eq_nil_iff, reduceCtorEq,
      and_false, List.nil_eq] at h1 h2
  obtain ⟨a1, a2, a3, a4⟩ := h1
  obtain ⟨b1, b2, b3, b4⟩ := h2
  rcases hf : f.after with _ | ⟨R, Y⟩ <;> rw [hf] at a4 <;>
    simp only [List.map_cons, List.map_nil, List.cons.injEq, reduceCtorEq] at a4
  rcases hf2 : f2.after with _ | ⟨R2, _ | ⟨R3, Y2⟩⟩ <;> rw [hf2] at b4 <;>
    simp only [List.map_cons, List.map_nil, List.cons.injEq, reduceCtorEq, and_true,
      and_false] at b4
  exact ⟨node, f, rest, R, Y, n2, f2, rest2, R2, rfl, a1, a2, a3, hf, a4.1, b1, b2, b3,
    hf2, b4⟩

theorem sampleRun_last_call :
    ∃ node f rest,
      BPlusTree.Delete.calls BPlusTree.sampleRun 84 = [(node, f :: rest)] ∧ node.Size = 5 := by
  have h := sampleRun_last_shapes
  generalize BPlusTree.Delete.calls BPlusTree.sampleRun 84 = cs at h
  rcases cs with _ | ⟨⟨node, p⟩, _ | ⟨c2, tl⟩⟩ <;>
    simp only [List.map_cons, List.map_nil, List.cons.injEq, and_true, and_false,
      reduceCtorEq] at h
  rcases p with _ | ⟨f, rest⟩ <;>
    simp only [BPlusTree.callShape, Prod.mk.injEq, List.map_eq_nil_iff, reduceCtorEq,
      and_false, false_and, List.nil_eq] at h
  exact ⟨node, f, rest, rfl, h.2.1⟩

theorem pool_sample_issued : AsyncPool.Issued [0] samplePool :=
  @AsyncPool.Issued.delay Nat [] AsyncPool.init samplePool 0 5 1 0 AsyncPool.Issued.init rfl

/-- The theorem of C31 at the sample stores with the text key "k1" and the text
`sampleUpload`: three entries, the second of which has the key "k1" again, followed by the
start of a fourth. `Upload` returns 3; the key "k1" keeps the record it had, "k2" has the
record of its entry, and "k3" is not there. When the file does not open, `Upload` returns 0
and the store is the same. -/
theorem upload_counts_parsed_entries_witness :
    entriesOfText sampleUpload =
      [("k1", ⟨"A", "a", "1", "x", "1"⟩), ("k1", ⟨"B", "b", "2", "y", "2"⟩),
        ("k2", ⟨"C", "c", "3", "z", "3"⟩)] ∧
    (HashTable.UploadFile HashTable.sampleTextHash HashTable.sampleText none =
        some (0, HashTable.sampleText) ∧
      ∃ t1, HashTable.UploadFile HashTable.sampleTextHash HashTable.sampleText
          (some sampleUpload) = some (3, t1) ∧
        HashTable.Get HashTable.sampleTextHash t1 "k1" = some samplePerson ∧
        HashTable.Get HashTable.sampleTextHash t1 "k2" = some ⟨"C", "c", "3", "z", "3"⟩ ∧
        HashTable.Exists HashTable.sampleTextHash t1 "k2" = some true ∧
        ¬ HashTable.Exists HashTable.sampleTextHash t1 "k3" = some true) ∧
    (RBTree.UploadFile RBTree.sampleText none = some (0, RBTree.sampleText) ∧
      ∃ t1, RBTree.UploadFile RBTree.sampleText (some sampleUpload) = some (3, t1) ∧
        RBTree.Get t1 "k1" = samplePerson ∧
        RBTree.Get t1 "k2" = ⟨"C", "c", "3", "z", "3"⟩ ∧
        RBTree.Exists t1 "k2" = true ∧ ¬ RBTree.Exists t1 "k3" = true) ∧
    (BPlusTree.UploadFile BPlusTree.sampleText none = some (0, BPlusTree.sampleText) ∧
      ∃ t1, BPlusTree.UploadFile BPlusTree.sampleText (some sampleUpload) = some (3, t1) ∧
        BPlusTree.Get t1 "k1" = some samplePerson ∧
        BPlusTree.Get t1 "k2" = some ⟨"C", "c", "3", "z", "3"⟩ ∧
        BPlusTree.Exists t1 "k2" = some true ∧ ¬ BPlusTree.Exists t1 "k3" = some true) := by
  have he : entriesOfText sampleUpload = sampleEntries := by
    rw [sampleUpload_text]
    exact (upload_counts_parsed_entries).1 sampleEntries _ (by decide)
      ⟨[], "k3", ⟨"D", "d", "4", "w", "4"⟩, 2, [], rfl, by simp, by simp, by decide,
        by decide⟩
  refine ⟨he, ?_, ?_, ?_⟩
  · obtain ⟨h0, t1, h1, h2, h3, h4⟩ := (upload_counts_parsed_entries).2.2.1
      HashTable.sampleTextHash HashTable.sampleText sampleUpload ht_sampleText_reachable
    rw [he] at h1 h2 h4
    exact ⟨h0, t1, h1, (h3 "k1" (by decide!)).trans (by decide!),
      h4 "k2" _ (by decide!) (by decide!), (h2 "k2").2 (Or.inr (by decide!)),
      fun h => absurd ((h2 "k3").1 h) (by decide!)⟩
  · obtain ⟨h0, t1, h1, h2, h3, h4⟩ := (upload_counts_parsed_entries).2.2.2.1
      RBTree.sampleText sampleUpload rb_sampleText_reachable
    rw [he] at h1 h2 h4
    exact ⟨h0, t1, h1, (h3 "k1" (by decide!)).trans (by decide!),
      h4 "k2" _ (by decide!) (by decide!), (h2 "k2").2 (Or.inr (by decide!)),
      fun h => absurd ((h2 "k3").1 h) (by decide!)⟩
  · obtain ⟨h0, t1, h1, h2, h3, h4⟩ := (upload_counts_parsed_entries).2.2.2.2
      BPlusTree.sampleText sampleUpload bp_sampleText_reachable
    rw [he] at h1 h2 h4
    exact ⟨h0, t1, h1, (h3 "k1" (by decide!)).trans (by decide!),
      h4 "k2" _ (by decide!) (by decide!), (h2 "k2").2 (Or.inr (by decide!)),
      fun h => absurd ((h2 "k3").1 h) (by decide!)⟩

/-- The theorem of the amended C32 at the scheduler of the samples, whose task 0 holds the
key 1: after `StopTask(0)` the thread of task 0 leaves its loop, fails its test and ends
without the call; after the test, `StopTask(0)` does not keep it from the call; and
`Delete(1)` on the sample stores calls `StopTask(0)`. -/
theorem stopTask_before_test_stops_witness :
    Relation.ReflTransGen (AsyncPool.Step 0) (samplePool.StopTask 0, Pc.loop, false)
      ((samplePool.StopTask 0).finish 0, Pc.done, false) ∧
    ((samplePool.StopTask 0).finish 0).call 0 Pc.done = none ∧
    (samplePool.StopTask 0).call 0 .call = some 1 ∧
    (∃ s1, HashTable.Timed.Delete HashTable.sampleHash HashTable.Timed.sample 1 =
        some (true, s1) ∧ s1.pool = samplePool.StopTask 0) ∧
    (∃ s1, RBTree.Timed.Delete RBTree.Timed.sample 1 = some (true, s1) ∧
      s1.pool = samplePool.StopTask 0) ∧
    ∃ s1, BPlusTree.Timed.Delete BPlusTree.Timed.sample 1 = some (true, s1) ∧
      s1.pool = samplePool.StopTask 0 :=
  have hrun : Relation.ReflTransGen (AsyncPool.Step 0) (samplePool.StopTask 0, Pc.loop, false)
      ((samplePool.StopTask 0).finish 0, Pc.done, false) :=
    Relation.ReflTransGen.tail
      (Relation.ReflTransGen.tail Relation.ReflTransGen.refl
        (AsyncPool.Step.poll (samplePool.StopTask 0) Pc.loop false 100000000))
      (AsyncPool.Step.skip (samplePool.StopTask 0) false rfl)
  ⟨hrun,
    ((stopTask_before_test_stops Nat).1 0 samplePool _ ⟨1, false, 5000000000, false⟩ Pc.loop
      Pc.done false rfl rfl (Or.inl rfl) hrun).2.2,
    ((stopTask_before_test_stops Nat).2.1 0 samplePool ⟨1, false, 5000000000, false⟩ rfl).1,
    ⟨_, rfl, (stopTask_before_test_stops Nat).2.2.1 HashTable.sampleHash
      HashTable.Timed.sample _ 1 0 rfl rfl⟩,
    ⟨_, rfl, (stopTask_before_test_stops Nat).2.2.2.1 RBTree.Timed.sample _ 1 0 true rfl rfl⟩,
    ⟨_, rfl, (stopTask_before_test_stops Nat).2.2.2.2 BPlusTree.Timed.sample _ 1 0 true rfl
      rfl⟩⟩

/-- The theorem of C33 at the sample tree of 86 keys: `Delete(0)` calls `UpdateTree` on the
first leaf, which is left with four keys. -/
theorem getSiblings_immediate_neighbours_witness :
    BPlusTree.Reachable BPlusTree.sampleRun ∧
    ∃ node f rest tl,
      BPlusTree.Delete.calls BPlusTree.sampleRun 0 = (node, f :: rest) :: tl ∧
      node.IsLeaf = true ∧ node.Size = 4 ∧ BPlusTree.NeighboursFound node f := by
  obtain ⟨node, f, rest, R, Y, n2, f2, rest2, R2, hc, h1, h2, -⟩ := sampleRun_first_calls
  exact ⟨BPlusTree.sampleRun_reachable, node, f, rest, _, hc, h1, h2,
    getSiblings_immediate_neighbours Nat BPlusTree.sampleRun 0 BPlusTree.sampleRun_reachable
      node f rest (by rw [hc]; exact List.mem_cons_self _ _) (by rw [h1, h2]; decide)⟩

/-- The theorem of the amended C34 at the sample tree of 86 keys: `Delete(84)` calls
`UpdateTree` on a leaf that is left with five keys, and `Delete(0)` on a leaf that is left
with four keys. -/
theorem updateTree_threshold_five_witness :
    BPlusTree.Reachable BPlusTree.sampleRun ∧
    (∃ node f rest,
      BPlusTree.Delete.calls BPlusTree.sampleRun 84 = [(node, f :: rest)] ∧ node.Size = 5 ∧
      BPlusTree.LeftAlone node (f :: rest)) ∧
    ∃ node f rest tl,
      BPlusTree.Delete.calls BPlusTree.sampleRun 0 = (node, f :: rest) :: tl ∧
      node.Size = 4 ∧
      ∃ f1 rest1, f :: rest = f1 :: rest1 ∧
        ((∃ X L, BPlusTree.SharesLeft node f1 rest1 X L) ∨
          (∃ R Y, BPlusTree.SharesRight node f1 rest1 R Y) ∨
          ∃ left right X A B Y, BPlusTree.Merges node f1 rest1 left right X A B Y) := by
  obtain ⟨n0, f0, rest0, hc0, h0⟩ := sampleRun_last_call
  obtain ⟨node, f, rest, R, Y, n2, f2, rest2, R2, hc, h1, h2, -⟩ := sampleRun_first_calls
  exact ⟨BPlusTree.sampleRun_reachable,
    ⟨n0, f0, rest0, hc0, h0,
      ((updateTree_threshold_five Nat).2 BPlusTree.sampleRun 84
        BPlusTree.sampleRun_reachable n0 (f0 :: rest0)
        (by rw [hc0]; exact List.mem_cons_self _ _)).1.2 (Or.inr (by rw [h0]))⟩,
    node, f, rest, _, hc, h2,
    ((updateTree_threshold_five Nat).2 BPlusTree.sampleRun 0 BPlusTree.sampleRun_reachable
      node (f :: rest) (by rw [hc]; exact List.mem_cons_self _ _)).2 fun ha => by
        rcases ((updateTree_threshold_five Nat).2 BPlusTree.sampleRun 0
          BPlusTree.sampleRun_reachable node (f :: rest)
          (by rw [hc]; exact List.mem_cons_self _ _)).1.1 ha with h | h
        · cases h
        · rw [h2] at h
          exact absurd h (by decide)⟩

/-- The theorem of C35 at the sample tree of 86 keys: `Delete(0)` calls `UpdateTree` on the
first leaf, which has no left sibling and a right sibling with five keys, and merges the
two; then on the first child of the root, which has a right sibling with ten keys, and
moves one entry over. -/
theorem updateTree_shares_before_merging_witness :
    BPlusTree.Reachable BPlusTree.sampleRun ∧
    ∃ node f rest R Y n2 f2 rest2 R2,
      BPlusTree.Delete.calls BPlusTree.sampleRun 0 = [(node, f :: rest), (n2, f2 :: rest2)] ∧
      f.before = [] ∧ f.after = R :: Y ∧ R.Size = 5 ∧
      BPlusTree.Merges node f rest f.before.length (f.before.length + 1) [] node R Y ∧
      f2.before = [] ∧ f2.after = [R2] ∧ R2.Size = 10 ∧
      BPlusTree.SharesRight n2 f2 rest2 R2 [] := by
  obtain ⟨node, f, rest, R, Y, n2, f2, rest2, R2, hc, h1, h2, h3, h4, h5, g1, g2, g3, g4,
    g5⟩ := sampleRun_first_calls
  exact ⟨BPlusTree.sampleRun_reachable, node, f, rest, R, Y, n2, f2, rest2, R2, hc, h3, h4, h5,
    (updateTree_shares_before_merging Nat BPlusTree.sampleRun 0
      BPlusTree.sampleRun_reachable node f rest (by rw [hc]; exact List.mem_cons_self _ _)
      (by rw [h1, h2]; decide)).2.2.2.2 h3 R Y h4 (by rw [h5]; decide),
    g3, g4, g5,
    (updateTree_shares_before_merging Nat BPlusTree.sampleRun 0
      BPlusTree.sampleRun_reachable n2 f2 rest2 (by rw [hc]; simp)
      (by rw [g1, g2]; decide)).2.2.1 R2 [] g4
      (fun X L hx => by rw [g3] at hx; simp at hx) (by rw [g5]; decide)⟩

/-- The theorem of C36 at the scheduler of the samples, which has returned the id 0: the
next call of `DelayTask`. -/
theorem delayTask_id_free_increasing_witness :
    AsyncPool.Issued [0] samplePool ∧
    (∃ id p1, samplePool.DelayTask 0 5 2 = some (id, p1) ∧ samplePool.find id = none ∧
      id ∉ samplePool.tasks.map Prod.fst) ∧
    ∃ id p1, samplePool.DelayTask 0 5 2 = some (id, p1) ∧ ∀ j ∈ [0], j < id :=
  ⟨pool_sample_issued,
    (delayTask_id_free_increasing Nat).1 [0] samplePool 0 5 2 pool_sample_issued (by decide),
    (delayTask_id_free_increasing Nat).2 [0] samplePool 0 5 2 pool_sample_issued
      (by decide)⟩

/-- The theorem of C38 at the sample stores, which hold the key 1: `Update(1, samplePatch)`. -/
theorem update_then_find_and_repeat_witness :
    (∃ t1, HashTable.Update HashTable.sampleHash HashTable.sample 1 samplePatch =
        some (true, t1) ∧
      1 ∈ HashTable.Find t1 samplePatch ∧
      ∃ t2, HashTable.Update HashTable.sampleHash t1 1 samplePatch = some (true, t2) ∧
        HashTable.Get HashTable.sampleHash t2 1 = HashTable.Get HashTable.sampleHash t1 1) ∧
    (∃ t1, RBTree.Update RBTree.sample 1 samplePatch = (true, t1) ∧
      (∃ ks, RBTree.Find t1 samplePatch = some ks ∧ 1 ∈ ks) ∧
      ∃ t2, RBTree.Update t1 1 samplePatch = (true, t2) ∧
        RBTree.Get t2 1 = RBTree.Get t1 1) ∧
    (∃ t1, BPlusTree.Update BPlusTree.sample 1 samplePatch = some (true, t1) ∧
      (∃ ks, BPlusTree.Find t1 samplePatch = some ks ∧ 1 ∈ ks) ∧
      ∃ t2, BPlusTree.Update t1 1 samplePatch = some (true, t2) ∧
        BPlusTree.Get t2 1 = BPlusTree.Get t1 1) :=
  ⟨⟨_, rfl, (update_then_find_and_repeat Nat).1 HashTable.sampleHash HashTable.sample _ 1
      samplePatch HashTable.ht_sample_reachable rfl⟩,
    ⟨_, rfl, (update_then_find_and_repeat Nat).2.1 RBTree.sample _ 1 samplePatch
      RBTree.rb_sample_reachable rfl⟩,
    ⟨_, rfl, (update_then_find_and_repeat Nat).2.2 BPlusTree.sample _ 1 samplePatch
      BPlusTree.bp_sample_reachable rfl⟩⟩

/-- The theorem of C39 at the sample record with the patterns `samplePatch` and the record
of five fields "-", and at the sample stores, which hold the key 1. -/
theorem person_eq_reflexive_transitive_witness :
    (samplePerson.eq ⟨"-", "Ivan", "-", "-", "55"⟩ = true ∧
      Person.eq ⟨"-", "Ivan", "-", "-", "55"⟩ ⟨"-", "-", "-", "-", "-"⟩ = true ∧
      samplePerson.eq ⟨"-", "-", "-", "-", "-"⟩ = true) ∧
    1 ∈ HashTable.Find HashTable.sample samplePerson ∧
    (∃ ks, RBTree.Find RBTree.sample (RBTree.Get RBTree.sample 1) = some ks ∧ 1 ∈ ks) ∧
    ∃ ks, BPlusTree.Find BPlusTree.sample samplePerson = some ks ∧ 1 ∈ ks :=
  ⟨⟨by decide, by decide,
      (person_eq_reflexive_transitive Nat).2.1 samplePerson ⟨"-", "Ivan", "-", "-", "55"⟩
        ⟨"-", "-", "-", "-", "-"⟩ (by decide) (by decide)⟩,
    (person_eq_reflexive_transitive Nat).2.2.1 HashTable.sampleHash HashTable.sample 1
      samplePerson HashTable.ht_sample_reachable (by decide) (by decide),
    (person_eq_reflexive_transitive Nat).2.2.2.1 RBTree.sample 1 RBTree.rb_sample_reachable
      (by decide),
    (person_eq_reflexive_transitive Nat).2.2.2.2 BPlusTree.sample 1 samplePerson
      BPlusTree.bp_sample_reachable (by decide) (by decide)⟩

/-- The theorem of C40 at the sample tree of three black nodes: `DeletionCheck` on the left
child of the root, and `Delete(1)`. -/
theorem deletionCheck_and_delete_terminate_witness :
    (1 + (RBTree.Tree.node .kBlack .nil 1 samplePerson .nil).height ≤
        (RBTree.zip (RBTree.Tree.node .kBlack .nil 1 samplePerson .nil)
          [(⟨true, .kBlack, 2, samplePerson, .node .kBlack .nil 3 samplePerson .nil⟩ :
            RBTree.Frame Nat)]).height ∧
      ∃ p1, RBTree.DeletionCheck 4 (RBTree.Tree.node .kBlack .nil 1 samplePerson .nil)
        [(⟨true, .kBlack, 2, samplePerson, .node .kBlack .nil 3 samplePerson .nil⟩ :
          RBTree.Frame Nat)] = some p1) ∧
    (∃ sc near sk sv far,
      RBTree.Tree.node .kBlack .nil 3 samplePerson .nil =
        RBTree.sideNode true sc near sk sv far ∧
      (sc = .kBlack → (RBTree.isRed far = true ∨ RBTree.isRed near = false) →
        (∃ p1, ∀ fuel,
          RBTree.DeletionCheck (fuel + 1) (RBTree.Tree.node .kBlack .nil 1 samplePerson .nil)
            [(⟨true, .kBlack, 2, samplePerson, .node .kBlack .nil 3 samplePerson .nil⟩ :
              RBTree.Frame Nat)] = some p1) ∨
        ∃ f1 : RBTree.Frame Nat, ∀ fuel,
          RBTree.DeletionCheck (fuel + 1) (RBTree.Tree.node .kBlack .nil 1 samplePerson .nil)
            [(⟨true, .kBlack, 2, samplePerson, .node .kBlack .nil 3 samplePerson .nil⟩ :
              RBTree.Frame Nat)] =
            (RBTree.DeletionCheck fuel
              (f1.fill (RBTree.Tree.node .kBlack .nil 1 samplePerson .nil)) []).map
              fun rest1 => f1 :: rest1)) ∧
    RBTree.Reachable RBTree.sampleBlack ∧
    ∃ b t1, RBTree.Delete RBTree.sampleBlack 1 = some (b, t1) :=
  ⟨(deletionCheck_and_delete_terminate Nat).1 _ _ 4 RBTree.rb_sampleBlack_bal rfl
      (by decide),
    (let ⟨sc, near, sk, sv, far, h, _, _, h3⟩ :=
      (deletionCheck_and_delete_terminate Nat).2.1 .nil .nil 1 samplePerson
        ⟨true, .kBlack, 2, samplePerson, .node .kBlack .nil 3 samplePerson .nil⟩ []
        RBTree.rb_sampleBlack_bal rfl
    ⟨sc, near, sk, sv, far, h, h3⟩),
    RBTree.rb_sampleBlack_reachable,
    (deletionCheck_and_delete_terminate Nat).2.2 RBTree.sampleBlack 1
      RBTree.rb_sampleBlack_reachable⟩

theorem ht_sampleMixed_reachable :
    HashTable.Reachable HashTable.sampleHash HashTable.sampleMixed := by
  have h1 : HashTable.Reachable HashTable.sampleHash
      (⟨4, [[], [], [⟨6, sampleThird, -1⟩], []]⟩ : HashTable.Table Nat) :=
    @HashTable.Reachable.set Nat _ HashTable.sampleHash _ _ 6 sampleThird (-1) true
      (HashTable.Reachable.init 4 (by decide)) (by rfl)
  have h2 : HashTable.Reachable HashTable.sampleHash
      (⟨4, [[], [⟨5, samplePerson, -1⟩], [⟨6, sampleThird, -1⟩], []]⟩ :
        HashTable.Table Nat) :=
    @HashTable.Reachable.set Nat _ HashTable.sampleHash _ _ 5 samplePerson (-1) true h1
      (by rfl)
  have h3 : HashTable.Reachable HashTable.sampleHash
      (⟨4, [[], [⟨5, samplePerson, -1⟩, ⟨1, sampleOther, -1⟩], [⟨6, sampleThird, -1⟩],
        []]⟩ : HashTable.Table Nat) :=
    @HashTable.Reachable.set Nat _ HashTable.sampleHash _ _ 1 sampleOther (-1) true h2
      (by rfl)
  exact @HashTable.Reachable.set Nat _ HashTable.sampleHash _ _ 9 sampleThird (-1) true h3
    (by rfl)

theorem rb_sampleMixed_reachable : RBTree.Reachable RBTree.sampleMixed := by
  have h1 : RBTree.Reachable (RBTree.Tree.node .kBlack .nil 2 sampleOther .nil) :=
    @RBTree.Reachable.set Nat _ .nil _ 2 sampleOther true RBTree.Reachable.empty (by rfl)
  have h2 : RBTree.Reachable (RBTree.Tree.node .kBlack
      (.node .kRed .nil 1 samplePerson .nil) 2 sampleOther .nil) :=
    @RBTree.Reachable.set Nat _ _ _ 1 samplePerson true h1 (by rfl)
  exact @RBTree.Reachable.set Nat _ _ _ 3 sampleThird true h2 (by rfl)

theorem bp_sampleMixed_reachable : BPlusTree.Reachable BPlusTree.sampleMixed := by
  unfold BPlusTree.sampleMixed
  cases h1 : BPlusTree.Update BPlusTree.sampleRun 7 samplePatch with
  | none => exact BPlusTree.Reachable.init
  | some r =>
    have hr1 : BPlusTree.Reachable r.2 :=
      @BPlusTree.Reachable.update Nat _ _ _ 7 samplePatch r.1 BPlusTree.sampleRun_reachable h1
    simp only
    cases h2 : BPlusTree.Update r.2 40 samplePatch with
    | none => exact BPlusTree.Reachable.init
    | some r2 => exact @BPlusTree.Reachable.update Nat _ _ _ 40 samplePatch r2.1 hr1 h2

theorem bp_sampleTen_reachable : BPlusTree.Reachable BPlusTree.sampleTen := by
  unfold BPlusTree.sampleTen
  obtain ⟨t, h1, hr1⟩ := BPlusTree.reachable_setAll samplePerson (List.range 11)
    (BPlusTree.init : BPlusTree.Tree Nat) BPlusTree.Reachable.init
  rw [h1]
  simp only
  cases h2 : BPlusTree.Delete t 10 with
  | none => exact BPlusTree.Reachable.init
  | some r => exact @BPlusTree.Reachable.delete Nat _ _ _ 10 r.1 hr1 h2

theorem ht_sampleMixed_find :
    HashTable.Keys HashTable.sampleMixed = [5, 1, 9, 6] ∧
    HashTable.Find HashTable.sampleMixed samplePattern = [5, 9, 6] := by
  decide

theorem rb_sampleMixed_find :
    RBTree.Keys RBTree.sampleMixed = some [1, 2, 3] ∧
    RBTree.Find RBTree.sampleMixed samplePattern = some [1, 3] := by
  decide

theorem bp_sampleMixed_find :
    BPlusTree.Keys BPlusTree.sampleMixed = some (List.range 86) ∧
    BPlusTree.Find BPlusTree.sampleMixed samplePatch = some [7, 40] ∧
    BPlusTree.Find BPlusTree.sampleMixed samplePattern =
      some ((List.range 86).filter fun k => k ≠ 7 ∧ k ≠ 40) := by
  decide!

theorem sampleRun_delete_shape :
    (BPlusTree.below BPlusTree.sampleRun.root).filterMap BPlusTree.childCount = [6, 11] ∧
    (BPlusTree.Delete BPlusTree.sampleRun 0).map
      (fun r => (r.1, (BPlusTree.below r.2.root).filterMap BPlusTree.childCount,
        BPlusTree.Keys r.2)) = some (true, [6, 10], some (List.range' 1 85)) := by
  decide!

theorem sampleRun_delete_values :
    (BPlusTree.Delete BPlusTree.sampleRun 0).map
      (fun r => (BPlusTree.Exists r.2 0, BPlusTree.Get r.2 5)) =
      some (some false, some samplePerson) := by
  decide!

theorem sampleTen_delete_shape :
    BPlusTree.sampleTen.root.IsLeaf = false ∧
    BPlusTree.Keys BPlusTree.sampleTen = some (List.range 10) ∧
    (BPlusTree.Delete BPlusTree.sampleTen 0).map
      (fun r => (r.1, r.2.root.IsLeaf, BPlusTree.Keys r.2)) =
      some (true, true, some (List.range' 1 9)) := by
  decide!

/-- The theorem of C7 at sample stores with several keys: a hash table in which three keys
share a bucket, a red-black tree with three keys, and the B+ tree of 86 keys in three
levels. `Find` returns the keys of the matching records, in the order of `Keys()`. -/
theorem find_is_keys_filtered_witness :
    (HashTable.Keys HashTable.sampleMixed = [5, 1, 9, 6] ∧
      HashTable.Find HashTable.sampleMixed samplePattern = [5, 9, 6] ∧
      HashTable.Find HashTable.sampleMixed samplePattern =
        (HashTable.Keys HashTable.sampleMixed).filter fun k =>
          match HashTable.Get HashTable.sampleHash HashTable.sampleMixed k with
          | some r => decide (Person.Matches r samplePattern)
          | none => false) ∧
    (RBTree.Keys RBTree.sampleMixed = some [1, 2, 3] ∧
      RBTree.Find RBTree.sampleMixed samplePattern = some [1, 3] ∧
      ∃ ks, RBTree.Keys RBTree.sampleMixed = some ks ∧
        RBTree.Find RBTree.sampleMixed samplePattern =
          some (ks.filter fun k =>
            decide (Person.Matches (RBTree.Get RBTree.sampleMixed k) samplePattern))) ∧
    (BPlusTree.Keys BPlusTree.sampleMixed = some (List.range 86) ∧
      BPlusTree.Find BPlusTree.sampleMixed samplePatch = some [7, 40] ∧
      ∃ (ks : List Nat) (f : Nat → Bool),
        BPlusTree.Keys BPlusTree.sampleMixed = some ks ∧
        BPlusTree.Find BPlusTree.sampleMixed samplePatch = some (ks.filter f) ∧
        ∀ k, f k = true ↔
          ∃ r, BPlusTree.Get BPlusTree.sampleMixed k = some r ∧
            Person.Matches r samplePatch) := by
  refine ⟨⟨ht_sampleMixed_find.1, ht_sampleMixed_find.2,
      (find_is_keys_filtered Nat).1 HashTable.sampleHash HashTable.sampleMixed samplePattern
        ht_sampleMixed_reachable⟩,
    ⟨rb_sampleMixed_find.1, rb_sampleMixed_find.2,
      (find_is_keys_filtered Nat).2.1 RBTree.sampleMixed samplePattern
        rb_sampleMixed_reachable⟩,
    bp_sampleMixed_find.1, bp_sampleMixed_find.2.1, ?_⟩
  obtain ⟨ks, hk, hf⟩ := (find_is_keys_filtered Nat).2.2 BPlusTree.sampleMixed samplePatch
    bp_sampleMixed_reachable
  refine ⟨ks, _, hk, hf, fun k => ?_⟩
  generalize BPlusTree.Get BPlusTree.sampleMixed k = o
  cases o <;> simp

/-- The theorem of C9 at the sample tree of 86 keys, where `Delete(0)` merges the first two
leaves and then moves an entry from the second child of the root to the first, and at the
sample tree of two leaves, where `Delete(0)` merges the leaves and makes the merged leaf
the root. The other keys are all there afterwards, with their records. -/
theorem bplus_delete_leaves_other_keys_witness :
    (BPlusTree.Reachable BPlusTree.sampleRun ∧
      (BPlusTree.below BPlusTree.sampleRun.root).filterMap BPlusTree.childCount = [6, 11] ∧
      ∃ t1, BPlusTree.Delete BPlusTree.sampleRun 0 = some (true, t1) ∧
        (BPlusTree.below t1.root).filterMap BPlusTree.childCount = [6, 10] ∧
        BPlusTree.Keys t1 = some (List.range' 1 85) ∧
        BPlusTree.Exists t1 0 = some false ∧ BPlusTree.Get t1 5 = some samplePerson ∧
        ∀ k1, k1 ≠ 0 → BPlusTree.Exists t1 k1 = BPlusTree.Exists BPlusTree.sampleRun k1 ∧
          BPlusTree.Get t1 k1 = BPlusTree.Get BPlusTree.sampleRun k1) ∧
    (BPlusTree.Reachable BPlusTree.sampleTen ∧ BPlusTree.sampleTen.root.IsLeaf = false ∧
      BPlusTree.Keys BPlusTree.sampleTen = some (List.range 10) ∧
      ∃ t1, BPlusTree.Delete BPlusTree.sampleTen 0 = some (true, t1) ∧
        t1.root.IsLeaf = true ∧ BPlusTree.Keys t1 = some (List.range' 1 9) ∧
        ∀ k1, k1 ≠ 0 → BPlusTree.Exists t1 k1 = BPlusTree.Exists BPlusTree.sampleTen k1 ∧
          BPlusTree.Get t1 k1 = BPlusTree.Get BPlusTree.sampleTen k1) := by
  constructor
  · obtain ⟨b, t1, h, hall⟩ :=
      bplus_delete_leaves_other_keys Nat BPlusTree.sampleRun 0 BPlusTree.sampleRun_reachable
    have e1 := sampleRun_delete_shape.2
    have e2 := sampleRun_delete_values
    rw [h] at e1 e2
    simp only [Option.map_some', Option.some.injEq, Prod.mk.injEq] at e1 e2
    obtain ⟨rfl, e11, e12⟩ := e1
    exact ⟨BPlusTree.sampleRun_reachable, sampleRun_delete_shape.1, t1, h, e11, e12, e2.1,
      e2.2, hall⟩
  · obtain ⟨b, t1, h, hall⟩ :=
      bplus_delete_leaves_other_keys Nat BPlusTree.sampleTen 0 bp_sampleTen_reachable
    have e1 := sampleTen_delete_shape.2.2
    rw [h] at e1
    simp only [Option.map_some', Option.some.injEq, Prod.mk.injEq] at e1
    obtain ⟨rfl, e11, e12⟩ := e1
    exact ⟨bp_sampleTen_reachable, sampleTen_delete_shape.1, sampleTen_delete_shape.2.1, t1,
      h, e11, e12, hall⟩

end s21
